import Mathlib

/-!
# Fibsonicci: big-integer kernels and Fibonacci algorithms

A shallow embedding of `src/num/number.h`, `src/num/mulnum_simple.h`,
`src/num/mulnum_karatsuba.h`, the Fibonacci implementations under `src/impl/` and the
reference iteration of `src/eval.cpp`.

* A digit of C++ type `T` with `bitlen<T> = W` is a natural number below `2 ^ W`;
  every machine operation is written with an explicit `% 2 ^ W`.
* A `std::vector<T>` and a digit window (`digit_range<T>`) are lists of digits,
  least significant digit first.
* A window primitive that mutates `out` in place is a function returning the new
  contents of `out` (and the flag it returns).  The primitives read `lhs` and
  write `out` in lockstep, so the result is the same whether or not `out`
  aliases `lhs`.
* The window primitives of the C++ assume relations between the lengths of their
  windows and check none of them.  Where an assumption fails the C++ reads or writes
  outside a window; the model ends the loop at that point.  The theorems about a
  primitive state the assumption, and the theorems about an operator of `num_t` cover
  the calls in which the operator establishes it.
* A machine shift by the full width of its (promoted) operand is undefined in C++.  The
  model of `lshift` and `rshift` takes the mathematical shift there; `ShiftDefined`,
  `op_shl_defined` and `op_shr_defined` say when every shift of a call is defined, and
  the claims about the shift operators assume it.
* `mulnum_karatsuba.h` carves its windows out of two vectors and passes them down a
  recursion, so it is embedded on a memory of four vectors (`Karatsuba.Mem`) with windows
  given by their positions; an access outside a vector ends the run with
  `Karatsuba.Res.fault`.
* A `while` loop whose number of rounds depends on a big integer takes a `fuel`
  argument that bounds the number of evaluations of the loop condition, and returns
  `none` when the fuel runs out.
* `operator*` of `mulnum_fft.h` computes in double-precision floating point and is not
  embedded: the programs that use it take the multiplication as a parameter `opMul`.
-/

namespace Big

/-! ## Data model -/

/-- Number of values of a `W`-bit digit. -/
def base (W : Nat) : Nat := 2 ^ W

/-- The integer a little-endian digit vector stands for: `∑ dᵢ · 2^(W·i)`. -/
def value (W : Nat) (ds : List Nat) : Nat := Nat.ofDigits (base W) ds

/-- Width preservation: every digit fits in `W` bits. -/
def WF (W : Nat) (ds : List Nat) : Prop := ∀ d ∈ ds, d < base W

instance (W : Nat) (ds : List Nat) : Decidable (WF W ds) := by
  unfold WF; infer_instance

/-- Normalised form: the vector is empty or its last (top) digit is non-zero. -/
def Normalised (ds : List Nat) : Prop := ds.getLast? ≠ some 0

instance (ds : List Nat) : Decidable (Normalised ds) := by
  unfold Normalised; infer_instance

/-- The normalised digit vector of a natural number (specification side). -/
def toDigits (W : Nat) (n : Nat) : List Nat := Nat.digits (base W) n

/-- Model of `bitlog<T>` of `number.h`. -/
def bitlog (W : Nat) : Nat :=
  if W = 128 then 7 else if W = 64 then 6 else if W = 32 then 5 else if W = 16 then 4 else 3

/-! ## `num_t` helpers -/

/-- Model of `num_t::reduce_once`: pops the top digit when it is zero. -/
def reduce_once (v : List Nat) : List Nat :=
  if v.getLast? = some 0 then v.dropLast else v

/-- Model of `num_t::full_reduce`: pops top digits while the top digit is zero. -/
def full_reduce (v : List Nat) : List Nat := v.rdropWhile (fun d => d == 0)

/-- Model of `std::vector::resize(n)`: truncates, or pads with zero digits at the top. -/
def resize (v : List Nat) (n : Nat) : List Nat :=
  v.take n ++ List.replicate (n - v.length) 0

/-! ## Digit-window primitives -/

/-- Model of `increment(range)`: the loop runs while `carry` holds; `carry = (++*it) == 0`.
Returns the new window and the final carry. -/
def increment (W : Nat) : List Nat → List Nat × Bool
  | [] => ([], true)
  | d :: ds =>
    let d1 := (d + 1) % base W
    if d1 = 0 then
      let r := increment W ds
      (d1 :: r.1, r.2)
    else (d1 :: ds, false)

/-- Model of `decrement(range)`: the loop runs while `borrow` holds, and the loop body is
`borrow = (*it)--`: the digit is decremented modulo `2^W` and `borrow` receives the
OLD digit converted to `bool`, that is, `old != 0`.  Returns the new window and the
final borrow. -/
def decrement (W : Nat) : List Nat → List Nat × Bool
  | [] => ([], true)
  | d :: ds =>
    let d1 := (d + base W - 1) % base W
    if d ≠ 0 then
      let r := decrement W ds
      (d1 :: r.1, r.2)
    else (d1 :: ds, false)

/-- The digits `add` writes for `lhs` and `rhs` with incoming carry `c`, and the final
carry.  First loop (over `rhs`): `*oit = *lit + *rit + carry;
carry = carry ? *oit <= old : *oit < old`.  Second loop (while `carry`, over the rest of
`lhs`): `*oit = *lit + 1; carry = *oit == 0`.  Third loop: copies the rest of `lhs`.
The C++ assumes `|rhs| ≤ |lhs|`; the recursion stops when `lhs` is exhausted. -/
def addDigits (W : Nat) : List Nat → List Nat → Nat → List Nat × Nat
  | [], _, c => ([], c)
  | x :: l, [], c =>
    let o := if c ≠ 0 then (x + 1) % base W else x
    let c1 := if c ≠ 0 ∧ o = 0 then 1 else 0
    let r := addDigits W l [] c1
    (o :: r.1, r.2)
  | x :: l, y :: r, c =>
    let o := (x + y + c) % base W
    let c1 := if c ≠ 0 then (if o ≤ x then 1 else 0) else (if o < x then 1 else 0)
    let t := addDigits W l r c1
    (o :: t.1, t.2)

/-- Model of `add<T, clear>(out, lhs, rhs)`: new contents of `out` and the returned flag.
Precondition of the C++ (`assumes lengths of arguments descend`):
`|rhs| ≤ |lhs| ≤ |out|`.  Digits of `out` beyond `|lhs|` are left untouched by the plain
variant; the `clear` variant stores the carry in the first free digit, zeroes the rest
and returns `false`. -/
def add (W : Nat) (clear : Bool) (out lhs rhs : List Nat) : List Nat × Bool :=
  let r := addDigits W lhs rhs 0
  let rest := out.drop r.1.length
  if clear ∧ rest ≠ [] then
    (r.1 ++ r.2 :: List.replicate (rest.length - 1) 0, false)
  else (r.1 ++ rest, decide (r.2 ≠ 0))

/-- The digits `sub` writes, and the final borrow.  First loop (over `rhs`):
`*oit = *lit - *rit - borrow; borrow = borrow ? *oit >= old : *oit > old`.  Second loop
(while `borrow`): `*oit = *lit - 1; borrow = *oit >= old`.  Third loop: copies the rest
of `lhs`.  Machine subtraction is taken modulo `2^W`. -/
def subDigits (W : Nat) : List Nat → List Nat → Bool → List Nat × Bool
  | [], _, b => ([], b)
  | x :: l, [], b =>
    let o := if b then (x + base W - 1) % base W else x
    let b1 := b && decide (o ≥ x)
    let r := subDigits W l [] b1
    (o :: r.1, r.2)
  | x :: l, y :: r, b =>
    let o := (x + 2 * base W - y % base W - b.toNat) % base W
    let b1 := if b then decide (o ≥ x) else decide (o > x)
    let t := subDigits W l r b1
    (o :: t.1, t.2)

/-- Model of `sub(out, lhs, rhs)`: new contents of `out` and the returned borrow.  Precondition
of the C++: `|rhs| ≤ |lhs| ≤ |out|`. -/
def sub (W : Nat) (out lhs rhs : List Nat) : List Nat × Bool :=
  let r := subDigits W lhs rhs false
  (r.1 ++ out.drop r.1.length, r.2)

/-! ## `num_t` operators -/

/-- Model of `num_t::operator--()` (pre-decrement): `decrement` on the whole vector, the borrow
is dropped, then `reduce_once`. -/
def op_predec (W : Nat) (v : List Nat) : List Nat :=
  reduce_once (decrement W v).1

/-- Model of `num_t::operator--(int)` (post-decrement): returns the old value and the
decremented object. -/
def op_postdec (W : Nat) (v : List Nat) : List Nat × List Nat :=
  (v, op_predec W v)

/-- Model of `num_t::operator++()`: `increment`, and `push_back(1)` on carry. -/
def op_preinc (W : Nat) (v : List Nat) : List Nat :=
  let r := increment W v
  if r.2 then r.1 ++ [1] else r.1

/-- Model of `num_t::operator+=`: resize to `other`'s size when shorter, `add` in place
(`out` and `lhs` are both `value`), `push_back(1)` when `add` returns a carry. -/
def op_add_assign (W : Nat) (v other : List Nat) : List Nat :=
  let v1 := if v.length < other.length then resize v other.length else v
  let r := add W false v1 v1 other
  if r.2 then r.1 ++ [1] else r.1

/-- Model of `operator+(num_t lhs, const num_t &rhs)`: `lhs += rhs` on a copy. -/
def op_add (W : Nat) (a b : List Nat) : List Nat := op_add_assign W a b

/-- Model of `num_t::operator-=`: resize to `other`'s size when shorter, `sub` in place, the
borrow is dropped, then `full_reduce`. -/
def op_sub_assign (W : Nat) (v other : List Nat) : List Nat :=
  let v1 := if v.length < other.length then resize v other.length else v
  full_reduce (sub W v1 v1 other).1

/-- Model of `operator-(num_t lhs, const num_t &rhs)`: `lhs -= rhs` on a copy. -/
def op_sub (W : Nat) (a b : List Nat) : List Nat := op_sub_assign W a b

/-- Digit-by-digit comparison from the most significant digit (both arguments are the
reversed vectors, of equal length). -/
def cmpDigits : List Nat → List Nat → Ordering
  | x :: xs, y :: ys =>
    if x < y then Ordering.lt else if x > y then Ordering.gt else cmpDigits xs ys
  | _, _ => Ordering.eq

/-- Model of `operator<=>(num_t, num_t)`: sizes first, then digits from the top. -/
def op_cmp (a b : List Nat) : Ordering :=
  if a.length < b.length then Ordering.lt
  else if a.length > b.length then Ordering.gt
  else cmpDigits a.reverse b.reverse

/-- Model of `operator==(num_t, num_t)`: `(lhs <=> rhs) == equal`. -/
def op_eq (a b : List Nat) : Bool := op_cmp a b == Ordering.eq

/-- Model of `bitwise_and(out, lhs, rhs)`: loops over `lhs`, `*oit = *lit & *rit`.  The C++
assumes that all three windows have equal lengths; the recursion stops when one of them
is exhausted. -/
def bitwise_and : List Nat → List Nat → List Nat → List Nat
  | _ :: out, x :: lhs, y :: rhs => (x &&& y) :: bitwise_and out lhs rhs
  | out, _, _ => out

/-- Model of `num_t::operator&=`: shrinks to `other`'s size when longer, then
`bitwise_and(value, other.value, value)` and `full_reduce`. -/
def op_and_assign (v other : List Nat) : List Nat :=
  let v1 := if v.length > other.length then resize v other.length else v
  full_reduce (bitwise_and v1 other v1)

/-- Model of `operator&(num_t lhs, const num_t &rhs)`: `lhs &= rhs` on a copy. -/
def op_and (a b : List Nat) : List Nat := op_and_assign a b

/-- Loop of `lshift`, from the least significant digit:
`next_spill = *it >> (bitlen<T> - bits); *oit = (*it << bits) | spill`.  The shifts are
the mathematical ones, truncated to `W` bits (in C++ a shift of a 32- or 64-bit digit by
its full width, as happens for `bits = 0`, is undefined).  Returns the digits written
and the final spill. -/
def lshiftLoop (W bits : Nat) : List Nat → Nat → List Nat × Nat
  | [], spill => ([], spill)
  | x :: src, spill =>
    let r := lshiftLoop W bits src (x / 2 ^ (W - bits))
    (((x * 2 ^ bits) % base W ||| spill) :: r.1, r.2)

/-- Model of `lshift(out, src, bits)`: new contents of `out` and the returned spill.  The C++
assumes equal lengths. -/
def lshift (W : Nat) (out src : List Nat) (bits : Nat) : List Nat × Nat :=
  let r := lshiftLoop W bits src 0
  (r.1 ++ out.drop r.1.length, r.2)

/-- Loop of `rshift`, from the most significant digit (the argument is the reversed
window): `next_spill = *rit << (bitlen<T> - bits); *orit = (*rit >> bits) | spill`.
The shifts are the mathematical ones, truncated to `W` bits.  Returns the digits
written, most significant first, and the final spill. -/
def rshiftLoop (W bits : Nat) : List Nat → Nat → List Nat × Nat
  | [], spill => ([], spill)
  | x :: src, spill =>
    let r := rshiftLoop W bits src ((x * 2 ^ (W - bits)) % base W)
    ((x / 2 ^ bits ||| spill) :: r.1, r.2)

/-- Model of `rshift(out, src, bits)`: new contents of `out` and the returned spill.  Both
windows are walked from their last digit, so the top `|src|` digits of `out` are
written.  The C++ assumes equal lengths. -/
def rshift (W : Nat) (out src : List Nat) (bits : Nat) : List Nat × Nat :=
  let r := rshiftLoop W bits src.reverse 0
  (out.take (out.length - src.length) ++ r.1.reverse, r.2)

/-- Model of `num_t::operator<<=(n)`: `whole_shift = n >> bitlog<T>`,
`partial_shift = n & ((1 << bitlog<T>) - 1)`; inserts `whole_shift` zero digits at the
low end, shifts the remaining digits in place and appends a non-zero spill. -/
def op_shl_assign (W : Nat) (v : List Nat) (n : Nat) : List Nat :=
  let whole_shift := n / 2 ^ bitlog W
  let part_shift := n &&& (2 ^ bitlog W - 1)
  let r := lshift W v v part_shift
  let v1 := List.replicate whole_shift 0 ++ r.1
  if r.2 ≠ 0 then v1 ++ [r.2] else v1

/-- Model of `operator<<(num_t lhs, size_t n)`: `lhs <<= n` on a copy. -/
def op_shl (W : Nat) (v : List Nat) (n : Nat) : List Nat := op_shl_assign W v n

/-- Model of `num_t::operator>>=(n)`: clears the vector when `size <= whole_shift`; otherwise
erases `whole_shift` digits from the low end, shifts the rest in place by
`partial_shift` (the spill is dropped) and calls `reduce_once`. -/
def op_shr_assign (W : Nat) (v : List Nat) (n : Nat) : List Nat :=
  let whole_shift := n / 2 ^ bitlog W
  if v.length ≤ whole_shift then []
  else
    let v1 := v.drop whole_shift
    let part_shift := n &&& (2 ^ bitlog W - 1)
    reduce_once (rshift W v1 v1 part_shift).1

/-- Model of `operator>>(num_t lhs, size_t n)`: `lhs >>= n` on a copy. -/
def op_shr (W : Nat) (v : List Nat) (n : Nat) : List Nat := op_shr_assign W v n

/-- Widening branch of `copy<T, S>` (`lenT >= lenS`); `sh` and `cur` are the shift and
the value of `*oit` inside the inner loop.  Outer loop: `*oit = 0`; inner loop
`for (sh = 0; it != in.end() && sh < lenT; sh += lenS, ++it)`:
`*oit |= static_cast<T>(*it) << sh`.  Returns the digits written. -/
def copyWiden (WT WS : Nat) : List Nat → Nat → Nat → List Nat
  | [], _, _ => []
  | x :: xs, sh, cur =>
    let cur1 := cur ||| (x * 2 ^ sh) % base WT
    if xs ≠ [] ∧ sh + WS < WT then copyWiden WT WS xs (sh + WS) cur1
    else cur1 :: copyWiden WT WS xs 0 0

/-- Narrowing branch of `copy<T, S>` (`lenT < lenS`): every input digit yields the digits
`static_cast<T>(*it >> sh)` for `sh = 0, lenT, 2 lenT, ... < lenS`. -/
def copyNarrow (WT WS : Nat) : List Nat → List Nat
  | [] => []
  | x :: xs =>
    (List.range ((WS + WT - 1) / WT)).map (fun i => (x / 2 ^ (i * WT)) % base WT) ++
      copyNarrow WT WS xs

/-- Model of `copy<T, S>(out, in)`: new contents of `out`, whose first digits are overwritten.
The C++ assumes that `out` is long enough. -/
def copy (WT WS : Nat) (out inp : List Nat) : List Nat :=
  let w := if WT ≥ WS then copyWiden WT WS inp 0 0 else copyNarrow WT WS inp
  w ++ out.drop w.length

/-- Model of `num_t<T>::num_t(I x)` for `x ≥ 0`, with `W = bitlen<T>` and `WI` the bit length of
`I`.  When `sizeof(I) <= sizeof(T)`: `if (x) value = { static_cast<T>(x) }`.  Otherwise
the value is copied into `sizeof(UI) / sizeof(T)` digits and `full_reduce` is called. -/
def ofInt (W WI : Nat) (x : Nat) : List Nat :=
  if WI ≤ W then (if x ≠ 0 then [x % base W] else [])
  else full_reduce (copy W WI (List.replicate (WI / W) 0) [x])

/-- Model of `num_t<T>::operator num_t<S>()`, with `WT = bitlen<T>` (source) and
`WS = bitlen<S>` (target).  Both branches build the result with the constructor
`num_t<S>(std::vector<S>)`, which calls `full_reduce`. -/
def cast (WT WS : Nat) (v : List Nat) : List Nat :=
  if WT > WS then
    let out := List.replicate (v.length * WT / WS) 0
    let res := full_reduce (copy WS WT out v)
    if WT / WS = 2 then reduce_once res else full_reduce res
  else
    let out := List.replicate ((v.length * WT + WS - 1) / WS) 0
    full_reduce (copy WS WT out v)

/-! ## Decimal rendering -/

/-- Inner loop of `num_t::str` over the decimal digits (least significant first) for one
incoming bit: `if (digit >= 5) digit += 3; digit <<= 1; if (new_bit) digit |= 1;
if ((new_bit = (digit > 0xf))) digit &= 0xf;` on `unsigned` digits.  Returns the digits
and the outgoing `new_bit`. -/
def dabbleStep : List Nat → Bool → List Nat × Bool
  | [], nb => ([], nb)
  | d :: ds, nb =>
    let d1 := if d ≥ 5 then (d + 3) % 2 ^ 32 else d
    let d2 := (d1 * 2) % 2 ^ 32
    let d3 := if nb then d2 ||| 1 else d2
    let nb1 := decide (d3 > 15)
    let d4 := if nb1 then d3 &&& 15 else d3
    let r := dabbleStep ds nb1
    (d4 :: r.1, r.2)

/-- One bit of the double-dabble: the inner loop, then `digits.push_back(1)` when
`new_bit` is left set. -/
def dabbleBit (digits : List Nat) (nb : Bool) : List Nat :=
  let r := dabbleStep digits nb
  if r.2 then r.1 ++ [1] else r.1

/-- The loop `for (T bit = top_bit; bit; bit >>= 1)` over the `W` bits of one digit `x`,
from the top bit, with `new_bit = *rit & bit`. -/
def dabbleDigit (W x : Nat) (digits : List Nat) : List Nat :=
  (List.range W).foldl
    (fun ds i => dabbleBit ds (decide (x &&& 2 ^ (W - 1 - i) ≠ 0))) digits

/-- The outer loop of `num_t::str` over the digits of the number, most significant
first; when `full` is not set and more than 32 decimal digits are held, the lowest ones
are erased and counted in `offset`.  Returns the decimal digits (least significant
first) and `offset`. -/
def strLoop (W : Nat) (full : Bool) : List Nat → List Nat → Nat → List Nat × Nat
  | [], digits, offset => (digits, offset)
  | x :: xs, digits, offset =>
    let ds := dabbleDigit W x digits
    if !full ∧ ds.length > 32 then
      strLoop W full xs (ds.drop (ds.length - 32)) (offset + (ds.length - 32))
    else strLoop W full xs ds offset

/-- Model of `num_t::str(full)`: `"0"` for the empty vector; otherwise the decimal digits, most
significant first; when `full` is not set and there are more than 10 of them, the first
digit, `'.'`, the next nine digits, `"e+"` and `num_digits - 1`. -/
def str (W : Nat) (v : List Nat) (full : Bool) : String :=
  if v = [] then "0"
  else
    let r := strLoop W full v.reverse [] 0
    let num_digits := r.1.length + r.2
    let rev := r.1.reverse
    if !full ∧ num_digits > 10 then
      String.join ((rev.take 1).map Nat.repr) ++ "." ++
        String.join (((rev.drop 1).take 9).map Nat.repr) ++ "e+" ++ Nat.repr (num_digits - 1)
    else String.join (rev.map Nat.repr)

/-- The assumption under which the programs that multiply through `mulnum_fft.h` are
studied: `opMul` returns the normalised `W`-bit digit vector of the exact product. -/
def ExactProduct (W : Nat) (opMul : List Nat → List Nat → List Nat) : Prop :=
  ∀ x y, WF W x → WF W y → Normalised x → Normalised y →
    WF W (opMul x y) ∧ Normalised (opMul x y) ∧ value W (opMul x y) = value W x * value W y

/-! ## Schoolbook multiplication (`mulnum_simple.h`) -/

/-- Main loop of `muladd`: for every digit `x` of `input`, with `o` the digit of `out`
at the same position, `res = o + x * scalar + spill` in `uint64_t`, `*oit = (T) res`,
`spill = res >> down` where `down = 64 - bitlen<T>`.  Returns the digits written, the
part of `out` not reached, and the final spill.  The C++ assumes `|input| < |out|`. -/
def muladdLoop (W scalar : Nat) : List Nat → List Nat → Nat → List Nat × List Nat × Nat
  | out, [], spill => ([], out, spill)
  | [], _ :: _, spill => ([], [], spill)
  | o :: out, x :: inp, spill =>
    let res := (o + x * scalar + spill) % 2 ^ 64
    let r := muladdLoop W scalar out inp (res / 2 ^ (64 - W))
    (res % base W :: r.1, r.2.1, r.2.2)

/-- Model of `muladd<T, safe>(out, input, scalar)`: adds `input * scalar` into `out`.  After the
main loop, `if (spill)`: `old = *oit; *oit += (T) spill; if (*oit < old)` then the next
digit is incremented (`++oit; return ++*oit == 0`), where the `safe` variant first
returns `true` when `oit` reached `out.end()`.  The result is the new contents of `out`,
the returned flag, and whether the C++ accessed a digit outside the window `out` (the
model leaves the window as it is at that point): this happens when the window ends
before the spill digit, and, without `safe`, when it ends before the incremented one. -/
def muladd (W : Nat) ( safe : Bool) (out input : List Nat) (scalar : Nat) :
    List Nat × Bool × Bool :=
  let r := muladdLoop W scalar out input 0
  if r.2.2 ≠ 0 then
    match r.2.1 with
    | [] => (r.1, true, true)
    | old :: rest =>
      let o := (old + r.2.2 % base W) % base W
      if o < old then
        match rest with
        | [] => (r.1 ++ [o], true, !safe)
        | d :: rest1 =>
          (r.1 ++ o :: (d + 1) % base W :: rest1, decide ((d + 1) % base W = 0), false)
      else (r.1 ++ o :: rest, false, false)
  else (r.1 ++ r.2.1, false, false)

/-- Model of `mul(out, lhs, rhs)` of `mulnum_simple.h`: for every digit of `rhs`, at position
`j`, `muladd<T, false>` of `lhs` times that digit into the window of `out` that starts
at `j` (`++owindow.begin_` after each row). -/
def mul (W : Nat) : List Nat → List Nat → List Nat → List Nat
  | out, _, [] => out
  | out, lhs, y :: rhs =>
    match (muladd W false out lhs y).1 with
    | [] => []
    | o :: out1 => o :: mul W out1 lhs rhs

/-- Model of `operator*` of `mulnum_simple.h`: `0` when an operand is empty; otherwise `mul`
into a zero-filled vector of `|lhs| + |rhs|` digits, normalised by the constructor
`num_t(std::vector<T>)` (`full_reduce`). -/
def op_mul (W : Nat) (lhs rhs : List Nat) : List Nat :=
  if lhs = [] ∨ rhs = [] then []
  else full_reduce (mul W (List.replicate (lhs.length + rhs.length) 0) lhs rhs)

end Big

/-! ## `impl/linear.cpp` -/

namespace Linear
open Big

/-- The loop `while (n-- > 0) { tmp = a + b; a = b; b = tmp; }` of `fibonacci`, with
`number = num_t<uint64_t>`; `fuel` bounds the number of evaluations of the loop
condition. -/
def loop : Nat → List Nat → List Nat → List Nat → Option (List Nat)
  | 0, _, _, _ => none
  | fuel + 1, n, a, b =>
    let r := op_postdec 64 n
    if op_cmp r.1 (ofInt 64 32 0) = Ordering.gt then loop fuel r.2 b (op_add 64 a b)
    else some a

/-- Model of `fibonacci(n)` of `linear.cpp`: `a(0)`, `b(1)`, the loop, `return a`. -/
def fibonacci (fuel : Nat) (n : List Nat) : Option (List Nat) :=
  loop fuel n (ofInt 64 32 0) (ofInt 64 32 1)

end Linear

/-! ## `impl/matmul_simple.cpp` -/

namespace MatmulSimple
open Big

/-- Model of `struct M2x2` with `num = num_t<uint32_t>`. -/
structure M2x2 where
  e00 : List Nat
  e01 : List Nat
  e10 : List Nat
  e11 : List Nat
deriving DecidableEq

/-- Model of `M2x2::operator*`: the literal 8-multiply product, with the schoolbook
`operator*`. -/
def M2x2.mul (a o : M2x2) : M2x2 :=
  { e00 := op_add 32 (op_mul 32 a.e00 o.e00) (op_mul 32 a.e01 o.e10)
    e01 := op_add 32 (op_mul 32 a.e00 o.e01) (op_mul 32 a.e01 o.e11)
    e10 := op_add 32 (op_mul 32 a.e10 o.e00) (op_mul 32 a.e11 o.e10)
    e11 := op_add 32 (op_mul 32 a.e10 o.e01) (op_mul 32 a.e11 o.e11) }

/-- Model of `M2x2 fib(0, 1, 1, 1)`: the `int` arguments are converted by `num_t(I)`. -/
def M2x2.base : M2x2 :=
  { e00 := ofInt 32 32 0, e01 := ofInt 32 32 1, e10 := ofInt 32 32 1, e11 := ofInt 32 32 1 }

/-- The matrix holds the power `k + 1` of the base matrix `[[0 1][1 1]]`:
`[[F(k), F(k+1)], [F(k+1), F(k+2)]]` as normalised vectors of 32-bit digits. -/
def M2x2.IsFibMat (m : M2x2) (k : Nat) : Prop :=
  m.e00 = toDigits 32 (Nat.fib k) ∧ m.e01 = toDigits 32 (Nat.fib (k + 1)) ∧
    m.e10 = toDigits 32 (Nat.fib (k + 1)) ∧ m.e11 = toDigits 32 (Nat.fib (k + 2))

/-- The loop `while (n-- > 0) { fib *= step; }`. -/
def loop : Nat → List Nat → M2x2 → M2x2 → Option M2x2
  | 0, _, _, _ => none
  | fuel + 1, n, fib, step =>
    let r := op_postdec 64 n
    if op_cmp r.1 (ofInt 64 32 0) = Ordering.gt then loop fuel r.2 (fib.mul step) step
    else some fib

/-- Model of `fibonacci(n)` of `matmul_simple.cpp`; the result is `(number) fib.e00`. -/
def fibonacci (fuel : Nat) (n : List Nat) : Option (List Nat) :=
  (loop fuel n M2x2.base M2x2.base).map (fun fib => cast 32 64 fib.e00)

end MatmulSimple

/-! ## `impl/matmul_strassen.cpp` -/

namespace MatmulStrassen
open Big

/-- Model of `Int::sign_t`. -/
inductive sign_t where
  | ZERO
  | POS
  | NEG
deriving DecidableEq

/-- Model of `struct Int`: signed wrapper for `num = num_t<uint32_t>`. -/
structure Int where
  abs : List Nat
  sign : sign_t
deriving DecidableEq

/-- Model of `Int()`: empty magnitude, `sign = ZERO`. -/
def Int.zero : Int := { abs := [], sign := sign_t.ZERO }

/-- Model of `Int(num value, sign_t sign = POS) : abs(value), sign(sign)`.  In the body,
`if (value.value.empty()) { sign = sign_t::ZERO; }` assigns to the constructor PARAMETER
`sign`, which hides the member: the member keeps the sign it was given. -/
def Int.ofNum (value : List Nat) (sign : sign_t) : Int := { abs := value, sign := sign }

/-- Model of `Int::flip_sign`. -/
def Int.flip_sign (x : Int) : Int :=
  match x.sign with
  | sign_t.POS => { x with sign := sign_t.NEG }
  | sign_t.NEG => { x with sign := sign_t.POS }
  | sign_t.ZERO => x

/-- Model of `Int::operator+=`. -/
def Int.add_assign (x other : Int) : Int :=
  if other.sign = sign_t.ZERO then x
  else if x.sign = sign_t.ZERO then other
  else if x.sign = other.sign then { x with abs := op_add_assign 32 x.abs other.abs }
  else
    match op_cmp x.abs other.abs with
    | Ordering.gt => { x with abs := op_sub_assign 32 x.abs other.abs }
    | Ordering.lt => { x.flip_sign with abs := op_sub 32 other.abs x.abs }
    | Ordering.eq => { abs := [], sign := sign_t.ZERO }

/-- Unary `operator-(Int num)`. -/
def Int.neg (x : Int) : Int := x.flip_sign

/-- Model of `Int::operator-=`: `*this += -other`. -/
def Int.sub_assign (x other : Int) : Int := x.add_assign other.neg

/-- Model of `operator+(Int lhs, const Int &rhs)`. -/
def Int.add (x y : Int) : Int := x.add_assign y

/-- Model of `operator-(Int lhs, const Int &rhs)`. -/
def Int.sub (x y : Int) : Int := x.sub_assign y

/-- Model of `operator*(Int lhs, const Int &rhs)`, with the schoolbook `operator*` on the
magnitudes. -/
def Int.mul (x y : Int) : Int :=
  if x.sign = sign_t.ZERO ∨ y.sign = sign_t.ZERO then Int.zero
  else Int.ofNum (op_mul 32 x.abs y.abs)
    (if x.sign = y.sign then sign_t.POS else sign_t.NEG)

/-- Model of `struct M2x2` with `Int` entries. -/
structure M2x2 where
  e00 : Int
  e01 : Int
  e10 : Int
  e11 : Int
deriving DecidableEq

/-- Model of `M2x2(int e00, int e01, int e10, int e11)`: every entry is
`Int(num(e), sign_t::POS)`. -/
def M2x2.ofInts (e00 e01 e10 e11 : Nat) : M2x2 :=
  { e00 := Int.ofNum (ofInt 32 32 e00) sign_t.POS
    e01 := Int.ofNum (ofInt 32 32 e01) sign_t.POS
    e10 := Int.ofNum (ofInt 32 32 e10) sign_t.POS
    e11 := Int.ofNum (ofInt 32 32 e11) sign_t.POS }

/-- Model of `M2x2::operator*`: Strassen multiplication. -/
def M2x2.mul (a o : M2x2) : M2x2 :=
  let m0 := (a.e00.add a.e11).mul (o.e00.add o.e11)
  let m1 := (a.e10.add a.e11).mul o.e00
  let m2 := a.e00.mul (o.e01.sub o.e11)
  let m3 := a.e11.mul (o.e10.sub o.e00)
  let m4 := (a.e00.add a.e01).mul o.e11
  let m5 := (a.e10.sub a.e00).mul (o.e00.add o.e01)
  let m6 := (a.e01.sub a.e11).mul (o.e10.add o.e11)
  { e00 := ((m0.add m3).sub m4).add m6
    e01 := m2.add m4
    e10 := m1.add m3
    e11 := ((m0.sub m1).add m2).add m5 }

/-- The integer an `Int` stands for: `0`, `abs` or `-abs` according to `sign`. -/
def Int.denote (x : Int) : ℤ :=
  match x.sign with
  | sign_t.ZERO => 0
  | sign_t.POS => (value 32 x.abs : ℤ)
  | sign_t.NEG => -(value 32 x.abs : ℤ)

/-- What every `Int` built by the program satisfies: the magnitude is a normalised
vector of 32-bit digits, and it is empty when the sign is `ZERO`. -/
def Int.Valid (x : Int) : Prop :=
  WF 32 x.abs ∧ Normalised x.abs ∧ (x.sign = sign_t.ZERO → x.abs = [])

/-- All four entries are valid. -/
def M2x2.Valid (m : M2x2) : Prop :=
  m.e00.Valid ∧ m.e01.Valid ∧ m.e10.Valid ∧ m.e11.Valid

/-- The matrix stands for the power `k + 1` of the base matrix `[[0 1][1 1]]`, that is,
for `[[F(k), F(k+1)], [F(k+1), F(k+2)]]`, with valid entries. -/
def M2x2.IsFibMat (m : M2x2) (k : Nat) : Prop :=
  m.Valid ∧ m.e00.denote = (Nat.fib k : ℤ) ∧ m.e01.denote = (Nat.fib (k + 1) : ℤ) ∧
    m.e10.denote = (Nat.fib (k + 1) : ℤ) ∧ m.e11.denote = (Nat.fib (k + 2) : ℤ)

/-- The loop `while (n > 0) { if ((n & 1) != 0) fib *= step; step *= step; n >>= 1; }`
with `number = num_t<uint64_t>`; `fuel` bounds the number of evaluations of the loop
condition. -/
def loop : Nat → List Nat → M2x2 → M2x2 → Option M2x2
  | 0, _, _, _ => none
  | fuel + 1, n, fib, step =>
    if op_cmp n (ofInt 64 32 0) = Ordering.gt then
      let fib1 := if !(op_eq (op_and n (ofInt 64 32 1)) (ofInt 64 32 0)) then fib.mul step
        else fib
      loop fuel (op_shr_assign 64 n 1) fib1 (step.mul step)
    else some fib

/-- Model of `fibonacci(n)` of `matmul_strassen.cpp`: `step(0, 1, 1, 1)`, `fib(step)`, the loop,
and `static_cast<number>(fib.e00)`, which converts the magnitude `abs`. -/
def fibonacci (fuel : Nat) (n : List Nat) : Option (List Nat) :=
  (loop fuel n (M2x2.ofInts 0 1 1 1) (M2x2.ofInts 0 1 1 1)).map
    (fun fib => cast 32 64 fib.e00.abs)

end MatmulStrassen

/-! ## `impl/matmul_fft.cpp` -/

namespace MatmulFft
open Big

/-- Model of `struct M2x2` with `num = num_t<uint8_t>`. -/
structure M2x2 where
  e00 : List Nat
  e01 : List Nat
  e10 : List Nat
  e11 : List Nat
deriving DecidableEq

/-- Model of `M2x2::operator*`: the literal 8-multiply product.  `opMul` is the `operator*` of
`mulnum_fft.h` on 8-bit digits, which works in double-precision floating point and is
taken as a parameter. -/
def M2x2.mul (opMul : List Nat → List Nat → List Nat) (a o : M2x2) : M2x2 :=
  { e00 := op_add 8 (opMul a.e00 o.e00) (opMul a.e01 o.e10)
    e01 := op_add 8 (opMul a.e00 o.e01) (opMul a.e01 o.e11)
    e10 := op_add 8 (opMul a.e10 o.e00) (opMul a.e11 o.e10)
    e11 := op_add 8 (opMul a.e10 o.e01) (opMul a.e11 o.e11) }

/-- Powers of the base matrix `[[0 1][1 1]]` over the natural numbers, as
`(e00, e01, e10, e11)`, by the literal 2x2 product. -/
def basePow : Nat → Nat × Nat × Nat × Nat
  | 0 => (1, 0, 0, 1)
  | k + 1 =>
    let p := basePow k
    (p.1 * 0 + p.2.1 * 1, p.1 * 1 + p.2.1 * 1, p.2.2.1 * 0 + p.2.2.2 * 1,
      p.2.2.1 * 1 + p.2.2.2 * 1)

/-- The matrix holds `[[F(k), F(k+1)], [F(k+1), F(k+2)]]` as normalised vectors of 8-bit
digits. -/
def M2x2.IsFibMat (m : M2x2) (k : Nat) : Prop :=
  m.e00 = toDigits 8 (Nat.fib k) ∧ m.e01 = toDigits 8 (Nat.fib (k + 1)) ∧
    m.e10 = toDigits 8 (Nat.fib (k + 1)) ∧ m.e11 = toDigits 8 (Nat.fib (k + 2))

/-- Model of `M2x2 step(0, 1, 1, 1)`: the `int` arguments are converted by `num_t(I)`. -/
def M2x2.base : M2x2 :=
  { e00 := ofInt 8 32 0, e01 := ofInt 8 32 1, e10 := ofInt 8 32 1, e11 := ofInt 8 32 1 }

/-- The loop `while (n > 0) { if ((n & 1) != 0) fib *= step; step *= step; n >>= 1; }`. -/
def loop (opMul : List Nat → List Nat → List Nat) :
    Nat → List Nat → M2x2 → M2x2 → Option M2x2
  | 0, _, _, _ => none
  | fuel + 1, n, fib, step =>
    if op_cmp n (ofInt 64 32 0) = Ordering.gt then
      let fib1 := if !(op_eq (op_and n (ofInt 64 32 1)) (ofInt 64 32 0))
        then M2x2.mul opMul fib step else fib
      loop opMul fuel (op_shr_assign 64 n 1) fib1 (M2x2.mul opMul step step)
    else some fib

/-- Model of `fibonacci(n)` of `matmul_fft.cpp`; the result is `static_cast<number>(fib.e00)`. -/
def fibonacci (opMul : List Nat → List Nat → List Nat) (fuel : Nat) (n : List Nat) :
    Option (List Nat) :=
  (loop opMul fuel n M2x2.base M2x2.base).map (fun fib => cast 8 64 fib.e00)

end MatmulFft

/-! ## `impl/field_ext.cpp` -/

namespace FieldExt
open Big

/-- Model of `struct Zrt5`: `a + b√5`, with `num = num_t<uint8_t>`. -/
structure Zrt5 where
  a : List Nat
  b : List Nat
deriving DecidableEq

/-- Model of `Zrt5::operator*`: `bb = b * x.b; bb = (bb << 2) + bb;` and the result is
`(a * x.a + bb, a * x.b + b * x.a)`.  `opMul` is the `operator*` of `mulnum_fft.h`. -/
def Zrt5.mul (opMul : List Nat → List Nat → List Nat) (s x : Zrt5) : Zrt5 :=
  let bb := opMul s.b x.b
  let bb1 := op_add 8 (op_shl 8 bb 2) bb
  { a := op_add 8 (opMul s.a x.a) bb1
    b := op_add 8 (opMul s.a x.b) (opMul s.b x.a) }

/-- Model of `Zrt5::operator>>=`: shifts both components. -/
def Zrt5.shr_assign (s : Zrt5) (n : Nat) : Zrt5 :=
  { a := op_shr_assign 8 s.a n, b := op_shr_assign 8 s.b n }

/-- Lucas numbers: `L(0) = 2`, `L(1) = 1`, `L(k+2) = L(k) + L(k+1)`. -/
def lucas : Nat → Nat
  | 0 => 2
  | 1 => 1
  | k + 2 => lucas k + lucas (k + 1)

/-- The pair stands for `φ^k = (L(k) + F(k)√5) / 2`: `a` and `b` are the normalised
vectors of 8-bit digits of `L(k)` and `F(k)`. -/
def Zrt5.IsPhiPow (z : Zrt5) (k : Nat) : Prop :=
  z.a = toDigits 8 (lucas k) ∧ z.b = toDigits 8 (Nat.fib k)

/-- Model of `Zrt5 step(1, 1)`. -/
def Zrt5.phi : Zrt5 := { a := ofInt 8 32 1, b := ofInt 8 32 1 }

/-- The loop `while (n > 0) { if ((n & 1) != 0) { fib *= step; fib >>= 1; }
step *= step; step >>= 1; n >>= 1; }`. -/
def loop (opMul : List Nat → List Nat → List Nat) :
    Nat → List Nat → Zrt5 → Zrt5 → Option Zrt5
  | 0, _, _, _ => none
  | fuel + 1, n, fib, step =>
    if op_cmp n (ofInt 64 32 0) = Ordering.gt then
      let fib1 := if !(op_eq (op_and n (ofInt 64 32 1)) (ofInt 64 32 0))
        then (Zrt5.mul opMul fib step).shr_assign 1 else fib
      loop opMul fuel (op_shr_assign 64 n 1) fib1 ((Zrt5.mul opMul step step).shr_assign 1)
    else some fib

/-- Model of `fibonacci(n)` of `field_ext.cpp`: returns `n` when it is empty; otherwise `--n`,
the loop, and `static_cast<number>(fib.b)`. -/
def fibonacci (opMul : List Nat → List Nat → List Nat) (fuel : Nat) (n : List Nat) :
    Option (List Nat) :=
  if n = [] then some n
  else (loop opMul fuel (op_predec 64 n) Zrt5.phi Zrt5.phi).map (fun fib => cast 8 64 fib.b)

end FieldExt

/-! ## The reference iteration of `eval.cpp` -/

namespace Eval
open Big

/-- Model of `first_mark`. -/
def first_mark : Nat := 92

/-- Model of `second_mark`. -/
def second_mark : Nat := 512

/-- The counter `cur` of `main` after `n` rounds of `++cur`, from `number cur = 0`. -/
def cur : Nat → List Nat
  | 0 => ofInt 64 32 0
  | n + 1 => op_preinc 64 (cur n)

/-- The pair `(a, b)` of `uint64_t` after `k` rounds of `tmp = a + b; a = b; b = tmp`,
from `a = 0, b = 1`. -/
def refSmall : Nat → Nat × Nat
  | 0 => (0, 1)
  | k + 1 =>
    let p := refSmall k
    (p.2, (p.1 + p.2) % 2 ^ 64)

/-- The pair `(aa, bb)` of `number` after `k` rounds of `tt = aa + bb; aa = bb; bb = tt`,
from `number aa(a)`, `number bb(b)` taken at `first_mark`. -/
def refBig : Nat → List Nat × List Nat
  | 0 => (ofInt 64 64 (refSmall first_mark).1, ofInt 64 64 (refSmall first_mark).2)
  | k + 1 =>
    let p := refBig k
    (p.2, op_add 64 p.1 p.2)

/-- The value `main` compares `fibonacci(cur)` with: `num_t(a)` below `first_mark`, and
`aa` from `first_mark` on. -/
def expected (cur : Nat) : List Nat :=
  if cur < first_mark then ofInt 64 64 (refSmall cur).1
  else (refBig (cur - first_mark)).1

end Eval

namespace Big

/-! ## Shifts the C++ leaves undefined -/

/-- Width of the type in which a shift of a `W`-bit digit is evaluated: the left operand
undergoes integral promotion, so a digit narrower than `int` is shifted as a 32-bit
`int`. -/
def promotedWidth (W : Nat) : Nat := max W 32

/-- A C++ shift `x << s` or `x >> s` of a `W`-bit digit has defined behaviour when `s` is
less than the width of the promoted left operand. -/
def ShiftDefined (W s : Nat) : Prop := s < promotedWidth W

instance (W s : Nat) : Decidable (ShiftDefined W s) := by
  unfold ShiftDefined; infer_instance

/-- The shift amounts that `lshift(out, src, bits)` and `rshift(out, src, bits)` execute
on every digit of `src`: `bitlen<T> - bits` for the spill and `bits` for the digit. -/
def shiftAmounts (W bits : Nat) : List Nat := [W - bits, bits]

/-- Every shift executed by `lshift` or `rshift` on the window `src` is defined: the
window is empty (the loop body never runs) or both shift amounts are defined. -/
def WindowShiftDefined (W : Nat) (src : List Nat) (bits : Nat) : Prop :=
  src = [] ∨ ∀ s ∈ shiftAmounts W bits, ShiftDefined W s

instance (W : Nat) (src : List Nat) (bits : Nat) : Decidable (WindowShiftDefined W src bits) := by
  unfold WindowShiftDefined; infer_instance

/-- Every shift executed by `operator<<=(n)` is defined: `lshift` runs on the whole old
vector with `partial_shift`. -/
def op_shl_defined (W : Nat) (v : List Nat) (n : Nat) : Prop :=
  WindowShiftDefined W v (n &&& (2 ^ bitlog W - 1))

instance (W : Nat) (v : List Nat) (n : Nat) : Decidable (op_shl_defined W v n) := by
  unfold op_shl_defined; infer_instance

/-- Every shift executed by `operator>>=(n)` is defined: the vector is cleared without a
shift when `size <= whole_shift`, otherwise `rshift` runs on the digits that remain. -/
def op_shr_defined (W : Nat) (v : List Nat) (n : Nat) : Prop :=
  v.length ≤ n / 2 ^ bitlog W ∨
    WindowShiftDefined W (v.drop (n / 2 ^ bitlog W)) (n &&& (2 ^ bitlog W - 1))

instance (W : Nat) (v : List Nat) (n : Nat) : Decidable (op_shr_defined W v n) := by
  unfold op_shr_defined; infer_instance

/-! ## Bitwise or -/

/-- Model of `bitwise_or(out, lhs, rhs)`: loops over `lhs`, `*oit = *lit | *rit`.  The C++
assumes that all three windows have equal lengths; the recursion stops when one of them
is exhausted. -/
def bitwise_or : List Nat → List Nat → List Nat → List Nat
  | _ :: out, x :: lhs, y :: rhs => (x ||| y) :: bitwise_or out lhs rhs
  | out, _, _ => out

/-- Model of `num_t::operator|=`: grows to `other`'s size when shorter, then
`bitwise_or(value, value, other.value)`; no reduction follows. -/
def op_or_assign (v other : List Nat) : List Nat :=
  let v1 := if v.length < other.length then resize v other.length else v
  bitwise_or v1 v1 other

/-- Model of `operator|(num_t lhs, const num_t &rhs)`: `lhs |= rhs` on a copy. -/
def op_or (a b : List Nat) : List Nat := op_or_assign a b


/-! ## Construction from a decimal string -/

/-- The inner loop of `num_t(const std::string &)` over the decimal digits, from the most
significant one (the argument is the reversed vector):
`if (new_bit) *rit |= 1 << 4; new_bit = !!(1 & *rit); *rit >>= 1;
if (*rit >= 8) *rit -= 3;` on `unsigned` digits.  Returns the digits, most significant
first, and the final `new_bit`. -/
def halveLoop : List Nat → Bool → List Nat × Bool
  | [], nb => ([], nb)
  | d :: ds, nb =>
    let d1 := if nb then d ||| 16 else d
    let nb1 := decide (1 &&& d1 ≠ 0)
    let d2 := d1 / 2
    let d3 := if d2 ≥ 8 then d2 - 3 else d2
    let r := halveLoop ds nb1
    (d3 :: r.1, r.2)

/-- The loop `while (!digits.empty())` of `num_t(const std::string &)`: one halving pass
over the decimal digits, `while (!digits.empty() && !*digits.rbegin()) digits.pop_back()`
(the loop of `full_reduce`), `if (new_bit) *this |= bit`, `bit <<= 1`.  `fuel` bounds the
number of evaluations of the loop condition. -/
def ofStringLoop (W : Nat) : Nat → List Nat → List Nat → List Nat → Option (List Nat)
  | 0, _, _, _ => none
  | fuel + 1, digits, value, bit =>
    if digits = [] then some value
    else
      let r := halveLoop digits.reverse false
      let digits1 := full_reduce r.1.reverse
      let value1 := if r.2 then op_or_assign value bit else value
      ofStringLoop W fuel digits1 value1 (op_shl_assign W bit 1)

/-- Model of `num_t<T>::num_t(const std::string &)` on an ASCII string: the vector `digits`
receives `*rit - '0'` for the characters from the last to the first (as `unsigned`, that
is, modulo `2^32`), `bit` starts as `num_t<T>(1)` (built from an `int`), and the loop
runs on the empty number. -/
def ofString (W fuel : Nat) (s : String) : Option (List Nat) :=
  ofStringLoop W fuel (s.data.reverse.map (fun c => (c.toNat + 2 ^ 32 - 48) % 2 ^ 32)) []
    (ofInt W 32 1)

end Big

/-! ## `mulnum_karatsuba.h`: multiplication on windows of vectors in memory -/

namespace Karatsuba
open Big

/-- The four vectors that `operator*` of `mulnum_karatsuba.h` works on: the digit vectors of
the two operands, the product buffer `out` and the arena `scratch`. -/
inductive Buf where
  | lhs
  | rhs
  | out
  | scratch
deriving DecidableEq

/-- The contents of the four vectors. -/
structure Mem where
  lhs : List Nat
  rhs : List Nat
  out : List Nat
  scratch : List Nat
deriving DecidableEq

/-- A digit window (`digit_range`, `const_digit_range`): a vector and the positions of the
iterators `begin_` and `end_` in it. -/
structure Win where
  buf : Buf
  lo : Nat
  hi : Nat
deriving DecidableEq

/-- Outcome of a run: it ends with a result, it dereferences an iterator outside its vector
(undefined behaviour in C++), or the fuel of the model runs out. -/
inductive Res (α : Type) where
  | ok (a : α)
  | fault
  | timeout
deriving DecidableEq

/-- Sequencing of runs. -/
def Res.bind {α β : Type} (r : Res α) (f : α → Res β) : Res β :=
  match r with
  | Res.ok a => f a
  | Res.fault => Res.fault
  | Res.timeout => Res.timeout

/-- An access that fails is a fault. -/
def Res.ofOption {α : Type} : Option α → Res α
  | some a => Res.ok a
  | none => Res.fault

/-- Model of `range_interface::size()` for a window with `begin_ <= end_`. -/
def Win.size (w : Win) : Nat := w.hi - w.lo

/-- The vector behind a window. -/
def Mem.get (m : Mem) : Buf → List Nat
  | Buf.lhs => m.lhs
  | Buf.rhs => m.rhs
  | Buf.out => m.out
  | Buf.scratch => m.scratch

/-- Reading `*it` for an iterator at position `i` of a vector; `none` outside the vector. -/
def Mem.read (m : Mem) (b : Buf) (i : Nat) : Option Nat := (m.get b).get? i

/-- Writing `*it = x` for an iterator at position `i` of a vector; `none` outside the
vector. -/
def Mem.write (m : Mem) (b : Buf) (i x : Nat) : Option Mem :=
  if i < (m.get b).length then
    some (match b with
      | Buf.lhs => { m with lhs := m.lhs.set i x }
      | Buf.rhs => { m with rhs := m.rhs.set i x }
      | Buf.out => { m with out := m.out.set i x }
      | Buf.scratch => { m with scratch := m.scratch.set i x })
  else none

/-- Writes `x` at the positions `i, i + 1, ..., i + n - 1` of a vector. -/
def Mem.fill (b : Buf) (x : Nat) : Nat → Nat → Mem → Option Mem
  | 0, _, m => some m
  | n + 1, i, m =>
    match m.write b i x with
    | some m1 => Mem.fill b x n (i + 1) m1
    | none => none

/-- First loop of `add` (`number.h`), `n` rounds with the iterators `oit`, `lit`, `rit` at
the positions `oi`, `li`, `ri`: `old = *lit; *oit = *lit + *rit + carry;
carry = carry ? *oit <= old : *oit < old`. -/
def addLoop1 (W : Nat) (ob lb rb : Buf) : Nat → Nat → Nat → Nat → Nat → Mem → Option (Mem × Nat)
  | 0, _, _, _, carry, m => some (m, carry)
  | n + 1, oi, li, ri, carry, m =>
    match m.read lb li, m.read rb ri with
    | some x, some y =>
      let o := (x + y + carry) % base W
      match m.write ob oi o with
      | some m1 =>
        let c1 := if carry ≠ 0 then (if o ≤ x then 1 else 0) else (if o < x then 1 else 0)
        addLoop1 W ob lb rb n (oi + 1) (li + 1) (ri + 1) c1 m1
      | none => none
    | _, _ => none

/-- Second and third loop of `add` over the `n` digits of `lhs` that remain:
while `carry`, `*oit = *lit + 1; carry = *oit == 0`; afterwards `*oit = *lit`. -/
def addLoop23 (W : Nat) (ob lb : Buf) : Nat → Nat → Nat → Nat → Mem → Option (Mem × Nat)
  | 0, _, _, carry, m => some (m, carry)
  | n + 1, oi, li, carry, m =>
    match m.read lb li with
    | some x =>
      let o := if carry ≠ 0 then (x + 1) % base W else x
      match m.write ob oi o with
      | some m1 =>
        addLoop23 W ob lb n (oi + 1) (li + 1) (if carry ≠ 0 ∧ o = 0 then 1 else 0) m1
      | none => none
    | none => none

/-- Model of `add<T, clear>(out, lhs, rhs)` on windows in memory: the new memory and the
returned flag.  When `rhs` is longer than `lhs`, the first loop moves `lit` past
`lhs.end()` and the loops on `lit != lhs.end()` run off the vector; likewise the `clear`
part when `oit` is past `out.end()`. -/
def add (W : Nat) (clear : Bool) (out lhs rhs : Win) (m : Mem) : Res (Mem × Bool) :=
  if rhs.size > lhs.size then Res.fault
  else
    (Res.ofOption (addLoop1 W out.buf lhs.buf rhs.buf rhs.size out.lo lhs.lo rhs.lo 0 m)).bind
      fun r1 =>
    (Res.ofOption (addLoop23 W out.buf lhs.buf (lhs.size - rhs.size) (out.lo + rhs.size)
      (lhs.lo + rhs.size) r1.2 r1.1)).bind fun r2 =>
    let oi := out.lo + lhs.size
    if clear ∧ oi ≠ out.hi then
      if oi > out.hi then Res.fault
      else
        (Res.ofOption (r2.1.write out.buf oi r2.2)).bind fun m3 =>
        (Res.ofOption (Mem.fill out.buf 0 (out.hi - (oi + 1)) (oi + 1) m3)).bind fun m4 =>
        Res.ok (m4, false)
    else Res.ok (r2.1, decide (r2.2 ≠ 0))

/-- First loop of `sub` (`number.h`), `n` rounds: `old = *lit; *oit = *lit - *rit - borrow;
borrow = borrow ? *oit >= old : *oit > old`. -/
def subLoop1 (W : Nat) (ob lb rb : Buf) :
    Nat → Nat → Nat → Nat → Bool → Mem → Option (Mem × Bool)
  | 0, _, _, _, borrow, m => some (m, borrow)
  | n + 1, oi, li, ri, borrow, m =>
    match m.read lb li, m.read rb ri with
    | some x, some y =>
      let o := (x + 2 * base W - y % base W - borrow.toNat) % base W
      match m.write ob oi o with
      | some m1 =>
        let b1 := if borrow then decide (o ≥ x) else decide (o > x)
        subLoop1 W ob lb rb n (oi + 1) (li + 1) (ri + 1) b1 m1
      | none => none
    | _, _ => none

/-- Second and third loop of `sub` over the `n` digits of `lhs` that remain: while `borrow`,
`old = *lit; *oit = *lit - 1; borrow = *oit >= old`; afterwards `*oit = *lit`. -/
def subLoop23 (W : Nat) (ob lb : Buf) : Nat → Nat → Nat → Bool → Mem → Option (Mem × Bool)
  | 0, _, _, borrow, m => some (m, borrow)
  | n + 1, oi, li, borrow, m =>
    match m.read lb li with
    | some x =>
      let o := if borrow then (x + base W - 1) % base W else x
      match m.write ob oi o with
      | some m1 => subLoop23 W ob lb n (oi + 1) (li + 1) (borrow && decide (o ≥ x)) m1
      | none => none
    | none => none

/-- Model of `sub(out, lhs, rhs)` on windows in memory: the new memory and the returned
borrow.  When `rhs` is longer than `lhs` the loops on `lit != lhs.end()` run off the
vector. -/
def sub (W : Nat) (out lhs rhs : Win) (m : Mem) : Res (Mem × Bool) :=
  if rhs.size > lhs.size then Res.fault
  else
    (Res.ofOption (subLoop1 W out.buf lhs.buf rhs.buf rhs.size out.lo lhs.lo rhs.lo false m)).bind
      fun r1 =>
    Res.ofOption (subLoop23 W out.buf lhs.buf (lhs.size - rhs.size) (out.lo + rhs.size)
      (lhs.lo + rhs.size) r1.2 r1.1)

/-- The loop of `mul_scalar`, `n` rounds: `res = (uint64_t) *it * scalar_ext + spill;
*oit = (T) res; spill = res >> down` with `down = 64 - bitlen<T>`. -/
def mulScalarLoop (W scalar : Nat) (ob ib : Buf) :
    Nat → Nat → Nat → Nat → Mem → Option (Mem × Nat)
  | 0, _, _, spill, m => some (m, spill)
  | n + 1, oi, ii, spill, m =>
    match m.read ib ii with
    | some x =>
      let res := (x * scalar + spill) % 2 ^ 64
      match m.write ob oi (res % base W) with
      | some m1 => mulScalarLoop W scalar ob ib n (oi + 1) (ii + 1) (res / 2 ^ (64 - W)) m1
      | none => none
    | none => none

/-- Model of `mul_scalar(out, input, scalar)`: the loop, then `if (spill) *oit = (T) spill`. -/
def mul_scalar (W : Nat) (out input : Win) (scalar : Nat) (m : Mem) : Res Mem :=
  (Res.ofOption (mulScalarLoop W scalar out.buf input.buf input.size out.lo input.lo 0 m)).bind
    fun r =>
  if r.2 ≠ 0 then Res.ofOption (r.1.write out.buf (out.lo + input.size) (r.2 % base W))
  else Res.ok r.1


/-- Model of `mul<T, cleanup>(out, lhs, rhs, scratch)` of `mulnum_karatsuba.h`; `fuel` bounds the
depth of the recursion.  The steps follow the source: the two base cases on one-digit
operands; the split of both operands at `halfsize`; the half-sums `lhs_loup` and
`rhs_loup` in the scratch arena (`add<T, true>`, and on a carry the window grows by one
digit set to 1); the window `z3` behind them, zeroed when `cleanup` is set, and the
`workspace` behind `z3`; the three recursive calls for `z3`, `z0` (the first
`2 * halfsize` digits of `out`) and `z2` (the rest of `out`); `z3 -= z2`, `z3 -= z0`; and
the final `add` of `z3` into `out` from position `halfsize` on.  When `2 * halfsize`
exceeds the size of `out`, the window `z2` begins behind its end and the loop of `sub`
over it runs off the vector. -/
def mul (W : Nat) : Nat → Bool → Win → Win → Win → Win → Mem → Res Mem
  | 0, _, _, _, _, _, _ => Res.timeout
  | fuel + 1, cleanup, out, lhs, rhs, scratch, m =>
    if lhs.size = 0 ∨ rhs.size = 0 then Res.ok m
    else if rhs.size = 1 then
      (Res.ofOption (m.read rhs.buf rhs.lo)).bind fun s => mul_scalar W out lhs s m
    else if lhs.size = 1 then
      (Res.ofOption (m.read lhs.buf lhs.lo)).bind fun s => mul_scalar W out rhs s m
    else
      let halfsize := (max lhs.size rhs.size + 1) / 2
      let lhs_hit := if lhs.size ≥ halfsize then lhs.lo + halfsize else lhs.hi
      let rhs_hit := if rhs.size ≥ halfsize then rhs.lo + halfsize else rhs.hi
      let lhs_lower : Win := ⟨lhs.buf, lhs.lo, lhs_hit⟩
      let lhs_upper : Win := ⟨lhs.buf, lhs_hit, lhs.hi⟩
      let rhs_lower : Win := ⟨rhs.buf, rhs.lo, rhs_hit⟩
      let rhs_upper : Win := ⟨rhs.buf, rhs_hit, rhs.hi⟩
      let slo := scratch.lo
      let shi := slo + halfsize
      (if lhs_upper.size ≥ lhs_lower.size
        then add W true ⟨scratch.buf, slo, shi⟩ lhs_upper lhs_lower m
        else add W true ⟨scratch.buf, slo, shi⟩ lhs_lower lhs_upper m).bind fun a1 =>
      (if a1.2 then
          (Res.ofOption (a1.1.write scratch.buf shi 1)).bind fun m1 => Res.ok (m1, shi + 1)
        else Res.ok (a1.1, shi)).bind fun p1 =>
      let lhs_loup : Win := ⟨scratch.buf, slo, p1.2⟩
      let slo2 := p1.2
      let shi2 := slo2 + halfsize
      (if rhs_upper.size ≥ rhs_lower.size
        then add W true ⟨scratch.buf, slo2, shi2⟩ rhs_upper rhs_lower p1.1
        else add W true ⟨scratch.buf, slo2, shi2⟩ rhs_lower rhs_upper p1.1).bind fun a2 =>
      (if a2.2 then
          (Res.ofOption (a2.1.write scratch.buf shi2 1)).bind fun m2 => Res.ok (m2, shi2 + 1)
        else Res.ok (a2.1, shi2)).bind fun p2 =>
      let rhs_loup : Win := ⟨scratch.buf, slo2, p2.2⟩
      let slo3 := p2.2
      let shi3 := slo3 + (max lhs_loup.size rhs_loup.size + 1) * 2
      let z3 : Win := ⟨scratch.buf, slo3, shi3⟩
      (if cleanup then Res.ofOption (Mem.fill scratch.buf 0 z3.size slo3 p2.1)
        else Res.ok p2.1).bind fun m3 =>
      let workspace : Win := ⟨scratch.buf, shi3, scratch.hi⟩
      (mul W fuel true z3 lhs_loup rhs_loup workspace m3).bind fun m4 =>
      let out_mid := out.lo + halfsize * 2
      if out_mid > out.hi then Res.fault
      else
        let z0 : Win := ⟨out.buf, out.lo, out_mid⟩
        (mul W fuel true z0 lhs_lower rhs_lower workspace m4).bind fun m5 =>
        let z2 : Win := ⟨out.buf, out_mid, out.hi⟩
        (mul W fuel true z2 lhs_upper rhs_upper workspace m5).bind fun m6 =>
        (sub W z3 z3 z2 m6).bind fun s1 =>
        (sub W z3 z3 z0 s1.1).bind fun s2 =>
        let z0z2_shifted : Win := ⟨out.buf, out.lo + halfsize, out.hi⟩
        (if z0z2_shifted.size ≥ z3.size
          then add W false z0z2_shifted z0z2_shifted z3 s2.1
          else add W false z0z2_shifted z3 z0z2_shifted s2.1).bind fun a3 =>
        Res.ok a3.1

/-- Model of `operator*` of `mulnum_karatsuba.h`: `out` has `(maxsize + 1) << 1` zero digits,
`scratch` has `out.size() << 3` zero digits, `mul<T>` (without `cleanup`) runs on the
whole vectors, and the result is `num_t(out)`, normalised by `full_reduce`. -/
def op_mul (W fuel : Nat) (lhs rhs : List Nat) : Res (List Nat) :=
  let maxsize := max lhs.length rhs.length
  let out := List.replicate ((maxsize + 1) * 2) 0
  let scratch := List.replicate (out.length * 8) 0
  (mul W fuel false ⟨Buf.out, 0, out.length⟩ ⟨Buf.lhs, 0, lhs.length⟩ ⟨Buf.rhs, 0, rhs.length⟩
    ⟨Buf.scratch, 0, scratch.length⟩ ⟨lhs, rhs, out, scratch⟩).bind
    fun m => Res.ok (full_reduce m.out)

end Karatsuba

namespace Big

/-! ## The windows of `operator&=` and `operator|=` -/

/-- Whether the loop shared by `bitwise_and(out, lhs, rhs)` and `bitwise_or(out, lhs, rhs)`
dereferences an iterator outside its window: the loop runs over `lhs`, and every round
reads `*rit` and writes `*oit`, so it leaves a window when `out` or `rhs` ends before
`lhs`. -/
def bitwise_leaves_window : List Nat → List Nat → List Nat → Bool
  | _ :: out, _ :: lhs, _ :: rhs => bitwise_leaves_window out lhs rhs
  | _, [], _ => false
  | _, _ :: _, _ => true

/-- The windows `(out, lhs, rhs)` that `operator&=` passes to `bitwise_and`:
`value.resize(other.value.size())` when `value` is longer, then
`bitwise_and(value, other.value, value)`. -/
def op_and_windows (v other : List Nat) : List Nat × List Nat × List Nat :=
  let v1 := if v.length > other.length then resize v other.length else v
  (v1, other, v1)

/-- The windows `(out, lhs, rhs)` that `operator|=` passes to `bitwise_or`:
`value.resize(other.value.size())` when `value` is shorter, then
`bitwise_or(value, value, other.value)`. -/
def op_or_windows (v other : List Nat) : List Nat × List Nat × List Nat :=
  let v1 := if v.length < other.length then resize v other.length else v
  (v1, v1, other)

/-- The call of `bitwise_and` made by `operator&=` stays inside its windows. -/
def op_and_defined (v other : List Nat) : Prop :=
  bitwise_leaves_window (op_and_windows v other).1 (op_and_windows v other).2.1
    (op_and_windows v other).2.2 = false

instance (v other : List Nat) : Decidable (op_and_defined v other) := by
  unfold op_and_defined; infer_instance

/-- The call of `bitwise_or` made by `operator|=` stays inside its windows. -/
def op_or_defined (v other : List Nat) : Prop :=
  bitwise_leaves_window (op_or_windows v other).1 (op_or_windows v other).2.1
    (op_or_windows v other).2.2 = false

instance (v other : List Nat) : Decidable (op_or_defined v other) := by
  unfold op_or_defined; infer_instance

end Big

namespace MatmulStrassen
open Big

/-- The literal product of two 2x2 matrices with eight multiplications, as written in
`M2x2::operator*` of `matmul_simple.cpp`, on `Int` entries: the product the Strassen
`M2x2::operator*` is compared with. -/
def M2x2.mulLiteral (a o : M2x2) : M2x2 :=
  { e00 := (a.e00.mul o.e00).add (a.e01.mul o.e10)
    e01 := (a.e00.mul o.e01).add (a.e01.mul o.e11)
    e10 := (a.e10.mul o.e00).add (a.e11.mul o.e10)
    e11 := (a.e10.mul o.e01).add (a.e11.mul o.e11) }

end MatmulStrassen

namespace Karatsuba
open Big

/-- The three windows passed to one call of `add` or `sub`. -/
structure Call where
  out : Win
  lhs : Win
  rhs : Win
deriving DecidableEq

/-- The precondition of `add` and `sub` in `number.h` (`assumes lengths of arguments
descend`): `|out| ≥ |lhs| ≥ |rhs|`. -/
def Call.Descends (c : Call) : Prop := c.rhs.size ≤ c.lhs.size ∧ c.lhs.size ≤ c.out.size

instance (c : Call) : Decidable c.Descends := by
  unfold Call.Descends; infer_instance

/-- Sequencing of runs that record their calls: the calls made so far are kept when a
run faults. -/
def logBind {α β : Type} (x : List Call × Res α) (f : α → List Call × Res β) :
    List Call × Res β :=
  match x.2 with
  | Res.ok a => (x.1 ++ (f a).1, (f a).2)
  | Res.fault => (x.1, Res.fault)
  | Res.timeout => (x.1, Res.timeout)

/-- The function `mul<T, cleanup>` of `mulnum_karatsuba.h` as in `mul`, step for step,
together with the windows of the calls `sub<T>(z3, z3, z2)`, `sub<T>(z3, z3, z0)` and of
the final `add<T>` of every frame, in the order of execution. -/
def mul_calls (W : Nat) : Nat → Bool → Win → Win → Win → Win → Mem → List Call × Res Mem
  | 0, _, _, _, _, _, _ => ([], Res.timeout)
  | fuel + 1, cleanup, out, lhs, rhs, scratch, m =>
    if lhs.size = 0 ∨ rhs.size = 0 then ([], Res.ok m)
    else if rhs.size = 1 then
      ([], (Res.ofOption (m.read rhs.buf rhs.lo)).bind fun s => mul_scalar W out lhs s m)
    else if lhs.size = 1 then
      ([], (Res.ofOption (m.read lhs.buf lhs.lo)).bind fun s => mul_scalar W out rhs s m)
    else
      let halfsize := (max lhs.size rhs.size + 1) / 2
      let lhs_hit := if lhs.size ≥ halfsize then lhs.lo + halfsize else lhs.hi
      let rhs_hit := if rhs.size ≥ halfsize then rhs.lo + halfsize else rhs.hi
      let lhs_lower : Win := ⟨lhs.buf, lhs.lo, lhs_hit⟩
      let lhs_upper : Win := ⟨lhs.buf, lhs_hit, lhs.hi⟩
      let rhs_lower : Win := ⟨rhs.buf, rhs.lo, rhs_hit⟩
      let rhs_upper : Win := ⟨rhs.buf, rhs_hit, rhs.hi⟩
      let slo := scratch.lo
      let shi := slo + halfsize
      logBind ([], if lhs_upper.size ≥ lhs_lower.size
        then add W true ⟨scratch.buf, slo, shi⟩ lhs_upper lhs_lower m
        else add W true ⟨scratch.buf, slo, shi⟩ lhs_lower lhs_upper m) fun a1 =>
      logBind ([], if a1.2 then
          (Res.ofOption (a1.1.write scratch.buf shi 1)).bind fun m1 => Res.ok (m1, shi + 1)
        else Res.ok (a1.1, shi)) fun p1 =>
      let lhs_loup : Win := ⟨scratch.buf, slo, p1.2⟩
      let slo2 := p1.2
      let shi2 := slo2 + halfsize
      logBind ([], if rhs_upper.size ≥ rhs_lower.size
        then add W true ⟨scratch.buf, slo2, shi2⟩ rhs_upper rhs_lower p1.1
        else add W true ⟨scratch.buf, slo2, shi2⟩ rhs_lower rhs_upper p1.1) fun a2 =>
      logBind ([], if a2.2 then
          (Res.ofOption (a2.1.write scratch.buf shi2 1)).bind fun m2 => Res.ok (m2, shi2 + 1)
        else Res.ok (a2.1, shi2)) fun p2 =>
      let rhs_loup : Win := ⟨scratch.buf, slo2, p2.2⟩
      let slo3 := p2.2
      let shi3 := slo3 + (max lhs_loup.size rhs_loup.size + 1) * 2
      let z3 : Win := ⟨scratch.buf, slo3, shi3⟩
      logBind ([], if cleanup then Res.ofOption (Mem.fill scratch.buf 0 z3.size slo3 p2.1)
        else Res.ok p2.1) fun m3 =>
      let workspace : Win := ⟨scratch.buf, shi3, scratch.hi⟩
      logBind (mul_calls W fuel true z3 lhs_loup rhs_loup workspace m3) fun m4 =>
      let out_mid := out.lo + halfsize * 2
      if out_mid > out.hi then ([], Res.fault)
      else
        let z0 : Win := ⟨out.buf, out.lo, out_mid⟩
        logBind (mul_calls W fuel true z0 lhs_lower rhs_lower workspace m4) fun m5 =>
        let z2 : Win := ⟨out.buf, out_mid, out.hi⟩
        logBind (mul_calls W fuel true z2 lhs_upper rhs_upper workspace m5) fun m6 =>
        logBind ([⟨z3, z3, z2⟩], sub W z3 z3 z2 m6) fun s1 =>
        logBind ([⟨z3, z3, z0⟩], sub W z3 z3 z0 s1.1) fun s2 =>
        let z0z2_shifted : Win := ⟨out.buf, out.lo + halfsize, out.hi⟩
        logBind (if z0z2_shifted.size ≥ z3.size
          then ([⟨z0z2_shifted, z0z2_shifted, z3⟩], add W false z0z2_shifted z0z2_shifted z3 s2.1)
          else ([⟨z0z2_shifted, z3, z0z2_shifted⟩], add W false z0z2_shifted z3 z0z2_shifted s2.1))
          fun a3 =>
        ([], Res.ok a3.1)

end Karatsuba

/-! ## `num/mulnum_fft.h` -/

namespace Fft
open Big

/-- The loop of `pow2ceil`: `do { y = x; } while (x &= x - 1);` on `size_t` (64 bits, so
`x - 1` wraps at `x = 0`); the result is the last `y`.  Every round clears the lowest set
bit of `x`, so the body runs at most 64 times; `fuel` counts the runs of the body. -/
def pow2ceilLoop : Nat → Nat → Nat
  | 0, x => x
  | fuel + 1, x =>
    if x &&& ((x + 2 ^ 64 - 1) % 2 ^ 64) ≠ 0 then
      pow2ceilLoop fuel (x &&& ((x + 2 ^ 64 - 1) % 2 ^ 64))
    else x

/-- Model of `pow2ceil(x)`: the loop, then `return y << 1` in `size_t`. -/
def pow2ceil (x : Nat) : Nat := (pow2ceilLoop 64 x * 2) % 2 ^ 64

/-- Model of `size_t size = pow2ceil(std::max(lhs.value.size(), rhs.value.size()) << 1)`
in `operator*`, as a function of the two lengths. -/
def transform_size (l r : Nat) : Nat := pow2ceil ((max l r * 2) % 2 ^ 64)

/-- The loop of `inc_rev(x, top_bit)`: `while (x & (top_bit >>= 1)) { x ^= top_bit; }` and
then `x |= top_bit`.  `top_bit` is a `size_t`, so it is zero after 64 shifts and the
condition is evaluated at most 64 times; `fuel` counts the evaluations. -/
def inc_revLoop : Nat → Nat → Nat → Nat
  | 0, x, _ => x
  | fuel + 1, x, top_bit =>
    if x &&& (top_bit >>> 1) ≠ 0 then
      inc_revLoop fuel (x ^^^ (top_bit >>> 1)) (top_bit >>> 1)
    else x ||| (top_bit >>> 1)

/-- Model of `inc_rev(x, top_bit)`: the new value of `x`. -/
def inc_rev (x top_bit : Nat) : Nat := inc_revLoop 64 x top_bit

/-- The loop of `bit_reverse_shuffle`: for every element `x[i]`, `out[ri] = complex(x[i])`
and then `inc_rev(ri, pow2size)`.  `conv` is the conversion to the element type of
`out`.  An index `ri` outside `out` (which the C++ does not check) leaves `out` as it
is. -/
def shuffleLoop {α β : Type} (conv : α → β) (pow2size : Nat) : List α → Nat → List β → List β
  | [], _, out => out
  | xi :: xs, ri, out =>
    shuffleLoop conv pow2size xs (inc_rev ri pow2size) (out.set ri (conv xi))

/-- Model of `bit_reverse_shuffle(x, pow2size)`: `out` starts as `pow2size` copies of
`zero` (the value-initialised `complex`). -/
def bit_reverse_shuffle {α β : Type} (conv : α → β) (zero : β) (x : List α) (pow2size : Nat) :
    List β :=
  shuffleLoop conv pow2size x 0 (List.replicate pow2size zero)

/-- The `k`-bit reversal of `i`: bit `j` of `i` becomes bit `k - 1 - j`, for `j < k`. -/
def bitrev : Nat → Nat → Nat
  | 0, _ => 0
  | k + 1, i => (i % 2) * 2 ^ k + bitrev k (i / 2)

/-- First loop of `fold` (the same in `mulnum_fft.h` and `mulnum_dft.h`): for every `xi`,
`sum = xi + spill` in `uint64_t`, the byte `(uint8_t) sum` is appended and
`spill = sum >> 8`.  Returns the bytes and the final spill. -/
def foldLoop : List Nat → Nat → List Nat × Nat
  | [], spill => ([], spill)
  | xi :: x, spill =>
    let sum := (xi + spill) % 2 ^ 64
    let r := foldLoop x (sum / 2 ^ 8)
    (sum % 2 ^ 8 :: r.1, r.2)

/-- Second loop of `fold`: `while (spill) { out.emplace_back((uint8_t) spill); spill >>= 8; }`.
A `uint64_t` is zero after 8 rounds; `fuel` counts the rounds. -/
def foldSpill : Nat → Nat → List Nat
  | 0, _ => []
  | fuel + 1, spill => if spill ≠ 0 then spill % 2 ^ 8 :: foldSpill fuel (spill / 2 ^ 8) else []

/-- Model of `fold(x)`. -/
def fold (x : List Nat) : List Nat :=
  let r := foldLoop x 0
  r.1 ++ foldSpill 8 r.2

end Fft

namespace Fft
open Big

/-- The operations on `complex = std::complex<double>` that `mulnum_fft.h` uses.  The
model leaves floating-point arithmetic uninterpreted: the functions of the header take the
operations as a parameter. -/
structure ComplexOps (C : Type) where
  /-- The value-initialised `complex` of `std::vector<complex> out(pow2size)`. -/
  zero : C
  /-- The literal `complex coef(1)`. -/
  one : C
  /-- The conversion `complex(x[i])` of a digit. -/
  ofDigit : Nat → C
  /-- Complex addition `u + t`. -/
  add : C → C → C
  /-- Complex subtraction `u - t`. -/
  sub : C → C → C
  /-- Complex multiplication. -/
  mul : C → C → C
  /-- The division `xi /= x.size()`. -/
  divSize : C → Nat → C
  /-- The function `primitive_root<inv>(N)`. -/
  primitive_root : Bool → Nat → C
  /-- The conversion `static_cast<uint64_t>(std::round(xi.real()))`. -/
  roundReal : C → Nat

/-- Model of `from_complex(x)`: every element is rounded to a `uint64_t`.  (The loop on
`top_bit` in the source computes a value that is not used.) -/
def from_complex {C : Type} (ops : ComplexOps C) (x : List C) : List Nat :=
  x.map ops.roundReal

/-- Innermost loop of `fft`, `cnt` rounds from `j`: `t = coef * x[k + j + m2];
u = x[k + j]; x[k + j] = u + t; x[k + j + m2] = u - t; coef *= omega`. -/
def fftButterflies {C : Type} (ops : ComplexOps C) (omega : C) (k m2 : Nat) :
    Nat → Nat → C → List C → List C
  | 0, _, _, x => x
  | cnt + 1, j, coef, x =>
    let t := ops.mul coef (x.getD (k + j + m2) ops.zero)
    let u := x.getD (k + j) ops.zero
    fftButterflies ops omega k m2 cnt (j + 1) (ops.mul coef omega)
      ((x.set (k + j) (ops.add u t)).set (k + j + m2) (ops.sub u t))

/-- Middle loop of `fft`: `for (k = 0; k < x.size(); k += m)`, with `coef(1)` and
`m2 = m >> 1` for every block; `cnt` bounds the number of blocks. -/
def fftBlocks {C : Type} (ops : ComplexOps C) (omega : C) (m : Nat) :
    Nat → Nat → List C → List C
  | 0, _, x => x
  | cnt + 1, k, x =>
    if k < x.length then
      fftBlocks ops omega m cnt (k + m) (fftButterflies ops omega k (m / 2) (m / 2) 0 ops.one x)
    else x

/-- Outer loop of `fft`: `for (m = 2; m <= x.size(); m <<= 1)` with
`omega = primitive_root<dft_type == dft_t::normal>(m)`; `fuel` bounds the number of
stages. -/
def fftStages {C : Type} (ops : ComplexOps C) (inverse : Bool) : Nat → Nat → List C → List C
  | 0, _, x => x
  | fuel + 1, m, x =>
    if m ≤ x.length then
      fftStages ops inverse fuel ((m * 2) % 2 ^ 64)
        (fftBlocks ops (ops.primitive_root (!inverse) m) m x.length 0 x)
    else x

/-- Model of `fft<dft_type>(x)`: the stages, and for the inverse transform the division of
every element by `x.size()`. -/
def fft {C : Type} (ops : ComplexOps C) (inverse : Bool) (x : List C) : List C :=
  let y := fftStages ops inverse 64 2 x
  if inverse then y.map (fun xi => ops.divSize xi x.length) else y

/-- Model of `operator*` of `mulnum_fft.h` on vectors of 8-bit digits: the transform length,
the shuffled and transformed operands, the pointwise products `lc[i] *= rc[i]`, the
shuffled inverse transform, and `num_t(fold(from_complex(conv)))`, which the constructor
normalises. -/
def op_mul {C : Type} (ops : ComplexOps C) (lhs rhs : List Nat) : List Nat :=
  let size := transform_size lhs.length rhs.length
  let lc := fft ops false (bit_reverse_shuffle ops.ofDigit ops.zero lhs size)
  let rc := fft ops false (bit_reverse_shuffle ops.ofDigit ops.zero rhs size)
  let prod := List.zipWith ops.mul lc rc
  let conv := fft ops true (bit_reverse_shuffle id ops.zero prod size)
  full_reduce (fold (from_complex ops conv))

end Fft

namespace FieldExt
open Big

/-- One product of the loop of `fibonacci` in `field_ext.cpp`: the two operands of
`Zrt5::operator*` and the product it returns, before `>>= 1`. -/
structure Product where
  lhs : Zrt5
  rhs : Zrt5
  prod : Zrt5

/-- The loop of `fibonacci` as in `loop`, recording the products `fib * step` (of
`fib *= step`, when the lowest bit of `n` is set) and `step * step` (of `step *= step`) of
every round, in the order of execution. -/
def loop_products (opMul : List Nat → List Nat → List Nat) :
    Nat → List Nat → Zrt5 → Zrt5 → List Product
  | 0, _, _, _ => []
  | fuel + 1, n, fib, step =>
    if op_cmp n (ofInt 64 32 0) = Ordering.gt then
      let odd := !(op_eq (op_and n (ofInt 64 32 1)) (ofInt 64 32 0))
      let fib1 := if odd then (Zrt5.mul opMul fib step).shr_assign 1 else fib
      (if odd then [Product.mk fib step (Zrt5.mul opMul fib step)] else []) ++
        Product.mk step step (Zrt5.mul opMul step step) ::
          loop_products opMul fuel (op_shr_assign 64 n 1) fib1
            ((Zrt5.mul opMul step step).shr_assign 1)
    else []

end FieldExt

namespace Big

/-- The 64-bit sums `*oit + *it * scalar_ext + spill` of the main loop of `muladd`, one for
every round, as numbers before the reduction modulo `2^64`; the spill handed to the next
round is the machine one. -/
def muladdSums (W scalar : Nat) : List Nat → List Nat → Nat → List Nat
  | _, [], _ => []
  | [], _ :: _, _ => []
  | o :: out, x :: inp, spill =>
    (o + x * scalar + spill) ::
      muladdSums W scalar out inp (((o + x * scalar + spill) % 2 ^ 64) / 2 ^ (64 - W))

/-- What one call of `muladd<T, false>` does: the length of its window, the sums of the
main loop, the final spill, the digit `old = *oit` the spill is added to (`none` when
`oit` is at the end of the window), whether `*oit < old` held afterwards, so that the
branch `++oit; return ++*oit == 0` ran, and whether a digit outside the window was
accessed. -/
structure MuladdTrace where
  window : Nat
  sums : List Nat
  spill : Nat
  old : Option Nat
  carried : Bool
  outside : Bool
deriving DecidableEq

/-- The trace of `muladd<T, false>(out, input, scalar)`. -/
def muladd_trace (W : Nat) (out input : List Nat) (scalar : Nat) : MuladdTrace :=
  let r := muladdLoop W scalar out input 0
  { window := out.length
    sums := muladdSums W scalar out input 0
    spill := r.2.2
    old := r.2.1.head?
    carried :=
      if r.2.2 ≠ 0 then
        match r.2.1 with
        | [] => false
        | old :: _ => decide ((old + r.2.2 % base W) % base W < old)
      else false
    outside := (muladd W false out input scalar).2.2 }

/-- The traces of the calls of `muladd<T, false>` in `mul(out, lhs, rhs)`, one for every
digit of `rhs`. -/
def mul_trace (W : Nat) : List Nat → List Nat → List Nat → List MuladdTrace
  | _, _, [] => []
  | out, lhs, y :: rhs =>
    muladd_trace W out lhs y ::
      match (muladd W false out lhs y).1 with
      | [] => []
      | _ :: out1 => mul_trace W out1 lhs rhs

end Big

namespace Karatsuba
open Big

/-- Every digit of the four vectors is below `2^W`. -/
def Mem.WF (W : Nat) (m : Mem) : Prop :=
  Big.WF W m.lhs ∧ Big.WF W m.rhs ∧ Big.WF W m.out ∧ Big.WF W m.scratch

/-- The memories `m` and `m1` hold the same digits outside the positions `lo`, `lo + 1`,
... of the vector `b`. -/
def Mem.SameBelow (b : Buf) (lo : Nat) (m m1 : Mem) : Prop :=
  ∀ b1 j, (b1 ≠ b ∨ j < lo) → m1.read b1 j = m.read b1 j

/-- The window holds a half-sum that carried out of a one-digit upper half: its top digit
is `1` and the digit below is not the largest digit. -/
def CarryShape (W : Nat) (m : Mem) (w : Win) : Prop :=
  ∃ d, m.read w.buf (w.hi - 2) = some d ∧ d + 1 < base W ∧ m.read w.buf (w.hi - 1) = some 1

/-- A condition under which the half-sum of the operand `op`, split at `halfsize`, does not
carry: the operand has no upper half, or its upper half is the single digit `1` on top of
a digit that is not the largest one, and the operand lies outside the scratch positions
from `slo` on of the vector `sb`. -/
def NoCarry (W : Nat) (m : Mem) (op : Win) (halfsize : Nat) (sb : Buf) (slo : Nat) : Prop :=
  op.size ≤ halfsize ∨
    (op.size = halfsize + 1 ∧ CarryShape W m op ∧ (op.buf ≠ sb ∨ op.hi ≤ slo))

/-- Sequencing of runs that record the scratch windows they carve: the windows recorded
so far are kept when a run faults. -/
def carveBind {α β : Type} (x : List Win × Res α) (f : α → List Win × Res β) :
    List Win × Res β :=
  match x.2 with
  | Res.ok a => (x.1 ++ (f a).1, (f a).2)
  | Res.fault => (x.1, Res.fault)
  | Res.timeout => (x.1, Res.timeout)

/-- One half-sum of `mul` (the source has this block twice, for `lhs_loup` and for
`rhs_loup`): the window `loup` of `halfsize` digits from `slo` on is carved from the vector
`sb`, `add<T, true>` adds the halves into it (the longer one first), and on a carry the
window grows by one digit, which is set to `1`.  Returns the memory and the end of the
window, and records the window as carved and as grown. -/
def half_sum (W : Nat) (sb : Buf) (slo halfsize : Nat) (lower upper : Win) (m : Mem) :
    List Win × Res (Mem × Nat) :=
  let shi := slo + halfsize
  carveBind ([⟨sb, slo, shi⟩],
    if upper.size ≥ lower.size then add W true ⟨sb, slo, shi⟩ upper lower m
    else add W true ⟨sb, slo, shi⟩ lower upper m) fun a1 =>
  if a1.2 then
    ([⟨sb, slo, shi + 1⟩],
      (Res.ofOption (a1.1.write sb shi 1)).bind fun m1 => Res.ok (m1, shi + 1))
  else ([], Res.ok (a1.1, shi))

/-- The function `mul<T, cleanup>` of `mulnum_karatsuba.h` as in `mul`, step for step,
together with the scratch windows that every frame carves, in the order of execution:
`lhs_loup` (and its grown form after a carry), `rhs_loup` (likewise), `z3` and
`workspace`. -/
def mul_carves (W : Nat) : Nat → Bool → Win → Win → Win → Win → Mem → List Win × Res Mem
  | 0, _, _, _, _, _, _ => ([], Res.timeout)
  | fuel + 1, cleanup, out, lhs, rhs, scratch, m =>
    if lhs.size = 0 ∨ rhs.size = 0 then ([], Res.ok m)
    else if rhs.size = 1 then
      ([], (Res.ofOption (m.read rhs.buf rhs.lo)).bind fun s => mul_scalar W out lhs s m)
    else if lhs.size = 1 then
      ([], (Res.ofOption (m.read lhs.buf lhs.lo)).bind fun s => mul_scalar W out rhs s m)
    else
      let halfsize := (max lhs.size rhs.size + 1) / 2
      let lhs_hit := if lhs.size ≥ halfsize then lhs.lo + halfsize else lhs.hi
      let rhs_hit := if rhs.size ≥ halfsize then rhs.lo + halfsize else rhs.hi
      let lhs_lower : Win := ⟨lhs.buf, lhs.lo, lhs_hit⟩
      let lhs_upper : Win := ⟨lhs.buf, lhs_hit, lhs.hi⟩
      let rhs_lower : Win := ⟨rhs.buf, rhs.lo, rhs_hit⟩
      let rhs_upper : Win := ⟨rhs.buf, rhs_hit, rhs.hi⟩
      carveBind (half_sum W scratch.buf scratch.lo halfsize lhs_lower lhs_upper m) fun p1 =>
      let lhs_loup : Win := ⟨scratch.buf, scratch.lo, p1.2⟩
      carveBind (half_sum W scratch.buf p1.2 halfsize rhs_lower rhs_upper p1.1) fun p2 =>
      let rhs_loup : Win := ⟨scratch.buf, p1.2, p2.2⟩
      let slo3 := p2.2
      let shi3 := slo3 + (max lhs_loup.size rhs_loup.size + 1) * 2
      let z3 : Win := ⟨scratch.buf, slo3, shi3⟩
      carveBind ([z3],
        if cleanup then Res.ofOption (Mem.fill scratch.buf 0 z3.size slo3 p2.1)
        else Res.ok p2.1) fun m3 =>
      let workspace : Win := ⟨scratch.buf, shi3, scratch.hi⟩
      carveBind ([workspace], Res.ok m3) fun _ =>
      carveBind (mul_carves W fuel true z3 lhs_loup rhs_loup workspace m3) fun m4 =>
      let out_mid := out.lo + halfsize * 2
      if out_mid > out.hi then ([], Res.fault)
      else
        let z0 : Win := ⟨out.buf, out.lo, out_mid⟩
        carveBind (mul_carves W fuel true z0 lhs_lower rhs_lower workspace m4) fun m5 =>
        let z2 : Win := ⟨out.buf, out_mid, out.hi⟩
        carveBind (mul_carves W fuel true z2 lhs_upper rhs_upper workspace m5) fun m6 =>
        ([], (sub W z3 z3 z2 m6).bind fun s1 =>
          (sub W z3 z3 z0 s1.1).bind fun s2 =>
          let z0z2_shifted : Win := ⟨out.buf, out.lo + halfsize, out.hi⟩
          (if z0z2_shifted.size ≥ z3.size
            then add W false z0z2_shifted z0z2_shifted z3 s2.1
            else add W false z0z2_shifted z3 z0z2_shifted s2.1).bind fun a3 =>
          Res.ok a3.1)

/-- A window of the scratch vector that lies inside its first `arena` positions. -/
def InArena (arena : Nat) (w : Win) : Prop :=
  w.buf = Buf.scratch ∧ w.lo ≤ w.hi ∧ w.hi ≤ arena

instance (arena : Nat) (w : Win) : Decidable (InArena arena w) := by
  unfold InArena; infer_instance

/-- A run that records windows ends well: every recorded window satisfies `Q`, the run
is not cut by the fuel, and a memory it returns has digits below `2^W`. -/
def Good (Q : Win → Prop) (W : Nat) (x : List Win × Res Mem) : Prop :=
  (∀ w ∈ x.1, Q w) ∧ x.2 ≠ Res.timeout ∧ ∀ m1, x.2 = Res.ok m1 → m1.WF W

/-- The windows of `sb` that begin at `lo` or later and, either end within `K` positions
from `lo`, or end at `hi`, satisfy `Q`: there are `K` free positions for a frame whose
scratch window is `(sb, lo, hi)`. -/
def Space (Q : Win → Prop) (scratch : Win) (K : Nat) : Prop :=
  (∀ lo hi, scratch.lo ≤ lo → lo ≤ hi → hi ≤ scratch.lo + K → Q ⟨scratch.buf, lo, hi⟩) ∧
    ∀ lo, scratch.lo ≤ lo → lo ≤ scratch.lo + K → Q ⟨scratch.buf, lo, scratch.hi⟩

/-- The number of scratch digits that a frame of `mul` with operands of at most `n` digits
uses, together with the frames below it. -/
def scratch_need : Nat → Nat
  | 0 => 0
  | 1 => 0
  | 2 => 16
  | 3 => 40
  | 4 => 54
  | 5 => 72
  | n + 6 => 16 * (n + 6) - 8

end Karatsuba

/-! # Theorems -/

namespace Big

/-! ## Values, width and normal form -/

theorem base_pos (W : Nat) : 0 < base W := Nat.pow_pos (by decide)

theorem value_nil (W : Nat) : value W [] = 0 := rfl

theorem value_cons (W d : Nat) (ds : List Nat) :
    value W (d :: ds) = d + base W * value W ds := Nat.ofDigits_cons

theorem value_append (W : Nat) (l1 l2 : List Nat) :
    value W (l1 ++ l2) = value W l1 + base W ^ l1.length * value W l2 :=
  Nat.ofDigits_append

theorem value_replicate_zero (W n : Nat) : value W (List.replicate n 0) = 0 := by
  induction n with
  | zero => rfl
  | succ n ih => simp [List.replicate_succ, value_cons, ih]

theorem WF_nil (W : Nat) : WF W [] := by
  intro d hd; simp at hd

theorem WF_cons {W d : Nat} {ds : List Nat} : WF W (d :: ds) ↔ d < base W ∧ WF W ds := by
  simp [WF]

theorem WF_append {W : Nat} {l1 l2 : List Nat} : WF W (l1 ++ l2) ↔ WF W l1 ∧ WF W l2 := by
  simp only [WF, List.mem_append]
  constructor
  · intro h; exact ⟨fun d hd => h d (Or.inl hd), fun d hd => h d (Or.inr hd)⟩
  · rintro ⟨h1, h2⟩ d (hd | hd)
    · exact h1 d hd
    · exact h2 d hd

theorem WF_replicate_zero (W n : Nat) : WF W (List.replicate n 0) := by
  intro d hd
  rw [List.eq_of_mem_replicate hd]; exact base_pos W

theorem WF_take {W : Nat} {l : List Nat} (h : WF W l) (n : Nat) : WF W (l.take n) :=
  fun d hd => h d (List.mem_of_mem_take hd)

theorem WF_drop {W : Nat} {l : List Nat} (h : WF W l) (n : Nat) : WF W (l.drop n) :=
  fun d hd => h d (List.mem_of_mem_drop hd)

theorem value_lt {W : Nat} {ds : List Nat} (h : WF W ds) :
    value W ds < base W ^ ds.length := by
  induction ds with
  | nil => simp [value_nil]
  | cons d ds ih =>
    rw [WF_cons] at h
    have h1 := ih h.2
    rw [value_cons, List.length_cons, pow_succ]
    have h2 : base W * (value W ds + 1) ≤ base W * base W ^ ds.length :=
      Nat.mul_le_mul_left _ h1
    have h3 := h.1
    rw [Nat.mul_add, Nat.mul_one] at h2
    rw [Nat.mul_comm (base W ^ ds.length)]
    omega

theorem Normalised_nil : Normalised [] := by simp [Normalised]

theorem Normalised_concat {l : List Nat} {d : Nat} : Normalised (l ++ [d]) ↔ d ≠ 0 := by
  simp [Normalised, List.getLast?_concat]

/-- A non-empty normalised vector is at least `base ^ (length - 1)`. -/
theorem pow_le_value_of_normalised {W : Nat} {ds : List Nat} (hn : Normalised ds)
    (hne : ds ≠ []) : base W ^ (ds.length - 1) ≤ value W ds := by
  rcases List.eq_nil_or_concat ds with h | ⟨l, d, h⟩
  · exact absurd h hne
  · subst h
    rw [List.concat_eq_append] at hn ⊢
    rw [Normalised_concat] at hn
    rw [value_append]
    simp only [List.length_append, List.length_singleton, Nat.add_sub_cancel]
    have : value W [d] = d := by simp [value_cons, value_nil]
    rw [this]
    have hd : 1 ≤ d := Nat.pos_of_ne_zero hn
    calc base W ^ l.length = base W ^ l.length * 1 := (Nat.mul_one _).symm
      _ ≤ base W ^ l.length * d := Nat.mul_le_mul_left _ hd
      _ ≤ value W l + base W ^ l.length * d := Nat.le_add_left _ _

/-- A width-respecting vector that reaches `base ^ (length - 1)` is normalised. -/
theorem normalised_of_pow_le {W : Nat} {ds : List Nat} (hw : WF W ds)
    (h : ds ≠ [] → base W ^ (ds.length - 1) ≤ value W ds) : Normalised ds := by
  rcases List.eq_nil_or_concat ds with h0 | ⟨l, d, h0⟩
  · subst h0; exact Normalised_nil
  · subst h0
    rw [List.concat_eq_append] at h hw ⊢
    rw [Normalised_concat]
    intro hd
    subst hd
    have h1 := h (by simp)
    rw [value_append] at h1
    simp only [List.length_append, List.length_singleton, Nat.add_sub_cancel] at h1
    have h2 := value_lt (WF_append.1 hw).1
    have : value W [0] = 0 := by simp [value_cons, value_nil]
    rw [this] at h1
    omega

theorem value_eq_zero_of_normalised {W : Nat} {ds : List Nat} (hn : Normalised ds)
    (h : value W ds = 0) : ds = [] := by
  by_contra hne
  have h1 := pow_le_value_of_normalised (W := W) hn hne
  have h2 : 0 < base W ^ (ds.length - 1) := Nat.pow_pos (base_pos W)
  omega

/-- Normalised width-respecting vectors are the canonical digits of their value. -/
theorem toDigits_value {W : Nat} {ds : List Nat} (hw : WF W ds) (hn : Normalised ds) :
    toDigits W (value W ds) = ds := by
  rcases Nat.eq_zero_or_pos W with h0 | hpos
  · subst h0
    rcases List.eq_nil_or_concat ds with h | ⟨l, d, h⟩
    · subst h; simp [toDigits, value_nil]
    · subst h
      rw [List.concat_eq_append] at hn hw
      rw [Normalised_concat] at hn
      have := (WF_append.1 hw).2 d (by simp)
      simp [base] at this
      exact absurd this hn
  · have hb : 1 < base W := Nat.one_lt_two_pow (Nat.pos_iff_ne_zero.1 hpos)
    unfold toDigits value
    apply Nat.digits_ofDigits _ hb _ hw
    intro hne
    have := List.getLast?_eq_getLast ds hne
    intro h0
    rw [h0] at this
    exact hn this

theorem eq_of_value_eq {W : Nat} {a b : List Nat} (ha : WF W a) (hb : WF W b)
    (na : Normalised a) (nb : Normalised b) (h : value W a = value W b) : a = b := by
  rw [← toDigits_value ha na, ← toDigits_value hb nb, h]

theorem toDigits_WF {W : Nat} (hW : 0 < W) (n : Nat) : WF W (toDigits W n) := by
  intro d hd
  exact Nat.digits_lt_base (Nat.one_lt_two_pow (Nat.pos_iff_ne_zero.1 hW)) hd

theorem toDigits_normalised (W n : Nat) : Normalised (toDigits W n) := by
  unfold Normalised toDigits
  intro h
  have hne : Nat.digits (base W) n ≠ [] := by
    intro h0; rw [h0] at h; simp at h
  have hn : n ≠ 0 := Nat.digits_ne_nil_iff_ne_zero.1 hne
  have h1 := Nat.getLast_digit_ne_zero (base W) hn
  rw [List.getLast?_eq_getLast _ hne] at h
  exact h1 (Option.some.inj h)

theorem value_toDigits (W n : Nat) : value W (toDigits W n) = n :=
  Nat.ofDigits_digits _ _

/-! ## `reduce_once`, `full_reduce`, `resize` -/

theorem full_reduce_concat (l : List Nat) (d : Nat) :
    full_reduce (l ++ [d]) = if d = 0 then full_reduce l else l ++ [d] := by
  unfold full_reduce
  rw [List.rdropWhile_concat]
  simp

theorem full_reduce_nil : full_reduce [] = [] := rfl

theorem full_reduce_normalised (v : List Nat) : Normalised (full_reduce v) := by
  induction v using List.reverseRecOn with
  | nil => exact Normalised_nil
  | append_singleton l d ih =>
    rw [full_reduce_concat]
    split
    · exact ih
    · next h => exact Normalised_concat.2 h

theorem value_full_reduce (W : Nat) (v : List Nat) : value W (full_reduce v) = value W v := by
  induction v using List.reverseRecOn with
  | nil => rfl
  | append_singleton l d ih =>
    rw [full_reduce_concat]
    split
    · next h => subst h; rw [ih, value_append]; simp [value_cons, value_nil]
    · rfl

theorem WF_full_reduce {W : Nat} {v : List Nat} (h : WF W v) : WF W (full_reduce v) := by
  induction v using List.reverseRecOn with
  | nil => exact h
  | append_singleton l d ih =>
    rw [full_reduce_concat]
    split
    · exact ih (WF_append.1 h).1
    · exact h

theorem full_reduce_of_normalised {v : List Nat} (h : Normalised v) : full_reduce v = v := by
  rcases List.eq_nil_or_concat v with h0 | ⟨l, d, h0⟩
  · subst h0; rfl
  · subst h0
    rw [List.concat_eq_append] at h ⊢
    rw [full_reduce_concat, if_neg (Normalised_concat.1 h)]

theorem full_reduce_length_le (v : List Nat) : (full_reduce v).length ≤ v.length := by
  induction v using List.reverseRecOn with
  | nil => simp [full_reduce_nil]
  | append_singleton l d ih =>
    rw [full_reduce_concat]
    split
    · simp; omega
    · exact Nat.le_refl _

theorem reduce_once_concat (l : List Nat) (d : Nat) :
    reduce_once (l ++ [d]) = if d = 0 then l else l ++ [d] := by
  unfold reduce_once
  rw [List.getLast?_concat, List.dropLast_concat]
  simp

theorem reduce_once_nil : reduce_once [] = [] := by simp [reduce_once]

theorem value_reduce_once (W : Nat) (v : List Nat) : value W (reduce_once v) = value W v := by
  rcases List.eq_nil_or_concat v with h0 | ⟨l, d, h0⟩
  · subst h0; rw [reduce_once_nil]
  · subst h0
    rw [List.concat_eq_append, reduce_once_concat]
    split
    · next h => subst h; rw [value_append]; simp [value_cons, value_nil]
    · rfl

theorem WF_reduce_once {W : Nat} {v : List Nat} (h : WF W v) : WF W (reduce_once v) := by
  unfold reduce_once
  split
  · exact fun d hd => h d (List.mem_of_mem_dropLast hd)
  · exact h

theorem reduce_once_of_normalised {v : List Nat} (h : Normalised v) : reduce_once v = v := by
  unfold reduce_once
  rw [if_neg h]

theorem value_resize {W : Nat} {v : List Nat} {n : Nat} (h : v.length ≤ n) :
    value W (resize v n) = value W v := by
  unfold resize
  rw [List.take_of_length_le h, value_append, value_replicate_zero]
  simp

theorem length_resize (v : List Nat) (n : Nat) : (resize v n).length = n := by
  unfold resize
  simp [List.length_take]
  omega

theorem WF_resize {W : Nat} {v : List Nat} (h : WF W v) (n : Nat) : WF W (resize v n) := by
  unfold resize
  exact WF_append.2 ⟨WF_take h n, WF_replicate_zero W _⟩

/-! ## `add` and `operator+=` -/

theorem mod_cases {a B : Nat} (h : a < 2 * B) :
    (a < B ∧ a % B = a) ∨ (B ≤ a ∧ a % B = a - B) := by
  rcases Nat.lt_or_ge a B with h1 | h1
  · exact Or.inl ⟨h1, Nat.mod_eq_of_lt h1⟩
  · right
    refine ⟨h1, ?_⟩
    rw [Nat.mod_eq_sub_mod h1, Nat.mod_eq_of_lt (by omega)]

/-- One digit of the first loop of `add`. -/
theorem add_step {B x y c : Nat} (hx : x < B) (hy : y < B) (hc : c ≤ 1) :
    (x + y + c) % B < B ∧
    (if c ≠ 0 then (if (x + y + c) % B ≤ x then 1 else 0)
      else (if (x + y + c) % B < x then 1 else 0)) ≤ 1 ∧
    (x + y + c) % B + B * (if c ≠ 0 then (if (x + y + c) % B ≤ x then 1 else 0)
      else (if (x + y + c) % B < x then 1 else 0)) = x + y + c := by
  have hlt : x + y + c < 2 * B := by omega
  rcases mod_cases hlt with ⟨h1, h2⟩ | ⟨h1, h2⟩ <;> rw [h2] <;>
    refine ⟨by omega, by split <;> split <;> omega, ?_⟩
  · have : (if c ≠ 0 then (if x + y + c ≤ x then 1 else 0)
        else (if x + y + c < x then 1 else 0)) = 0 := by
      split <;> split <;> omega
    rw [this]; omega
  · have : (if c ≠ 0 then (if x + y + c - B ≤ x then 1 else 0)
        else (if x + y + c - B < x then 1 else 0)) = 1 := by
      split <;> split <;> omega
    rw [this]; omega

/-- One digit of the second and third loops of `add`. -/
theorem add_carry_step {B x c : Nat} (hx : x < B) (hc : c ≤ 1) :
    (if c ≠ 0 then (x + 1) % B else x) < B ∧
    (if c ≠ 0 ∧ (if c ≠ 0 then (x + 1) % B else x) = 0 then 1 else 0) ≤ 1 ∧
    (if c ≠ 0 then (x + 1) % B else x) +
      B * (if c ≠ 0 ∧ (if c ≠ 0 then (x + 1) % B else x) = 0 then 1 else 0) = x + c := by
  by_cases h0 : c = 0
  · subst h0; simp [hx]
  · have h1 : c = 1 := by omega
    subst h1
    simp only [ne_eq, one_ne_zero, not_false_eq_true, if_true, true_and]
    have hlt : x + 1 < 2 * B := by omega
    rcases mod_cases hlt with ⟨h1, h2⟩ | ⟨h1, h2⟩ <;> rw [h2]
    · refine ⟨h1, by split <;> omega, ?_⟩
      rw [if_neg (by omega)]; omega
    · have : x + 1 - B = 0 := by omega
      rw [this]; simp; omega

theorem addDigits_cons_nil (W x : Nat) (l : List Nat) (c : Nat) :
    addDigits W (x :: l) [] c =
      ((if c ≠ 0 then (x + 1) % base W else x) ::
        (addDigits W l [] (if c ≠ 0 ∧ (if c ≠ 0 then (x + 1) % base W else x) = 0
          then 1 else 0)).1,
       (addDigits W l [] (if c ≠ 0 ∧ (if c ≠ 0 then (x + 1) % base W else x) = 0
          then 1 else 0)).2) := rfl

theorem addDigits_cons_cons (W x : Nat) (l : List Nat) (y : Nat) (r : List Nat) (c : Nat) :
    addDigits W (x :: l) (y :: r) c =
      ((x + y + c) % base W ::
        (addDigits W l r (if c ≠ 0 then (if (x + y + c) % base W ≤ x then 1 else 0)
          else (if (x + y + c) % base W < x then 1 else 0))).1,
       (addDigits W l r (if c ≠ 0 then (if (x + y + c) % base W ≤ x then 1 else 0)
          else (if (x + y + c) % base W < x then 1 else 0))).2) := rfl

theorem addDigits_spec (W : Nat) : ∀ (l r : List Nat) (c : Nat), WF W l → WF W r →
    r.length ≤ l.length → c ≤ 1 →
    (addDigits W l r c).1.length = l.length ∧ WF W (addDigits W l r c).1 ∧
    (addDigits W l r c).2 ≤ 1 ∧
    value W (addDigits W l r c).1 + base W ^ l.length * (addDigits W l r c).2
      = value W l + value W r + c := by
  intro l
  induction l with
  | nil =>
    intro r c _ _ hlen hc
    have : r = [] := List.eq_nil_of_length_eq_zero (by simpa using hlen)
    subst this
    simp [addDigits, value_nil, hc, WF_nil]
  | cons x l ih =>
    intro r c hl hr hlen hc
    rw [WF_cons] at hl
    cases r with
    | nil =>
      obtain ⟨s1, s2, s3⟩ := add_carry_step hl.1 hc
      obtain ⟨i1, i2, i3, i4⟩ := ih [] _ hl.2 (WF_nil W) (Nat.zero_le _) s2
      rw [addDigits_cons_nil]
      refine ⟨by simp only [List.length_cons, i1], WF_cons.2 ⟨s1, i2⟩, i3, ?_⟩
      simp only [value_cons, List.length_cons, pow_succ, value_nil, Nat.add_zero,
        Nat.mul_zero] at i4 ⊢
      have e := congrArg (fun z => base W * z) i4
      simp only [Nat.mul_add] at e
      linarith [e, s3]
    | cons y r =>
      rw [WF_cons] at hr
      obtain ⟨s1, s2, s3⟩ := add_step hl.1 hr.1 hc
      obtain ⟨i1, i2, i3, i4⟩ := ih r _ hl.2 hr.2 (by simpa using hlen) s2
      rw [addDigits_cons_cons]
      refine ⟨by simp only [List.length_cons, i1], WF_cons.2 ⟨s1, i2⟩, i3, ?_⟩
      simp only [value_cons, List.length_cons, pow_succ]
      have e := congrArg (fun z => base W * z) i4
      simp only [Nat.mul_add] at e
      linarith [e, s3]

theorem value_singleton (W d : Nat) : value W [d] = d := by
  simp [value_cons, value_nil]

/-- What `operator+=` computes: `max(|a|,|b|)` low digits and an appended `1` on carry. -/
theorem op_add_assign_spec {W : Nat} {a b : List Nat} (ha : WF W a) (hb : WF W b) :
    ∃ low c, c ≤ 1 ∧ low.length = max a.length b.length ∧ WF W low ∧
      value W low + base W ^ (max a.length b.length) * c = value W a + value W b ∧
      op_add_assign W a b = low ++ (if c ≠ 0 then [1] else []) := by
  have key : ∀ v1 : List Nat, WF W v1 → b.length ≤ v1.length →
      ∃ low c, c ≤ 1 ∧ low.length = v1.length ∧ WF W low ∧
        value W low + base W ^ v1.length * c = value W v1 + value W b ∧
        (if (add W false v1 v1 b).2 then (add W false v1 v1 b).1 ++ [1]
          else (add W false v1 v1 b).1) = low ++ (if c ≠ 0 then [1] else []) := by
    intro v1 hv1 hlen
    obtain ⟨i1, i2, i3, i4⟩ := addDigits_spec W v1 b 0 hv1 hb hlen (Nat.zero_le _)
    refine ⟨(addDigits W v1 b 0).1, (addDigits W v1 b 0).2, i3, i1, i2, by simpa using i4, ?_⟩
    unfold add
    simp only [Bool.false_eq_true, false_and, if_false, i1, List.drop_length,
      List.append_nil]
    by_cases hc : (addDigits W v1 b 0).2 = 0
    · simp [hc]
    · simp [hc]
  unfold op_add_assign
  by_cases h : a.length < b.length
  · simp only [h, if_true]
    obtain ⟨low, c, h1, h2, h3, h4, h5⟩ :=
      key (resize a b.length) (WF_resize ha _) (by rw [length_resize])
    rw [length_resize] at h2 h4
    rw [value_resize (Nat.le_of_lt h)] at h4
    have hm : max a.length b.length = b.length := Nat.max_eq_right (Nat.le_of_lt h)
    exact ⟨low, c, h1, by rw [hm]; exact h2, h3, by rw [hm]; exact h4, h5⟩
  · simp only [h, if_false]
    obtain ⟨low, c, h1, h2, h3, h4, h5⟩ := key a ha (Nat.le_of_not_lt h)
    have hm : max a.length b.length = a.length := Nat.max_eq_left (Nat.le_of_not_lt h)
    exact ⟨low, c, h1, by rw [hm]; exact h2, h3, by rw [hm]; exact h4, h5⟩

theorem value_op_add {W : Nat} {a b : List Nat} (ha : WF W a) (hb : WF W b) :
    value W (op_add W a b) = value W a + value W b := by
  obtain ⟨low, c, h1, h2, h3, h4, h5⟩ := op_add_assign_spec ha hb
  unfold op_add
  rw [h5, value_append, h2, ← h4]
  by_cases hc : c = 0
  · simp [hc, value_nil]
  · have : c = 1 := by omega
    subst this
    simp [value_singleton]

theorem WF_op_add {W : Nat} (hW : 0 < W) {a b : List Nat} (ha : WF W a) (hb : WF W b) :
    WF W (op_add W a b) := by
  obtain ⟨low, c, h1, h2, h3, h4, h5⟩ := op_add_assign_spec ha hb
  unfold op_add
  rw [h5]
  refine WF_append.2 ⟨h3, ?_⟩
  split
  · intro d hd
    simp at hd
    subst hd
    exact Nat.one_lt_two_pow (Nat.pos_iff_ne_zero.1 hW)
  · exact WF_nil W

theorem length_eq_zero_of_WF_zero {a : List Nat} (ha : WF 0 a) (na : Normalised a) :
    a = [] := by
  apply value_eq_zero_of_normalised (W := 0) na
  have := value_lt ha
  simp [base] at this
  exact this

theorem normalised_op_add {W : Nat} {a b : List Nat} (ha : WF W a) (hb : WF W b)
    (na : Normalised a) (nb : Normalised b) : Normalised (op_add W a b) := by
  obtain ⟨low, c, h1, h2, h3, h4, h5⟩ := op_add_assign_spec ha hb
  unfold op_add
  rw [h5]
  by_cases hc : c = 0
  · subst hc
    simp only [ne_eq, not_true_eq_false, if_false, List.append_nil]
    simp only [Nat.mul_zero, Nat.add_zero] at h4
    apply normalised_of_pow_le h3
    intro hne
    have hlow : low.length ≠ 0 := fun h0 => hne (List.length_eq_zero.1 h0)
    rw [h2, h4]
    rw [h2] at hlow
    rcases Nat.le_total a.length b.length with hab | hab
    · rw [Nat.max_eq_right hab] at hlow ⊢
      have hbne : b ≠ [] := fun h0 => hlow (by rw [h0]; rfl)
      have := pow_le_value_of_normalised (W := W) nb hbne
      omega
    · rw [Nat.max_eq_left hab] at hlow ⊢
      have hane : a ≠ [] := fun h0 => hlow (by rw [h0]; rfl)
      have := pow_le_value_of_normalised (W := W) na hane
      omega
  · rw [if_pos hc]
    exact Normalised_concat.2 (by decide)

/-! ## `sub` and `operator-=` -/

theorem subDigits_cons_nil (W x : Nat) (l : List Nat) (b : Bool) :
    subDigits W (x :: l) [] b =
      ((if b then (x + base W - 1) % base W else x) ::
        (subDigits W l [] (b && decide ((if b then (x + base W - 1) % base W else x) ≥ x))).1,
       (subDigits W l [] (b && decide ((if b then (x + base W - 1) % base W else x) ≥ x))).2) :=
  rfl

theorem subDigits_cons_cons (W x : Nat) (l : List Nat) (y : Nat) (r : List Nat) (b : Bool) :
    subDigits W (x :: l) (y :: r) b =
      ((x + 2 * base W - y % base W - b.toNat) % base W ::
        (subDigits W l r (if b then decide ((x + 2 * base W - y % base W - b.toNat) % base W ≥ x)
          else decide ((x + 2 * base W - y % base W - b.toNat) % base W > x))).1,
       (subDigits W l r (if b then decide ((x + 2 * base W - y % base W - b.toNat) % base W ≥ x)
          else decide ((x + 2 * base W - y % base W - b.toNat) % base W > x))).2) := rfl

/-- One digit of the first loop of `sub`. -/
theorem sub_step {B x y : Nat} (b : Bool) (hx : x < B) (hy : y < B) :
    (x + 2 * B - y % B - b.toNat) % B < B ∧
    (x + 2 * B - y % B - b.toNat) % B + y + b.toNat =
      x + B * (if b then decide ((x + 2 * B - y % B - b.toNat) % B ≥ x)
        else decide ((x + 2 * B - y % B - b.toNat) % B > x)).toNat := by
  rw [Nat.mod_eq_of_lt hy]
  cases b
  · simp only [Bool.toNat_false, Nat.sub_zero, Nat.add_zero, Bool.false_eq_true, if_false]
    rcases Nat.lt_or_ge x y with h | h
    · have hz : x + 2 * B - y = (x + B - y) + 1 * B := by omega
      have hm : (x + 2 * B - y) % B = x + B - y := by
        rw [hz, Nat.add_mul_mod_self_right, Nat.mod_eq_of_lt (by omega)]
      have hd : decide (x + B - y > x) = true := decide_eq_true (by omega)
      simp only [hm, hd, Bool.toNat_true]
      omega
    · have hz : x + 2 * B - y = (x - y) + 2 * B := by omega
      have hm : (x + 2 * B - y) % B = x - y := by
        rw [hz, Nat.add_mul_mod_self_right, Nat.mod_eq_of_lt (by omega)]
      have hd : decide (x - y > x) = false := decide_eq_false (by omega)
      simp only [hm, hd, Bool.toNat_false]
      omega
  · simp only [Bool.toNat_true, if_true]
    rcases Nat.lt_or_ge x (y + 1) with h | h
    · have hz : x + 2 * B - y - 1 = (x + B - y - 1) + 1 * B := by omega
      have hm : (x + 2 * B - y - 1) % B = x + B - y - 1 := by
        rw [hz, Nat.add_mul_mod_self_right, Nat.mod_eq_of_lt (by omega)]
      have hd : decide (x + B - y - 1 ≥ x) = true := decide_eq_true (by omega)
      simp only [hm, hd, Bool.toNat_true]
      omega
    · have hz : x + 2 * B - y - 1 = (x - y - 1) + 2 * B := by omega
      have hm : (x + 2 * B - y - 1) % B = x - y - 1 := by
        rw [hz, Nat.add_mul_mod_self_right, Nat.mod_eq_of_lt (by omega)]
      have hd : decide (x - y - 1 ≥ x) = false := decide_eq_false (by omega)
      simp only [hm, hd, Bool.toNat_false]
      omega

/-- One digit of the second and third loops of `sub`. -/
theorem sub_borrow_step {B x : Nat} (b : Bool) (hx : x < B) :
    (if b then (x + B - 1) % B else x) < B ∧
    (if b then (x + B - 1) % B else x) + b.toNat =
      x + B * (b && decide ((if b then (x + B - 1) % B else x) ≥ x)).toNat := by
  cases b
  · simp [hx]
  · simp only [if_true, Bool.toNat_true, Bool.true_and]
    rcases Nat.eq_zero_or_pos x with h | h
    · subst h
      rw [Nat.zero_add, Nat.mod_eq_of_lt (by omega)]
      refine ⟨by omega, ?_⟩
      simp; omega
    · have hz : x + B - 1 = (x - 1) + 1 * B := by omega
      rw [hz, Nat.add_mul_mod_self_right, Nat.mod_eq_of_lt (by omega)]
      refine ⟨by omega, ?_⟩
      have : decide (x - 1 ≥ x) = false := by simp; omega
      simp [this]; omega

theorem subDigits_spec (W : Nat) : ∀ (l r : List Nat) (b : Bool), WF W l → WF W r →
    r.length ≤ l.length →
    (subDigits W l r b).1.length = l.length ∧ WF W (subDigits W l r b).1 ∧
    value W (subDigits W l r b).1 + value W r + b.toNat
      = value W l + base W ^ l.length * (subDigits W l r b).2.toNat := by
  intro l
  induction l with
  | nil =>
    intro r b _ _ hlen
    have : r = [] := List.eq_nil_of_length_eq_zero (by simpa using hlen)
    subst this
    simp [subDigits, value_nil, WF_nil]
  | cons x l ih =>
    intro r b hl hr hlen
    rw [WF_cons] at hl
    cases r with
    | nil =>
      obtain ⟨s1, s3⟩ := sub_borrow_step b hl.1
      obtain ⟨i1, i2, i4⟩ := ih [] _ hl.2 (WF_nil W) (Nat.zero_le _)
      rw [subDigits_cons_nil]
      refine ⟨by simp only [List.length_cons, i1], WF_cons.2 ⟨s1, i2⟩, ?_⟩
      simp only [value_cons, List.length_cons, pow_succ, value_nil, Nat.add_zero,
        Nat.mul_zero] at i4 ⊢
      have e := congrArg (fun z => base W * z) i4
      simp only [Nat.mul_add] at e
      linarith [e, s3]
    | cons y r =>
      rw [WF_cons] at hr
      obtain ⟨s1, s3⟩ := sub_step b hl.1 hr.1
      obtain ⟨i1, i2, i4⟩ := ih r _ hl.2 hr.2 (by simpa using hlen)
      rw [subDigits_cons_cons]
      refine ⟨by simp only [List.length_cons, i1], WF_cons.2 ⟨s1, i2⟩, ?_⟩
      simp only [value_cons, List.length_cons, pow_succ]
      have e := congrArg (fun z => base W * z) i4
      simp only [Nat.mul_add] at e
      linarith [e, s3]

theorem op_sub_spec {W : Nat} {a b : List Nat} (ha : WF W a) (hb : WF W b)
    (hle : value W b ≤ value W a) :
    WF W (op_sub W a b) ∧ Normalised (op_sub W a b) ∧
      value W (op_sub W a b) = value W a - value W b := by
  have key : ∀ v1 : List Nat, WF W v1 → b.length ≤ v1.length → value W b ≤ value W v1 →
      WF W (full_reduce (sub W v1 v1 b).1) ∧ Normalised (full_reduce (sub W v1 v1 b).1) ∧
      value W (full_reduce (sub W v1 v1 b).1) = value W v1 - value W b := by
    intro v1 hv1 hlen hle1
    obtain ⟨i1, i2, i4⟩ := subDigits_spec W v1 b false hv1 hb hlen
    have hs : (sub W v1 v1 b).1 = (subDigits W v1 b false).1 := by
      unfold sub
      simp only [i1, List.drop_length, List.append_nil]
    rw [hs]
    refine ⟨WF_full_reduce i2, full_reduce_normalised _, ?_⟩
    rw [value_full_reduce]
    have hlt := value_lt i2
    rw [i1] at hlt
    simp only [Bool.toNat_false, Nat.add_zero] at i4
    cases hbb : (subDigits W v1 b false).2
    · rw [hbb] at i4; simp at i4; omega
    · rw [hbb] at i4; simp at i4; omega
  unfold op_sub op_sub_assign
  by_cases h : a.length < b.length
  · simp only [h, if_true]
    have := key (resize a b.length) (WF_resize ha _) (by rw [length_resize])
      (by rw [value_resize (Nat.le_of_lt h)]; exact hle)
    rw [value_resize (Nat.le_of_lt h)] at this
    exact this
  · simp only [h, if_false]
    exact key a ha (Nat.le_of_not_lt h) hle


/-! ## `operator<=>` -/

theorem cmpDigits_reverse_spec (W : Nat) : ∀ (l1 l2 : List Nat), l1.length = l2.length →
    WF W l1 → WF W l2 →
    cmpDigits l1.reverse l2.reverse =
      if value W l1 < value W l2 then Ordering.lt
      else if value W l1 > value W l2 then Ordering.gt else Ordering.eq := by
  intro l1
  induction l1 using List.reverseRecOn with
  | nil =>
    intro l2 hlen _ _
    have : l2 = [] := List.length_eq_zero.1 hlen.symm
    subst this
    simp [cmpDigits, value_nil]
  | append_singleton l x ih =>
    intro l2 hlen h1 h2
    rcases List.eq_nil_or_concat l2 with h0 | ⟨m, y, h0⟩
    · subst h0; simp at hlen
    · subst h0
      rw [List.concat_eq_append] at hlen h2 ⊢
      have hlen' : l.length = m.length := by simpa using hlen
      rw [List.reverse_append, List.reverse_append]
      simp only [List.reverse_singleton, List.singleton_append, cmpDigits]
      rw [value_append, value_append, value_singleton, value_singleton, ← hlen']
      have b1 := value_lt (WF_append.1 h1).1
      have b2 := value_lt (WF_append.1 h2).1
      rw [← hlen'] at b2
      have ih' := ih m hlen' (WF_append.1 h1).1 (WF_append.1 h2).1
      by_cases hxy : x < y
      · rw [if_pos hxy]
        have : base W ^ l.length * (x + 1) ≤ base W ^ l.length * y :=
          Nat.mul_le_mul_left _ hxy
        rw [Nat.mul_add, Nat.mul_one] at this
        rw [if_pos (by omega)]
      · rw [if_neg hxy]
        by_cases hyx : x > y
        · rw [if_pos hyx]
          have : base W ^ l.length * (y + 1) ≤ base W ^ l.length * x :=
            Nat.mul_le_mul_left _ hyx
          rw [Nat.mul_add, Nat.mul_one] at this
          rw [if_neg (by omega), if_pos (by omega)]
        · rw [if_neg hyx]
          have : x = y := by omega
          subst this
          show cmpDigits l.reverse m.reverse = _
          rw [ih']
          simp only [gt_iff_lt, Nat.add_lt_add_iff_right]

/-- A shorter normalised vector has a smaller value. -/
theorem value_lt_of_length_lt {W : Nat} {a b : List Nat} (ha : WF W a) (nb : Normalised b)
    (h : a.length < b.length) : value W a < value W b := by
  have h1 := value_lt ha
  have hbne : b ≠ [] := by
    intro h0; subst h0; simp at h
  have h2 := pow_le_value_of_normalised (W := W) nb hbne
  have h3 : base W ^ a.length ≤ base W ^ (b.length - 1) :=
    Nat.pow_le_pow_right (base_pos W) (by omega)
  omega

/-- On normalised operands `<=>` orders by value. -/
theorem op_cmp_spec {W : Nat} {a b : List Nat} (ha : WF W a) (hb : WF W b)
    (na : Normalised a) (nb : Normalised b) :
    op_cmp a b =
      if value W a < value W b then Ordering.lt
      else if value W a > value W b then Ordering.gt else Ordering.eq := by
  unfold op_cmp
  by_cases h1 : a.length < b.length
  · have := value_lt_of_length_lt ha nb h1
    rw [if_pos h1, if_pos this]
  · rw [if_neg h1]
    by_cases h2 : a.length > b.length
    · have := value_lt_of_length_lt hb na h2
      rw [if_pos h2, if_neg (by omega), if_pos this]
    · rw [if_neg h2]
      exact cmpDigits_reverse_spec W a b (by omega) ha hb

/-! ## Schoolbook multiplication with 32-bit digits -/

theorem base32_sq : base 32 * base 32 = 2 ^ 64 := by
  unfold base; rw [← pow_add]

theorem pow_down32 : 2 ^ (64 - 32) = base 32 := rfl

/-- The 64-bit accumulator of `muladd` cannot overflow with 32-bit digits. -/
theorem muladd_acc_lt {B o x s c : Nat} (ho : o < B) (hx : x < B) (hs : s < B) (hc : c < B) :
    o + x * s + c < B * B := by
  obtain ⟨k, rfl⟩ : ∃ k, B = k + 1 := ⟨B - 1, by omega⟩
  have h1 : x * s ≤ k * k := Nat.mul_le_mul (by omega) (by omega)
  have h2 : (k + 1) * (k + 1) = k * k + 2 * k + 1 := by ring
  omega

theorem muladdLoop_cons_cons (W scalar o x spill : Nat) (out inp : List Nat) :
    muladdLoop W scalar (o :: out) (x :: inp) spill =
      (((o + x * scalar + spill) % 2 ^ 64) % base W ::
        (muladdLoop W scalar out inp (((o + x * scalar + spill) % 2 ^ 64) / 2 ^ (64 - W))).1,
       (muladdLoop W scalar out inp (((o + x * scalar + spill) % 2 ^ 64) / 2 ^ (64 - W))).2.1,
       (muladdLoop W scalar out inp (((o + x * scalar + spill) % 2 ^ 64) / 2 ^ (64 - W))).2.2) :=
  rfl

theorem muladdLoop_spec {scalar : Nat} (hs : scalar < base 32) :
    ∀ (inp out : List Nat) (spill : Nat), WF 32 out → WF 32 inp → spill < base 32 →
    inp.length ≤ out.length →
    (muladdLoop 32 scalar out inp spill).1.length = inp.length ∧
    WF 32 (muladdLoop 32 scalar out inp spill).1 ∧
    (muladdLoop 32 scalar out inp spill).2.1 = out.drop inp.length ∧
    (muladdLoop 32 scalar out inp spill).2.2 < base 32 ∧
    value 32 (muladdLoop 32 scalar out inp spill).1 +
        base 32 ^ inp.length * (muladdLoop 32 scalar out inp spill).2.2 =
      value 32 (out.take inp.length) + value 32 inp * scalar + spill := by
  intro inp
  induction inp with
  | nil =>
    intro out spill _ _ hsp _
    cases out <;> simp [muladdLoop, value_nil, WF_nil, hsp]
  | cons x inp ih =>
    intro out spill hout hinp hsp hlen
    cases out with
    | nil => simp at hlen
    | cons o out =>
      rw [WF_cons] at hout hinp
      have hacc := muladd_acc_lt hout.1 hinp.1 hs hsp
      rw [base32_sq] at hacc
      have hres : (o + x * scalar + spill) % 2 ^ 64 = o + x * scalar + spill :=
        Nat.mod_eq_of_lt hacc
      have hdiv : (o + x * scalar + spill) / base 32 < base 32 := by
        apply Nat.div_lt_of_lt_mul
        rw [base32_sq]; exact hacc
      have hmod : (o + x * scalar + spill) % base 32 < base 32 := Nat.mod_lt _ (base_pos 32)
      have hsplit := Nat.mod_add_div (o + x * scalar + spill) (base 32)
      rw [muladdLoop_cons_cons, hres, pow_down32]
      obtain ⟨i1, i2, i3, i4, i5⟩ := ih out _ hout.2 hinp.2 hdiv (by simpa using hlen)
      refine ⟨by simp only [List.length_cons, i1], WF_cons.2 ⟨hmod, i2⟩, ?_, i4, ?_⟩
      · simp only [i3, List.length_cons, List.drop_succ_cons]
      · simp only [List.length_cons, List.take_succ_cons, value_cons, pow_succ]
        have e := congrArg (fun z => base 32 * z) i5
        simp only [Nat.mul_add] at e
        generalize (muladdLoop 32 scalar out inp _).1 = t1 at *
        generalize (muladdLoop 32 scalar out inp _).2.2 = t2 at *
        linarith [e, hsplit]


/-- A row of the schoolbook product: `out` holds `|lhs|` partial digits followed by
zero digits; `muladd` turns it into the partial digits plus `lhs * y`, the top digit
landing in the first zero digit, with no overflow past it. -/
theorem muladd_row {y : Nat} (hy : y < base 32) {p lhs : List Nat} (k : Nat)
    (hp : WF 32 p) (hl : WF 32 lhs) (hlen : p.length = lhs.length) :
    ∃ w s, w.length = lhs.length ∧ WF 32 w ∧ s < base 32 ∧
      value 32 w + base 32 ^ lhs.length * s = value 32 p + value 32 lhs * y ∧
      (muladd 32 false (p ++ List.replicate (k + 1) 0) lhs y).1 =
        w ++ s :: List.replicate k 0 := by
  have hout : WF 32 (p ++ List.replicate (k + 1) 0) :=
    WF_append.2 ⟨hp, WF_replicate_zero 32 _⟩
  obtain ⟨i1, i2, i3, i4, i5⟩ := muladdLoop_spec hy lhs (p ++ List.replicate (k + 1) 0) 0
    hout hl (base_pos 32) (by simp [hlen])
  rw [← hlen, List.drop_left] at i3
  rw [← hlen, List.take_left, Nat.add_zero, hlen] at i5
  generalize hr : muladdLoop 32 y (p ++ List.replicate (k + 1) 0) lhs 0 = r at *
  obtain ⟨r1, r2, r3⟩ := r
  simp only at i1 i2 i3 i4 i5
  subst i3
  refine ⟨r1, r3, i1, i2, i4, i5, ?_⟩
  unfold muladd
  rw [hr]
  simp only [List.replicate_succ]
  by_cases hsp : r3 = 0
  · simp [hsp]
  · simp [hsp, Nat.mod_eq_of_lt i4]

theorem mul_cons (W : Nat) (out lhs : List Nat) (y : Nat) (rhs : List Nat) :
    mul W out lhs (y :: rhs) =
      match (muladd W false out lhs y).1 with
      | [] => []
      | o :: out1 => o :: mul W out1 lhs rhs := rfl

/-- The schoolbook `mul` on a window of `|lhs|` partial digits followed by `|rhs|` zero
digits adds `lhs * rhs` to it. -/
theorem schoolbook_mul_spec {lhs : List Nat} (hl : WF 32 lhs) :
    ∀ (rhs p : List Nat), WF 32 rhs → WF 32 p → p.length = lhs.length →
    (mul 32 (p ++ List.replicate rhs.length 0) lhs rhs).length = lhs.length + rhs.length ∧
    WF 32 (mul 32 (p ++ List.replicate rhs.length 0) lhs rhs) ∧
    value 32 (mul 32 (p ++ List.replicate rhs.length 0) lhs rhs) =
      value 32 p + value 32 lhs * value 32 rhs := by
  intro rhs
  induction rhs with
  | nil =>
    intro p _ hp hlen
    simp [mul, hlen, hp, value_nil]
  | cons y rhs ih =>
    intro p hr hp hlen
    rw [WF_cons] at hr
    obtain ⟨w, s, h1, h2, h3, h4, h5⟩ := muladd_row hr.1 rhs.length hp hl hlen
    rw [List.length_cons, mul_cons, h5]
    have hq : ∃ o p1, w ++ [s] = o :: p1 ∧ p1.length = lhs.length := by
      cases w with
      | nil => exact ⟨s, [], rfl, by simpa using h1⟩
      | cons o w1 => exact ⟨o, w1 ++ [s], rfl, by simpa using h1⟩
    obtain ⟨o, p1, hq1, hq2⟩ := hq
    have hsplit : w ++ s :: List.replicate rhs.length 0 =
        o :: (p1 ++ List.replicate rhs.length 0) := by
      rw [← List.cons_append, ← hq1, List.append_assoc, List.singleton_append]
    rw [hsplit]
    have hwf : WF 32 (o :: p1) := by
      rw [← hq1]
      exact WF_append.2 ⟨h2, WF_cons.2 ⟨h3, WF_nil 32⟩⟩
    rw [WF_cons] at hwf
    obtain ⟨j1, j2, j3⟩ := ih p1 hr.2 hwf.2 hq2
    refine ⟨by simp only [List.length_cons, j1]; omega, WF_cons.2 ⟨hwf.1, j2⟩, ?_⟩
    have hv : value 32 (o :: p1) = value 32 p + value 32 lhs * y := by
      rw [← hq1, value_append, value_singleton, h1, h4]
    simp only [value_cons] at hv ⊢
    rw [j3]
    have e : base 32 * (value 32 p1 + value 32 lhs * value 32 rhs) =
        base 32 * value 32 p1 + value 32 lhs * (base 32 * value 32 rhs) := by ring
    rw [e, Nat.mul_add]
    omega

theorem op_mul_spec {a b : List Nat} (ha : WF 32 a) (hb : WF 32 b) :
    WF 32 (op_mul 32 a b) ∧ Normalised (op_mul 32 a b) ∧
      value 32 (op_mul 32 a b) = value 32 a * value 32 b := by
  unfold op_mul
  by_cases h : a = [] ∨ b = []
  · rw [if_pos h]
    refine ⟨WF_nil 32, Normalised_nil, ?_⟩
    rcases h with h | h <;> subst h <;> simp [value_nil]
  · rw [if_neg h]
    have hz : List.replicate (a.length + b.length) 0 =
        List.replicate a.length 0 ++ List.replicate b.length 0 := by
      rw [List.replicate_add]
    rw [hz]
    obtain ⟨j1, j2, j3⟩ := schoolbook_mul_spec ha b (List.replicate a.length 0) hb
      (WF_replicate_zero 32 _) (by simp)
    refine ⟨WF_full_reduce j2, full_reduce_normalised _, ?_⟩
    rw [value_full_reduce, j3, value_replicate_zero, Nat.zero_add]


/-! ## Shifts -/

theorem base_split {W bits : Nat} (h : bits ≤ W) : base W = 2 ^ bits * 2 ^ (W - bits) := by
  unfold base
  rw [← pow_add]
  congr 1
  omega

theorem rshiftLoop_cons (W bits x : Nat) (src : List Nat) (spill : Nat) :
    rshiftLoop W bits (x :: src) spill =
      ((x / 2 ^ bits ||| spill) :: (rshiftLoop W bits src ((x * 2 ^ (W - bits)) % base W)).1,
        (rshiftLoop W bits src ((x * 2 ^ (W - bits)) % base W)).2) := rfl

/-- One digit of `rshift`: the bits shifted in from the digit above land above the bits
kept, so `|` is an addition. -/
theorem rshift_digit {W bits x t : Nat} (h : bits ≤ W) (hx : x < base W) (ht : t < 2 ^ bits) :
    (x / 2 ^ bits ||| t * 2 ^ (W - bits)) = t * 2 ^ (W - bits) + x / 2 ^ bits ∧
    t * 2 ^ (W - bits) + x / 2 ^ bits < base W ∧
    (x * 2 ^ (W - bits)) % base W = (x % 2 ^ bits) * 2 ^ (W - bits) := by
  have hB := base_split h
  have hq : x / 2 ^ bits < 2 ^ (W - bits) := by
    apply Nat.div_lt_of_lt_mul
    rw [← hB]; exact hx
  refine ⟨?_, ?_, ?_⟩
  · rw [Nat.lor_comm, Nat.mul_comm t, ← Nat.mul_add_lt_is_or hq]
  · rw [hB]
    have : (t + 1) * 2 ^ (W - bits) ≤ 2 ^ bits * 2 ^ (W - bits) :=
      Nat.mul_le_mul_right _ ht
    rw [Nat.add_mul, Nat.one_mul] at this
    omega
  · rw [hB, Nat.mul_mod_mul_right]

theorem rshift_algebra {V P Q B Bn t x t1 Vx : Nat} (hB : B = P * Q)
    (i4 : V * P + t1 = x % P * Bn + Vx) :
    (V + Bn * (t * Q + x / P)) * P + t1 = t * (Bn * B) + (Vx + Bn * x) := by
  have e : (V + Bn * (t * Q + x / P)) * P + t1 =
      (V * P + t1) + Bn * (t * Q + x / P) * P := by ring
  have hx : Bn * x = Bn * (P * (x / P) + x % P) := by rw [Nat.div_add_mod]
  rw [e, i4, hx, hB]
  ring

theorem lshift_algebra {V P Q B Bn s x sp Vx : Nat} (hB : B = P * Q)
    (i4 : V + Bn * sp = Vx * P + x / Q) :
    P * (x % Q) + s + B * V + Bn * B * sp = (x + B * Vx) * P + s := by
  have e : P * (x % Q) + s + B * V + Bn * B * sp =
      P * (x % Q) + s + B * (V + Bn * sp) := by ring
  have hx : x * P = (Q * (x / Q) + x % Q) * P := by rw [Nat.div_add_mod]
  rw [e, i4, Nat.add_mul, hx, hB]
  ring

theorem rshiftLoop_spec {W bits : Nat} (h : bits ≤ W) :
    ∀ (xs : List Nat) (t : Nat), WF W xs → t < 2 ^ bits →
    (rshiftLoop W bits xs (t * 2 ^ (W - bits))).1.length = xs.length ∧
    WF W (rshiftLoop W bits xs (t * 2 ^ (W - bits))).1 ∧
    ∃ t1, t1 < 2 ^ bits ∧
      value W (rshiftLoop W bits xs (t * 2 ^ (W - bits))).1.reverse * 2 ^ bits + t1 =
        t * base W ^ xs.length + value W xs.reverse := by
  intro xs
  induction xs with
  | nil =>
    intro t _ ht
    exact ⟨rfl, WF_nil W, t, ht, by simp [rshiftLoop, value_nil]⟩
  | cons x xs ih =>
    intro t hxs ht
    rw [WF_cons] at hxs
    obtain ⟨d1, d2, d3⟩ := rshift_digit h hxs.1 ht
    have hmod : x % 2 ^ bits < 2 ^ bits := Nat.mod_lt _ (Nat.pow_pos (by decide))
    rw [rshiftLoop_cons, d1, d3]
    obtain ⟨i1, i2, t1, i3, i4⟩ := ih (x % 2 ^ bits) hxs.2 hmod
    refine ⟨by simp only [List.length_cons, i1], WF_cons.2 ⟨d2, i2⟩, t1, i3, ?_⟩
    simp only [List.reverse_cons, value_append, value_singleton, List.length_reverse, i1,
      List.length_cons, pow_succ]
    exact rshift_algebra (base_split h) i4

theorem rshift_self {W bits : Nat} (h : bits ≤ W) {v : List Nat} (hv : WF W v) :
    (rshift W v v bits).1.length = v.length ∧ WF W (rshift W v v bits).1 ∧
    value W (rshift W v v bits).1 = value W v / 2 ^ bits := by
  have hr : WF W v.reverse := fun d hd => hv d (List.mem_reverse.1 hd)
  obtain ⟨i1, i2, t1, i3, i4⟩ := rshiftLoop_spec h v.reverse 0 hr (Nat.pow_pos (by decide))
  simp only [Nat.zero_mul, List.reverse_reverse, Nat.zero_add, List.length_reverse] at i1 i2 i4
  have e : (rshift W v v bits).1 = (rshiftLoop W bits v.reverse 0).1.reverse := by
    unfold rshift
    simp
  rw [e]
  refine ⟨by simp [i1], fun d hd => i2 d (List.mem_reverse.1 hd), ?_⟩
  rw [← i4, Nat.mul_comm, Nat.mul_add_div (Nat.pow_pos (by decide)),
    Nat.div_eq_of_lt i3, Nat.add_zero]

/-- After an in-place right shift of a normalised vector by at most one digit, a single
`reduce_once` restores the normal form. -/
theorem rshift_reduce_once_normalised {W bits : Nat} (h : bits ≤ W) {v : List Nat}
    (hv : WF W v) (hn : Normalised v) :
    Normalised (reduce_once (rshift W v v bits).1) := by
  obtain ⟨h1, h2, h3⟩ := rshift_self h hv
  generalize (rshift W v v bits).1 = r at *
  rcases List.eq_nil_or_concat r with h0 | ⟨l, d, h0⟩
  · subst h0; rw [reduce_once_nil]; exact Normalised_nil
  · subst h0
    rw [List.concat_eq_append] at *
    rw [reduce_once_concat]
    split
    · next hd =>
      subst hd
      apply normalised_of_pow_le (WF_append.1 h2).1
      intro hl
      have hvne : v ≠ [] := by
        intro h0; subst h0; simp at h1
      have hlow := pow_le_value_of_normalised (W := W) hn hvne
      rw [value_append, value_singleton, Nat.mul_zero, Nat.add_zero] at h3
      rw [h3]
      have hlen : v.length = l.length + 1 := by simpa using h1.symm
      have hl1 : 1 ≤ l.length := Nat.pos_of_ne_zero (fun h0 => hl (List.length_eq_zero.1 h0))
      rw [Nat.le_div_iff_mul_le (Nat.pow_pos (by decide))]
      have e1 : base W ^ (v.length - 1) = base W ^ (l.length - 1) * base W := by
        rw [← pow_succ]; congr 1; omega
      rw [e1] at hlow
      have e2 : 2 ^ bits ≤ base W := Nat.pow_le_pow_right (by decide) h
      calc base W ^ (l.length - 1) * 2 ^ bits ≤ base W ^ (l.length - 1) * base W :=
            Nat.mul_le_mul_left _ e2
        _ ≤ value W v := hlow
    · next hd => exact Normalised_concat.2 hd

theorem lshiftLoop_cons (W bits x : Nat) (src : List Nat) (spill : Nat) :
    lshiftLoop W bits (x :: src) spill =
      (((x * 2 ^ bits) % base W ||| spill) :: (lshiftLoop W bits src (x / 2 ^ (W - bits))).1,
        (lshiftLoop W bits src (x / 2 ^ (W - bits))).2) := rfl

/-- One digit of `lshift`. -/
theorem lshift_digit {W bits x s : Nat} (h : bits ≤ W) (hx : x < base W) (hs : s < 2 ^ bits) :
    ((x * 2 ^ bits) % base W ||| s) = 2 ^ bits * (x % 2 ^ (W - bits)) + s ∧
    2 ^ bits * (x % 2 ^ (W - bits)) + s < base W ∧
    x / 2 ^ (W - bits) < 2 ^ bits := by
  have hB := base_split h
  have hm : x % 2 ^ (W - bits) < 2 ^ (W - bits) := Nat.mod_lt _ (Nat.pow_pos (by decide))
  refine ⟨?_, ?_, ?_⟩
  · rw [hB, Nat.mul_comm (2 ^ bits) (2 ^ (W - bits)), Nat.mul_mod_mul_right,
      Nat.mul_comm _ (2 ^ bits), ← Nat.mul_add_lt_is_or hs]
  · rw [hB]
    have : 2 ^ bits * (x % 2 ^ (W - bits) + 1) ≤ 2 ^ bits * 2 ^ (W - bits) :=
      Nat.mul_le_mul_left _ hm
    rw [Nat.mul_add, Nat.mul_one] at this
    omega
  · apply Nat.div_lt_of_lt_mul
    rw [Nat.mul_comm, ← hB]; exact hx

theorem lshiftLoop_spec {W bits : Nat} (h : bits ≤ W) :
    ∀ (xs : List Nat) (s : Nat), WF W xs → s < 2 ^ bits →
    (lshiftLoop W bits xs s).1.length = xs.length ∧
    WF W (lshiftLoop W bits xs s).1 ∧
    (lshiftLoop W bits xs s).2 < 2 ^ bits ∧
    value W (lshiftLoop W bits xs s).1 + base W ^ xs.length * (lshiftLoop W bits xs s).2 =
      value W xs * 2 ^ bits + s := by
  intro xs
  induction xs with
  | nil =>
    intro s _ hs
    exact ⟨rfl, WF_nil W, hs, by simp [lshiftLoop, value_nil]⟩
  | cons x xs ih =>
    intro s hxs hs
    rw [WF_cons] at hxs
    obtain ⟨d1, d2, d3⟩ := lshift_digit h hxs.1 hs
    rw [lshiftLoop_cons, d1]
    obtain ⟨i1, i2, i3, i4⟩ := ih (x / 2 ^ (W - bits)) hxs.2 d3
    refine ⟨by simp only [List.length_cons, i1], WF_cons.2 ⟨d2, i2⟩, i3, ?_⟩
    simp only [value_cons, List.length_cons, pow_succ]
    exact lshift_algebra (base_split h) i4


theorem two_pow_bitlog_pos (W : Nat) : 1 < 2 ^ bitlog W := by
  unfold bitlog
  split_ifs <;> decide

/-- `operator>>=` for a shift count below the digit width (`whole_shift = 0`). -/
theorem op_shr_assign_small {W n : Nat} (hn : n < 2 ^ bitlog W) (hW : n ≤ W) {v : List Nat}
    (hv : WF W v) :
    WF W (op_shr_assign W v n) ∧ value W (op_shr_assign W v n) = value W v / 2 ^ n ∧
    (Normalised v → Normalised (op_shr_assign W v n)) := by
  unfold op_shr_assign
  simp only [Nat.div_eq_of_lt hn, Nat.and_pow_two_sub_one_eq_mod, Nat.mod_eq_of_lt hn,
    List.drop_zero, Nat.le_zero, List.length_eq_zero]
  by_cases h0 : v = []
  · subst h0
    simp [WF_nil, value_nil, Normalised_nil]
  · rw [if_neg h0]
    obtain ⟨h1, h2, h3⟩ := rshift_self hW hv
    exact ⟨WF_reduce_once h2, by rw [value_reduce_once, h3],
      fun hnv => rshift_reduce_once_normalised hW hv hnv⟩

/-- `operator<<=` for a shift count below the digit width (`whole_shift = 0`). -/
theorem op_shl_assign_small {W n : Nat} (hn : n < 2 ^ bitlog W) (hW : n ≤ W) {v : List Nat}
    (hv : WF W v) :
    WF W (op_shl W v n) ∧ value W (op_shl W v n) = value W v * 2 ^ n ∧
    (Normalised v → Normalised (op_shl W v n)) := by
  obtain ⟨i1, i2, i3, i4⟩ := lshiftLoop_spec hW v 0 hv (Nat.pow_pos (by decide))
  have e : op_shl W v n =
      if (lshiftLoop W n v 0).2 ≠ 0 then (lshiftLoop W n v 0).1 ++ [(lshiftLoop W n v 0).2]
      else (lshiftLoop W n v 0).1 := by
    unfold op_shl op_shl_assign lshift
    simp only [Nat.div_eq_of_lt hn, Nat.and_pow_two_sub_one_eq_mod, Nat.mod_eq_of_lt hn, i1,
      List.drop_length, List.append_nil, List.replicate_zero, List.nil_append]
  rw [e]
  have hle : 2 ^ n ≤ base W := Nat.pow_le_pow_right (by decide) hW
  by_cases hsp : (lshiftLoop W n v 0).2 = 0
  · rw [if_neg (by simpa using hsp)]
    rw [hsp] at i4
    simp only [Nat.mul_zero, Nat.add_zero] at i4
    refine ⟨i2, i4, fun hnv => ?_⟩
    apply normalised_of_pow_le i2
    intro hne
    rw [i4, i1]
    have hvne : v ≠ [] := by
      intro h0; subst h0; simp at i1; exact hne i1
    have := pow_le_value_of_normalised (W := W) hnv hvne
    calc base W ^ (v.length - 1) ≤ value W v := this
      _ = value W v * 1 := (Nat.mul_one _).symm
      _ ≤ value W v * 2 ^ n := Nat.mul_le_mul_left _ (Nat.pow_pos (by decide))
  · rw [if_pos hsp]
    refine ⟨WF_append.2 ⟨i2, WF_cons.2 ⟨by omega, WF_nil W⟩⟩, ?_, fun _ => Normalised_concat.2 hsp⟩
    rw [value_append, value_singleton, i1, i4, Nat.add_zero]


/-! ## Canonical digits -/

theorem base_gt_one {W : Nat} (hW : 0 < W) : 1 < base W :=
  Nat.one_lt_two_pow (Nat.pos_iff_ne_zero.1 hW)

theorem op_add_toDigits {W : Nat} (hW : 0 < W) (x y : Nat) :
    op_add W (toDigits W x) (toDigits W y) = toDigits W (x + y) := by
  have h1 := toDigits_WF hW x
  have h2 := toDigits_WF hW y
  rw [← toDigits_value (WF_op_add hW h1 h2)
    (normalised_op_add h1 h2 (toDigits_normalised W x) (toDigits_normalised W y)),
    value_op_add h1 h2, value_toDigits, value_toDigits]

theorem op_sub_toDigits {W : Nat} (hW : 0 < W) {x y : Nat} (h : y ≤ x) :
    op_sub W (toDigits W x) (toDigits W y) = toDigits W (x - y) := by
  have h1 := toDigits_WF hW x
  have h2 := toDigits_WF hW y
  obtain ⟨s1, s2, s3⟩ := op_sub_spec h1 h2 (by rw [value_toDigits, value_toDigits]; exact h)
  rw [← toDigits_value s1 s2, s3, value_toDigits, value_toDigits]

theorem op_mul_toDigits (x y : Nat) :
    op_mul 32 (toDigits 32 x) (toDigits 32 y) = toDigits 32 (x * y) := by
  have h1 := toDigits_WF (W := 32) (by decide) x
  have h2 := toDigits_WF (W := 32) (by decide) y
  obtain ⟨s1, s2, s3⟩ := op_mul_spec h1 h2
  rw [← toDigits_value s1 s2, s3, value_toDigits, value_toDigits]

theorem op_cmp_toDigits {W : Nat} (hW : 0 < W) (x y : Nat) :
    op_cmp (toDigits W x) (toDigits W y) =
      if x < y then Ordering.lt else if x > y then Ordering.gt else Ordering.eq := by
  rw [op_cmp_spec (toDigits_WF hW x) (toDigits_WF hW y) (toDigits_normalised W x)
    (toDigits_normalised W y), value_toDigits, value_toDigits]

theorem toDigits_zero (W : Nat) : toDigits W 0 = [] := by
  simp [toDigits]

theorem toDigits_eq_nil {W n : Nat} : toDigits W n = [] ↔ n = 0 :=
  Nat.digits_eq_nil_iff_eq_zero

theorem toDigits_of_lt {W n : Nat} (h0 : n ≠ 0) (h : n < base W) : toDigits W n = [n] :=
  Nat.digits_of_lt _ _ h0 h

theorem ofInt_small {W WI x : Nat} (hWI : WI ≤ W) (hx : x < base W) :
    ofInt W WI x = toDigits W x := by
  unfold ofInt
  rw [if_pos hWI]
  by_cases h0 : x = 0
  · subst h0; simp [toDigits_zero]
  · rw [if_pos h0, Nat.mod_eq_of_lt hx, toDigits_of_lt h0 hx]

theorem op_shr_toDigits {W k : Nat} (hW : 0 < W) (hk : k < 2 ^ bitlog W) (hkW : k ≤ W)
    (x : Nat) : op_shr_assign W (toDigits W x) k = toDigits W (x / 2 ^ k) := by
  obtain ⟨s1, s2, s3⟩ := op_shr_assign_small hk hkW (toDigits_WF hW x)
  rw [← toDigits_value s1 (s3 (toDigits_normalised W x)), s2, value_toDigits]

theorem op_shl_toDigits {W k : Nat} (hW : 0 < W) (hk : k < 2 ^ bitlog W) (hkW : k ≤ W)
    (x : Nat) : op_shl W (toDigits W x) k = toDigits W (x * 2 ^ k) := by
  obtain ⟨s1, s2, s3⟩ := op_shl_assign_small hk hkW (toDigits_WF hW x)
  rw [← toDigits_value s1 (s3 (toDigits_normalised W x)), s2, value_toDigits]

/-! ## The loop tests `n > 0` and `(n & 1) != 0` -/

theorem op_cmp_zero_gt (n : List Nat) :
    op_cmp n (ofInt 64 32 0) = Ordering.gt ↔ n ≠ [] := by
  have h0 : ofInt 64 32 0 = [] := by decide
  rw [h0]
  unfold op_cmp
  cases n with
  | nil => simp [cmpDigits]
  | cons x xs => simp

theorem and_one_ne_zero (x : Nat) (xs : List Nat) :
    (!(op_eq (op_and (x :: xs) (ofInt 64 32 1)) (ofInt 64 32 0))) = decide (x % 2 = 1) := by
  have h0 : ofInt 64 32 0 = [] := by decide
  have h1 : ofInt 64 32 1 = [1] := by decide
  rw [h0, h1]
  have e : op_and (x :: xs) [1] = full_reduce [1 &&& x] := by
    unfold op_and op_and_assign
    cases xs with
    | nil => simp [bitwise_and]
    | cons y ys => simp [resize, bitwise_and]
  rw [e, Nat.and_comm, Nat.and_one_is_mod]
  rcases Nat.mod_two_eq_zero_or_one x with h | h <;> rw [h] <;> decide

theorem value_mod_two {W : Nat} (hW : 0 < W) (x : Nat) (xs : List Nat) :
    value W (x :: xs) % 2 = x % 2 := by
  rw [value_cons]
  have : base W = 2 * 2 ^ (W - 1) := by
    unfold base
    rw [← pow_succ']
    congr 1
    omega
  rw [this, Nat.mul_assoc, Nat.add_mul_mod_self_left]


/-! ## Widening `copy` and cast -/

theorem copyWiden_cons (WT WS x : Nat) (xs : List Nat) (sh cur : Nat) :
    copyWiden WT WS (x :: xs) sh cur =
      if xs ≠ [] ∧ sh + WS < WT then
        copyWiden WT WS xs (sh + WS) (cur ||| (x * 2 ^ sh) % base WT)
      else (cur ||| (x * 2 ^ sh) % base WT) :: copyWiden WT WS xs 0 0 := rfl

/-- One step of the inner loop of the widening `copy`: the digit lands above the bits
already stored, so `|=` is an addition. -/
theorem copyWiden_digit {WT WS x sh cur : Nat} (hx : x < base WS) (hsh : sh + WS ≤ WT)
    (hcur : cur < 2 ^ sh) :
    (cur ||| (x * 2 ^ sh) % base WT) = cur + 2 ^ sh * x ∧
    cur + 2 ^ sh * x < 2 ^ (sh + WS) := by
  have hlt : cur + 2 ^ sh * x < 2 ^ (sh + WS) := by
    rw [pow_add]
    have : 2 ^ sh * (x + 1) ≤ 2 ^ sh * 2 ^ WS := Nat.mul_le_mul_left _ hx
    rw [Nat.mul_add, Nat.mul_one] at this
    omega
  have hle : 2 ^ (sh + WS) ≤ base WT := Nat.pow_le_pow_right (by decide) hsh
  refine ⟨?_, hlt⟩
  rw [Nat.mul_comm x, Nat.mod_eq_of_lt (by omega), Nat.lor_comm,
    ← Nat.mul_add_lt_is_or hcur, Nat.add_comm]

theorem copyWiden_spec {WT WS : Nat} (hWS : 0 < WS) (hdvd : WS ∣ WT) :
    ∀ (xs : List Nat) (sh cur : Nat), WF WS xs → xs ≠ [] → WS ∣ sh → sh < WT →
    cur < 2 ^ sh →
    WF WT (copyWiden WT WS xs sh cur) ∧
    value WT (copyWiden WT WS xs sh cur) = cur + 2 ^ sh * value WS xs := by
  intro xs
  induction xs with
  | nil => intro sh cur _ hne; exact absurd rfl hne
  | cons x xs ih =>
    intro sh cur hxs _ hsh hlt hcur
    rw [WF_cons] at hxs
    have hle : sh + WS ≤ WT := by
      obtain ⟨a, ha⟩ := hsh
      obtain ⟨b, hb⟩ := hdvd
      subst ha hb
      have hab : a < b := Nat.lt_of_mul_lt_mul_left hlt
      calc WS * a + WS = WS * (a + 1) := by ring
        _ ≤ WS * b := Nat.mul_le_mul_left _ hab
    obtain ⟨d1, d2⟩ := @copyWiden_digit WT WS x sh cur hxs.1 hle hcur
    rw [copyWiden_cons, d1]
    by_cases hc : xs ≠ [] ∧ sh + WS < WT
    · rw [if_pos hc]
      obtain ⟨i1, i2⟩ := ih (sh + WS) (cur + 2 ^ sh * x) hxs.2 hc.1
        (Nat.dvd_add hsh (Nat.dvd_refl _)) hc.2 d2
      refine ⟨i1, ?_⟩
      rw [i2, value_cons, pow_add]
      unfold base
      ring
    · rw [if_neg hc]
      by_cases hx0 : xs = []
      · subst hx0
        have : copyWiden WT WS [] 0 0 = [] := rfl
        rw [this]
        refine ⟨WF_cons.2 ⟨?_, WF_nil WT⟩, ?_⟩
        · exact Nat.lt_of_lt_of_le d2 (Nat.pow_le_pow_right (by decide) hle)
        · simp [value_cons, value_nil]
      · have heq : sh + WS = WT := by
          have : ¬ sh + WS < WT := fun h => hc ⟨hx0, h⟩
          omega
        obtain ⟨i1, i2⟩ := ih 0 0 hxs.2 hx0 (Nat.dvd_zero _) (by omega) (Nat.pow_pos (by decide))
        refine ⟨WF_cons.2 ⟨?_, i1⟩, ?_⟩
        · exact Nat.lt_of_lt_of_le d2 (Nat.pow_le_pow_right (by decide) hle)
        · rw [value_cons, i2, value_cons]
          unfold base
          rw [← heq, pow_add]
          ring

/-- The cast to a wider digit type keeps the value and yields a normalised vector. -/
theorem cast_widen {WT WS : Nat} (hWT : 0 < WT) (hWS : 0 < WS) (hdvd : WT ∣ WS)
    {v : List Nat} (hv : WF WT v) :
    WF WS (cast WT WS v) ∧ Normalised (cast WT WS v) ∧
      value WS (cast WT WS v) = value WT v := by
  have hle : WT ≤ WS := Nat.le_of_dvd hWS hdvd
  have e : cast WT WS v = full_reduce (copyWiden WS WT v 0 0 ++
      (List.replicate ((v.length * WT + WS - 1) / WS) 0).drop (copyWiden WS WT v 0 0).length) := by
    unfold cast copy
    rw [if_neg (by omega)]
    simp only [ge_iff_le, hle, if_true]
  rw [e, List.drop_replicate]
  have hw : WF WS (copyWiden WS WT v 0 0) ∧ value WS (copyWiden WS WT v 0 0) = value WT v := by
    by_cases h0 : v = []
    · subst h0
      exact ⟨WF_nil WS, rfl⟩
    · obtain ⟨i1, i2⟩ := copyWiden_spec hWT hdvd v 0 0 hv h0 (Nat.dvd_zero _) hWS
        (Nat.pow_pos (by decide))
      exact ⟨i1, by rw [i2]; simp⟩
  refine ⟨WF_full_reduce (WF_append.2 ⟨hw.1, WF_replicate_zero WS _⟩),
    full_reduce_normalised _, ?_⟩
  rw [value_full_reduce, value_append, value_replicate_zero, Nat.mul_zero, Nat.add_zero, hw.2]

theorem cast_toDigits {WT WS : Nat} (hWT : 0 < WT) (hWS : 0 < WS) (hdvd : WT ∣ WS) (x : Nat) :
    cast WT WS (toDigits WT x) = toDigits WS x := by
  obtain ⟨s1, s2, s3⟩ := cast_widen hWT hWS hdvd (toDigits_WF hWT x)
  rw [← toDigits_value s1 s2, s3, value_toDigits]


/-! ## Decrement of a one-digit number -/

theorem op_predec_toDigits_succ {W d : Nat} (h : d + 1 < base W) :
    op_predec W (toDigits W (d + 1)) = toDigits W d := by
  rw [toDigits_of_lt (Nat.succ_ne_zero d) h]
  have e : decrement W [d + 1] = ([d], true) := by
    have hm : (d + 1 + base W - 1) % base W = d := by
      have : d + 1 + base W - 1 = d + 1 * base W := by omega
      rw [this, Nat.add_mul_mod_self_right, Nat.mod_eq_of_lt (by omega)]
    have hd : d % base W = d := Nat.mod_eq_of_lt (by omega)
    simp [decrement, hm, hd]
  unfold op_predec
  rw [e]
  have : ([d] : List Nat) = [] ++ [d] := rfl
  simp only
  rw [this, reduce_once_concat]
  by_cases h0 : d = 0
  · subst h0; simp [toDigits_zero]
  · rw [if_neg h0, List.nil_append, toDigits_of_lt h0 (by omega)]

theorem op_predec_nil (W : Nat) : op_predec W [] = [] := by
  simp [op_predec, decrement, reduce_once]

end Big

namespace Linear
open Big

theorem linear_loop_succ (fuel : Nat) (n a b : List Nat) :
    loop (fuel + 1) n a b =
      if op_cmp n (ofInt 64 32 0) = Ordering.gt then
        loop fuel (op_predec 64 n) b (op_add 64 a b)
      else some a := rfl

/-- The loop of the linear `fibonacci` on a one-digit counter `k`: it runs `k` times. -/
theorem linear_loop_spec : ∀ (k fuel j : Nat), k < base 64 → k < fuel →
    loop fuel (toDigits 64 k) (toDigits 64 (Nat.fib j)) (toDigits 64 (Nat.fib (j + 1))) =
      some (toDigits 64 (Nat.fib (j + k))) := by
  intro k
  induction k with
  | zero =>
    intro fuel j _ hf
    obtain ⟨f, rfl⟩ : ∃ f, fuel = f + 1 := ⟨fuel - 1, by omega⟩
    rw [linear_loop_succ, toDigits_zero]
    have : ¬ op_cmp [] (ofInt 64 32 0) = Ordering.gt := by decide
    rw [if_neg this, Nat.add_zero]
  | succ k ih =>
    intro fuel j hk hf
    obtain ⟨f, rfl⟩ : ∃ f, fuel = f + 1 := ⟨fuel - 1, by omega⟩
    rw [linear_loop_succ]
    have hne : toDigits 64 (k + 1) ≠ [] := fun h => Nat.succ_ne_zero k (toDigits_eq_nil.1 h)
    rw [if_pos ((op_cmp_zero_gt _).2 hne), op_predec_toDigits_succ hk,
      op_add_toDigits (by decide), ← Nat.fib_add_two]
    have := ih f (j + 1) (by omega) (by omega)
    rw [this]
    congr 3
    omega

theorem linear_fibonacci_spec {n fuel : Nat} (hn : n < base 64) (hf : n < fuel) :
    fibonacci fuel (toDigits 64 n) = some (toDigits 64 (Nat.fib n)) := by
  unfold fibonacci
  have h0 : ofInt 64 32 0 = toDigits 64 (Nat.fib 0) := by
    rw [Nat.fib_zero, toDigits_zero]; decide
  have h1 : ofInt 64 32 1 = toDigits 64 (Nat.fib (0 + 1)) := by
    rw [Nat.zero_add, Nat.fib_one, toDigits_of_lt (by decide) (by decide)]; decide
  rw [h0, h1, linear_loop_spec n fuel 0 hn hf, Nat.zero_add]

end Linear

namespace Big

/-! ## The counter of the square-and-multiply loops -/

theorem last_eq_zero_of_value_eq_zero {W : Nat} {l : List Nat} {d : Nat}
    (h : value W (l ++ [d]) = 0) : d = 0 := by
  rw [value_append, value_singleton] at h
  have hp : 0 < base W ^ l.length := Nat.pow_pos (base_pos W)
  have h2 : base W ^ l.length * d = 0 := by omega
  rcases Nat.mul_eq_zero.1 h2 with h3 | h3
  · omega
  · exact h3

theorem length_reduce_once_le (v : List Nat) : (reduce_once v).length ≤ v.length := by
  unfold reduce_once
  split
  · simp
  · exact Nat.le_refl _

/-- `n >>= 1` never lengthens the vector, and shortens a non-empty vector of value
zero. -/
theorem length_op_shr_assign_one {W : Nat} (hW : 0 < W) {v : List Nat} (hv : WF W v) :
    (op_shr_assign W v 1).length ≤ v.length ∧
    (v ≠ [] → value W v = 0 → (op_shr_assign W v 1).length < v.length) := by
  have h1 : 1 < 2 ^ bitlog W := two_pow_bitlog_pos W
  have e : op_shr_assign W v 1 = if v = [] then [] else reduce_once (rshift W v v 1).1 := by
    unfold op_shr_assign
    simp only [Nat.div_eq_of_lt h1, Nat.and_pow_two_sub_one_eq_mod, Nat.mod_eq_of_lt h1,
      List.drop_zero, Nat.le_zero, List.length_eq_zero]
  obtain ⟨r1, r2, r3⟩ := @rshift_self W 1 hW v hv
  rw [e]
  by_cases h0 : v = []
  · subst h0
    simp
  · rw [if_neg h0]
    refine ⟨?_, fun _ hz => ?_⟩
    · have := length_reduce_once_le (rshift W v v 1).1
      omega
    · rw [hz, Nat.zero_div] at r3
      generalize (rshift W v v 1).1 = r at *
      rcases List.eq_nil_or_concat r with hr | ⟨l, d, hr⟩
      · subst hr
        exact absurd (List.length_eq_zero.1 r1.symm) h0
      · subst hr
        rw [List.concat_eq_append] at r1 r3 ⊢
        have hd := last_eq_zero_of_value_eq_zero r3
        subst hd
        rw [reduce_once_concat, if_pos rfl]
        rw [← r1]
        simp

/-- The control of the loop `while (n > 0) { if ((n & 1) != 0) fib *= step;
step *= step; n >>= 1; }` on any vector `n` of 64-bit digits, for any function `loop`
that unfolds as this loop does: if `P x j` says that `x` stands for a `j`-th power and
the product adds the exponents, the loop ends with `fib` times the `value n`-th power
of `step`, as soon as the fuel exceeds `k + |n|` where `value n < 2^k`. -/
theorem binary_loop_spec {α : Type} (loop : Nat → List Nat → α → α → Option α)
    (mul : α → α → α) (P : α → Nat → Prop)
    (hsucc : ∀ fuel n fib step, loop (fuel + 1) n fib step =
      if op_cmp n (ofInt 64 32 0) = Ordering.gt then
        loop fuel (op_shr_assign 64 n 1)
          (if !(op_eq (op_and n (ofInt 64 32 1)) (ofInt 64 32 0)) then mul fib step else fib)
          (mul step step)
      else some fib)
    (hP : ∀ x y j k, P x j → P y k → P (mul x y) (j + k)) :
    ∀ (fuel k : Nat) (n : List Nat) (fib step : α) (a s : Nat), WF 64 n →
    value 64 n < 2 ^ k → k + n.length < fuel → P fib a → P step s →
    ∃ m, loop fuel n fib step = some m ∧ P m (a + s * value 64 n) := by
  intro fuel
  induction fuel with
  | zero => intro k n fib step a s _ _ hf; omega
  | succ fuel ih =>
    intro k n fib step a s hn hk hf hfib hstep
    cases n with
    | nil =>
      refine ⟨fib, ?_, by simpa [value_nil] using hfib⟩
      rw [hsucc, if_neg (by decide)]
    | cons x xs =>
      have hne : x :: xs ≠ [] := List.cons_ne_nil x xs
      obtain ⟨w1, w2, _⟩ := @op_shr_assign_small 64 1 (by decide) (by decide) (x :: xs) hn
      obtain ⟨l1, l2⟩ := @length_op_shr_assign_one 64 (by decide) (x :: xs) hn
      rw [pow_one] at w2
      have hpar := value_mod_two (W := 64) (by decide) x xs
      have hdm := Nat.div_add_mod (value 64 (x :: xs)) 2
      have hss := hP step step s s hstep hstep
      rw [hsucc, if_pos ((op_cmp_zero_gt _).2 hne), and_one_ne_zero]
      have hk' : ∃ k', value 64 (op_shr_assign 64 (x :: xs) 1) < 2 ^ k' ∧
          k' + (op_shr_assign 64 (x :: xs) 1).length < fuel := by
        cases k with
        | zero =>
          have hz : value 64 (x :: xs) = 0 := by simpa using hk
          have := l2 hne hz
          refine ⟨0, ?_, by omega⟩
          rw [w2, hz]; decide
        | succ k' =>
          refine ⟨k', ?_, by omega⟩
          rw [w2, Nat.div_lt_iff_lt_mul (by decide), ← pow_succ]; exact hk
      obtain ⟨k', hk1, hk2⟩ := hk'
      by_cases hodd : x % 2 = 1
      · rw [decide_eq_true hodd, if_pos rfl]
        obtain ⟨m, e1, e2⟩ := ih k' _ _ _ (a + s) (s + s) w1 hk1 hk2
          (hP fib step a s hfib hstep) hss
        refine ⟨m, e1, ?_⟩
        have : a + s + (s + s) * value 64 (op_shr_assign 64 (x :: xs) 1) =
            a + s * value 64 (x :: xs) := by
          rw [w2]
          rw [hpar, hodd] at hdm
          nlinarith [hdm]
        rw [← this]; exact e2
      · rw [decide_eq_false hodd, if_neg (by decide)]
        obtain ⟨m, e1, e2⟩ := ih k' _ _ _ a (s + s) w1 hk1 hk2 hfib hss
        refine ⟨m, e1, ?_⟩
        have : a + (s + s) * value 64 (op_shr_assign 64 (x :: xs) 1) =
            a + s * value 64 (x :: xs) := by
          rw [w2]
          have h2 : x % 2 = 0 := by omega
          rw [hpar, h2] at hdm
          nlinarith [hdm]
        rw [← this]; exact e2

theorem WF_decrement {W : Nat} : ∀ (v : List Nat), WF W v → WF W (decrement W v).1
  | [], _ => WF_nil W
  | d :: ds, h => by
    rw [WF_cons] at h
    have hm : (d + base W - 1) % base W < base W := Nat.mod_lt _ (base_pos W)
    unfold decrement
    simp only
    split
    · exact WF_cons.2 ⟨hm, WF_decrement ds h.2⟩
    · exact WF_cons.2 ⟨hm, h.2⟩

theorem length_decrement {W : Nat} : ∀ (v : List Nat), (decrement W v).1.length = v.length
  | [] => rfl
  | d :: ds => by
    unfold decrement
    simp only
    split
    · simp [length_decrement ds]
    · simp

theorem WF_op_predec {W : Nat} {v : List Nat} (h : WF W v) : WF W (op_predec W v) :=
  WF_reduce_once (WF_decrement v h)

theorem length_op_predec_le (W : Nat) (v : List Nat) : (op_predec W v).length ≤ v.length := by
  unfold op_predec
  have := length_reduce_once_le (decrement W v).1
  rw [length_decrement] at this
  exact this

end Big

namespace MatmulStrassen
open Big

/-! ## The signed wrapper `Int` -/

theorem Int.valid_zero : Int.zero.Valid :=
  ⟨WF_nil 32, Normalised_nil, fun _ => rfl⟩

theorem Int.denote_zero : Int.zero.denote = 0 := rfl

theorem Int.flip_sign_spec {x : Int} (hx : x.Valid) :
    x.flip_sign.Valid ∧ x.flip_sign.denote = -x.denote := by
  obtain ⟨xa, xs⟩ := x
  obtain ⟨h1, h2, h3⟩ := hx
  cases xs
  · exact ⟨⟨h1, h2, h3⟩, by simp [Int.flip_sign, Int.denote]⟩
  · exact ⟨⟨h1, h2, fun h => by simp [Int.flip_sign] at h⟩, by simp [Int.flip_sign, Int.denote]⟩
  · exact ⟨⟨h1, h2, fun h => by simp [Int.flip_sign] at h⟩, by simp [Int.flip_sign, Int.denote]⟩

/-- Magnitudes of different signs: `operator+=` compares them and subtracts the smaller
from the larger. -/
theorem Int.add_assign_diff {xa ya : List Nat} {s t : sign_t} (hs : s ≠ sign_t.ZERO)
    (ht : t ≠ sign_t.ZERO) (hst : s ≠ t) (hx : WF 32 xa) (hy : WF 32 ya)
    (nx : Normalised xa) (ny : Normalised ya) :
    (Int.add_assign ⟨xa, s⟩ ⟨ya, t⟩).Valid ∧
    (Int.add_assign ⟨xa, s⟩ ⟨ya, t⟩).denote =
      (Int.mk xa s).denote + (Int.mk ya t).denote := by
  have hc := op_cmp_spec hx hy nx ny
  unfold Int.add_assign
  simp only [ht, hs, hst, if_false]
  rcases Nat.lt_trichotomy (value 32 xa) (value 32 ya) with hlt | heq | hgt
  · rw [if_pos hlt] at hc
    rw [hc]
    obtain ⟨s1, s2, s3⟩ := op_sub_spec hy hx (Nat.le_of_lt hlt)
    cases s <;> cases t <;> simp_all [Int.flip_sign, Int.denote, Int.Valid] <;> omega
  · rw [if_neg (by omega), if_neg (by omega)] at hc
    rw [hc]
    cases s <;> cases t <;> simp_all [Int.flip_sign, Int.denote, Int.Valid, Normalised_nil, WF_nil]
  · rw [if_neg (by omega), if_pos hgt] at hc
    rw [hc]
    obtain ⟨s1, s2, s3⟩ := op_sub_spec hx hy (Nat.le_of_lt hgt)
    rw [show op_sub 32 xa ya = op_sub_assign 32 xa ya from rfl] at s1 s2 s3
    cases s <;> cases t <;> simp_all [Int.flip_sign, Int.denote, Int.Valid] <;> omega

theorem Int.add_assign_spec {x y : Int} (hx : x.Valid) (hy : y.Valid) :
    (x.add_assign y).Valid ∧ (x.add_assign y).denote = x.denote + y.denote := by
  obtain ⟨xa, xs⟩ := x
  obtain ⟨ya, ys⟩ := y
  by_cases h1 : ys = sign_t.ZERO
  · subst h1
    simp [Int.add_assign, Int.denote, hx]
  · by_cases h2 : xs = sign_t.ZERO
    · subst h2
      simp [Int.add_assign, Int.denote, hy, h1]
    · by_cases h3 : xs = ys
      · subst h3
        obtain ⟨a1, a2, _⟩ := hx
        obtain ⟨b1, b2, _⟩ := hy
        have v1 := WF_op_add (W := 32) (by decide) a1 b1
        have v2 := normalised_op_add a1 b1 a2 b2
        have v3 := value_op_add a1 b1
        rw [show op_add 32 xa ya = op_add_assign 32 xa ya from rfl] at v1 v2 v3
        simp only at a1 a2 b1 b2
        cases xs <;> simp_all [Int.add_assign, Int.denote, Int.Valid]
        omega
      · exact Int.add_assign_diff h2 h1 h3 hx.1 hy.1 hx.2.1 hy.2.1

theorem Int.add_spec {x y : Int} (hx : x.Valid) (hy : y.Valid) :
    (x.add y).Valid ∧ (x.add y).denote = x.denote + y.denote :=
  Int.add_assign_spec hx hy

theorem Int.sub_spec {x y : Int} (hx : x.Valid) (hy : y.Valid) :
    (x.sub y).Valid ∧ (x.sub y).denote = x.denote - y.denote := by
  obtain ⟨f1, f2⟩ := Int.flip_sign_spec hy
  have := Int.add_assign_spec hx f1
  unfold Int.sub Int.sub_assign Int.neg
  rw [f2] at this
  exact ⟨this.1, by rw [this.2]; ring⟩

theorem Int.mul_spec {x y : Int} (hx : x.Valid) (hy : y.Valid) :
    (x.mul y).Valid ∧ (x.mul y).denote = x.denote * y.denote := by
  obtain ⟨xa, xs⟩ := x
  obtain ⟨ya, ys⟩ := y
  obtain ⟨m1, m2, m3⟩ := op_mul_spec hx.1 hy.1
  simp only at m1 m2 m3
  cases xs <;> cases ys <;>
    simp_all [Int.mul, Int.ofNum, Int.denote, Int.Valid, Int.zero, Normalised_nil, WF_nil]

end MatmulStrassen

namespace Big

theorem value_lt_two_pow {W : Nat} {v : List Nat} (hv : WF W v) :
    value W v < 2 ^ (W * v.length) := by
  have := value_lt hv
  unfold base at this
  rwa [← pow_mul] at this

end Big

namespace MatmulStrassen
open Big

/-! ## The Strassen product -/

theorem M2x2.strassen_mul_spec {a o : M2x2} (ha : a.Valid) (ho : o.Valid) :
    (a.mul o).Valid ∧
    (a.mul o).e00.denote = a.e00.denote * o.e00.denote + a.e01.denote * o.e10.denote ∧
    (a.mul o).e01.denote = a.e00.denote * o.e01.denote + a.e01.denote * o.e11.denote ∧
    (a.mul o).e10.denote = a.e10.denote * o.e00.denote + a.e11.denote * o.e10.denote ∧
    (a.mul o).e11.denote = a.e10.denote * o.e01.denote + a.e11.denote * o.e11.denote := by
  obtain ⟨a00, a01, a10, a11⟩ := ha
  obtain ⟨o00, o01, o10, o11⟩ := ho
  have m0 := Int.mul_spec (Int.add_spec a00 a11).1 (Int.add_spec o00 o11).1
  have m1 := Int.mul_spec (Int.add_spec a10 a11).1 o00
  have m2 := Int.mul_spec a00 (Int.sub_spec o01 o11).1
  have m3 := Int.mul_spec a11 (Int.sub_spec o10 o00).1
  have m4 := Int.mul_spec (Int.add_spec a00 a01).1 o11
  have m5 := Int.mul_spec (Int.sub_spec a10 a00).1 (Int.add_spec o00 o01).1
  have m6 := Int.mul_spec (Int.sub_spec a01 a11).1 (Int.add_spec o10 o11).1
  rw [(Int.add_spec a00 a11).2, (Int.add_spec o00 o11).2] at m0
  rw [(Int.add_spec a10 a11).2] at m1
  rw [(Int.sub_spec o01 o11).2] at m2
  rw [(Int.sub_spec o10 o00).2] at m3
  rw [(Int.add_spec a00 a01).2] at m4
  rw [(Int.sub_spec a10 a00).2, (Int.add_spec o00 o01).2] at m5
  rw [(Int.sub_spec a01 a11).2, (Int.add_spec o10 o11).2] at m6
  have c00a := Int.add_spec m0.1 m3.1
  have c00b := Int.sub_spec c00a.1 m4.1
  have c00 := Int.add_spec c00b.1 m6.1
  have c01 := Int.add_spec m2.1 m4.1
  have c10 := Int.add_spec m1.1 m3.1
  have c11a := Int.sub_spec m0.1 m1.1
  have c11b := Int.add_spec c11a.1 m2.1
  have c11 := Int.add_spec c11b.1 m5.1
  refine ⟨⟨c00.1, c01.1, c10.1, c11.1⟩, ?_, ?_, ?_, ?_⟩
  · show (Int.add _ _).denote = _
    rw [c00.2, c00b.2, c00a.2, m0.2, m3.2, m4.2, m6.2]; ring
  · show (Int.add _ _).denote = _
    rw [c01.2, m2.2, m4.2]; ring
  · show (Int.add _ _).denote = _
    rw [c10.2, m1.2, m3.2]; ring
  · show (Int.add _ _).denote = _
    rw [c11.2, c11b.2, c11a.2, m0.2, m1.2, m2.2, m5.2]; ring

theorem M2x2.strassen_isFibMat_mul {a o : M2x2} {j k : Nat} (ha : a.IsFibMat j) (ho : o.IsFibMat k) :
    (a.mul o).IsFibMat (j + k + 1) := by
  obtain ⟨va, a00, a01, a10, a11⟩ := ha
  obtain ⟨vo, o00, o01, o10, o11⟩ := ho
  obtain ⟨v, c00, c01, c10, c11⟩ := M2x2.strassen_mul_spec va vo
  refine ⟨v, ?_, ?_, ?_, ?_⟩
  · rw [c00, a00, a01, o00, o10, Nat.fib_add j k]; push_cast; ring
  · rw [c01, a00, a01, o01, o11, show j + k + 1 + 1 = j + (k + 1) + 1 by ring,
      Nat.fib_add j (k + 1)]; push_cast; ring
  · rw [c10, a10, a11, o00, o10, show j + k + 1 + 1 = (j + 1) + k + 1 by ring,
      Nat.fib_add (j + 1) k]; push_cast; ring
  · rw [c11, a10, a11, o01, o11, show j + k + 1 + 2 = (j + 1) + (k + 1) + 1 by ring,
      Nat.fib_add (j + 1) (k + 1)]; push_cast; ring

theorem M2x2.strassen_isFibMat_base : (M2x2.ofInts 0 1 1 1).IsFibMat 0 := by
  have h0 : ofInt 32 32 0 = [] := by decide
  have h1 : ofInt 32 32 1 = [1] := by decide
  unfold M2x2.ofInts
  rw [h0, h1]
  refine ⟨⟨⟨WF_nil 32, Normalised_nil, fun h => by simp [Int.ofNum] at h⟩,
    ⟨by decide, by decide, fun h => by simp [Int.ofNum] at h⟩,
    ⟨by decide, by decide, fun h => by simp [Int.ofNum] at h⟩,
    ⟨by decide, by decide, fun h => by simp [Int.ofNum] at h⟩⟩, ?_, ?_, ?_, ?_⟩ <;>
  simp [Int.ofNum, Int.denote, value_nil, value_singleton]

theorem strassen_loop_succ (fuel : Nat) (n : List Nat) (fib step : M2x2) :
    loop (fuel + 1) n fib step =
      if op_cmp n (ofInt 64 32 0) = Ordering.gt then
        loop fuel (op_shr_assign 64 n 1)
          (if !(op_eq (op_and n (ofInt 64 32 1)) (ofInt 64 32 0)) then fib.mul step else fib)
          (step.mul step)
      else some fib := rfl

/-- Square-and-multiply: from `fib = M^(a+1)` and `step = M^(s+1)` the loop reaches
`M^(r+1)` with `r + 1 = (a + 1) + (s + 1) * value n`, for every vector `n` of 64-bit
digits and every fuel above `65 * |n|`. -/
theorem strassen_loop_spec {n : List Nat} {fuel : Nat} (hn : WF 64 n)
    (hf : 65 * n.length < fuel) {fib step : M2x2} {a s : Nat} (hfib : fib.IsFibMat a)
    (hstep : step.IsFibMat s) :
    ∃ m r, loop fuel n fib step = some m ∧ m.IsFibMat r ∧
      r + 1 = (a + 1) + (s + 1) * value 64 n := by
  obtain ⟨m, e1, r, e2, e3⟩ := binary_loop_spec loop M2x2.mul
    (fun m j => ∃ r, j = r + 1 ∧ m.IsFibMat r) strassen_loop_succ
    (fun x y j k hx hy => by
      obtain ⟨r1, h1, g1⟩ := hx
      obtain ⟨r2, h2, g2⟩ := hy
      exact ⟨r1 + r2 + 1, by omega, M2x2.strassen_isFibMat_mul g1 g2⟩)
    fuel (64 * n.length) n fib step (a + 1) (s + 1) hn (value_lt_two_pow hn) (by omega)
    ⟨a, rfl, hfib⟩ ⟨s, rfl, hstep⟩
  exact ⟨m, r, e1, e3, by omega⟩

theorem strassen_fibonacci_spec {n : List Nat} {fuel : Nat} (hn : WF 64 n)
    (hf : 65 * n.length < fuel) :
    fibonacci fuel n = some (toDigits 64 (Nat.fib (value 64 n))) := by
  obtain ⟨m, r, e1, e2, e3⟩ := strassen_loop_spec hn hf
    M2x2.strassen_isFibMat_base M2x2.strassen_isFibMat_base
  unfold fibonacci
  rw [e1]
  have hr : r = value 64 n := by omega
  subst hr
  obtain ⟨⟨⟨w1, w2, w3⟩, _⟩, d00, _⟩ := e2
  have hv : value 32 m.e00.abs = Nat.fib (value 64 n) := by
    cases hsg : m.e00.sign
    · have := w3 hsg
      simp only [Int.denote, hsg] at d00
      rw [this, value_nil]
      exact_mod_cast d00
    · simp only [Int.denote, hsg] at d00
      exact_mod_cast d00
    · simp only [Int.denote, hsg] at d00
      omega
  simp only [Option.map_some']
  rw [← toDigits_value w1 w2, hv, cast_toDigits (by decide) (by decide) (by decide)]

end MatmulStrassen

namespace Big

theorem ExactProduct.toDigits {W : Nat} {opMul : List Nat → List Nat → List Nat}
    (h : ExactProduct W opMul) (hW : 0 < W) (x y : Nat) :
    opMul (toDigits W x) (toDigits W y) = toDigits W (x * y) := by
  obtain ⟨s1, s2, s3⟩ := h _ _ (toDigits_WF hW x) (toDigits_WF hW y)
    (toDigits_normalised W x) (toDigits_normalised W y)
  rw [← toDigits_value s1 s2, s3, value_toDigits, value_toDigits]

/-- The exact product on canonical digits satisfies `ExactProduct`. -/
theorem exactProduct_canonical {W : Nat} (hW : 0 < W) :
    ExactProduct W (fun x y => toDigits W (value W x * value W y)) :=
  fun _ _ _ _ _ _ => ⟨toDigits_WF hW _, toDigits_normalised W _, value_toDigits W _⟩

theorem op_mul_exactProduct : ExactProduct 32 (op_mul 32) :=
  fun _ _ hx hy _ _ => op_mul_spec hx hy

end Big

namespace MatmulFft
open Big

/-! ## `matmul_fft.cpp` -/

theorem basePow_eq (k : Nat) :
    basePow (k + 1) = (Nat.fib k, Nat.fib (k + 1), Nat.fib (k + 1), Nat.fib (k + 2)) := by
  induction k with
  | zero => rfl
  | succ k ih =>
    rw [basePow, ih]
    simp only [Nat.mul_zero, Nat.mul_one, Nat.zero_add]
    rw [Nat.fib_add_two (n := k + 1), Nat.fib_add_two (n := k)]

theorem M2x2.fft_isFibMat_mul {opMul : List Nat → List Nat → List Nat}
    (hm : ExactProduct 8 opMul) {a o : M2x2} {j k : Nat} (ha : a.IsFibMat j)
    (ho : o.IsFibMat k) : (M2x2.mul opMul a o).IsFibMat (j + k + 1) := by
  obtain ⟨a00, a01, a10, a11⟩ := ha
  obtain ⟨o00, o01, o10, o11⟩ := ho
  have hW : 0 < 8 := by decide
  unfold M2x2.mul
  refine ⟨?_, ?_, ?_, ?_⟩
  · show op_add 8 (opMul a.e00 o.e00) (opMul a.e01 o.e10) = _
    rw [a00, a01, o00, o10, hm.toDigits hW, hm.toDigits hW, op_add_toDigits hW,
      Nat.fib_add j k]
  · show op_add 8 (opMul a.e00 o.e01) (opMul a.e01 o.e11) = _
    rw [a00, a01, o01, o11, hm.toDigits hW, hm.toDigits hW, op_add_toDigits hW,
      show j + k + 1 + 1 = j + (k + 1) + 1 by ring, Nat.fib_add j (k + 1)]
  · show op_add 8 (opMul a.e10 o.e00) (opMul a.e11 o.e10) = _
    rw [a10, a11, o00, o10, hm.toDigits hW, hm.toDigits hW, op_add_toDigits hW,
      show j + k + 1 + 1 = (j + 1) + k + 1 by ring, Nat.fib_add (j + 1) k]
  · show op_add 8 (opMul a.e10 o.e01) (opMul a.e11 o.e11) = _
    rw [a10, a11, o01, o11, hm.toDigits hW, hm.toDigits hW, op_add_toDigits hW,
      show j + k + 1 + 2 = (j + 1) + (k + 1) + 1 by ring, Nat.fib_add (j + 1) (k + 1)]

theorem M2x2.fft_isFibMat_base : M2x2.base.IsFibMat 0 := by
  have h0 : ofInt 8 32 0 = [] := by decide
  have h1 : ofInt 8 32 1 = [1] := by decide
  have t1 : toDigits 8 1 = [1] := toDigits_of_lt (by decide) (by decide)
  unfold M2x2.base M2x2.IsFibMat
  simp [h0, h1, toDigits_zero, t1]

theorem fft_loop_succ (opMul : List Nat → List Nat → List Nat) (fuel : Nat) (n : List Nat)
    (fib step : M2x2) :
    loop opMul (fuel + 1) n fib step =
      if op_cmp n (ofInt 64 32 0) = Ordering.gt then
        loop opMul fuel (op_shr_assign 64 n 1)
          (if !(op_eq (op_and n (ofInt 64 32 1)) (ofInt 64 32 0))
            then M2x2.mul opMul fib step else fib)
          (M2x2.mul opMul step step)
      else some fib := rfl

/-- Square-and-multiply: from `fib = M^(a+1)` and `step = M^(s+1)` the loop reaches
`M^(r+1)` with `r + 1 = (a + 1) + (s + 1) * value n`, for every vector `n` of 64-bit
digits and every fuel above `65 * |n|`. -/
theorem fft_loop_spec {opMul : List Nat → List Nat → List Nat} (hm : ExactProduct 8 opMul)
    {n : List Nat} {fuel : Nat} (hn : WF 64 n) (hf : 65 * n.length < fuel)
    {fib step : M2x2} {a s : Nat} (hfib : fib.IsFibMat a) (hstep : step.IsFibMat s) :
    ∃ m r, loop opMul fuel n fib step = some m ∧ m.IsFibMat r ∧
      r + 1 = (a + 1) + (s + 1) * value 64 n := by
  obtain ⟨m, e1, r, e2, e3⟩ := binary_loop_spec (loop opMul) (M2x2.mul opMul)
    (fun m j => ∃ r, j = r + 1 ∧ m.IsFibMat r) (fft_loop_succ opMul)
    (fun x y j k hx hy => by
      obtain ⟨r1, h1, g1⟩ := hx
      obtain ⟨r2, h2, g2⟩ := hy
      exact ⟨r1 + r2 + 1, by omega, M2x2.fft_isFibMat_mul hm g1 g2⟩)
    fuel (64 * n.length) n fib step (a + 1) (s + 1) hn (value_lt_two_pow hn) (by omega)
    ⟨a, rfl, hfib⟩ ⟨s, rfl, hstep⟩
  exact ⟨m, r, e1, e3, by omega⟩

theorem fft_fibonacci_spec {opMul : List Nat → List Nat → List Nat} (hm : ExactProduct 8 opMul)
    {n : List Nat} {fuel : Nat} (hn : WF 64 n) (hf : 65 * n.length < fuel) :
    ∃ m, loop opMul fuel n M2x2.base M2x2.base = some m ∧ m.IsFibMat (value 64 n) ∧
      fibonacci opMul fuel n = some (toDigits 64 (Nat.fib (value 64 n))) := by
  obtain ⟨m, r, e1, e2, e3⟩ := fft_loop_spec hm hn hf
    M2x2.fft_isFibMat_base M2x2.fft_isFibMat_base
  have hr : r = value 64 n := by omega
  subst hr
  refine ⟨m, e1, e2, ?_⟩
  unfold fibonacci
  rw [e1]
  simp only [Option.map_some']
  rw [e2.1, cast_toDigits (by decide) (by decide) (by decide)]

end MatmulFft

namespace MatmulSimple
open Big

/-! ## `matmul_simple.cpp` -/

theorem M2x2.simple_isFibMat_mul {a o : M2x2} {j k : Nat} (ha : a.IsFibMat j)
    (ho : o.IsFibMat k) : (a.mul o).IsFibMat (j + k + 1) := by
  obtain ⟨a00, a01, a10, a11⟩ := ha
  obtain ⟨o00, o01, o10, o11⟩ := ho
  have hW : 0 < 32 := by decide
  unfold M2x2.mul
  refine ⟨?_, ?_, ?_, ?_⟩
  · show op_add 32 (op_mul 32 a.e00 o.e00) (op_mul 32 a.e01 o.e10) = _
    rw [a00, a01, o00, o10, op_mul_toDigits, op_mul_toDigits, op_add_toDigits hW,
      Nat.fib_add j k]
  · show op_add 32 (op_mul 32 a.e00 o.e01) (op_mul 32 a.e01 o.e11) = _
    rw [a00, a01, o01, o11, op_mul_toDigits, op_mul_toDigits, op_add_toDigits hW,
      show j + k + 1 + 1 = j + (k + 1) + 1 by ring, Nat.fib_add j (k + 1)]
  · show op_add 32 (op_mul 32 a.e10 o.e00) (op_mul 32 a.e11 o.e10) = _
    rw [a10, a11, o00, o10, op_mul_toDigits, op_mul_toDigits, op_add_toDigits hW,
      show j + k + 1 + 1 = (j + 1) + k + 1 by ring, Nat.fib_add (j + 1) k]
  · show op_add 32 (op_mul 32 a.e10 o.e01) (op_mul 32 a.e11 o.e11) = _
    rw [a10, a11, o01, o11, op_mul_toDigits, op_mul_toDigits, op_add_toDigits hW,
      show j + k + 1 + 2 = (j + 1) + (k + 1) + 1 by ring, Nat.fib_add (j + 1) (k + 1)]

theorem M2x2.simple_isFibMat_base : M2x2.base.IsFibMat 0 := by
  have h0 : ofInt 32 32 0 = [] := by decide
  have h1 : ofInt 32 32 1 = [1] := by decide
  have t1 : toDigits 32 1 = [1] := toDigits_of_lt (by decide) (by decide)
  unfold M2x2.base M2x2.IsFibMat
  simp [h0, h1, toDigits_zero, t1]

theorem simple_loop_succ (fuel : Nat) (n : List Nat) (fib step : M2x2) :
    loop (fuel + 1) n fib step =
      if op_cmp n (ofInt 64 32 0) = Ordering.gt then
        loop fuel (op_predec 64 n) (fib.mul step) step
      else some fib := rfl

/-- The loop of `matmul_simple.cpp` on a one-digit counter `k` multiplies `k` times. -/
theorem simple_loop_spec : ∀ (k fuel a s : Nat) (fib step : M2x2), k < base 64 → k < fuel →
    fib.IsFibMat a → step.IsFibMat s →
    ∃ m, loop fuel (toDigits 64 k) fib step = some m ∧ m.IsFibMat (a + k * (s + 1)) := by
  intro k
  induction k with
  | zero =>
    intro fuel a s fib step _ hf ha _
    obtain ⟨f, rfl⟩ : ∃ f, fuel = f + 1 := ⟨fuel - 1, by omega⟩
    refine ⟨fib, ?_, by simpa using ha⟩
    rw [simple_loop_succ, toDigits_zero, if_neg (by decide)]
  | succ k ih =>
    intro fuel a s fib step hk hf ha hs
    obtain ⟨f, rfl⟩ : ∃ f, fuel = f + 1 := ⟨fuel - 1, by omega⟩
    have hne : toDigits 64 (k + 1) ≠ [] := fun h => Nat.succ_ne_zero k (toDigits_eq_nil.1 h)
    rw [simple_loop_succ, if_pos ((op_cmp_zero_gt _).2 hne), op_predec_toDigits_succ hk]
    obtain ⟨m, e1, e2⟩ := ih f (a + s + 1) s _ step (by omega) (by omega)
      (M2x2.simple_isFibMat_mul ha hs) hs
    refine ⟨m, e1, ?_⟩
    have : a + s + 1 + k * (s + 1) = a + (k + 1) * (s + 1) := by ring
    rw [← this]; exact e2

theorem simple_fibonacci_spec {n fuel : Nat} (hn : n < base 64) (hf : n < fuel) :
    fibonacci fuel (toDigits 64 n) = some (toDigits 64 (Nat.fib n)) := by
  obtain ⟨m, e1, e2⟩ := simple_loop_spec n fuel 0 0 _ _ hn hf M2x2.simple_isFibMat_base M2x2.simple_isFibMat_base
  unfold fibonacci
  rw [e1]
  simp only [Option.map_some']
  rw [e2.1, cast_toDigits (by decide) (by decide) (by decide)]
  simp

end MatmulSimple

namespace FieldExt
open Big

/-! ## `field_ext.cpp` -/

theorem lucas_add_fib : ∀ n, lucas n + Nat.fib n = 2 * Nat.fib (n + 1)
  | 0 => rfl
  | 1 => rfl
  | n + 2 => by
    have h1 := lucas_add_fib n
    have h2 := lucas_add_fib (n + 1)
    have h3 : lucas (n + 2) = lucas n + lucas (n + 1) := rfl
    have h4 := Nat.fib_add_two (n := n)
    have h5 := Nat.fib_add_two (n := n + 1)
    have h6 : n + 1 + 2 = n + 2 + 1 := rfl
    rw [h6] at h5
    omega

/-- Product of two powers of `φ`, in the representation `(L + F√5) / 2`. -/
theorem lucas_fib_add (j s : Nat) :
    lucas j * lucas s + (Nat.fib j * Nat.fib s * 2 ^ 2 + Nat.fib j * Nat.fib s) =
      2 * lucas (j + s) ∧
    lucas j * Nat.fib s + Nat.fib j * lucas s = 2 * Nat.fib (j + s) := by
  have e1 : (lucas j : ℤ) = 2 * Nat.fib (j + 1) - Nat.fib j := by
    have := lucas_add_fib j; omega
  have e2 : (lucas s : ℤ) = 2 * Nat.fib (s + 1) - Nat.fib s := by
    have := lucas_add_fib s; omega
  have e3 : (lucas (j + s) : ℤ) = 2 * Nat.fib (j + s + 1) - Nat.fib (j + s) := by
    have := lucas_add_fib (j + s); omega
  have e4 : (Nat.fib (j + s + 1) : ℤ) =
      Nat.fib j * Nat.fib s + Nat.fib (j + 1) * Nat.fib (s + 1) := by
    exact_mod_cast Nat.fib_add j s
  have e5 : (Nat.fib (j + s + 2) : ℤ) =
      Nat.fib j * Nat.fib (s + 1) + Nat.fib (j + 1) * (Nat.fib s + Nat.fib (s + 1)) := by
    have := Nat.fib_add j (s + 1)
    rw [Nat.fib_add_two (n := s)] at this
    exact_mod_cast this
  have e6 : (Nat.fib (j + s) : ℤ) = Nat.fib (j + s + 2) - Nat.fib (j + s + 1) := by
    have := Nat.fib_add_two (n := j + s); omega
  constructor
  · have : ((lucas j * lucas s + (Nat.fib j * Nat.fib s * 2 ^ 2 + Nat.fib j * Nat.fib s) : ℕ) : ℤ)
        = ((2 * lucas (j + s) : ℕ) : ℤ) := by
      push_cast
      rw [e3, e6, e5, e4, e1, e2]
      ring
    exact_mod_cast this
  · have : ((lucas j * Nat.fib s + Nat.fib j * lucas s : ℕ) : ℤ)
        = ((2 * Nat.fib (j + s) : ℕ) : ℤ) := by
      push_cast
      rw [e6, e5, e4, e1, e2]
      ring
    exact_mod_cast this

theorem Zrt5.mul_shr_a (opMul : List Nat → List Nat → List Nat) (x y : Zrt5) :
    ((Zrt5.mul opMul x y).shr_assign 1).a =
      op_shr_assign 8 (op_add 8 (opMul x.a y.a)
        (op_add 8 (op_shl 8 (opMul x.b y.b) 2) (opMul x.b y.b))) 1 := by
  simp only [Zrt5.shr_assign, Zrt5.mul]

theorem Zrt5.mul_shr_b (opMul : List Nat → List Nat → List Nat) (x y : Zrt5) :
    ((Zrt5.mul opMul x y).shr_assign 1).b =
      op_shr_assign 8 (op_add 8 (opMul x.a y.b) (opMul x.b y.a)) 1 := by
  simp only [Zrt5.shr_assign, Zrt5.mul]

theorem Zrt5.isPhiPow_mul {opMul : List Nat → List Nat → List Nat}
    (hm : ExactProduct 8 opMul) {x y : Zrt5} {j s : Nat} (hx : x.IsPhiPow j)
    (hy : y.IsPhiPow s) : ((Zrt5.mul opMul x y).shr_assign 1).IsPhiPow (j + s) := by
  obtain ⟨xa, xb⟩ := hx
  obtain ⟨ya, yb⟩ := hy
  have hW : 0 < 8 := by decide
  obtain ⟨i1, i2⟩ := lucas_fib_add j s
  have hk2 : 2 < 2 ^ bitlog 8 := by decide
  have hk1 : 1 < 2 ^ bitlog 8 := by decide
  refine ⟨?_, ?_⟩
  · rw [Zrt5.mul_shr_a, xa, xb, ya, yb, hm.toDigits hW, hm.toDigits hW,
      op_shl_toDigits hW hk2 (by decide), op_add_toDigits hW,
      op_add_toDigits hW, op_shr_toDigits hW hk1 (by decide), i1, pow_one,
      Nat.mul_div_cancel_left _ (by decide)]
  · rw [Zrt5.mul_shr_b, xa, xb, ya, yb, hm.toDigits hW, hm.toDigits hW, op_add_toDigits hW,
      op_shr_toDigits hW hk1 (by decide), i2, pow_one,
      Nat.mul_div_cancel_left _ (by decide)]

theorem Zrt5.isPhiPow_phi : Zrt5.phi.IsPhiPow 1 := by
  have h1 : ofInt 8 32 1 = [1] := by decide
  have t1 : toDigits 8 1 = [1] := toDigits_of_lt (by decide) (by decide)
  unfold Zrt5.phi Zrt5.IsPhiPow
  simp [h1, t1, lucas]

theorem fieldExt_loop_succ (opMul : List Nat → List Nat → List Nat) (fuel : Nat) (n : List Nat)
    (fib step : Zrt5) :
    loop opMul (fuel + 1) n fib step =
      if op_cmp n (ofInt 64 32 0) = Ordering.gt then
        loop opMul fuel (op_shr_assign 64 n 1)
          (if !(op_eq (op_and n (ofInt 64 32 1)) (ofInt 64 32 0))
            then (Zrt5.mul opMul fib step).shr_assign 1 else fib)
          ((Zrt5.mul opMul step step).shr_assign 1)
      else some fib := rfl

/-- Square-and-multiply on powers of `φ`: from `fib = φ^a` and `step = φ^s` the loop
reaches `φ^(a + s * value n)`, for every vector `n` of 64-bit digits and every fuel
above `65 * |n|`. -/
theorem fieldExt_loop_spec {opMul : List Nat → List Nat → List Nat}
    (hm : ExactProduct 8 opMul) {n : List Nat} {fuel : Nat} (hn : WF 64 n)
    (hf : 65 * n.length < fuel) {fib step : Zrt5} {a s : Nat} (hfib : fib.IsPhiPow a)
    (hstep : step.IsPhiPow s) :
    ∃ m, loop opMul fuel n fib step = some m ∧ m.IsPhiPow (a + s * value 64 n) :=
  binary_loop_spec (loop opMul) (fun x y => (Zrt5.mul opMul x y).shr_assign 1)
    Zrt5.IsPhiPow (fieldExt_loop_succ opMul)
    (fun _ _ _ _ hx hy => Zrt5.isPhiPow_mul hm hx hy)
    fuel (64 * n.length) n fib step a s hn (value_lt_two_pow hn) (by omega) hfib hstep

/-- What `fibonacci` of `field_ext.cpp` returns for a non-empty index `n`, in terms of
the vector that `--n` leaves. -/
theorem fieldExt_fibonacci_spec {opMul : List Nat → List Nat → List Nat}
    (hm : ExactProduct 8 opMul) {n : List Nat} {fuel : Nat} (hne : n ≠ []) (hn : WF 64 n)
    (hf : 65 * n.length < fuel) :
    ∃ m, loop opMul fuel (op_predec 64 n) Zrt5.phi Zrt5.phi = some m ∧
      m.IsPhiPow (value 64 (op_predec 64 n) + 1) ∧
      fibonacci opMul fuel n =
        some (toDigits 64 (Nat.fib (value 64 (op_predec 64 n) + 1))) := by
  have hlen := length_op_predec_le 64 n
  obtain ⟨m, e1, e2⟩ := fieldExt_loop_spec hm (WF_op_predec hn)
    (show 65 * (op_predec 64 n).length < fuel by omega) Zrt5.isPhiPow_phi Zrt5.isPhiPow_phi
  have e3 : 1 + 1 * value 64 (op_predec 64 n) = value 64 (op_predec 64 n) + 1 := by ring
  rw [e3] at e2
  refine ⟨m, e1, e2, ?_⟩
  unfold fibonacci
  rw [if_neg hne, e1]
  simp only [Option.map_some']
  rw [e2.2, cast_toDigits (by decide) (by decide) (by decide)]

theorem fieldExt_fibonacci_small {opMul : List Nat → List Nat → List Nat}
    (hm : ExactProduct 8 opMul) {n fuel : Nat} (hn : n < base 64) (hf : 65 < fuel) :
    fibonacci opMul fuel (toDigits 64 n) = some (toDigits 64 (Nat.fib n)) := by
  rcases Nat.eq_zero_or_pos n with h0 | hpos
  · subst h0
    simp [fibonacci, toDigits_zero]
  · obtain ⟨k, rfl⟩ : ∃ k, n = k + 1 := ⟨n - 1, by omega⟩
    have hne : toDigits 64 (k + 1) ≠ [] := fun h => Nat.succ_ne_zero k (toDigits_eq_nil.1 h)
    have hp := op_predec_toDigits_succ hn
    have hlen : (toDigits 64 (k + 1)).length = 1 := by
      rw [toDigits_of_lt (Nat.succ_ne_zero k) hn]; rfl
    obtain ⟨m, _, _, e⟩ := @fieldExt_fibonacci_spec opMul hm _ fuel hne
      (toDigits_WF (by decide) _) (by rw [hlen]; omega)
    rw [e, hp, value_toDigits]

end FieldExt

namespace Eval
open Big

/-! ## The reference iteration of the harness -/

theorem refSmall_eq (k : Nat) :
    refSmall k = (Nat.fib k % 2 ^ 64, Nat.fib (k + 1) % 2 ^ 64) := by
  induction k with
  | zero => rfl
  | succ k ih =>
    rw [refSmall, ih]
    simp only
    rw [← Nat.add_mod, ← Nat.fib_add_two]

theorem fib_lt_of_le_93 {n : Nat} (h : n ≤ 93) : Nat.fib n < base 64 := by
  have h93 : Nat.fib 93 < base 64 := by decide
  exact Nat.lt_of_le_of_lt (Nat.fib_mono h) h93

theorem refBig_eq (k : Nat) :
    refBig k = (toDigits 64 (Nat.fib (92 + k)), toDigits 64 (Nat.fib (93 + k))) := by
  induction k with
  | zero =>
    have h92 := fib_lt_of_le_93 (n := 92) (by decide)
    have h93 := fib_lt_of_le_93 (n := 93) (by decide)
    have b : base 64 = 2 ^ 64 := rfl
    rw [refBig, first_mark, refSmall_eq]
    simp only [Nat.add_zero]
    rw [← b, Nat.mod_eq_of_lt h92, Nat.mod_eq_of_lt h93,
      ofInt_small (Nat.le_refl 64) h92, ofInt_small (Nat.le_refl 64) h93]
  | succ k ih =>
    rw [refBig, ih]
    simp only
    rw [op_add_toDigits (by decide), show 93 + (k + 1) = (92 + k) + 2 by ring,
      Nat.fib_add_two, show 92 + (k + 1) = 93 + k by ring, show 92 + k + 1 = 93 + k by ring]

/-- The value the harness compares with is the canonical digit vector of `F(cur)`. -/
theorem expected_eq (cur : Nat) : expected cur = toDigits 64 (Nat.fib cur) := by
  unfold expected first_mark
  by_cases h : cur < 92
  · have hlt := fib_lt_of_le_93 (n := cur) (by omega)
    have b : base 64 = 2 ^ 64 := rfl
    rw [if_pos h, refSmall_eq]
    simp only
    rw [← b, Nat.mod_eq_of_lt hlt, ofInt_small (Nat.le_refl 64) hlt]
  · rw [if_neg h, refBig_eq]
    simp only
    congr 2
    omega

/-- The counter of the harness after `n` increments is the canonical vector of `n`. -/
theorem cur_eq : ∀ (n : Nat), n < base 64 → cur n = toDigits 64 n
  | 0, _ => by
    rw [cur, toDigits_zero]; decide
  | k + 1, h => by
    rw [cur, cur_eq k (by omega)]
    by_cases h0 : k = 0
    · subst h0
      rw [toDigits_zero, toDigits_of_lt (by decide) (by decide)]
      decide
    · rw [toDigits_of_lt h0 (by omega), toDigits_of_lt (Nat.succ_ne_zero k) h]
      have hm : (k + 1) % base 64 = k + 1 := Nat.mod_eq_of_lt h
      simp [op_preinc, increment, hm]

end Eval

namespace Big

/-! ## Shifts by any count -/

theorem bitlog_spec {W : Nat} (hW : W = 8 ∨ W = 16 ∨ W = 32 ∨ W = 64) : 2 ^ bitlog W = W := by
  rcases hW with h | h | h | h <;> subst h <;> rfl

theorem value_take_drop (W : Nat) (v : List Nat) {q : Nat} (hq : q ≤ v.length) :
    value W v = value W (v.take q) + base W ^ q * value W (v.drop q) := by
  conv_lhs => rw [← List.take_append_drop q v]
  rw [value_append, List.length_take, Nat.min_eq_left hq]

theorem value_drop {W : Nat} {v : List Nat} (hv : WF W v) {q : Nat} (hq : q ≤ v.length) :
    value W (v.drop q) = value W v / base W ^ q := by
  have h1 := value_take_drop W v hq
  have h2 : value W (v.take q) < base W ^ q := by
    have := value_lt (WF_take hv q)
    rwa [List.length_take, Nat.min_eq_left hq] at this
  rw [h1, Nat.add_comm, Nat.mul_add_div (Nat.pow_pos (base_pos W)), Nat.div_eq_of_lt h2,
    Nat.add_zero]

theorem Normalised_append {l x : List Nat} (hx : x ≠ []) (hn : Normalised x) :
    Normalised (l ++ x) := by
  unfold Normalised at *
  rwa [List.getLast?_append_of_ne_nil _ hx]

theorem Normalised_drop {v : List Nat} (hn : Normalised v) (q : Nat) : Normalised (v.drop q) := by
  by_cases h : v.drop q = []
  · rw [h]; exact Normalised_nil
  · have := List.take_append_drop q v
    unfold Normalised at *
    rw [← this, List.getLast?_append_of_ne_nil _ h] at hn
    exact hn

theorem base_pow_eq (W q : Nat) : base W ^ q = 2 ^ (W * q) := by
  unfold base; rw [pow_mul]

theorem shift_split (W n : Nat) : 2 ^ n = base W ^ (n / W) * 2 ^ (n % W) := by
  rw [base_pow_eq, ← pow_add]
  congr 1
  exact (Nat.div_add_mod n W).symm

/-- `operator<<=(n)` inserts `n / W` zero digits below the result of the shift by
`n % W` bits. -/
theorem op_shl_assign_split {W : Nat} (hb : 2 ^ bitlog W = W) (n : Nat) (v : List Nat) :
    op_shl_assign W v n = List.replicate (n / W) 0 ++ op_shl_assign W v (n % W) := by
  have hW : 0 < W := by rw [← hb]; exact Nat.pow_pos (by decide)
  have hr : n % W < W := Nat.mod_lt _ hW
  unfold op_shl_assign
  simp only [hb, Nat.and_pow_two_sub_one_eq_mod]
  rw [← hb, Nat.and_pow_two_sub_one_eq_mod, Nat.and_pow_two_sub_one_eq_mod, hb,
    Nat.mod_mod, Nat.div_eq_of_lt hr]
  simp only [List.replicate_zero, List.nil_append]
  split <;> simp

theorem op_shl_assign_spec {W : Nat} (hb : 2 ^ bitlog W = W) (n : Nat) {v : List Nat}
    (hv : WF W v) :
    WF W (op_shl_assign W v n) ∧ value W (op_shl_assign W v n) = value W v * 2 ^ n ∧
    (v ≠ [] → Normalised v → Normalised (op_shl_assign W v n)) := by
  have hW : 0 < W := by rw [← hb]; exact Nat.pow_pos (by decide)
  have hr : n % W < W := Nat.mod_lt _ hW
  obtain ⟨h1, h2, h3⟩ := op_shl_assign_small (W := W) (n := n % W) (by rw [hb]; exact hr)
    (Nat.le_of_lt hr) hv
  unfold op_shl at h1 h2 h3
  rw [op_shl_assign_split hb]
  refine ⟨WF_append.2 ⟨WF_replicate_zero W _, h1⟩, ?_, fun hne hn => ?_⟩
  · rw [value_append, value_replicate_zero, List.length_replicate, h2, Nat.zero_add,
      shift_split W n]
    ring
  · apply Normalised_append _ (h3 hn)
    intro h0
    rw [h0, value_nil] at h2
    have hpos : 0 < value W v := by
      have := pow_le_value_of_normalised (W := W) hn hne
      exact Nat.lt_of_lt_of_le (Nat.pow_pos (base_pos W)) this
    have : 0 < value W v * 2 ^ (n % W) := Nat.mul_pos hpos (Nat.pow_pos (by decide))
    omega

theorem op_shr_assign_spec {W : Nat} (hb : 2 ^ bitlog W = W) (n : Nat) {v : List Nat}
    (hv : WF W v) :
    WF W (op_shr_assign W v n) ∧ value W (op_shr_assign W v n) = value W v / 2 ^ n ∧
    (Normalised v → Normalised (op_shr_assign W v n)) := by
  have hW : 0 < W := by rw [← hb]; exact Nat.pow_pos (by decide)
  have hr : n % W < W := Nat.mod_lt _ hW
  by_cases hl : v.length ≤ n / W
  · have e : op_shr_assign W v n = [] := by
      unfold op_shr_assign
      simp only [hb, if_pos hl]
    rw [e]
    refine ⟨WF_nil W, ?_, fun _ => Normalised_nil⟩
    rw [value_nil, eq_comm, Nat.div_eq_of_lt]
    calc value W v < base W ^ v.length := value_lt hv
      _ ≤ base W ^ (n / W) := Nat.pow_le_pow_right (base_pos W) hl
      _ ≤ base W ^ (n / W) * 2 ^ (n % W) := Nat.le_mul_of_pos_right _ (Nat.pow_pos (by decide))
      _ = 2 ^ n := (shift_split W n).symm
  · have hd : WF W (v.drop (n / W)) := WF_drop hv _
    have hne : (v.drop (n / W)).length ≠ 0 := by
      rw [List.length_drop]; omega
    have e : op_shr_assign W v n = op_shr_assign W (v.drop (n / W)) (n % W) := by
      unfold op_shr_assign
      simp only [hb]
      rw [if_neg hl, ← hb, Nat.and_pow_two_sub_one_eq_mod, Nat.and_pow_two_sub_one_eq_mod, hb,
        Nat.mod_mod, Nat.div_eq_of_lt hr, if_neg (by omega), List.drop_zero]
    obtain ⟨h1, h2, h3⟩ := op_shr_assign_small (W := W) (n := n % W) (by rw [hb]; exact hr)
      (Nat.le_of_lt hr) hd
    rw [e]
    refine ⟨h1, ?_, fun hn => h3 (Normalised_drop hn _)⟩
    rw [h2, value_drop hv (by omega), Nat.div_div_eq_div_mul, ← shift_split W n]


/-! ## Narrowing cast -/

theorem value_narrow_digit (w x : Nat) : ∀ r : Nat,
    value w ((List.range r).map (fun i => (x / 2 ^ (i * w)) % base w)) = x % 2 ^ (r * w)
  | 0 => by simp [value_nil, Nat.mod_one]
  | r + 1 => by
    rw [List.range_succ, List.map_append, value_append, value_narrow_digit w x r]
    simp only [List.map_cons, List.map_nil, value_singleton, List.length_map, List.length_range]
    rw [base_pow_eq, Nat.add_mul, Nat.one_mul, pow_add, Nat.mod_mul, Nat.mul_comm w r]
    rfl

theorem WF_narrow_digit (w x r : Nat) :
    WF w ((List.range r).map (fun i => (x / 2 ^ (i * w)) % base w)) := by
  intro d hd
  obtain ⟨i, _, rfl⟩ := List.mem_map.1 hd
  exact Nat.mod_lt _ (base_pos w)

theorem copyNarrow_cons (WT WS x : Nat) (xs : List Nat) :
    copyNarrow WT WS (x :: xs) =
      (List.range ((WS + WT - 1) / WT)).map (fun i => (x / 2 ^ (i * WT)) % base WT) ++
        copyNarrow WT WS xs := rfl

theorem copyNarrow_spec {WT WS r : Nat} (hWT : 0 < WT) (hr : WS = r * WT) :
    ∀ xs : List Nat, WF WS xs →
      (copyNarrow WT WS xs).length = xs.length * r ∧ WF WT (copyNarrow WT WS xs) ∧
      value WT (copyNarrow WT WS xs) = value WS xs
  | [], _ => ⟨by simp [copyNarrow], WF_nil WT, rfl⟩
  | x :: xs, h => by
    rw [WF_cons] at h
    obtain ⟨i1, i2, i3⟩ := copyNarrow_spec hWT hr xs h.2
    have hc : (WS + WT - 1) / WT = r := by
      rw [hr]
      have : r * WT + WT - 1 = WT - 1 + r * WT := by omega
      rw [this, Nat.add_mul_div_right _ _ hWT, Nat.div_eq_of_lt (by omega), Nat.zero_add]
    rw [copyNarrow_cons, hc]
    refine ⟨?_, WF_append.2 ⟨WF_narrow_digit WT x r, i2⟩, ?_⟩
    · simp only [List.length_append, List.length_map, List.length_range, i1, List.length_cons]
      ring
    · rw [value_append, value_narrow_digit, i3, value_cons, List.length_map, List.length_range,
        base_pow_eq, Nat.mul_comm WT r, ← hr]
      have hx : x % 2 ^ WS = x := Nat.mod_eq_of_lt h.1
      rw [hx]
      rfl

/-- The cast to a narrower digit type keeps the value and yields a normalised vector. -/
theorem cast_narrow {WT WS : Nat} (hWS : 0 < WS) (hdvd : WS ∣ WT) (hlt : WS < WT)
    {v : List Nat} (hv : WF WT v) :
    WF WS (cast WT WS v) ∧ Normalised (cast WT WS v) ∧
      value WS (cast WT WS v) = value WT v := by
  obtain ⟨r, hr⟩ := hdvd
  rw [Nat.mul_comm] at hr
  obtain ⟨i1, i2, i3⟩ := copyNarrow_spec hWS hr v hv
  have hlen : v.length * WT / WS = v.length * r := by
    rw [hr, ← Nat.mul_assoc, Nat.mul_div_cancel _ hWS]
  have e : full_reduce (copy WS WT (List.replicate (v.length * WT / WS) 0) v) =
      full_reduce (copyNarrow WS WT v) := by
    unfold copy
    simp only [ge_iff_le, if_neg (Nat.not_le.2 hlt), hlen, i1, List.drop_replicate,
      Nat.sub_self, List.replicate_zero, List.append_nil]
  have e2 : cast WT WS v = full_reduce (copyNarrow WS WT v) := by
    unfold cast
    simp only [gt_iff_lt, hlt, if_true]
    rw [e]
    split
    · exact reduce_once_of_normalised (full_reduce_normalised _)
    · exact full_reduce_of_normalised (full_reduce_normalised _)
  rw [e2]
  exact ⟨WF_full_reduce i2, full_reduce_normalised _, by rw [value_full_reduce, i3]⟩

/-- The cast between two digit widths, one a multiple of the other. -/
theorem cast_spec {WT WS : Nat} (hWT : 0 < WT) (hWS : 0 < WS) (hd : WT ∣ WS ∨ WS ∣ WT)
    {v : List Nat} (hv : WF WT v) :
    WF WS (cast WT WS v) ∧ Normalised (cast WT WS v) ∧
      value WS (cast WT WS v) = value WT v := by
  by_cases hlt : WS < WT
  · rcases hd with h | h
    · exact absurd (Nat.le_of_dvd hWS h) (by omega)
    · exact cast_narrow hWS h hlt hv
  · rcases hd with h | h
    · exact cast_widen hWT hWS h hv
    · have : WT = WS := Nat.le_antisymm (by omega) (Nat.le_of_dvd hWT h)
      subst this
      exact cast_widen hWT hWS (dvd_refl _) hv


theorem width_cases {W : Nat} (h : W ∈ [8, 16, 32, 64]) : W = 8 ∨ W = 16 ∨ W = 32 ∨ W = 64 := by
  simpa using h

theorem width_pos {W : Nat} (h : W ∈ [8, 16, 32, 64]) : 0 < W := by
  rcases width_cases h with h | h | h | h <;> omega

theorem width_dvd {W W' : Nat} (h : W ∈ [8, 16, 32, 64]) (h' : W' ∈ [8, 16, 32, 64])
    (hlt : W < W') : W ∣ W' := by
  rcases width_cases h with h | h | h | h <;> rcases width_cases h' with h' | h' | h' | h' <;>
    subst h <;> subst h' <;> omega

/-- For the digit widths of `num_t`, the shifts of `lshift` and `rshift` are all defined
exactly when the digit is narrower than `int` or the intra-digit shift is not zero. -/
theorem windowShiftDefined_iff {W : Nat} (h : W ∈ [8, 16, 32, 64]) (src : List Nat) (k : Nat) :
    WindowShiftDefined W src (k &&& (2 ^ bitlog W - 1)) ↔ src = [] ∨ W < 32 ∨ k % W ≠ 0 := by
  have hb := bitlog_spec (width_cases h)
  have hr : k % W < W := Nat.mod_lt _ (width_pos h)
  unfold WindowShiftDefined shiftAmounts ShiftDefined promotedWidth
  rw [Nat.and_pow_two_sub_one_eq_mod, hb]
  simp only [List.mem_cons, List.mem_singleton, List.not_mem_nil, or_false, forall_eq_or_imp,
    forall_eq]
  by_cases hs : src = []
  · simp [hs]
  · simp only [hs, false_or]
    rcases width_cases h with h | h | h | h <;> subst h <;> omega


/-! ## Decimal rendering: the double-dabble -/

theorem dabbleStep_cons (d : Nat) (ds : List Nat) (nb : Bool) :
    dabbleStep (d :: ds) nb =
      ((if decide ((if nb then (if d ≥ 5 then (d + 3) % 2 ^ 32 else d) * 2 % 2 ^ 32 ||| 1
            else (if d ≥ 5 then (d + 3) % 2 ^ 32 else d) * 2 % 2 ^ 32) > 15)
          then (if nb then (if d ≥ 5 then (d + 3) % 2 ^ 32 else d) * 2 % 2 ^ 32 ||| 1
            else (if d ≥ 5 then (d + 3) % 2 ^ 32 else d) * 2 % 2 ^ 32) &&& 15
          else (if nb then (if d ≥ 5 then (d + 3) % 2 ^ 32 else d) * 2 % 2 ^ 32 ||| 1
            else (if d ≥ 5 then (d + 3) % 2 ^ 32 else d) * 2 % 2 ^ 32)) ::
        (dabbleStep ds (decide ((if nb then
            (if d ≥ 5 then (d + 3) % 2 ^ 32 else d) * 2 % 2 ^ 32 ||| 1
            else (if d ≥ 5 then (d + 3) % 2 ^ 32 else d) * 2 % 2 ^ 32) > 15))).1,
       (dabbleStep ds (decide ((if nb then
            (if d ≥ 5 then (d + 3) % 2 ^ 32 else d) * 2 % 2 ^ 32 ||| 1
            else (if d ≥ 5 then (d + 3) % 2 ^ 32 else d) * 2 % 2 ^ 32) > 15))).2) := rfl

/-- One decimal digit of the shift-and-add-3 step: the digit becomes `(2 d + bit) mod 10`
and the outgoing bit is the decimal carry. -/
theorem dabble_digit : ∀ d < 10, ∀ nb : Bool,
    (if decide ((if nb then (if d ≥ 5 then (d + 3) % 2 ^ 32 else d) * 2 % 2 ^ 32 ||| 1
            else (if d ≥ 5 then (d + 3) % 2 ^ 32 else d) * 2 % 2 ^ 32) > 15)
          then (if nb then (if d ≥ 5 then (d + 3) % 2 ^ 32 else d) * 2 % 2 ^ 32 ||| 1
            else (if d ≥ 5 then (d + 3) % 2 ^ 32 else d) * 2 % 2 ^ 32) &&& 15
          else (if nb then (if d ≥ 5 then (d + 3) % 2 ^ 32 else d) * 2 % 2 ^ 32 ||| 1
            else (if d ≥ 5 then (d + 3) % 2 ^ 32 else d) * 2 % 2 ^ 32)) =
        (2 * d + nb.toNat) % 10 ∧
    decide ((if nb then (if d ≥ 5 then (d + 3) % 2 ^ 32 else d) * 2 % 2 ^ 32 ||| 1
            else (if d ≥ 5 then (d + 3) % 2 ^ 32 else d) * 2 % 2 ^ 32) > 15) =
        decide (10 ≤ 2 * d + nb.toNat) := by
  decide

theorem dabbleStep_spec : ∀ (ds : List Nat) (nb : Bool), (∀ d ∈ ds, d < 10) →
    (dabbleStep ds nb).1.length = ds.length ∧ (∀ d ∈ (dabbleStep ds nb).1, d < 10) ∧
    Nat.ofDigits 10 (dabbleStep ds nb).1 + 10 ^ ds.length * (dabbleStep ds nb).2.toNat =
      2 * Nat.ofDigits 10 ds + nb.toNat
  | [], nb, _ => by simp [dabbleStep]
  | d :: ds, nb, h => by
    have hd : d < 10 := h d (List.mem_cons_self _ _)
    have hds : ∀ e ∈ ds, e < 10 := fun e he => h e (List.mem_cons_of_mem _ he)
    obtain ⟨e1, e2⟩ := dabble_digit d hd nb
    rw [dabbleStep_cons, e1, e2]
    obtain ⟨i1, i2, i3⟩ := dabbleStep_spec ds (decide (10 ≤ 2 * d + nb.toNat)) hds
    refine ⟨by simp only [List.length_cons, i1], ?_, ?_⟩
    · intro e he
      rcases List.mem_cons.1 he with he | he
      · rw [he]; exact Nat.mod_lt _ (by decide)
      · exact i2 e he
    · simp only [Nat.ofDigits_cons, List.length_cons, pow_succ]
      have hc : (decide (10 ≤ 2 * d + nb.toNat)).toNat = (2 * d + nb.toNat) / 10 := by
        have hb : nb.toNat ≤ 1 := Bool.toNat_le nb
        by_cases h10 : 10 ≤ 2 * d + nb.toNat
        · simp only [h10, decide_True, Bool.toNat_true]; omega
        · simp only [h10, decide_False, Bool.toNat_false]; omega
      rw [hc] at i3
      have := Nat.div_add_mod (2 * d + nb.toNat) 10
      have e := congrArg (fun z => 10 * z) i3
      simp only [Nat.mul_add] at e
      have e3 : 10 ^ ds.length * 10 * (dabbleStep ds (decide (10 ≤ 2 * d + nb.toNat))).2.toNat =
          10 * (10 ^ ds.length * (dabbleStep ds (decide (10 ≤ 2 * d + nb.toNat))).2.toNat) := by
        ring
      rw [e3]
      omega


theorem digits10_lt (D : Nat) : ∀ d ∈ Nat.digits 10 D, d < 10 :=
  fun _ hd => Nat.digits_lt_base (by decide) hd

/-- One incoming bit turns the decimal digits of `D` into those of `2 D + bit`. -/
theorem dabbleBit_digits (D : Nat) (nb : Bool) :
    dabbleBit (Nat.digits 10 D) nb = Nat.digits 10 (2 * D + nb.toNat) := by
  obtain ⟨i1, i2, i3⟩ := dabbleStep_spec (Nat.digits 10 D) nb (digits10_lt D)
  rw [Nat.ofDigits_digits] at i3
  unfold dabbleBit
  generalize dabbleStep (Nat.digits 10 D) nb = r at *
  obtain ⟨l, c⟩ := r
  simp only at *
  cases c with
  | true =>
    simp only [if_true]
    have hv : Nat.ofDigits 10 (l ++ [1]) = 2 * D + nb.toNat := by
      rw [Nat.ofDigits_append, Nat.ofDigits_singleton, i1, ← i3]
      simp
    rw [← hv]
    refine (Nat.digits_ofDigits 10 (by decide) _ ?_ ?_).symm
    · intro d hd
      rcases List.mem_append.1 hd with hd | hd
      · exact i2 d hd
      · rw [List.mem_singleton.1 hd]; decide
    · intro _
      simp
  | false =>
    simp only [Bool.false_eq_true, if_false, Bool.toNat_false, Nat.mul_zero, Nat.add_zero] at *
    rw [← i3]
    refine (Nat.digits_ofDigits 10 (by decide) _ i2 ?_).symm
    intro hne
    intro h0
    have hD : D ≠ 0 := by
      intro hD
      rw [hD] at i1
      simp at i1
      exact hne i1
    have h1 : 10 ^ (Nat.digits 10 D).length ≤ 10 * D := Nat.base_pow_length_digits_le 10 D (by decide) hD
    have hl : l = l.dropLast ++ [0] := by
      conv_lhs => rw [← List.dropLast_append_getLast hne, h0]
    have h2 : Nat.ofDigits 10 l = Nat.ofDigits 10 l.dropLast := by
      conv_lhs => rw [hl, Nat.ofDigits_append, Nat.ofDigits_singleton, Nat.mul_zero, Nat.add_zero]
    have h3 : Nat.ofDigits 10 l.dropLast < 10 ^ l.dropLast.length :=
      Nat.ofDigits_lt_base_pow_length (by decide) (fun d hd => i2 d (List.mem_of_mem_dropLast hd))
    have h4 : l.length = l.dropLast.length + 1 := by
      conv_lhs => rw [hl]
      simp
    rw [← i1, h4, pow_succ] at h1
    omega

theorem and_two_pow_ne_zero (x m : Nat) :
    (decide (x &&& 2 ^ m ≠ 0)).toNat = x / 2 ^ m % 2 := by
  have ht : Nat.testBit x m = decide (x / 2 ^ m % 2 = 1) := Nat.testBit_to_div_mod
  by_cases hb : Nat.testBit x m = true
  · have h1 : x &&& 2 ^ m ≠ 0 := by
      intro h0
      have := congrArg (fun z => Nat.testBit z m) h0
      simp [Nat.testBit_and, hb, Nat.testBit_two_pow_self] at this
    rw [hb] at ht
    have := of_decide_eq_true ht.symm
    simp [h1, this]
  · have hb0 : Nat.testBit x m = false := by simpa using hb
    have h1 : x &&& 2 ^ m = 0 := by
      apply Nat.eq_of_testBit_eq
      intro i
      rw [Nat.testBit_and, Nat.zero_testBit, Nat.testBit_two_pow]
      by_cases hi : m = i
      · subst hi; simp [hb0]
      · simp [hi]
    rw [hb0] at ht
    have := of_decide_eq_false ht.symm
    have h2 : x / 2 ^ m % 2 = 0 := by omega
    simp [h1, h2]

theorem dabbleDigit_bits {W x : Nat} (D : Nat) : ∀ j : Nat, j ≤ W →
    (List.range j).foldl
      (fun ds i => dabbleBit ds (decide (x &&& 2 ^ (W - 1 - i) ≠ 0))) (Nat.digits 10 D) =
      Nat.digits 10 (D * 2 ^ j + x / 2 ^ (W - j) % 2 ^ j)
  | 0, _ => by simp [Nat.mod_one]
  | j + 1, h => by
    rw [List.range_succ, List.foldl_append, dabbleDigit_bits D j (by omega)]
    simp only [List.foldl_cons, List.foldl_nil]
    rw [dabbleBit_digits, and_two_pow_ne_zero]
    congr 1
    have e1 : W - j = (W - 1 - j) + 1 := by omega
    have e2 : W - (j + 1) = W - 1 - j := by omega
    rw [e1, e2, pow_succ 2 (W - 1 - j), ← Nat.div_div_eq_div_mul]
    generalize x / 2 ^ (W - 1 - j) = y
    have h1 : y % 2 ^ (j + 1) = 2 * (y / 2 % 2 ^ j) + y % 2 := by
      rw [pow_succ, Nat.mul_comm (2 ^ j) 2, Nat.mod_mul]
      omega
    rw [h1, pow_succ]
    ring

/-- The `W` bits of one digit `x` take the decimal digits of `D` to those of
`D * 2^W + x`. -/
theorem dabbleDigit_digits {W x : Nat} (hx : x < base W) (D : Nat) :
    dabbleDigit W x (Nat.digits 10 D) = Nat.digits 10 (D * base W + x) := by
  unfold dabbleDigit
  rw [dabbleDigit_bits D W (Nat.le_refl W), Nat.sub_self, pow_zero, Nat.div_one]
  unfold base at *
  rw [Nat.mod_eq_of_lt hx]

theorem strLoop_full {W : Nat} : ∀ (xs : List Nat) (D off : Nat), WF W xs →
    strLoop W true xs (Nat.digits 10 D) off =
      (Nat.digits 10 (D * base W ^ xs.length + value W xs.reverse), off)
  | [], D, off, _ => by simp [strLoop, value_nil]
  | x :: xs, D, off, h => by
    rw [WF_cons] at h
    have e : strLoop W true (x :: xs) (Nat.digits 10 D) off =
        strLoop W true xs (dabbleDigit W x (Nat.digits 10 D)) off := by
      simp [strLoop]
    rw [e, dabbleDigit_digits h.1, strLoop_full xs _ off h.2]
    congr 2
    rw [List.reverse_cons, value_append, value_singleton, List.length_reverse, List.length_cons,
      pow_succ]
    ring


/-! ## Decimal strings -/

theorem toDigitsCore_digits : ∀ (fuel n : Nat) (acc : List Char), 0 < n → n < fuel →
    Nat.toDigitsCore 10 fuel n acc = (Nat.digits 10 n).reverse.map Nat.digitChar ++ acc
  | 0, _, _, _, h => absurd h (Nat.not_lt_zero _)
  | fuel + 1, n, acc, hn, hf => by
    rw [Nat.toDigitsCore, Nat.digits_def' (by decide) hn]
    by_cases h0 : n / 10 = 0
    · simp [h0]
    · simp only [h0, if_false]
      rw [toDigitsCore_digits fuel (n / 10) _ (Nat.pos_of_ne_zero h0) (by omega)]
      simp

theorem toDigits_digits {n : Nat} (hn : 0 < n) :
    Nat.toDigits 10 n = (Nat.digits 10 n).reverse.map Nat.digitChar := by
  rw [Nat.toDigits, toDigitsCore_digits (n + 1) n [] hn (Nat.lt_succ_self n), List.append_nil]

theorem repr_digit : ∀ d < 10, Nat.repr d = String.mk [Nat.digitChar d] := by
  decide

/-- The decimal digits, most significant first, each printed on its own, spell the number
the way `Nat.repr` prints it. -/
theorem join_repr_digits {n : Nat} (hn : 0 < n) :
    String.join ((Nat.digits 10 n).reverse.map Nat.repr) = Nat.repr n := by
  rw [String.join_eq, Nat.repr, toDigits_digits hn, List.asString]
  congr 1
  have h : ∀ l : List Nat, (∀ d ∈ l, d < 10) →
      ((l.map Nat.repr).map String.data).flatten = l.map Nat.digitChar := by
    intro l
    induction l with
    | nil => intro _; rfl
    | cons d l ih =>
      intro hl
      simp only [List.map_cons, List.flatten_cons]
      rw [ih (fun e he => hl e (List.mem_cons_of_mem _ he)),
        repr_digit d (hl d (List.mem_cons_self _ _))]
      rfl
  exact h _ (fun d hd => digits10_lt n d (List.mem_reverse.1 hd))

/-- `str(true)` prints the decimal representation of the value. -/
theorem str_full {W : Nat} {v : List Nat} (hv : WF W v) (hn : Normalised v) :
    str W v true = Nat.repr (value W v) := by
  unfold str
  by_cases h0 : v = []
  · subst h0
    rw [if_pos rfl, value_nil]
    decide
  · rw [if_neg h0]
    have hr : WF W v.reverse := fun d hd => hv d (List.mem_reverse.1 hd)
    have e := strLoop_full v.reverse 0 0 hr
    simp only [Nat.digits_zero, Nat.zero_mul, Nat.zero_add, List.reverse_reverse] at e
    have hpos : 0 < value W v :=
      Nat.lt_of_lt_of_le (Nat.pow_pos (base_pos W)) (pow_le_value_of_normalised hn h0)
    simp only [e, Bool.not_true, Bool.false_eq_true, false_and, if_false]
    exact join_repr_digits hpos


/-! ## Bitwise or on digit vectors -/

theorem or_digit {W x y u v : Nat} (hx : x < 2 ^ W) (hy : y < 2 ^ W) :
    (x + 2 ^ W * u) ||| (y + 2 ^ W * v) = (x ||| y) + 2 ^ W * (u ||| v) := by
  have hxy : x ||| y < 2 ^ W := Nat.or_lt_two_pow hx hy
  apply Nat.eq_of_testBit_eq
  intro i
  rw [Nat.testBit_or, Nat.add_comm x, Nat.add_comm y, Nat.add_comm (x ||| y),
    Nat.testBit_mul_pow_two_add _ hx, Nat.testBit_mul_pow_two_add _ hy,
    Nat.testBit_mul_pow_two_add _ hxy]
  split
  · rw [Nat.testBit_or]
  · rw [Nat.testBit_or]

theorem bitwise_or_cons (o x y : Nat) (out lhs rhs : List Nat) :
    bitwise_or (o :: out) (x :: lhs) (y :: rhs) = (x ||| y) :: bitwise_or out lhs rhs := rfl

theorem bitwise_or_nil_right (v : List Nat) : bitwise_or v v [] = v := by
  cases v <;> rfl

/-- `bitwise_or(value, value, other)` when `other` is not longer than `value`: the
digits are or-ed in place; the value is the bitwise or of the values. -/
theorem bitwise_or_spec {W : Nat} : ∀ (v o : List Nat), WF W v → WF W o → o.length ≤ v.length →
    (bitwise_or v v o).length = v.length ∧ WF W (bitwise_or v v o) ∧
    value W (bitwise_or v v o) = value W v ||| value W o
  | v, [], hv, _, _ => by
    rw [bitwise_or_nil_right]
    exact ⟨rfl, hv, by simp [value_nil]⟩
  | [], _ :: _, _, _, h => by simp at h
  | x :: v, y :: o, hv, ho, h => by
    rw [WF_cons] at hv ho
    obtain ⟨i1, i2, i3⟩ := bitwise_or_spec v o hv.2 ho.2 (by simpa using h)
    rw [bitwise_or_cons]
    refine ⟨by simp only [List.length_cons, i1],
      WF_cons.2 ⟨Nat.or_lt_two_pow hv.1 ho.1, i2⟩, ?_⟩
    rw [value_cons, value_cons, value_cons, i3]
    exact (or_digit hv.1 ho.1).symm

theorem op_or_assign_spec {W : Nat} {a b : List Nat} (ha : WF W a) (hb : WF W b) :
    WF W (op_or_assign a b) ∧ value W (op_or_assign a b) = value W a ||| value W b ∧
    (op_or_assign a b).length = max a.length b.length := by
  unfold op_or_assign
  by_cases h : a.length < b.length
  · simp only [h, if_true]
    obtain ⟨i1, i2, i3⟩ := bitwise_or_spec (resize a b.length) b (WF_resize ha _) hb
      (by rw [length_resize])
    refine ⟨i2, ?_, ?_⟩
    · rw [i3, value_resize (Nat.le_of_lt h)]
    · rw [i1, length_resize]; omega
  · simp only [h, if_false]
    obtain ⟨i1, i2, i3⟩ := bitwise_or_spec a b ha hb (by omega)
    exact ⟨i2, i3, by rw [i1]; omega⟩

/-- On normalised operands the result of `|=` is normalised. -/
theorem normalised_op_or {W : Nat} {a b : List Nat} (ha : WF W a) (hb : WF W b)
    (na : Normalised a) (nb : Normalised b) : Normalised (op_or_assign a b) := by
  obtain ⟨h1, h2, h3⟩ := op_or_assign_spec ha hb
  apply normalised_of_pow_le h1
  intro hne
  rw [h2, h3]
  have hle : ∀ x y : Nat, x ≤ x ||| y ∧ y ≤ x ||| y := fun x y =>
    ⟨Nat.le_of_testBit (fun i hi => by rw [Nat.testBit_or, hi, Bool.true_or]),
      Nat.le_of_testBit (fun i hi => by rw [Nat.testBit_or, hi, Bool.or_true])⟩
  rcases Nat.le_total a.length b.length with h | h
  · rw [Nat.max_eq_right h]
    have hb0 : b ≠ [] := by
      intro h0; subst h0
      have : a.length = 0 := by simpa using h
      exact hne (List.length_eq_zero.1 (by rw [h3, this]; rfl))
    exact Nat.le_trans (pow_le_value_of_normalised nb hb0) (hle _ _).2
  · rw [Nat.max_eq_left h]
    have ha0 : a ≠ [] := by
      intro h0; subst h0
      have : b.length = 0 := by simpa using h
      exact hne (List.length_eq_zero.1 (by rw [h3, this]; rfl))
    exact Nat.le_trans (pow_le_value_of_normalised na ha0) (hle _ _).1


/-! ## Construction from a decimal string: the halving loop -/

theorem halveLoop_cons (d : Nat) (ds : List Nat) (nb : Bool) :
    halveLoop (d :: ds) nb =
      ((if (if nb then d ||| 16 else d) / 2 ≥ 8 then (if nb then d ||| 16 else d) / 2 - 3
          else (if nb then d ||| 16 else d) / 2) ::
        (halveLoop ds (decide (1 &&& (if nb then d ||| 16 else d) ≠ 0))).1,
       (halveLoop ds (decide (1 &&& (if nb then d ||| 16 else d) ≠ 0))).2) := rfl

/-- One decimal digit of the halving pass: with the bit `c` handed down from the digit
above, the digit becomes `(10 c + d) / 2` and hands down its parity. -/
theorem halve_digit : ∀ d < 10, ∀ nb : Bool,
    (if (if nb then d ||| 16 else d) / 2 ≥ 8 then (if nb then d ||| 16 else d) / 2 - 3
        else (if nb then d ||| 16 else d) / 2) = (10 * nb.toNat + d) / 2 ∧
    decide (1 &&& (if nb then d ||| 16 else d) ≠ 0) = decide (d % 2 = 1) := by
  decide

theorem halve_algebra {R P q S c d r e : Nat} (i3 : 2 * R + r = e * P + S)
    (hdm : 2 * q + e = 10 * c + d) :
    2 * (R + P * q) + r = c * (P * 10) + (S + P * d) := by
  calc 2 * (R + P * q) + r = (2 * R + r) + P * (2 * q) := by ring
    _ = S + P * (2 * q + e) := by rw [i3]; ring
    _ = c * (P * 10) + (S + P * d) := by rw [hdm]; ring

theorem halveLoop_spec : ∀ (ms : List Nat) (nb : Bool), (∀ d ∈ ms, d < 10) →
    (halveLoop ms nb).1.length = ms.length ∧ (∀ d ∈ (halveLoop ms nb).1, d < 10) ∧
    2 * Nat.ofDigits 10 (halveLoop ms nb).1.reverse + (halveLoop ms nb).2.toNat =
      nb.toNat * 10 ^ ms.length + Nat.ofDigits 10 ms.reverse
  | [], nb, _ => by simp [halveLoop]
  | d :: ds, nb, h => by
    have hd : d < 10 := h d (List.mem_cons_self _ _)
    have hds : ∀ e ∈ ds, e < 10 := fun e he => h e (List.mem_cons_of_mem _ he)
    obtain ⟨e1, e2⟩ := halve_digit d hd nb
    rw [halveLoop_cons, e1, e2]
    obtain ⟨i1, i2, i3⟩ := halveLoop_spec ds (decide (d % 2 = 1)) hds
    have hb : nb.toNat ≤ 1 := Bool.toNat_le nb
    refine ⟨by simp only [List.length_cons, i1], ?_, ?_⟩
    · intro e he
      rcases List.mem_cons.1 he with he | he
      · rw [he]; omega
      · exact i2 e he
    · simp only [List.reverse_cons, Nat.ofDigits_append, Nat.ofDigits_singleton,
        List.length_reverse, i1, List.length_cons, pow_succ]
      have hc : (decide (d % 2 = 1)).toNat = d % 2 := by
        by_cases h2 : d % 2 = 1
        · simp only [h2, decide_True, Bool.toNat_true]
        · simp only [h2, decide_False, Bool.toNat_false]; omega
      rw [hc] at i3
      have hdm : 2 * ((10 * nb.toNat + d) / 2) + d % 2 = 10 * nb.toNat + d := by omega
      exact halve_algebra i3 hdm

theorem ofDigits_full_reduce (b : Nat) (l : List Nat) :
    Nat.ofDigits b (full_reduce l) = Nat.ofDigits b l := by
  induction l using List.reverseRecOn with
  | nil => rfl
  | append_singleton l d ih =>
    rw [full_reduce_concat]
    split
    · next h => subst h; rw [ih, Nat.ofDigits_append]; simp
    · rfl

theorem mem_full_reduce {l : List Nat} {d : Nat} (h : d ∈ full_reduce l) : d ∈ l := by
  unfold full_reduce at h
  exact ( List.rdropWhile_prefix _ _).subset h

/-- Decimal digits without a zero on top are the digits of their value. -/
theorem digits10_of_normalised {l : List Nat} (h : ∀ d ∈ l, d < 10) (hn : Normalised l) :
    Nat.digits 10 (Nat.ofDigits 10 l) = l := by
  apply Nat.digits_ofDigits 10 (by decide) _ h
  intro hne h0
  have := List.getLast?_eq_getLast l hne
  rw [h0] at this
  exact hn this

/-- One round of the loop on the decimal digits of `m`: they become the digits of
`m / 2`, and `new_bit` is the parity of `m`. -/
theorem halve_round (m : Nat) :
    full_reduce (halveLoop (Nat.digits 10 m).reverse false).1.reverse = Nat.digits 10 (m / 2) ∧
    (halveLoop (Nat.digits 10 m).reverse false).2 = decide (m % 2 = 1) := by
  have hlt : ∀ d ∈ (Nat.digits 10 m).reverse, d < 10 :=
    fun d hd => digits10_lt m d (List.mem_reverse.1 hd)
  obtain ⟨_, i2, i3⟩ := halveLoop_spec (Nat.digits 10 m).reverse false hlt
  simp only [Bool.toNat_false, Nat.zero_mul, Nat.zero_add, List.reverse_reverse,
    Nat.ofDigits_digits] at i3
  generalize halveLoop (Nat.digits 10 m).reverse false = r at *
  have hb : r.2.toNat ≤ 1 := Bool.toNat_le _
  constructor
  · have hv : Nat.ofDigits 10 (full_reduce r.1.reverse) = m / 2 := by
      rw [ofDigits_full_reduce]; omega
    rw [← hv]
    refine (digits10_of_normalised ?_ (full_reduce_normalised _)).symm
    intro d hd
    exact i2 d (List.mem_reverse.1 (mem_full_reduce hd))
  · cases h : r.2 with
    | true => rw [h] at i3; simp only [Bool.toNat_true] at i3; simp; omega
    | false => rw [h] at i3; simp only [Bool.toNat_false] at i3; simp; omega


/-! ## Construction from a decimal string: the loop -/

theorem or_toDigits {W : Nat} (hW : 0 < W) {t i : Nat} (ht : t < 2 ^ i) :
    op_or_assign (toDigits W t) (toDigits W (2 ^ i)) = toDigits W (t + 2 ^ i) := by
  have h1 := toDigits_WF hW t
  have h2 := toDigits_WF hW (2 ^ i)
  obtain ⟨s1, s2, _⟩ := op_or_assign_spec h1 h2
  have s3 := normalised_op_or h1 h2 (toDigits_normalised W t) (toDigits_normalised W (2 ^ i))
  rw [← toDigits_value s1 s3, s2, value_toDigits, value_toDigits, Nat.lor_comm]
  have := Nat.mul_add_lt_is_or ht 1
  rw [Nat.mul_one] at this
  rw [← this, Nat.add_comm]

theorem ofStringLoop_succ (W fuel : Nat) (digits value bit : List Nat) :
    ofStringLoop W (fuel + 1) digits value bit =
      if digits = [] then some value
      else ofStringLoop W fuel (full_reduce (halveLoop digits.reverse false).1.reverse)
        (if (halveLoop digits.reverse false).2 then op_or_assign value bit else value)
        (op_shl_assign W bit 1) := rfl

/-- Invariant of the loop: with the decimal digits of `m` left, the bits read so far in
`value` and `bit = 2^i`, the loop ends with `value + 2^i * m`. -/
theorem ofStringLoop_spec {W : Nat} (hW : 0 < W) : ∀ (fuel m t i : Nat), t < 2 ^ i →
    m < 2 ^ fuel →
    ofStringLoop W (fuel + 1) (Nat.digits 10 m) (toDigits W t) (toDigits W (2 ^ i)) =
      some (toDigits W (t + 2 ^ i * m))
  | 0, m, t, i, _, hm => by
    have h0 : m = 0 := by simpa using hm
    subst h0
    simp [ofStringLoop_succ]
  | fuel + 1, m, t, i, ht, hm => by
    rw [ofStringLoop_succ]
    by_cases h0 : m = 0
    · subst h0
      simp
    · rw [if_neg (by simpa [Nat.digits_eq_nil_iff_eq_zero] using h0)]
      obtain ⟨r1, r2⟩ := halve_round m
      have hs : op_shl_assign W (toDigits W (2 ^ i)) 1 = toDigits W (2 ^ (i + 1)) := by
        have := op_shl_toDigits hW (two_pow_bitlog_pos W) hW (2 ^ i)
        rwa [pow_one, ← pow_succ] at this
      have hv : (if (halveLoop (Nat.digits 10 m).reverse false).2 then
          op_or_assign (toDigits W t) (toDigits W (2 ^ i)) else toDigits W t) =
          toDigits W (t + 2 ^ i * (m % 2)) := by
        rw [r2]
        by_cases hp : m % 2 = 1
        · simp only [hp, decide_True, if_true, Nat.mul_one]
          exact or_toDigits hW ht
        · have : m % 2 = 0 := by omega
          simp [this]
      rw [r1, hs, hv]
      have hlt : t + 2 ^ i * (m % 2) < 2 ^ (i + 1) := by
        have : m % 2 < 2 := Nat.mod_lt _ (by decide)
        have : 2 ^ i * (m % 2) ≤ 2 ^ i * 1 := Nat.mul_le_mul_left _ (by omega)
        rw [pow_succ]; omega
      rw [ofStringLoop_spec hW fuel (m / 2) _ (i + 1) hlt (by rw [pow_succ] at hm; omega)]
      congr 2
      have := Nat.div_add_mod m 2
      calc t + 2 ^ i * (m % 2) + 2 ^ (i + 1) * (m / 2)
          = t + 2 ^ i * (2 * (m / 2) + m % 2) := by rw [pow_succ]; ring
        _ = t + 2 ^ i * m := by rw [this]

theorem digitChar_sub : ∀ d < 10, ((Nat.digitChar d).toNat + 2 ^ 32 - 48) % 2 ^ 32 = d := by
  decide

theorem ofInt_one {W : Nat} (hW : W ∈ [8, 16, 32, 64]) : ofInt W 32 1 = toDigits W (2 ^ 0) := by
  have h1 : ofInt W 32 1 = [1] := by
    rcases width_cases hW with h | h | h | h <;> subst h <;> decide
  rw [h1, pow_zero, toDigits_of_lt (by decide) (base_gt_one (width_pos hW))]



theorem ofStringLoop_zero_digit (W fuel : Nat) (value bit : List Nat) :
    ofStringLoop W (fuel + 2) [0] value bit = some value := by
  rw [ofStringLoop_succ, if_neg (by simp)]
  have h1 : halveLoop [0].reverse false = ([0], false) := by decide
  have h2 : full_reduce [0].reverse = [] := by decide
  rw [h1]
  simp only [h2, Bool.false_eq_true, if_false]
  rw [ofStringLoop_succ, if_pos rfl]

theorem char_zero_digit :
    List.map (fun c => (Char.toNat c + 2 ^ 32 - 48) % 2 ^ 32) (List.reverse ['0']) = [0] := by
  decide

/-- The constructor on the decimal representation of `n`. -/
theorem ofString_repr {W : Nat} (hW : W ∈ [8, 16, 32, 64]) (n fuel : Nat) (hn : n < 2 ^ fuel)
    (hf : 1 ≤ fuel) : ofString W (fuel + 1) (Nat.repr n) = some (toDigits W n) := by
  unfold ofString
  by_cases h0 : n = 0
  · subst h0
    obtain ⟨f, rfl⟩ : ∃ f, fuel = f + 1 := ⟨fuel - 1, by omega⟩
    have e : (Nat.repr 0).data = ['0'] := by decide
    rw [e, char_zero_digit, ofStringLoop_zero_digit, toDigits_zero]
  · have hpos : 0 < n := Nat.pos_of_ne_zero h0
    have e : (Nat.repr n).data = (Nat.digits 10 n).reverse.map Nat.digitChar := by
      rw [Nat.repr, toDigits_digits hpos]; rfl
    have e2 : ((Nat.repr n).data.reverse.map (fun c => (c.toNat + 2 ^ 32 - 48) % 2 ^ 32)) =
        Nat.digits 10 n := by
      rw [e, ← List.map_reverse, List.reverse_reverse, List.map_map]
      conv_rhs => rw [← List.map_id (Nat.digits 10 n)]
      apply List.map_congr_left
      intro d hd
      rw [Function.comp_apply, id_eq]
      exact digitChar_sub d (digits10_lt n d hd)
    rw [e2, ofInt_one hW]
    have := ofStringLoop_spec (width_pos hW) fuel n 0 0 (by decide) hn
    rw [toDigits_zero] at this
    rw [this, pow_zero, Nat.one_mul, Nat.zero_add]


theorem isDigit_digitChar {c : Char} (h : c.isDigit = true) :
    ∃ d, d < 10 ∧ c = Nat.digitChar d := by
  have h1 : 48 ≤ c.toNat ∧ c.toNat ≤ 57 := by
    unfold Char.isDigit at h
    simp only [Bool.and_eq_true, decide_eq_true_eq, ge_iff_le] at h
    exact ⟨h.1, h.2⟩
  have hc : c = Char.ofNat c.toNat := (Char.ofNat_toNat c).symm
  generalize c.toNat = k at h1 hc
  obtain ⟨h48, h57⟩ := h1
  refine ⟨k - 48, by omega, ?_⟩
  rw [hc]
  interval_cases k <;> rfl


theorem digitChars_of_isDigit : ∀ cs : List Char, (∀ c ∈ cs, c.isDigit = true) →
    ∃ ms : List Nat, (∀ d ∈ ms, d < 10) ∧ cs = ms.map Nat.digitChar
  | [], _ => ⟨[], by simp, rfl⟩
  | c :: cs, h => by
    obtain ⟨d, hd, hc⟩ := isDigit_digitChar (h c (List.mem_cons_self _ _))
    obtain ⟨ms, hms, hcs⟩ := digitChars_of_isDigit cs (fun e he => h e (List.mem_cons_of_mem _ he))
    refine ⟨d :: ms, ?_, by rw [List.map_cons, ← hc, ← hcs]⟩
    intro e he
    rcases List.mem_cons.1 he with he | he
    · rw [he]; exact hd
    · exact hms e he

/-- A non-empty string of decimal digits without a leading zero, or the string `"0"`, is
the decimal representation of a number. -/
theorem canonical_decimal {s : String} (hd : ∀ c ∈ s.data, c.isDigit = true) (hne : s ≠ "")
    (h0 : s.data.head? ≠ some '0' ∨ s = "0") :
    ∃ n, s = Nat.repr n ∧ n < 10 ^ s.length := by
  by_cases hz : s = "0"
  · subst hz
    exact ⟨0, by decide, by decide⟩
  · have hh : s.data.head? ≠ some '0' := by
      rcases h0 with h | h
      · exact h
      · exact absurd h hz
    obtain ⟨ms, hms, hcs⟩ := digitChars_of_isDigit s.data hd
    have hms0 : ms ≠ [] := by
      intro h
      rw [h] at hcs
      exact hne (String.ext hcs)
    have hlt : ∀ d ∈ ms.reverse, d < 10 := fun d h => hms d (List.mem_reverse.1 h)
    have hnorm : Normalised ms.reverse := by
      unfold Normalised
      rw [List.getLast?_reverse]
      intro h
      apply hh
      rw [hcs]
      cases ms with
      | nil => simp at h
      | cons m ms =>
        simp only [List.head?_cons, Option.some.injEq] at h
        subst h
        rfl
    have hdig := digits10_of_normalised hlt hnorm
    have hpos : 0 < Nat.ofDigits 10 ms.reverse := by
      apply Nat.pos_of_ne_zero
      intro h
      rw [h, Nat.digits_zero] at hdig
      exact hms0 (List.reverse_eq_nil_iff.1 hdig.symm)
    refine ⟨Nat.ofDigits 10 ms.reverse, ?_, ?_⟩
    · apply String.ext
      rw [Nat.repr, toDigits_digits hpos, hdig, List.reverse_reverse, hcs]
      rfl
    · have := Nat.ofDigits_lt_base_pow_length (b := 10) (by decide) hlt
      have hl : s.length = ms.length := by
        rw [String.length, hcs, List.length_map]
      rw [hl]
      simpa using this

theorem digits10_normalised (n : Nat) : Normalised (Nat.digits 10 n) := by
  unfold Normalised
  intro h
  have hne : Nat.digits 10 n ≠ [] := by
    intro h0; rw [h0] at h; simp at h
  have hn : n ≠ 0 := Nat.digits_ne_nil_iff_ne_zero.1 hne
  have h1 := Nat.getLast_digit_ne_zero 10 hn
  rw [List.getLast?_eq_getLast _ hne] at h
  exact h1 (Option.some.inj h)


/-! ## Decimal rendering with truncation -/

theorem increment_cons (W d : Nat) (ds : List Nat) :
    increment W (d :: ds) =
      if (d + 1) % base W = 0 then ((d + 1) % base W :: (increment W ds).1, (increment W ds).2)
      else ((d + 1) % base W :: ds, false) := rfl

theorem increment_spec {W : Nat} : ∀ (v : List Nat), WF W v →
    (increment W v).1.length = v.length ∧ WF W (increment W v).1 ∧
    value W (increment W v).1 + base W ^ v.length * (increment W v).2.toNat = value W v + 1
  | [], _ => ⟨rfl, WF_nil W, by simp [increment, value_nil]⟩
  | d :: ds, h => by
    rw [WF_cons] at h
    obtain ⟨i1, i2, i3⟩ := increment_spec ds h.2
    rw [increment_cons]
    have hB := base_pos W
    by_cases h0 : (d + 1) % base W = 0
    · rw [if_pos h0, h0]
      have hd : d + 1 = base W := by
        rcases Nat.lt_or_ge (d + 1) (base W) with hlt | hge
        · rw [Nat.mod_eq_of_lt hlt] at h0; omega
        · omega
      refine ⟨by simp only [List.length_cons, i1], WF_cons.2 ⟨hB, i2⟩, ?_⟩
      simp only [value_cons, List.length_cons, pow_succ]
      have e := congrArg (fun z => base W * z) i3
      simp only [Nat.mul_add] at e
      have e2 : base W ^ ds.length * base W * (increment W ds).2.toNat =
          base W * (base W ^ ds.length * (increment W ds).2.toNat) := by ring
      rw [e2]
      omega
    · rw [if_neg h0]
      have hd : (d + 1) % base W = d + 1 := by
        apply Nat.mod_eq_of_lt
        rcases Nat.lt_or_ge (d + 1) (base W) with hlt | hge
        · exact hlt
        · have : d + 1 = base W := by omega
          rw [this, Nat.mod_self] at h0
          exact absurd rfl h0
      rw [hd]
      refine ⟨rfl, WF_cons.2 ⟨by rw [← hd]; exact Nat.mod_lt _ hB, h.2⟩, ?_⟩
      simp only [value_cons, Bool.toNat_false, Nat.mul_zero, Nat.add_zero]
      omega

theorem normalised_op_preinc {W : Nat} {a : List Nat} (ha : WF W a) (na : Normalised a) :
    Normalised (op_preinc W a) := by
  obtain ⟨i1, i2, i3⟩ := increment_spec a ha
  unfold op_preinc
  cases hc : (increment W a).2 with
  | true =>
    simp only [hc, if_true]
    exact Normalised_concat.2 Nat.one_ne_zero
  | false =>
    simp only [hc, Bool.false_eq_true, if_false]
    rw [hc] at i3
    simp only [Bool.toNat_false, Nat.mul_zero, Nat.add_zero] at i3
    apply normalised_of_pow_le i2
    intro hne
    have hane : a ≠ [] := by
      intro h0
      apply hne
      apply List.length_eq_zero.1
      rw [i1, h0]
      rfl
    have := pow_le_value_of_normalised (W := W) na hane
    rw [i1, i3]
    omega

theorem normalised_ofInt {W WI x : Nat} (hx : x < 2 ^ WI) : Normalised (ofInt W WI x) := by
  unfold ofInt
  by_cases h : WI ≤ W
  · rw [if_pos h]
    have hxW : x < base W := Nat.lt_of_lt_of_le hx (Nat.pow_le_pow_right (by decide) h)
    by_cases h0 : x = 0
    · simp [h0, Normalised_nil]
    · rw [if_pos h0, Nat.mod_eq_of_lt hxW]
      exact (Normalised_concat (l := [])).2 h0
  · rw [if_neg h]
    exact full_reduce_normalised _

theorem normalised_op_mul (W : Nat) (a b : List Nat) : Normalised (op_mul W a b) := by
  unfold op_mul
  split
  · exact Normalised_nil
  · exact full_reduce_normalised _

theorem normalised_op_and (a b : List Nat) : Normalised (op_and_assign a b) :=
  full_reduce_normalised _

theorem normalised_op_sub (W : Nat) (a b : List Nat) : Normalised (op_sub_assign W a b) :=
  full_reduce_normalised _

theorem normalised_cast (WT WS : Nat) (v : List Nat) : Normalised (cast WT WS v) := by
  unfold cast
  split
  · split
    · rw [reduce_once_of_normalised (full_reduce_normalised _)]
      exact full_reduce_normalised _
    · exact full_reduce_normalised _
  · exact full_reduce_normalised _

end Big

namespace Karatsuba
open Big

theorem normalised_op_mul_ok {W fuel : Nat} {a b r : List Nat}
    (h : op_mul W fuel a b = Res.ok r) : Normalised r := by
  unfold op_mul at h
  simp only at h
  generalize mul W fuel false _ _ _ _ _ = q at h
  cases q with
  | ok m =>
    simp only [Res.bind, Res.ok.injEq] at h
    rw [← h]
    exact full_reduce_normalised _
  | fault => simp [Res.bind] at h
  | timeout => simp [Res.bind] at h

end Karatsuba

namespace Big

/-! ## Bitwise and on digit vectors -/

theorem and_digit {W x y u v : Nat} (hx : x < 2 ^ W) (hy : y < 2 ^ W) :
    (x + 2 ^ W * u) &&& (y + 2 ^ W * v) = (x &&& y) + 2 ^ W * (u &&& v) := by
  have hxy : x &&& y < 2 ^ W := Nat.and_lt_two_pow x hy
  apply Nat.eq_of_testBit_eq
  intro i
  rw [Nat.testBit_and, Nat.add_comm x, Nat.add_comm y, Nat.add_comm (x &&& y),
    Nat.testBit_mul_pow_two_add _ hx, Nat.testBit_mul_pow_two_add _ hy,
    Nat.testBit_mul_pow_two_add _ hxy]
  split
  · rw [Nat.testBit_and]
  · rw [Nat.testBit_and]

theorem bitwise_and_cons (o x y : Nat) (out lhs rhs : List Nat) :
    bitwise_and (o :: out) (x :: lhs) (y :: rhs) = (x &&& y) :: bitwise_and out lhs rhs := rfl

/-- `bitwise_and(value, other, value)` when `value` is not longer than `other`: the digits
of `value` are and-ed in place; the value is the bitwise and of the values. -/
theorem bitwise_and_spec {W : Nat} : ∀ (v o : List Nat), WF W v → WF W o →
    v.length ≤ o.length →
    (bitwise_and v o v).length = v.length ∧ WF W (bitwise_and v o v) ∧
    value W (bitwise_and v o v) = value W o &&& value W v
  | [], o, _, _, _ => by
    cases o <;> exact ⟨rfl, WF_nil W, by simp [bitwise_and, value_nil]⟩
  | _ :: _, [], _, _, h => by simp at h
  | x :: v, y :: o, hv, ho, h => by
    rw [WF_cons] at hv ho
    obtain ⟨i1, i2, i3⟩ := bitwise_and_spec v o hv.2 ho.2 (by simpa using h)
    rw [bitwise_and_cons]
    refine ⟨by simp only [List.length_cons, i1],
      WF_cons.2 ⟨Nat.and_lt_two_pow y hv.1, i2⟩, ?_⟩
    rw [value_cons, value_cons, value_cons, i3]
    exact (and_digit ho.1 hv.1).symm

theorem and_low {K lo hi y : Nat} (hlo : lo < 2 ^ K) (hy : y < 2 ^ K) :
    y &&& (lo + 2 ^ K * hi) = y &&& lo := by
  have := and_digit (u := 0) (v := hi) hy hlo
  simpa using this

theorem op_and_assign_spec {W : Nat} {a b : List Nat} (ha : WF W a) (hb : WF W b) :
    WF W (op_and_assign a b) ∧ Normalised (op_and_assign a b) ∧
    value W (op_and_assign a b) = value W a &&& value W b ∧
    (op_and_assign a b).length ≤ min a.length b.length := by
  unfold op_and_assign
  by_cases h : a.length > b.length
  · simp only [h, if_true]
    have hr : resize a b.length = a.take b.length := by
      unfold resize
      rw [show b.length - a.length = 0 by omega]
      simp
    rw [hr]
    have hl : (a.take b.length).length = b.length := by
      rw [List.length_take]; omega
    obtain ⟨i1, i2, i3⟩ := bitwise_and_spec (a.take b.length) b (WF_take ha _) hb (by omega)
    refine ⟨WF_full_reduce i2, full_reduce_normalised _, ?_, ?_⟩
    · have h1 : value W (a.take b.length) < 2 ^ (W * b.length) := by
        have := value_lt (WF_take ha b.length)
        rwa [hl, base_pow_eq] at this
      have h2 : value W b < 2 ^ (W * b.length) := by
        rw [← base_pow_eq]; exact value_lt hb
      rw [value_full_reduce, i3, value_take_drop W a (Nat.le_of_lt h), base_pow_eq,
        Nat.and_comm _ (value W b), and_low h1 h2]
    · have := full_reduce_length_le (bitwise_and (a.take b.length) b (a.take b.length))
      omega
  · simp only [h, if_false]
    obtain ⟨i1, i2, i3⟩ := bitwise_and_spec a b ha hb (by omega)
    refine ⟨WF_full_reduce i2, full_reduce_normalised _, ?_, ?_⟩
    · rw [value_full_reduce, i3, Nat.and_comm]
    · have := full_reduce_length_le (bitwise_and a b a)
      omega

/-! ## When the bitwise loops stay inside their windows -/

theorem bitwise_leaves_window_iff : ∀ (out lhs rhs : List Nat),
    bitwise_leaves_window out lhs rhs = false ↔
      lhs.length ≤ out.length ∧ lhs.length ≤ rhs.length
  | _, [], _ => by cases ‹List Nat› <;> simp [bitwise_leaves_window]
  | [], _ :: _, _ => by simp [bitwise_leaves_window]
  | _ :: _, _ :: _, [] => by simp [bitwise_leaves_window]
  | _ :: out, _ :: lhs, _ :: rhs => by
    simp only [bitwise_leaves_window, List.length_cons, Nat.add_le_add_iff_right]
    exact bitwise_leaves_window_iff out lhs rhs

theorem op_and_defined_iff (a b : List Nat) : op_and_defined a b ↔ b.length ≤ a.length := by
  unfold op_and_defined op_and_windows
  rw [bitwise_leaves_window_iff]
  by_cases h : a.length > b.length
  · simp only [h, if_true, length_resize]; omega
  · simp only [h, if_false]; omega

theorem op_or_defined_iff (a b : List Nat) : op_or_defined a b ↔ a.length ≤ b.length := by
  unfold op_or_defined op_or_windows
  rw [bitwise_leaves_window_iff]
  by_cases h : a.length < b.length
  · simp only [h, if_true, length_resize]; omega
  · simp only [h, if_false]; omega

end Big

namespace Big

/-- The plain variant of `add` writes the digits of `addDigits` over the first `|lhs|`
positions of `out`, leaves the others, and returns the carry out of those positions. -/
theorem add_plain_spec {W : Nat} {out lhs rhs : List Nat} (hl : WF W lhs) (hr : WF W rhs)
    (hlen : rhs.length ≤ lhs.length) (hout : lhs.length ≤ out.length) :
    (add W false out lhs rhs).1.length = out.length ∧
    (add W false out lhs rhs).1.drop lhs.length = out.drop lhs.length ∧
    WF W ((add W false out lhs rhs).1.take lhs.length) ∧
    ((add W false out lhs rhs).2 = true ↔
      base W ^ lhs.length ≤ value W lhs + value W rhs) ∧
    value W ((add W false out lhs rhs).1.take lhs.length) =
      (value W lhs + value W rhs) % base W ^ lhs.length := by
  obtain ⟨h1, h2, h3, h4⟩ := addDigits_spec W lhs rhs 0 hl hr hlen (Nat.zero_le 1)
  have e : add W false out lhs rhs =
      ((addDigits W lhs rhs 0).1 ++ out.drop lhs.length,
        decide ((addDigits W lhs rhs 0).2 ≠ 0)) := by
    unfold add
    simp [h1]
  have hlt := value_lt h2
  rw [h1] at hlt
  have hpos : 0 < base W ^ lhs.length := Nat.pow_pos (base_pos W)
  rw [e]
  refine ⟨?_, ?_, ?_, ?_, ?_⟩
  · simp [h1]; omega
  · rw [← h1, List.drop_left]
  · rw [← h1, List.take_left]; exact h2
  · simp only [decide_eq_true_eq]
    rcases Nat.lt_or_ge 0 (addDigits W lhs rhs 0).2 with hc | hc
    · have : (addDigits W lhs rhs 0).2 = 1 := by omega
      rw [this] at h4 ⊢
      constructor
      · intro _; omega
      · intro _; decide
    · have : (addDigits W lhs rhs 0).2 = 0 := by omega
      rw [this] at h4 ⊢
      constructor
      · intro h; exact absurd rfl h
      · intro _; omega
  · rw [Nat.add_zero] at h4
    rw [← h1, List.take_left, h1, ← h4, Nat.add_mul_mod_self_left, Nat.mod_eq_of_lt hlt]

end Big

namespace MatmulStrassen
open Big

/-- For a valid `Int`, the magnitude is empty exactly when the integer it stands for
is `0`. -/
theorem Int.abs_nil_iff_denote {x : Int} (hx : x.Valid) : x.abs = [] ↔ x.denote = 0 := by
  obtain ⟨xa, xs⟩ := x
  obtain ⟨_, h2, h3⟩ := hx
  simp only at h2 h3
  constructor
  · intro h
    simp only at h
    subst h
    cases xs <;> simp [Int.denote, value_nil]
  · intro h
    cases xs
    · exact h3 rfl
    · simp only [Int.denote] at h
      exact value_eq_zero_of_normalised h2 (by exact_mod_cast h)
    · simp only [Int.denote, neg_eq_zero] at h
      exact value_eq_zero_of_normalised h2 (by exact_mod_cast h)

/-- The signs of the integer and of the wrapper agree when an empty magnitude comes with
the sign `ZERO`. -/
theorem Int.denote_sign {x : Int} (hx : x.Valid) (hs : x.abs = [] → x.sign = sign_t.ZERO) :
    (x.sign = sign_t.ZERO → x.denote = 0) ∧ (x.sign = sign_t.POS → 0 < x.denote) ∧
    (x.sign = sign_t.NEG → x.denote < 0) := by
  have h0 := Int.abs_nil_iff_denote hx
  obtain ⟨xa, xs⟩ := x
  have hv : (0 : ℤ) ≤ (value 32 xa : ℤ) := Int.natCast_nonneg _
  refine ⟨fun h => ?_, fun h => ?_, fun h => ?_⟩ <;> simp only at h <;> subst h
  · rfl
  · have : Int.denote ⟨xa, sign_t.POS⟩ ≠ 0 := fun h => by
      have := hs (h0.2 h); simp at this
    simp only [Int.denote] at this ⊢
    omega
  · have : Int.denote ⟨xa, sign_t.NEG⟩ ≠ 0 := fun h => by
      have := hs (h0.2 h); simp at this
    simp only [Int.denote] at this ⊢
    omega

theorem Int.flip_sign_strict {x : Int} (hs : x.abs = [] → x.sign = sign_t.ZERO) :
    x.flip_sign.abs = [] → x.flip_sign.sign = sign_t.ZERO := by
  obtain ⟨xa, xs⟩ := x
  cases xs <;> simp_all [Int.flip_sign]

theorem Int.add_assign_strict {x y : Int} (hx : x.Valid) (hy : y.Valid)
    (sx : x.abs = [] → x.sign = sign_t.ZERO) (sy : y.abs = [] → y.sign = sign_t.ZERO) :
    (x.add_assign y).abs = [] → (x.add_assign y).sign = sign_t.ZERO := by
  obtain ⟨v, d⟩ := Int.add_assign_spec hx hy
  intro h
  have d0 := (Int.abs_nil_iff_denote v).1 h
  rw [d] at d0
  obtain ⟨x0, x1, x2⟩ := Int.denote_sign hx sx
  obtain ⟨y0, y1, y2⟩ := Int.denote_sign hy sy
  have hc := op_cmp_spec hx.1 hy.1 hx.2.1 hy.2.1
  obtain ⟨xa, xs⟩ := x
  obtain ⟨ya, ys⟩ := y
  simp only at x0 x1 x2 y0 y1 y2 sx sy hc
  cases xs <;> cases ys <;> simp_all [Int.add_assign, Int.denote] <;> first
    | omega
    | (have e : value 32 xa = value 32 ya := by omega
       simp [e])

theorem Int.mul_strict {x y : Int} (hx : x.Valid) (hy : y.Valid)
    (sx : x.abs = [] → x.sign = sign_t.ZERO) (sy : y.abs = [] → y.sign = sign_t.ZERO) :
    (x.mul y).abs = [] → (x.mul y).sign = sign_t.ZERO := by
  obtain ⟨v, d⟩ := Int.mul_spec hx hy
  intro h
  have d0 := (Int.abs_nil_iff_denote v).1 h
  rw [d] at d0
  obtain ⟨x0, x1, x2⟩ := Int.denote_sign hx sx
  obtain ⟨y0, y1, y2⟩ := Int.denote_sign hy sy
  have hz : x.sign = sign_t.ZERO ∨ y.sign = sign_t.ZERO := by
    rcases mul_eq_zero.1 d0 with h1 | h1
    · left
      cases hsg : x.sign
      · rfl
      · have := x1 hsg; omega
      · have := x2 hsg; omega
    · right
      cases hsg : y.sign
      · rfl
      · have := y1 hsg; omega
      · have := y2 hsg; omega
  unfold Int.mul
  rw [if_pos hz]
  rfl

end MatmulStrassen

namespace MatmulStrassen
open Big

theorem Int.sign_of_denote_pos {x : Int} (h : 0 < x.denote) : x.sign = sign_t.POS := by
  obtain ⟨xa, xs⟩ := x
  cases xs
  · simp [Int.denote] at h
  · rfl
  · simp only [Int.denote] at h
    have : (0 : ℤ) ≤ (value 32 xa : ℤ) := Int.natCast_nonneg _
    omega

/-- The loop of the Strassen `fibonacci` ends with `fib = M^(n+1)`, and the sign of its
entry `e00` is not `NEG`. -/
theorem strassen_loop_sign {n : List Nat} {fuel : Nat} (hn : WF 64 n)
    (hf : 65 * n.length < fuel) :
    ∃ m, loop fuel n (M2x2.ofInts 0 1 1 1) (M2x2.ofInts 0 1 1 1) = some m ∧
      m.IsFibMat (value 64 n) ∧ m.e00.sign ≠ sign_t.NEG := by
  have hb : (M2x2.ofInts 0 1 1 1).e00.sign ≠ sign_t.NEG := by decide
  obtain ⟨m, e1, r, e2, e3, e4⟩ := binary_loop_spec loop M2x2.mul
    (fun m j => ∃ r, j = r + 1 ∧ m.IsFibMat r ∧ m.e00.sign ≠ sign_t.NEG) strassen_loop_succ
    (fun x y j k hx hy => by
      obtain ⟨r1, h1, g1, _⟩ := hx
      obtain ⟨r2, h2, g2, _⟩ := hy
      have g := M2x2.strassen_isFibMat_mul g1 g2
      refine ⟨r1 + r2 + 1, by omega, g, ?_⟩
      have hpos : (0 : ℤ) < (x.mul y).e00.denote := by
        rw [g.2.1]
        exact_mod_cast Nat.fib_pos.2 (by omega)
      rw [Int.sign_of_denote_pos hpos]
      decide)
    fuel (64 * n.length) n (M2x2.ofInts 0 1 1 1) (M2x2.ofInts 0 1 1 1) 1 1 hn
    (value_lt_two_pow hn) (by omega)
    ⟨0, rfl, M2x2.strassen_isFibMat_base, hb⟩ ⟨0, rfl, M2x2.strassen_isFibMat_base, hb⟩
  have hr : r = value 64 n := by omega
  subst hr
  exact ⟨m, e1, e3, e4⟩

end MatmulStrassen

namespace MatmulStrassen
open Big

/-- The literal eight-multiplication product on valid entries: valid entries, standing
for the entries of the integer matrix product. -/
theorem M2x2.mulLiteral_spec {a o : M2x2} (ha : a.Valid) (ho : o.Valid) :
    (a.mulLiteral o).Valid ∧
    (a.mulLiteral o).e00.denote = a.e00.denote * o.e00.denote + a.e01.denote * o.e10.denote ∧
    (a.mulLiteral o).e01.denote = a.e00.denote * o.e01.denote + a.e01.denote * o.e11.denote ∧
    (a.mulLiteral o).e10.denote = a.e10.denote * o.e00.denote + a.e11.denote * o.e10.denote ∧
    (a.mulLiteral o).e11.denote = a.e10.denote * o.e01.denote + a.e11.denote * o.e11.denote := by
  obtain ⟨a00, a01, a10, a11⟩ := ha
  obtain ⟨o00, o01, o10, o11⟩ := ho
  have p1 := Int.mul_spec a00 o00
  have p2 := Int.mul_spec a01 o10
  have p3 := Int.mul_spec a00 o01
  have p4 := Int.mul_spec a01 o11
  have p5 := Int.mul_spec a10 o00
  have p6 := Int.mul_spec a11 o10
  have p7 := Int.mul_spec a10 o01
  have p8 := Int.mul_spec a11 o11
  have c00 := Int.add_spec p1.1 p2.1
  have c01 := Int.add_spec p3.1 p4.1
  have c10 := Int.add_spec p5.1 p6.1
  have c11 := Int.add_spec p7.1 p8.1
  refine ⟨⟨c00.1, c01.1, c10.1, c11.1⟩, ?_, ?_, ?_, ?_⟩
  · show (Int.add _ _).denote = _
    rw [c00.2, p1.2, p2.2]
  · show (Int.add _ _).denote = _
    rw [c01.2, p3.2, p4.2]
  · show (Int.add _ _).denote = _
    rw [c10.2, p5.2, p6.2]
  · show (Int.add _ _).denote = _
    rw [c11.2, p7.2, p8.2]

end MatmulStrassen

namespace Karatsuba
open Big

theorem logBind_snd {α β : Type} (x : List Call × Res α) (f : α → List Call × Res β) :
    (logBind x f).2 = x.2.bind (fun a => (f a).2) := by
  unfold logBind Res.bind
  cases x.2 <;> rfl

/-- The run recorded by `mul_calls` is the run of `mul`. -/
theorem mul_calls_snd (W : Nat) : ∀ (fuel : Nat) (cleanup : Bool) (out lhs rhs scratch : Win)
    (m : Mem), (mul_calls W fuel cleanup out lhs rhs scratch m).2 =
      mul W fuel cleanup out lhs rhs scratch m := by
  intro fuel
  induction fuel with
  | zero => intros; rfl
  | succ fuel ih =>
    intro cleanup out lhs rhs scratch m
    unfold mul_calls mul
    dsimp only
    by_cases h1 : lhs.size = 0 ∨ rhs.size = 0
    · rw [if_pos h1, if_pos h1]
    rw [if_neg h1, if_neg h1]
    by_cases h2 : rhs.size = 1
    · rw [if_pos h2, if_pos h2]
    rw [if_neg h2, if_neg h2]
    by_cases h3 : lhs.size = 1
    · rw [if_pos h3, if_pos h3]
    rw [if_neg h3, if_neg h3]
    simp only [logBind_snd, ih, apply_ite Prod.snd]

end Karatsuba

namespace Fft
open Big

theorem fold_algebra {B m q s xi A P r V : Nat} (hd : m + B * q = xi + s)
    (h : A + P * r = V + q) : m + B * A + P * B * r = xi + B * V + s := by
  calc m + B * A + P * B * r = m + B * (A + P * r) := by ring
    _ = m + B * (V + q) := by rw [h]
    _ = (m + B * q) + B * V := by ring
    _ = xi + B * V + s := by rw [hd]; ring

theorem foldLoop_cons (xi : Nat) (x : List Nat) (spill : Nat) :
    foldLoop (xi :: x) spill =
      (((xi + spill) % 2 ^ 64) % 2 ^ 8 :: (foldLoop x (((xi + spill) % 2 ^ 64) / 2 ^ 8)).1,
        (foldLoop x (((xi + spill) % 2 ^ 64) / 2 ^ 8)).2) := rfl

theorem foldLoop_spec : ∀ (x : List Nat) (spill : Nat), (∀ xi ∈ x, xi < 2 ^ 63) →
    spill < 2 ^ 56 →
    (foldLoop x spill).1.length = x.length ∧ WF 8 (foldLoop x spill).1 ∧
    (foldLoop x spill).2 < 2 ^ 56 ∧
    value 8 (foldLoop x spill).1 + base 8 ^ x.length * (foldLoop x spill).2 =
      value 8 x + spill := by
  intro x
  induction x with
  | nil =>
    intro spill _ hs
    exact ⟨rfl, WF_nil 8, hs, by simp [foldLoop, value_nil]⟩
  | cons xi x ih =>
    intro spill hx hs
    have hxi : xi < 2 ^ 63 := hx xi (List.mem_cons_self _ _)
    have hsum : (xi + spill) % 2 ^ 64 = xi + spill := Nat.mod_eq_of_lt (by omega)
    have hsp : (xi + spill) / 2 ^ 8 < 2 ^ 56 := by omega
    obtain ⟨i1, i2, i3, i4⟩ := ih ((xi + spill) / 2 ^ 8)
      (fun y hy => hx y (List.mem_cons_of_mem _ hy)) hsp
    rw [foldLoop_cons, hsum]
    refine ⟨by simp only [List.length_cons, i1], WF_cons.2 ⟨Nat.mod_lt _ (by decide), i2⟩,
      i3, ?_⟩
    have hd : (xi + spill) % 2 ^ 8 + base 8 * ((xi + spill) / 2 ^ 8) = xi + spill :=
      Nat.mod_add_div (xi + spill) (2 ^ 8)
    rw [value_cons, value_cons, List.length_cons, pow_succ]
    exact fold_algebra hd i4

theorem foldSpill_spec : ∀ (fuel spill : Nat), spill < (2 ^ 8) ^ fuel →
    WF 8 (foldSpill fuel spill) ∧ value 8 (foldSpill fuel spill) = spill := by
  intro fuel
  induction fuel with
  | zero =>
    intro spill h
    have : spill = 0 := by simpa using h
    subst this
    exact ⟨WF_nil 8, rfl⟩
  | succ fuel ih =>
    intro spill h
    unfold foldSpill
    by_cases h0 : spill = 0
    · subst h0
      simp [WF_nil, value_nil]
    · rw [if_pos h0]
      have hlt : spill / 2 ^ 8 < (2 ^ 8) ^ fuel := by
        rw [pow_succ] at h
        exact Nat.div_lt_of_lt_mul (by rw [Nat.mul_comm]; exact h)
      obtain ⟨i1, i2⟩ := ih _ hlt
      refine ⟨WF_cons.2 ⟨Nat.mod_lt _ (by decide), i1⟩, ?_⟩
      rw [value_cons, i2]
      have hb : base 8 = 2 ^ 8 := rfl
      rw [hb]
      exact Nat.mod_add_div spill (2 ^ 8)

/-- The bytes of `fold(x)` stand for the same number as the 64-bit values of `x`, when
every value is below `2^63`. -/
theorem fold_spec (x : List Nat) (hx : ∀ xi ∈ x, xi < 2 ^ 63) :
    x.length ≤ (fold x).length ∧ WF 8 (fold x) ∧ value 8 (fold x) = value 8 x := by
  obtain ⟨i1, i2, i3, i4⟩ := foldLoop_spec x 0 hx (by decide)
  obtain ⟨j1, j2⟩ := foldSpill_spec 8 (foldLoop x 0).2 (by
    have : (2 ^ 8) ^ 8 = 2 ^ 64 := by norm_num
    omega)
  unfold fold
  refine ⟨by simp only [List.length_append, i1]; omega, WF_append.2 ⟨i2, j1⟩, ?_⟩
  rw [value_append, j2, i1]
  exact i4


end Fft

namespace Fft
open Big

/-- Clearing the lowest set bit of an odd number. -/
theorem and_pred_odd (y : Nat) : (2 * y + 1) &&& (2 * y + 1 - 1) = 2 * y := by
  have h := @and_digit 1 1 0 y y (by decide) (by decide)
  simp only [pow_one] at h
  have e1 : 1 + 2 * y = 2 * y + 1 := Nat.add_comm _ _
  have e2 : 0 + 2 * y = 2 * y + 1 - 1 := by omega
  rw [e1, e2] at h
  rw [h]
  simp

/-- Clearing the lowest set bit of an even number. -/
theorem and_pred_even {y : Nat} (hy : 0 < y) :
    (2 * y) &&& (2 * y - 1) = 2 * (y &&& (y - 1)) := by
  have h := @and_digit 1 0 1 y (y - 1) (by decide) (by decide)
  simp only [pow_one] at h
  have e1 : 0 + 2 * y = 2 * y := Nat.zero_add _
  have e2 : 1 + 2 * (y - 1) = 2 * y - 1 := by omega
  rw [e1, e2] at h
  rw [h]
  simp

/-- One round of the loop of `pow2ceil` keeps the highest set bit, unless `x` is a power
of two. -/
theorem and_pred_high : ∀ (k x : Nat), 2 ^ k ≤ x → x < 2 ^ (k + 1) →
    (x &&& (x - 1) = 0 ∧ x = 2 ^ k) ∨ 2 ^ k ≤ x &&& (x - 1) := by
  intro k
  induction k with
  | zero =>
    intro x h1 h2
    have : x = 1 := by simp at h1 h2; omega
    subst this
    exact Or.inl ⟨by decide, rfl⟩
  | succ k ih =>
    intro x h1 h2
    rw [pow_succ] at h1 h2
    rcases Nat.mod_two_eq_zero_or_one x with hb | hb
    · have hx : x = 2 * (x / 2) := by omega
      have hy : 0 < x / 2 := by
        have := Nat.pow_pos (n := k) (show 0 < 2 by decide)
        omega
      rw [hx, and_pred_even hy]
      rcases ih (x / 2) (by omega) (by omega) with ⟨h3, h4⟩ | h3
      · left
        rw [h3, pow_succ]
        omega
      · right
        rw [pow_succ]
        omega
    · have hx : x = 2 * (x / 2) + 1 := by omega
      right
      rw [hx, and_pred_odd, pow_succ]
      omega

/-- One round of the loop of `pow2ceil` adds one to the number of trailing zero bits. -/
theorem and_pred_dvd : ∀ (a x : Nat), 0 < x → 2 ^ a ∣ x → 2 ^ (a + 1) ∣ x &&& (x - 1) := by
  intro a
  induction a with
  | zero =>
    intro x hx _
    rcases Nat.mod_two_eq_zero_or_one x with hb | hb
    · have h : x = 2 * (x / 2) := by omega
      rw [h, and_pred_even (by omega)]
      exact ⟨_, by ring⟩
    · have h : x = 2 * (x / 2) + 1 := by omega
      rw [h, and_pred_odd]
      exact ⟨_, by ring⟩
  | succ a ih =>
    intro x hx hd
    obtain ⟨c, hc⟩ := hd
    have h : x = 2 * (2 ^ a * c) := by rw [hc, pow_succ]; ring
    have hy : 0 < 2 ^ a * c := by omega
    rw [h, and_pred_even hy]
    obtain ⟨d, hd⟩ := ih (2 ^ a * c) hy ⟨c, rfl⟩
    exact ⟨d, by rw [hd, pow_succ (2 : Nat) (a + 1)]; ring⟩

theorem pow2ceilLoop_succ (fuel x : Nat) :
    pow2ceilLoop (fuel + 1) x =
      if x &&& ((x + 2 ^ 64 - 1) % 2 ^ 64) ≠ 0 then
        pow2ceilLoop fuel (x &&& ((x + 2 ^ 64 - 1) % 2 ^ 64))
      else x := rfl

/-- The loop of `pow2ceil` returns the highest set bit of `x`. -/
theorem pow2ceilLoop_spec : ∀ (fuel x k : Nat), 2 ^ k ≤ x → x < 2 ^ (k + 1) → x < 2 ^ 64 →
    2 ^ (64 - fuel) ∣ x → pow2ceilLoop fuel x = 2 ^ k := by
  intro fuel
  induction fuel with
  | zero =>
    intro x k h1 _ h3 hd
    have hx : 0 < x := Nat.lt_of_lt_of_le (Nat.pow_pos (by decide)) h1
    have := Nat.le_of_dvd hx hd
    omega
  | succ fuel ih =>
    intro x k h1 h2 h3 hd
    have hx : 0 < x := Nat.lt_of_lt_of_le (Nat.pow_pos (by decide)) h1
    have e : (x + 2 ^ 64 - 1) % 2 ^ 64 = x - 1 := by
      have : x + 2 ^ 64 - 1 = (x - 1) + 2 ^ 64 := by omega
      rw [this, Nat.add_mod_right, Nat.mod_eq_of_lt (by omega)]
    rw [pow2ceilLoop_succ, e]
    have hle : x &&& (x - 1) ≤ x := Nat.and_le_left
    rcases and_pred_high k x h1 h2 with ⟨h4, h5⟩ | h4
    · rw [if_neg (by simpa using h4)]
      exact h5
    · have hz : x &&& (x - 1) ≠ 0 := by
        have := Nat.pow_pos (n := k) (show 0 < 2 by decide)
        omega
      rw [if_pos hz]
      apply ih _ k h4 (by omega) (by omega)
      by_cases hf : fuel + 1 ≤ 64
      · have : 64 - fuel = (64 - (fuel + 1)) + 1 := by omega
        rw [this]
        exact and_pred_dvd _ x hx hd
      · have : 64 - fuel = 0 := by omega
        rw [this]
        exact one_dvd _

/-- What `pow2ceil` computes: for `x` with highest set bit `2^k`, `k < 63`, it returns
`2^(k+1)`. -/
theorem pow2ceil_spec {x k : Nat} (h1 : 2 ^ k ≤ x) (h2 : x < 2 ^ (k + 1)) (hk : k < 63) :
    pow2ceil x = 2 ^ (k + 1) := by
  have hlt : 2 ^ (k + 1) < 2 ^ 64 := Nat.pow_lt_pow_right (by decide) (by omega)
  unfold pow2ceil
  rw [pow2ceilLoop_spec 64 x k h1 h2 (by omega) (by simp), ← pow_succ]
  exact Nat.mod_eq_of_lt hlt

/-- Every `x ≥ 1` lies between two neighbouring powers of two. -/
theorem exists_high_bit {x : Nat} (hx : 0 < x) : ∃ k, 2 ^ k ≤ x ∧ x < 2 ^ (k + 1) :=
  ⟨Nat.log 2 x, Nat.pow_log_le_self 2 (by omega), Nat.lt_pow_succ_log_self (by decide) x⟩


end Fft

namespace Fft
open Big

theorem bitrev_succ (k i : Nat) : bitrev (k + 1) i = (i % 2) * 2 ^ k + bitrev k (i / 2) := rfl

theorem bitrev_lt : ∀ (k i : Nat), bitrev k i < 2 ^ k := by
  intro k
  induction k with
  | zero => intro i; simp [bitrev]
  | succ k ih =>
    intro i
    have := ih (i / 2)
    have h2 : i % 2 < 2 := Nat.mod_lt _ (by decide)
    rw [bitrev_succ, pow_succ]
    rcases Nat.mod_two_eq_zero_or_one i with h | h <;> rw [h] <;> omega

/-- The reversal read from the other end: the top bit of `i` becomes the lowest bit. -/
theorem bitrev_succ_high : ∀ (k i : Nat), i < 2 ^ (k + 1) →
    bitrev (k + 1) i = 2 * bitrev k (i % 2 ^ k) + i / 2 ^ k := by
  intro k
  induction k with
  | zero =>
    intro i hi
    simp [bitrev]
    omega
  | succ k ih =>
    intro i hi
    have h2 : i / 2 < 2 ^ (k + 1) := by rw [pow_succ] at hi; omega
    rw [bitrev_succ, ih (i / 2) h2, bitrev_succ k (i % 2 ^ (k + 1))]
    have e1 : i % 2 ^ (k + 1) % 2 = i % 2 := by
      rw [pow_succ, Nat.mul_comm]
      exact Nat.mod_mul_right_mod i 2 (2 ^ k)
    have e2 : i % 2 ^ (k + 1) / 2 = i / 2 % 2 ^ k := by
      rw [pow_succ, Nat.mul_comm, Nat.mod_mul_right_div_self]
    have e3 : i / 2 / 2 ^ k = i / 2 ^ (k + 1) := by
      rw [Nat.div_div_eq_div_mul, pow_succ, Nat.mul_comm]
    rw [e1, e2, e3, pow_succ]
    ring

/-- Bit reversal is an involution on `[0, 2^k)`. -/
theorem bitrev_bitrev : ∀ (k j : Nat), j < 2 ^ k → bitrev k (bitrev k j) = j := by
  intro k
  induction k with
  | zero => intro j hj; simp at hj; subst hj; rfl
  | succ k ih =>
    intro j hj
    have hr := bitrev_lt k (j / 2)
    have h2 : j / 2 < 2 ^ k := by rw [pow_succ] at hj; omega
    rw [bitrev_succ_high k _ (bitrev_lt (k + 1) j), bitrev_succ]
    have hp : 0 < 2 ^ k := Nat.pow_pos (by decide)
    have e1 : (j % 2 * 2 ^ k + bitrev k (j / 2)) % 2 ^ k = bitrev k (j / 2) := by
      rw [Nat.add_comm, Nat.add_mul_mod_self_right, Nat.mod_eq_of_lt hr]
    have e2 : (j % 2 * 2 ^ k + bitrev k (j / 2)) / 2 ^ k = j % 2 := by
      rw [Nat.add_comm, Nat.add_mul_div_right _ _ hp, Nat.div_eq_of_lt hr, Nat.zero_add]
    rw [e1, e2, ih _ h2]
    omega

theorem bitrev_inj {k i j : Nat} (hi : i < 2 ^ k) (hj : j < 2 ^ k)
    (h : bitrev k i = bitrev k j) : i = j := by
  rw [← bitrev_bitrev k i hi, ← bitrev_bitrev k j hj, h]

theorem low_and_two_pow {k r : Nat} (hr : r < 2 ^ k) : r &&& 2 ^ k = 0 := by
  rw [Nat.and_two_pow, Nat.testBit_lt_two_pow hr]
  simp

theorem high_and_two_pow {k r : Nat} (hr : r < 2 ^ k) : (2 ^ k + r) &&& 2 ^ k = 2 ^ k := by
  rw [Nat.and_two_pow, Nat.testBit_two_pow_add_eq, Nat.testBit_lt_two_pow hr]
  simp

theorem low_or_two_pow {k r : Nat} (hr : r < 2 ^ k) : r ||| 2 ^ k = 2 ^ k + r := by
  have := Nat.mul_add_lt_is_or hr 1
  rw [Nat.mul_one] at this
  rw [Nat.or_comm, this]

theorem high_xor_two_pow {k r : Nat} (hr : r < 2 ^ k) : (2 ^ k + r) ^^^ 2 ^ k = r := by
  have h := Nat.mul_add_lt_is_or hr 1
  rw [Nat.mul_one] at h
  rw [h]
  apply Nat.eq_of_testBit_eq
  intro i
  rw [Nat.testBit_xor, Nat.testBit_or, Nat.testBit_two_pow]
  by_cases hik : k = i
  · subst hik
    simp [Nat.testBit_lt_two_pow hr]
  · simp [hik]

theorem inc_revLoop_succ (fuel x top_bit : Nat) :
    inc_revLoop (fuel + 1) x top_bit =
      if x &&& (top_bit >>> 1) ≠ 0 then
        inc_revLoop fuel (x ^^^ (top_bit >>> 1)) (top_bit >>> 1)
      else x ||| (top_bit >>> 1) := rfl

/-- The loop of `inc_rev` on the reversal of `i` gives the reversal of `i + 1`. -/
theorem inc_revLoop_spec : ∀ (k fuel i : Nat), k < fuel → i < 2 ^ k →
    inc_revLoop fuel (bitrev k i) (2 ^ k) = bitrev k ((i + 1) % 2 ^ k) := by
  intro k
  induction k with
  | zero =>
    intro fuel i hf hi
    obtain ⟨f, rfl⟩ : ∃ f, fuel = f + 1 := ⟨fuel - 1, by omega⟩
    rw [inc_revLoop_succ]
    simp [bitrev]
  | succ k ih =>
    intro fuel i hf hi
    obtain ⟨f, rfl⟩ : ∃ f, fuel = f + 1 := ⟨fuel - 1, by omega⟩
    have hs : (2 ^ (k + 1)) >>> 1 = 2 ^ k := by
      rw [Nat.shiftRight_eq_div_pow, pow_succ, pow_one, Nat.mul_div_cancel _ (by decide)]
    have hr := bitrev_lt k (i / 2)
    have hp : 0 < 2 ^ k := Nat.pow_pos (by decide)
    rw [inc_revLoop_succ, hs, bitrev_succ]
    rw [pow_succ] at hi
    rcases Nat.mod_two_eq_zero_or_one i with hb | hb
    · rw [hb, Nat.zero_mul, Nat.zero_add, low_and_two_pow hr, if_neg (by simp),
        low_or_two_pow hr]
      have e : (i + 1) % 2 ^ (k + 1) = i + 1 := Nat.mod_eq_of_lt (by rw [pow_succ]; omega)
      rw [e, bitrev_succ]
      have e1 : (i + 1) % 2 = 1 := by omega
      have e2 : (i + 1) / 2 = i / 2 := by omega
      rw [e1, e2, Nat.one_mul]
    · rw [hb, Nat.one_mul, high_and_two_pow hr, if_pos (by omega), high_xor_two_pow hr,
        ih f (i / 2) (by omega) (by omega), bitrev_succ]
      have e1 : (i + 1) % 2 ^ (k + 1) % 2 = 0 := by
        rw [pow_succ, Nat.mul_comm, Nat.mod_mul_right_mod]; omega
      have e2 : (i + 1) % 2 ^ (k + 1) / 2 = (i / 2 + 1) % 2 ^ k := by
        rw [pow_succ, Nat.mul_comm, Nat.mod_mul_right_div_self]
        have : (i + 1) / 2 = i / 2 + 1 := by omega
        rw [this]
      rw [e1, e2, Nat.zero_mul, Nat.zero_add]

theorem inc_rev_spec {k i : Nat} (hk : k < 64) (hi : i < 2 ^ k) :
    inc_rev (bitrev k i) (2 ^ k) = bitrev k ((i + 1) % 2 ^ k) :=
  inc_revLoop_spec k 64 i hk hi




theorem bitrev_zero : ∀ k, bitrev k 0 = 0 := by
  intro k
  induction k with
  | zero => rfl
  | succ k ih => rw [bitrev_succ, Nat.zero_div, ih]; simp

theorem shuffleLoop_length {α β : Type} (conv : α → β) (N : Nat) :
    ∀ (xs : List α) (ri : Nat) (out : List β),
      (shuffleLoop conv N xs ri out).length = out.length := by
  intro xs
  induction xs with
  | nil => intro ri out; rfl
  | cons xi xs ih =>
    intro ri out
    show (shuffleLoop conv N xs _ _).length = _
    rw [ih, List.length_set]

/-- The loop of `bit_reverse_shuffle` from element `i` on, with `ri` the reversal of `i`:
position `j` of `out` receives the element whose index is the reversal of `j`. -/
theorem shuffleLoop_spec {α β : Type} (conv : α → β) {k : Nat} (hk : k < 64) :
    ∀ (xs : List α) (i : Nat) (out : List β), out.length = 2 ^ k →
      i + xs.length ≤ 2 ^ k → ∀ j, j < 2 ^ k →
      (shuffleLoop conv (2 ^ k) xs (bitrev k i) out)[j]? =
        if i ≤ bitrev k j ∧ bitrev k j < i + xs.length then
          (xs[bitrev k j - i]?).map conv
        else out[j]? := by
  intro xs
  induction xs with
  | nil =>
    intro i out _ _ j _
    have : ¬ (i ≤ bitrev k j ∧ bitrev k j < i + ([] : List α).length) := by
      simp only [List.length_nil]; omega
    rw [if_neg this]
    rfl
  | cons xi xs ih =>
    intro i out hlen hi j hj
    have hi2 : i < 2 ^ k := by simp only [List.length_cons] at hi; omega
    show (shuffleLoop conv (2 ^ k) xs (inc_rev (bitrev k i) (2 ^ k))
      (out.set (bitrev k i) (conv xi)))[j]? = _
    have hset : (out.set (bitrev k i) (conv xi))[j]? =
        if bitrev k j = i then some (conv xi) else out[j]? := by
      rw [List.getElem?_set]
      by_cases hji : bitrev k i = j
      · have : bitrev k j = i := by rw [← hji, bitrev_bitrev k i hi2]
        rw [if_pos hji, if_pos this, if_pos (by rw [hlen]; exact bitrev_lt k i)]
      · have : ¬ bitrev k j = i := fun h => hji (by rw [← h, bitrev_bitrev k j hj])
        rw [if_neg hji, if_neg this]
    cases xs with
    | nil =>
      show (out.set (bitrev k i) (conv xi))[j]? = _
      rw [hset]
      by_cases hji : bitrev k j = i
      · rw [if_pos hji, if_pos (by simp [hji]), hji]
        simp
      · rw [if_neg hji, if_neg (by simp only [List.length_singleton]; omega)]
    | cons y ys =>
      have hi3 : i + 1 < 2 ^ k := by simp only [List.length_cons] at hi; omega
      rw [inc_rev_spec hk hi2, Nat.mod_eq_of_lt hi3,
        ih (i + 1) _ (by rw [List.length_set]; exact hlen)
          (by simp only [List.length_cons] at hi ⊢; omega) j hj, hset]
      by_cases hji : bitrev k j = i
      · rw [if_neg (by omega), if_pos hji, if_pos (by simp only [List.length_cons]; omega), hji]
        simp
      · by_cases hc : i + 1 ≤ bitrev k j ∧ bitrev k j < i + 1 + (y :: ys).length
        · rw [if_pos hc, if_pos (by simp only [List.length_cons] at hc ⊢; omega)]
          have : bitrev k j - i = (bitrev k j - (i + 1)) + 1 := by omega
          rw [this, List.getElem?_cons_succ]
        · rw [if_neg hc, if_neg hji, if_neg (by simp only [List.length_cons] at hc ⊢; omega)]

/-- The contents of `bit_reverse_shuffle(x, 2^k)` for `|x| ≤ 2^k`: `2^k` elements,
position `j` holds `x[rev_k(j)]` when that index is inside `x`, and zero otherwise. -/
theorem bit_reverse_shuffle_spec {α β : Type} (conv : α → β) (zero : β) {k : Nat}
    (hk : k < 64) (x : List α) (hx : x.length ≤ 2 ^ k) :
    (bit_reverse_shuffle conv zero x (2 ^ k)).length = 2 ^ k ∧
    ∀ j, j < 2 ^ k → (bit_reverse_shuffle conv zero x (2 ^ k))[j]? =
      some (((x[bitrev k j]?).map conv).getD zero) := by
  unfold bit_reverse_shuffle
  refine ⟨by rw [shuffleLoop_length, List.length_replicate], fun j hj => ?_⟩
  have h0 : bitrev k 0 = 0 := bitrev_zero k
  have h := shuffleLoop_spec conv hk x 0 (List.replicate (2 ^ k) zero)
    (List.length_replicate _ _) (by omega) j hj
  rw [h0] at h
  rw [h]
  rw [Nat.zero_add, Nat.sub_zero]
  by_cases hc : bitrev k j < x.length
  · rw [if_pos ⟨Nat.zero_le _, hc⟩, List.getElem?_eq_getElem hc]
    rfl
  · rw [if_neg (fun h => hc h.2), List.getElem?_eq_none (Nat.le_of_not_lt hc)]
    simp [List.getElem?_replicate, hj]

end Fft

namespace Fft
open Big

/-- Shuffling twice gives back a vector of `2^k` elements. -/
theorem bit_reverse_shuffle_twice {α : Type} (zero : α) {k : Nat} (hk : k < 64) (x : List α)
    (hx : x.length = 2 ^ k) :
    bit_reverse_shuffle id zero (bit_reverse_shuffle id zero x (2 ^ k)) (2 ^ k) = x := by
  obtain ⟨l1, g1⟩ := bit_reverse_shuffle_spec id zero hk x (Nat.le_of_eq hx)
  obtain ⟨l2, g2⟩ := bit_reverse_shuffle_spec id zero hk
    (bit_reverse_shuffle id zero x (2 ^ k)) (Nat.le_of_eq l1)
  apply List.ext_getElem?
  intro j
  by_cases hj : j < 2 ^ k
  · rw [g2 j hj, g1 _ (bitrev_lt k j), bitrev_bitrev k j hj,
      List.getElem?_eq_getElem (by rw [hx]; exact hj)]
    rfl
  · rw [List.getElem?_eq_none (by omega), List.getElem?_eq_none (by omega)]

/-- The shuffle of a vector of `2^k` elements is a rearrangement of it. -/
theorem bit_reverse_shuffle_perm {α : Type} (zero : α) {k : Nat} (hk : k < 64) (x : List α)
    (hx : x.length = 2 ^ k) : List.Perm (bit_reverse_shuffle id zero x (2 ^ k)) x := by
  obtain ⟨l1, g1⟩ := bit_reverse_shuffle_spec id zero hk x (Nat.le_of_eq hx)
  let σ : Equiv.Perm (Fin (2 ^ k)) :=
    ⟨fun i => ⟨bitrev k i.1, bitrev_lt k i.1⟩, fun i => ⟨bitrev k i.1, bitrev_lt k i.1⟩,
      fun i => Fin.ext (bitrev_bitrev k i.1 i.2), fun i => Fin.ext (bitrev_bitrev k i.1 i.2)⟩
  have e1 : x = List.ofFn (fun i : Fin (2 ^ k) => x.get ⟨i.1, by rw [hx]; exact i.2⟩) := by
    apply List.ext_getElem?
    intro j
    by_cases hj : j < 2 ^ k
    · rw [List.getElem?_eq_getElem (by rw [hx]; exact hj),
        List.getElem?_eq_getElem (by rw [List.length_ofFn]; exact hj), List.getElem_ofFn]
      rfl
    · rw [List.getElem?_eq_none (by omega), List.getElem?_eq_none (by
        rw [List.length_ofFn]; omega)]
  have e2 : bit_reverse_shuffle id zero x (2 ^ k) =
      List.ofFn ((fun i : Fin (2 ^ k) => x.get ⟨i.1, by rw [hx]; exact i.2⟩) ∘ σ) := by
    apply List.ext_getElem?
    intro j
    by_cases hj : j < 2 ^ k
    · rw [g1 j hj, List.getElem?_eq_getElem (by rw [hx]; exact bitrev_lt k j),
        List.getElem?_eq_getElem (by rw [List.length_ofFn]; exact hj), List.getElem_ofFn]
      rfl
    · rw [List.getElem?_eq_none (by omega), List.getElem?_eq_none (by
        rw [List.length_ofFn]; omega)]
  rw [e2]
  exact (Equiv.Perm.ofFn_comp_perm σ _).trans (List.Perm.of_eq e1.symm)

end Fft

namespace Fft
open Big

/-- Bit `j` of the `k`-bit reversal of `i` is bit `k - 1 - j` of `i`. -/
theorem bitrev_testBit : ∀ (k i j : Nat), j < k →
    (bitrev k i).testBit j = i.testBit (k - 1 - j) := by
  intro k
  induction k with
  | zero => intro i j hj; omega
  | succ k ih =>
    intro i j hj
    rw [bitrev_succ, Nat.mul_comm, Nat.testBit_mul_pow_two_add _ (bitrev_lt k (i / 2))]
    by_cases h : j < k
    · rw [if_pos h, ih (i / 2) j h, Nat.testBit_div_two]
      congr 1
      omega
    · have : j = k := by omega
      subst this
      rw [if_neg h, Nat.sub_self, Nat.add_sub_cancel, Nat.sub_self]
      exact Nat.testBit_mod_two_pow i 1 0 |>.trans (by simp)

end Fft

namespace FieldExt
open Big

/-- The Lucas and Fibonacci numbers of the same index have the same parity. -/
theorem lucas_parity (k : Nat) : lucas k % 2 = Nat.fib k % 2 := by
  have := lucas_add_fib k
  omega

/-- The product of two powers of `φ`, before the halving: twice the Lucas and Fibonacci
numbers of the sum of the indices. -/
theorem Zrt5.mul_phiPow {opMul : List Nat → List Nat → List Nat}
    (hm : ExactProduct 8 opMul) {x y : Zrt5} {j s : Nat} (hx : x.IsPhiPow j)
    (hy : y.IsPhiPow s) :
    (Zrt5.mul opMul x y).a = toDigits 8 (2 * lucas (j + s)) ∧
    (Zrt5.mul opMul x y).b = toDigits 8 (2 * Nat.fib (j + s)) := by
  obtain ⟨xa, xb⟩ := hx
  obtain ⟨ya, yb⟩ := hy
  have hW : 0 < 8 := by decide
  obtain ⟨i1, i2⟩ := lucas_fib_add j s
  have hk2 : 2 < 2 ^ bitlog 8 := by decide
  refine ⟨?_, ?_⟩
  · show op_add 8 (opMul x.a y.a) (op_add 8 (op_shl 8 (opMul x.b y.b) 2) (opMul x.b y.b)) = _
    rw [xa, xb, ya, yb, hm.toDigits hW, hm.toDigits hW,
      op_shl_toDigits hW hk2 (by decide), op_add_toDigits hW, op_add_toDigits hW, i1]
  · show op_add 8 (opMul x.a y.b) (opMul x.b y.a) = _
    rw [xa, xb, ya, yb, hm.toDigits hW, hm.toDigits hW, op_add_toDigits hW, i2]

/-- What holds for one product of the loop. -/
theorem Zrt5.product_even {opMul : List Nat → List Nat → List Nat}
    (hm : ExactProduct 8 opMul) {x y : Zrt5} {j s : Nat} (hx : x.IsPhiPow j)
    (hy : y.IsPhiPow s) :
    value 8 x.a % 2 = value 8 x.b % 2 ∧ value 8 y.a % 2 = value 8 y.b % 2 ∧
    value 8 (Zrt5.mul opMul x y).a = value 8 x.a * value 8 y.a + 5 * value 8 x.b * value 8 y.b ∧
    value 8 (Zrt5.mul opMul x y).b = value 8 x.a * value 8 y.b + value 8 x.b * value 8 y.a ∧
    value 8 (Zrt5.mul opMul x y).a % 2 = 0 ∧ value 8 (Zrt5.mul opMul x y).b % 2 = 0 ∧
    2 * value 8 ((Zrt5.mul opMul x y).shr_assign 1).a = value 8 (Zrt5.mul opMul x y).a ∧
    2 * value 8 ((Zrt5.mul opMul x y).shr_assign 1).b = value 8 (Zrt5.mul opMul x y).b := by
  obtain ⟨p1, p2⟩ := Zrt5.mul_phiPow hm hx hy
  obtain ⟨q1, q2⟩ := Zrt5.isPhiPow_mul hm hx hy
  obtain ⟨i1, i2⟩ := lucas_fib_add j s
  rw [p1, p2, q1, q2, hx.1, hx.2, hy.1, hy.2]
  simp only [value_toDigits]
  refine ⟨lucas_parity j, lucas_parity s, ?_, by omega, by omega, by omega, trivial, trivial⟩
  have e : 5 * Nat.fib j * Nat.fib s = Nat.fib j * Nat.fib s * 2 ^ 2 + Nat.fib j * Nat.fib s := by
    ring
  rw [e]
  omega

theorem fieldExt_loop_products_succ (opMul : List Nat → List Nat → List Nat) (fuel : Nat)
    (n : List Nat) (fib step : Zrt5) :
    loop_products opMul (fuel + 1) n fib step =
      if op_cmp n (ofInt 64 32 0) = Ordering.gt then
        (if !(op_eq (op_and n (ofInt 64 32 1)) (ofInt 64 32 0))
          then [Product.mk fib step (Zrt5.mul opMul fib step)] else []) ++
        Product.mk step step (Zrt5.mul opMul step step) ::
          loop_products opMul fuel (op_shr_assign 64 n 1)
            (if !(op_eq (op_and n (ofInt 64 32 1)) (ofInt 64 32 0))
              then (Zrt5.mul opMul fib step).shr_assign 1 else fib)
            ((Zrt5.mul opMul step step).shr_assign 1)
      else [] := rfl

/-- Every product of the loop multiplies two powers of `φ`. -/
theorem fieldExt_loop_products_spec {opMul : List Nat → List Nat → List Nat}
    (hm : ExactProduct 8 opMul) : ∀ (fuel : Nat) (n : List Nat) (fib step : Zrt5) (a s : Nat),
    fib.IsPhiPow a → step.IsPhiPow s →
    ∀ p ∈ loop_products opMul fuel n fib step,
      p.prod = Zrt5.mul opMul p.lhs p.rhs ∧ ∃ j t, p.lhs.IsPhiPow j ∧ p.rhs.IsPhiPow t := by
  intro fuel
  induction fuel with
  | zero => intro n fib step a s _ _ p hp; simp [loop_products] at hp
  | succ fuel ih =>
    intro n fib step a s hfib hstep p hp
    rw [fieldExt_loop_products_succ] at hp
    by_cases hc : op_cmp n (ofInt 64 32 0) = Ordering.gt
    · rw [if_pos hc] at hp
      rcases List.mem_append.1 hp with h1 | h1
      · by_cases ho : (!(op_eq (op_and n (ofInt 64 32 1)) (ofInt 64 32 0))) = true
        · rw [if_pos ho, List.mem_singleton] at h1
          subst h1
          exact ⟨rfl, a, s, hfib, hstep⟩
        · rw [if_neg ho] at h1
          simp at h1
      · rcases List.mem_cons.1 h1 with h2 | h2
        · subst h2
          exact ⟨rfl, s, s, hstep, hstep⟩
        · have hs2 := Zrt5.isPhiPow_mul hm hstep hstep
          by_cases ho : (!(op_eq (op_and n (ofInt 64 32 1)) (ofInt 64 32 0))) = true
          · rw [if_pos ho] at h2
            exact ih _ _ _ _ _ (Zrt5.isPhiPow_mul hm hfib hstep) hs2 p h2
          · rw [if_neg ho] at h2
            exact ih _ _ _ _ _ hfib hs2 p h2
    · rw [if_neg hc] at hp
      simp at hp

end FieldExt

namespace Big

theorem muladdSums_cons_cons (W scalar o x spill : Nat) (out inp : List Nat) :
    muladdSums W scalar (o :: out) (x :: inp) spill =
      (o + x * scalar + spill) ::
        muladdSums W scalar out inp (((o + x * scalar + spill) % 2 ^ 64) / 2 ^ (64 - W)) :=
  rfl

/-- With 32-bit digits the sums of the main loop of `muladd` stay below `2^64`. -/
theorem muladdSums_lt {scalar : Nat} (hs : scalar < base 32) :
    ∀ (inp out : List Nat) (spill : Nat), WF 32 out → WF 32 inp → spill < base 32 →
    inp.length ≤ out.length →
    (muladdSums 32 scalar out inp spill).length = inp.length ∧
    ∀ s ∈ muladdSums 32 scalar out inp spill, s < 2 ^ 64 := by
  intro inp
  induction inp with
  | nil =>
    intro out spill _ _ _ _
    cases out <;> simp [muladdSums]
  | cons x inp ih =>
    intro out spill hout hinp hsp hlen
    cases out with
    | nil => simp at hlen
    | cons o out =>
      rw [WF_cons] at hout hinp
      have hacc := muladd_acc_lt hout.1 hinp.1 hs hsp
      rw [base32_sq] at hacc
      have hres : (o + x * scalar + spill) % 2 ^ 64 = o + x * scalar + spill :=
        Nat.mod_eq_of_lt hacc
      have hdiv : (o + x * scalar + spill) / base 32 < base 32 := by
        apply Nat.div_lt_of_lt_mul
        rw [base32_sq]; exact hacc
      rw [muladdSums_cons_cons, hres, pow_down32]
      obtain ⟨i1, i2⟩ := ih out _ hout.2 hinp.2 hdiv (by simpa using hlen)
      refine ⟨by simp only [List.length_cons, i1], ?_⟩
      intro s hs
      rcases List.mem_cons.1 hs with h | h
      · rw [h]; exact hacc
      · exact i2 s h

/-- The trace of a row of the schoolbook product, on a window of `|lhs|` partial digits
followed by zero digits. -/
theorem muladd_trace_row {y : Nat} (hy : y < base 32) {p lhs : List Nat} (k : Nat)
    (hp : WF 32 p) (hl : WF 32 lhs) (hlen : p.length = lhs.length) :
    (muladd_trace 32 (p ++ List.replicate (k + 1) 0) lhs y).window = lhs.length + (k + 1) ∧
    (muladd_trace 32 (p ++ List.replicate (k + 1) 0) lhs y).sums.length = lhs.length ∧
    (∀ s ∈ (muladd_trace 32 (p ++ List.replicate (k + 1) 0) lhs y).sums, s < 2 ^ 64) ∧
    (muladd_trace 32 (p ++ List.replicate (k + 1) 0) lhs y).spill < 2 ^ 32 ∧
    (muladd_trace 32 (p ++ List.replicate (k + 1) 0) lhs y).old = some 0 ∧
    (muladd_trace 32 (p ++ List.replicate (k + 1) 0) lhs y).carried = false ∧
    (muladd_trace 32 (p ++ List.replicate (k + 1) 0) lhs y).outside = false := by
  have hout : WF 32 (p ++ List.replicate (k + 1) 0) :=
    WF_append.2 ⟨hp, WF_replicate_zero 32 _⟩
  have hle : lhs.length ≤ (p ++ List.replicate (k + 1) 0).length := by simp [hlen]
  obtain ⟨i1, i2, i3, i4, i5⟩ := muladdLoop_spec hy lhs (p ++ List.replicate (k + 1) 0) 0
    hout hl (base_pos 32) hle
  obtain ⟨j1, j2⟩ := muladdSums_lt hy lhs (p ++ List.replicate (k + 1) 0) 0
    hout hl (base_pos 32) hle
  rw [← hlen, List.drop_left] at i3
  unfold muladd_trace muladd
  generalize hr : muladdLoop 32 y (p ++ List.replicate (k + 1) 0) lhs 0 = r at *
  obtain ⟨r1, r2, r3⟩ := r
  simp only at i1 i2 i3 i4 i5
  subst i3
  refine ⟨by simp [hlen], j1, j2, i4, by simp [List.replicate_succ], ?_, ?_⟩
  · by_cases hsp : r3 = 0
    · simp [hsp]
    · simp [hsp, List.replicate_succ]
  · by_cases hsp : r3 = 0
    · simp [hsp]
    · simp [hsp, List.replicate_succ]

theorem mul_trace_cons (W : Nat) (out lhs : List Nat) (y : Nat) (rhs : List Nat) :
    mul_trace W out lhs (y :: rhs) =
      muladd_trace W out lhs y ::
        match (muladd W false out lhs y).1 with
        | [] => []
        | _ :: out1 => mul_trace W out1 lhs rhs := rfl

/-- Every row of the schoolbook `mul` on a window of `|lhs|` partial digits followed by
`|rhs|` zero digits: no sum of the main loop overflows, the spill is added to a zero
digit inside the window, and the carry branch does not run. -/
theorem mul_trace_spec {lhs : List Nat} (hl : WF 32 lhs) :
    ∀ (rhs p : List Nat), WF 32 rhs → WF 32 p → p.length = lhs.length →
    (mul_trace 32 (p ++ List.replicate rhs.length 0) lhs rhs).length = rhs.length ∧
    ∀ j t, (mul_trace 32 (p ++ List.replicate rhs.length 0) lhs rhs)[j]? = some t →
      t.window = lhs.length + rhs.length - j ∧ t.sums.length = lhs.length ∧
      (∀ s ∈ t.sums, s < 2 ^ 64) ∧
      t.spill < 2 ^ 32 ∧ t.old = some 0 ∧ t.carried = false ∧ t.outside = false := by
  intro rhs
  induction rhs with
  | nil =>
    intro p _ _ _
    simp [mul_trace]
  | cons y rhs ih =>
    intro p hr hp hlen
    rw [WF_cons] at hr
    obtain ⟨w, s, h1, h2, h3, h4, h5⟩ := muladd_row hr.1 rhs.length hp hl hlen
    obtain ⟨t1, t2, t3, t4, t5, t6, t7⟩ := muladd_trace_row hr.1 rhs.length hp hl hlen
    rw [List.length_cons, mul_trace_cons, h5]
    have hq : ∃ o p1, w ++ [s] = o :: p1 ∧ p1.length = lhs.length := by
      cases w with
      | nil => exact ⟨s, [], rfl, by simpa using h1⟩
      | cons o w1 => exact ⟨o, w1 ++ [s], rfl, by simpa using h1⟩
    obtain ⟨o, p1, hq1, hq2⟩ := hq
    have hsplit : w ++ s :: List.replicate rhs.length 0 =
        o :: (p1 ++ List.replicate rhs.length 0) := by
      rw [← List.cons_append, ← hq1, List.append_assoc, List.singleton_append]
    rw [hsplit]
    have hwf : WF 32 (o :: p1) := by
      rw [← hq1]
      exact WF_append.2 ⟨h2, WF_cons.2 ⟨h3, WF_nil 32⟩⟩
    rw [WF_cons] at hwf
    obtain ⟨j1, j2⟩ := ih p1 hr.2 hwf.2 hq2
    refine ⟨by simp only [List.length_cons, j1], ?_⟩
    intro j t ht
    cases j with
    | zero =>
      rw [List.getElem?_cons_zero, Option.some.injEq] at ht
      rw [← ht]
      exact ⟨by rw [t1]; omega, t2, t3, t4, t5, t6, t7⟩
    | succ j =>
      rw [List.getElem?_cons_succ] at ht
      obtain ⟨g1, g2⟩ := j2 j t ht
      exact ⟨by rw [g1]; omega, g2⟩

end Big

namespace Karatsuba
open Big

theorem carveBind_snd {α β : Type} (x : List Win × Res α) (f : α → List Win × Res β) :
    (carveBind x f).2 = x.2.bind (fun a => (f a).2) := by
  unfold carveBind Res.bind
  cases x.2 <;> rfl

theorem Res.ok_bind {α β : Type} (a : α) (f : α → Res β) : (Res.ok a).bind f = f a := rfl

theorem Res.bind_assoc {α β γ : Type} (r : Res α) (f : α → Res β) (g : β → Res γ) :
    (r.bind f).bind g = r.bind (fun a => (f a).bind g) := by
  cases r <;> rfl

theorem half_sum_snd (W : Nat) (sb : Buf) (slo h : Nat) (lower upper : Win) (m : Mem) :
    (half_sum W sb slo h lower upper m).2 =
      (if upper.size ≥ lower.size then add W true ⟨sb, slo, slo + h⟩ upper lower m
        else add W true ⟨sb, slo, slo + h⟩ lower upper m).bind fun a1 =>
      if a1.2 then
        (Res.ofOption (a1.1.write sb (slo + h) 1)).bind fun m1 => Res.ok (m1, slo + h + 1)
      else Res.ok (a1.1, slo + h) := by
  unfold half_sum
  simp only [carveBind_snd]
  congr 1
  funext a1
  split <;> rfl

/-- The run recorded by `mul_carves` is the run of `mul`. -/
theorem mul_carves_snd (W : Nat) : ∀ (fuel : Nat) (cleanup : Bool) (out lhs rhs scratch : Win)
    (m : Mem), (mul_carves W fuel cleanup out lhs rhs scratch m).2 =
      mul W fuel cleanup out lhs rhs scratch m := by
  intro fuel
  induction fuel with
  | zero => intros; rfl
  | succ fuel ih =>
    intro cleanup out lhs rhs scratch m
    unfold mul_carves mul
    dsimp only
    by_cases h1 : lhs.size = 0 ∨ rhs.size = 0
    · rw [if_pos h1, if_pos h1]
    rw [if_neg h1, if_neg h1]
    by_cases h2 : rhs.size = 1
    · rw [if_pos h2, if_pos h2]
    rw [if_neg h2, if_neg h2]
    by_cases h3 : lhs.size = 1
    · rw [if_pos h3, if_pos h3]
    rw [if_neg h3, if_neg h3]
    simp only [carveBind_snd, half_sum_snd, ih, apply_ite Prod.snd, Res.bind_assoc, Res.ok_bind]

end Karatsuba

namespace Karatsuba
open Big

/-! ## Reading and writing digits -/

theorem Mem.get_write {m m1 : Mem} {b : Buf} {i x : Nat} (h : m.write b i x = some m1)
    (b1 : Buf) : m1.get b1 = if b1 = b then (m.get b).set i x else m.get b1 := by
  unfold Mem.write at h
  split at h
  · injection h with h
    subst h
    cases b <;> cases b1 <;> simp [Mem.get]
  · exact Option.noConfusion h

theorem Mem.read_write {m m1 : Mem} {b : Buf} {i x : Nat} (h : m.write b i x = some m1)
    (b1 : Buf) (j : Nat) :
    m1.read b1 j = if b1 = b ∧ j = i then some x else m.read b1 j := by
  have hlt : i < (m.get b).length := by
    unfold Mem.write at h
    split at h
    · assumption
    · exact Option.noConfusion h
  unfold Mem.read
  rw [Mem.get_write h b1]
  by_cases hb : b1 = b
  · subst hb
    rw [if_pos rfl, List.get?_eq_getElem?, List.getElem?_set]
    by_cases hj : j = i
    · subst hj
      simp [hlt]
    · have : ¬ i = j := fun e => hj e.symm
      simp [hj, this]
  · simp [hb]

theorem Mem.read_write_same {m m1 : Mem} {b : Buf} {i x : Nat} (h : m.write b i x = some m1) :
    m1.read b i = some x := by
  rw [Mem.read_write h]; simp

theorem Mem.sameBelow_write {m m1 : Mem} {b : Buf} {i x : Nat} (h : m.write b i x = some m1)
    {lo : Nat} (hlo : lo ≤ i) : Mem.SameBelow b lo m m1 := by
  intro b1 j hj
  rw [Mem.read_write h]
  have : ¬ (b1 = b ∧ j = i) := by
    rintro ⟨e1, e2⟩
    rcases hj with hj | hj
    · exact hj e1
    · omega
  rw [if_neg this]

theorem Mem.sameBelow_refl (b : Buf) (lo : Nat) (m : Mem) : Mem.SameBelow b lo m m :=
  fun _ _ _ => rfl

theorem Mem.SameBelow.trans {b : Buf} {lo lo1 lo2 : Nat} {m m1 m2 : Mem}
    (h1 : Mem.SameBelow b lo1 m m1) (h2 : Mem.SameBelow b lo2 m1 m2) (l1 : lo ≤ lo1)
    (l2 : lo ≤ lo2) : Mem.SameBelow b lo m m2 := by
  intro b1 j hj
  rw [h2 b1 j (by rcases hj with h | h; exact Or.inl h; exact Or.inr (by omega)),
    h1 b1 j (by rcases hj with h | h; exact Or.inl h; exact Or.inr (by omega))]

theorem WF_set {W : Nat} {l : List Nat} (hl : Big.WF W l) {x : Nat} (hx : x < base W)
    (i : Nat) : Big.WF W (l.set i x) := by
  intro d hd
  rcases List.mem_or_eq_of_mem_set hd with h | h
  · exact hl d h
  · rw [h]; exact hx

theorem Mem.WF_write {W : Nat} {m m1 : Mem} {b : Buf} {i x : Nat} (hm : m.WF W)
    (hx : x < base W) (h : m.write b i x = some m1) : m1.WF W := by
  unfold Mem.write at h
  split at h
  · injection h with h
    subst h
    obtain ⟨h1, h2, h3, h4⟩ := hm
    cases b
    · exact ⟨WF_set h1 hx i, h2, h3, h4⟩
    · exact ⟨h1, WF_set h2 hx i, h3, h4⟩
    · exact ⟨h1, h2, WF_set h3 hx i, h4⟩
    · exact ⟨h1, h2, h3, WF_set h4 hx i⟩
  · exact Option.noConfusion h

theorem Mem.read_lt {W : Nat} {m : Mem} (hm : m.WF W) {b : Buf} {i x : Nat}
    (h : m.read b i = some x) : x < base W := by
  unfold Mem.read at h
  have hmem : x ∈ m.get b := List.get?_mem h
  obtain ⟨h1, h2, h3, h4⟩ := hm
  cases b
  · exact h1 x hmem
  · exact h2 x hmem
  · exact h3 x hmem
  · exact h4 x hmem

theorem base_ge_two {W : Nat} (hW : 0 < W) : 2 ≤ base W := by
  have := base_gt_one hW
  omega

end Karatsuba

namespace Karatsuba
open Big

/-! ## The loops of the primitives keep the digits below `2^W` and write upwards -/

theorem Mem.fill_inv {W : Nat} (b : Buf) {x : Nat} (hx : x < base W) :
    ∀ (n i : Nat) (m m1 : Mem), m.WF W → Mem.fill b x n i m = some m1 →
      m1.WF W ∧ Mem.SameBelow b i m m1 := by
  intro n
  induction n with
  | zero =>
    intro i m m1 hm h
    simp only [Mem.fill, Option.some.injEq] at h
    subst h
    exact ⟨hm, Mem.sameBelow_refl _ _ _⟩
  | succ n ih =>
    intro i m m1 hm h
    simp only [Mem.fill] at h
    split at h
    · rename_i m2 hw
      obtain ⟨g1, g2⟩ := ih (i + 1) m2 m1 (Mem.WF_write hm hx hw) h
      exact ⟨g1, (Mem.sameBelow_write hw (Nat.le_refl i)).trans g2 (Nat.le_refl i) (by omega)⟩
    · exact Option.noConfusion h

theorem ite_le_one (p : Prop) [Decidable p] : (if p then 1 else 0) ≤ 1 := by
  split <;> omega

theorem addLoop23_succ (W : Nat) (ob lb : Buf) (n oi li c : Nat) (m : Mem) :
    addLoop23 W ob lb (n + 1) oi li c m =
      match m.read lb li with
      | some x =>
        match m.write ob oi (if c ≠ 0 then (x + 1) % base W else x) with
        | some m1 =>
          addLoop23 W ob lb n (oi + 1) (li + 1)
            (if c ≠ 0 ∧ (if c ≠ 0 then (x + 1) % base W else x) = 0 then 1 else 0) m1
        | none => none
      | none => none := rfl

theorem addLoop1_inv {W : Nat} (ob lb rb : Buf) :
    ∀ (n oi li ri c : Nat) (m : Mem) (r : Mem × Nat), m.WF W → c ≤ 1 →
      addLoop1 W ob lb rb n oi li ri c m = some r →
      r.1.WF W ∧ Mem.SameBelow ob oi m r.1 ∧ r.2 ≤ 1 := by
  intro n
  induction n with
  | zero =>
    intro oi li ri c m r hm hc h
    simp only [addLoop1, Option.some.injEq] at h
    subst h
    exact ⟨hm, Mem.sameBelow_refl _ _ _, hc⟩
  | succ n ih =>
    intro oi li ri c m r hm hc h
    simp only [addLoop1] at h
    split at h
    · rename_i x y hx hy
      split at h
      · rename_i m1 hw
        have hm1 := Mem.WF_write hm (Nat.mod_lt _ (base_pos W)) hw
        obtain ⟨g1, g2, g3⟩ := ih _ _ _ _ m1 r hm1 (by split <;> split <;> omega) h
        exact ⟨g1, (Mem.sameBelow_write hw (Nat.le_refl oi)).trans g2 (Nat.le_refl oi)
          (by omega), g3⟩
      · exact Option.noConfusion h
    · exact Option.noConfusion h

theorem addLoop23_inv {W : Nat} (ob lb : Buf) :
    ∀ (n oi li c : Nat) (m : Mem) (r : Mem × Nat), m.WF W → c ≤ 1 →
      addLoop23 W ob lb n oi li c m = some r →
      r.1.WF W ∧ Mem.SameBelow ob oi m r.1 ∧ r.2 ≤ 1 ∧ (c = 0 → r.2 = 0) := by
  intro n
  induction n with
  | zero =>
    intro oi li c m r hm hc h
    simp only [addLoop23, Option.some.injEq] at h
    subst h
    exact ⟨hm, Mem.sameBelow_refl _ _ _, hc, fun h => h⟩
  | succ n ih =>
    intro oi li c m r hm hc h
    simp only [addLoop23] at h
    split at h
    · rename_i x hx
      split at h
      · rename_i m1 hw
        have hxlt := Mem.read_lt hm hx
        have ho : (if c ≠ 0 then (x + 1) % base W else x) < base W := by
          split
          · exact Nat.mod_lt _ (base_pos W)
          · exact hxlt
        have hm1 := Mem.WF_write hm ho hw
        obtain ⟨g1, g2, g3, g4⟩ := ih _ _ _ m1 r hm1 (ite_le_one _) h
        refine ⟨g1, (Mem.sameBelow_write hw (Nat.le_refl oi)).trans g2 (Nat.le_refl oi)
          (by omega), g3, fun hc0 => g4 ?_⟩
        rw [if_neg (by simp [hc0])]
      · exact Option.noConfusion h
    · exact Option.noConfusion h

/-- When the second loop of `add` ends with a carry, the last digit it wrote is zero. -/
theorem addLoop23_last_zero {W : Nat} (ob lb : Buf) :
    ∀ (n oi li c : Nat) (m : Mem) (r : Mem × Nat),
      addLoop23 W ob lb (n + 1) oi li c m = some r → r.2 ≠ 0 →
      r.1.read ob (oi + n) = some 0 := by
  intro n
  induction n with
  | zero =>
    intro oi li c m r h hc
    simp only [addLoop23] at h
    split at h
    · split at h
      · rename_i m1 hw
        simp only [Option.some.injEq] at h
        subst h
        simp only at hc ⊢
        rw [Nat.add_zero, Mem.read_write_same hw]
        by_contra hne
        apply hc
        rw [if_neg]
        rintro ⟨_, h0⟩
        exact hne (by rw [h0])
      · exact Option.noConfusion h
    · exact Option.noConfusion h
  | succ n ih =>
    intro oi li c m r h hc
    rw [addLoop23_succ] at h
    split at h
    · split at h
      · have := ih _ _ _ _ r h hc
        rw [← this]
        congr 1
        omega
      · exact Option.noConfusion h
    · exact Option.noConfusion h

/-- When the last digit that the second loop of `add` reads is not the largest digit, the
loop ends without a carry. -/
theorem addLoop23_last_small {W : Nat} (ob lb : Buf) :
    ∀ (n oi li c : Nat) (m : Mem) (r : Mem × Nat),
      addLoop23 W ob lb (n + 1) oi li c m = some r →
      (∃ d, m.read lb (li + n) = some d ∧ d + 1 < base W) → (lb ≠ ob ∨ li + n < oi) →
      r.2 = 0 := by
  intro n
  induction n with
  | zero =>
    intro oi li c m r h hd _
    obtain ⟨d, hd1, hd2⟩ := hd
    rw [Nat.add_zero] at hd1
    simp only [addLoop23] at h
    rw [hd1] at h
    simp only at h
    split at h
    · simp only [Option.some.injEq] at h
      subst h
      simp only
      rw [if_neg]
      rintro ⟨hc, h0⟩
      rw [if_pos hc, Nat.mod_eq_of_lt hd2] at h0
      omega
    · exact Option.noConfusion h
  | succ n ih =>
    intro oi li c m r h hd hal
    obtain ⟨d, hd1, hd2⟩ := hd
    rw [addLoop23_succ] at h
    split at h
    · split at h
      · rename_i m1 hw
        apply ih _ _ _ m1 r h ?_ ?_
        · refine ⟨d, ?_, hd2⟩
          rw [Mem.read_write hw, if_neg, ← hd1]
          · congr 1; omega
          · rintro ⟨e1, e2⟩
            rcases hal with h1 | h1
            · exact h1 e1
            · omega
        · rcases hal with h1 | h1
          · exact Or.inl h1
          · exact Or.inr (by omega)
      · exact Option.noConfusion h
    · exact Option.noConfusion h

theorem subLoop1_inv {W : Nat} (ob lb rb : Buf) :
    ∀ (n oi li ri : Nat) (bw : Bool) (m : Mem) (r : Mem × Bool), m.WF W →
      subLoop1 W ob lb rb n oi li ri bw m = some r → r.1.WF W := by
  intro n
  induction n with
  | zero =>
    intro oi li ri bw m r hm h
    simp only [subLoop1, Option.some.injEq] at h
    subst h
    exact hm
  | succ n ih =>
    intro oi li ri bw m r hm h
    simp only [subLoop1] at h
    split at h
    · split at h
      · rename_i m1 hw
        exact ih _ _ _ _ m1 r (Mem.WF_write hm (Nat.mod_lt _ (base_pos W)) hw) h
      · exact Option.noConfusion h
    · exact Option.noConfusion h

theorem subLoop23_inv {W : Nat} (ob lb : Buf) :
    ∀ (n oi li : Nat) (bw : Bool) (m : Mem) (r : Mem × Bool), m.WF W →
      subLoop23 W ob lb n oi li bw m = some r → r.1.WF W := by
  intro n
  induction n with
  | zero =>
    intro oi li bw m r hm h
    simp only [subLoop23, Option.some.injEq] at h
    subst h
    exact hm
  | succ n ih =>
    intro oi li bw m r hm h
    simp only [subLoop23] at h
    split at h
    · rename_i x hx
      split at h
      · rename_i m1 hw
        have ho : (if bw = true then (x + base W - 1) % base W else x) < base W := by
          split
          · exact Nat.mod_lt _ (base_pos W)
          · exact Mem.read_lt hm hx
        exact ih _ _ _ m1 r (Mem.WF_write hm ho hw) h
      · exact Option.noConfusion h
    · exact Option.noConfusion h

theorem mulScalarLoop_inv {W : Nat} (scalar : Nat) (ob ib : Buf) :
    ∀ (n oi ii spill : Nat) (m : Mem) (r : Mem × Nat), m.WF W →
      mulScalarLoop W scalar ob ib n oi ii spill m = some r → r.1.WF W := by
  intro n
  induction n with
  | zero =>
    intro oi ii spill m r hm h
    simp only [mulScalarLoop, Option.some.injEq] at h
    subst h
    exact hm
  | succ n ih =>
    intro oi ii spill m r hm h
    simp only [mulScalarLoop] at h
    split at h
    · split at h
      · rename_i m1 hw
        exact ih _ _ _ m1 r (Mem.WF_write hm (Nat.mod_lt _ (base_pos W)) hw) h
      · exact Option.noConfusion h
    · exact Option.noConfusion h

end Karatsuba

namespace Karatsuba
open Big

/-! ## The primitives on windows -/

theorem Res.bind_eq_ok {α β : Type} {r : Res α} {f : α → Res β} {b : β}
    (h : r.bind f = Res.ok b) : ∃ a, r = Res.ok a ∧ f a = Res.ok b := by
  cases r with
  | ok a => exact ⟨a, rfl, h⟩
  | fault => exact Res.noConfusion h
  | timeout => exact Res.noConfusion h

theorem Res.ofOption_eq_ok {α : Type} {o : Option α} {a : α} (h : Res.ofOption o = Res.ok a) :
    o = some a := by
  cases o with
  | none => exact Res.noConfusion h
  | some x =>
    simp only [Res.ofOption, Res.ok.injEq] at h
    rw [h]

theorem Res.ofOption_ne_timeout {α : Type} (o : Option α) : Res.ofOption o ≠ Res.timeout := by
  cases o <;> exact fun h => Res.noConfusion h

theorem Res.bind_ne_timeout {α β : Type} {r : Res α} {f : α → Res β}
    (hr : r ≠ Res.timeout) (hf : ∀ a, r = Res.ok a → f a ≠ Res.timeout) :
    r.bind f ≠ Res.timeout := by
  cases r with
  | ok a => exact hf a rfl
  | fault => exact fun h => Res.noConfusion h
  | timeout => exact absurd rfl hr

/-- How a run of `add` that ends is made up. -/
theorem add_cases {W : Nat} {clear : Bool} {out lhs rhs : Win} {m : Mem} {r : Mem × Bool}
    (h : add W clear out lhs rhs m = Res.ok r) :
    rhs.size ≤ lhs.size ∧ ∃ r1 r2,
      addLoop1 W out.buf lhs.buf rhs.buf rhs.size out.lo lhs.lo rhs.lo 0 m = some r1 ∧
      addLoop23 W out.buf lhs.buf (lhs.size - rhs.size) (out.lo + rhs.size)
        (lhs.lo + rhs.size) r1.2 r1.1 = some r2 ∧
      (((clear = true ∧ out.lo + lhs.size ≠ out.hi) ∧ out.lo + lhs.size ≤ out.hi ∧
          r.2 = false ∧ ∃ m3, r2.1.write out.buf (out.lo + lhs.size) r2.2 = some m3 ∧
            Mem.fill out.buf 0 (out.hi - (out.lo + lhs.size + 1)) (out.lo + lhs.size + 1) m3 =
              some r.1) ∨
        (¬ (clear = true ∧ out.lo + lhs.size ≠ out.hi) ∧ r = (r2.1, decide (r2.2 ≠ 0)))) := by
  unfold add at h
  by_cases hs : rhs.size > lhs.size
  · rw [if_pos hs] at h
    exact Res.noConfusion h
  rw [if_neg hs] at h
  obtain ⟨r1, e1, h⟩ := Res.bind_eq_ok h
  obtain ⟨r2, e2, h⟩ := Res.bind_eq_ok h
  refine ⟨by omega, r1, r2, Res.ofOption_eq_ok e1, Res.ofOption_eq_ok e2, ?_⟩
  simp only at h
  by_cases hc : clear = true ∧ out.lo + lhs.size ≠ out.hi
  · rw [if_pos hc] at h
    by_cases hgt : out.lo + lhs.size > out.hi
    · rw [if_pos hgt] at h
      exact Res.noConfusion h
    rw [if_neg hgt] at h
    obtain ⟨m3, e3, h⟩ := Res.bind_eq_ok h
    obtain ⟨m4, e4, h⟩ := Res.bind_eq_ok h
    simp only [Res.ok.injEq] at h
    subst h
    exact Or.inl ⟨hc, by omega, rfl, m3, Res.ofOption_eq_ok e3, Res.ofOption_eq_ok e4⟩
  · rw [if_neg hc] at h
    simp only [Res.ok.injEq] at h
    exact Or.inr ⟨hc, h.symm⟩

theorem add_ne_timeout (W : Nat) (clear : Bool) (out lhs rhs : Win) (m : Mem) :
    add W clear out lhs rhs m ≠ Res.timeout := by
  unfold add
  split
  · exact fun h => Res.noConfusion h
  · refine Res.bind_ne_timeout (Res.ofOption_ne_timeout _) fun r1 _ =>
      Res.bind_ne_timeout (Res.ofOption_ne_timeout _) fun r2 _ => ?_
    simp only
    split
    · split
      · exact fun h => Res.noConfusion h
      · exact Res.bind_ne_timeout (Res.ofOption_ne_timeout _) fun m3 _ =>
          Res.bind_ne_timeout (Res.ofOption_ne_timeout _) fun m4 _ h => Res.noConfusion h
    · exact fun h => Res.noConfusion h

/-- A run of `add` that ends keeps the digits below `2^W` and writes from `out.begin()`
upwards only. -/
theorem add_inv {W : Nat} (hW : 0 < W) {clear : Bool} {out lhs rhs : Win} {m : Mem}
    {r : Mem × Bool} (hm : m.WF W) (h : add W clear out lhs rhs m = Res.ok r) :
    r.1.WF W ∧ Mem.SameBelow out.buf out.lo m r.1 := by
  obtain ⟨_, r1, r2, e1, e2, hc⟩ := add_cases h
  obtain ⟨a1, a2, a3⟩ := addLoop1_inv _ _ _ _ _ _ _ _ m r1 hm (Nat.zero_le 1) e1
  obtain ⟨b1, b2, b3, _⟩ := addLoop23_inv _ _ _ _ _ _ r1.1 r2 a1 a3 e2
  have s12 : Mem.SameBelow out.buf out.lo m r2.1 :=
    a2.trans b2 (Nat.le_refl _) (Nat.le_add_right _ _)
  have hb := base_ge_two hW
  rcases hc with ⟨_, _, _, m3, e3, e4⟩ | ⟨_, e⟩
  · have w3 := Mem.WF_write b1 (show r2.2 < base W by omega) e3
    obtain ⟨f1, f2⟩ := Mem.fill_inv out.buf (show 0 < base W by omega) _ _ m3 r.1 w3 e4
    exact ⟨f1, (s12.trans (Mem.sameBelow_write e3 (Nat.le_add_right out.lo lhs.size))
      (Nat.le_refl _) (Nat.le_refl _)).trans f2 (Nat.le_refl _) (by omega)⟩
  · rw [e]
    exact ⟨b1, s12⟩

/-- The `clear` variant of `add` returns `false` when `out` is longer than `lhs`. -/
theorem add_clear_long {W : Nat} {out lhs rhs : Win} {m : Mem} {r : Mem × Bool}
    (h : add W true out lhs rhs m = Res.ok r) (hl : out.lo + lhs.size ≠ out.hi) :
    r.2 = false := by
  obtain ⟨_, r1, r2, _, _, hc⟩ := add_cases h
  rcases hc with ⟨_, _, e, _⟩ | ⟨hn, _⟩
  · exact e
  · exact absurd ⟨rfl, hl⟩ hn

/-- Adding an empty window gives no carry. -/
theorem add_empty_rhs {W : Nat} {clear : Bool} {out lhs rhs : Win} {m : Mem} {r : Mem × Bool}
    (hm : m.WF W) (h : add W clear out lhs rhs m = Res.ok r) (hr : rhs.size = 0) :
    r.2 = false := by
  obtain ⟨_, r1, r2, e1, e2, hc⟩ := add_cases h
  rw [hr] at e1
  simp only [addLoop1, Option.some.injEq] at e1
  subst e1
  obtain ⟨_, _, _, b4⟩ := addLoop23_inv _ _ _ _ _ _ m r2 hm (Nat.zero_le 1) e2
  rcases hc with ⟨_, _, e, _⟩ | ⟨_, e⟩
  · exact e
  · rw [e]
    simp [b4 rfl]

theorem sub_ne_timeout (W : Nat) (out lhs rhs : Win) (m : Mem) :
    sub W out lhs rhs m ≠ Res.timeout := by
  unfold sub
  split
  · exact fun h => Res.noConfusion h
  · exact Res.bind_ne_timeout (Res.ofOption_ne_timeout _) fun r1 _ =>
      Res.ofOption_ne_timeout _

theorem sub_inv {W : Nat} {out lhs rhs : Win} {m : Mem} {r : Mem × Bool} (hm : m.WF W)
    (h : sub W out lhs rhs m = Res.ok r) : r.1.WF W := by
  unfold sub at h
  split at h
  · exact Res.noConfusion h
  · obtain ⟨r1, e1, h⟩ := Res.bind_eq_ok h
    exact subLoop23_inv _ _ _ _ _ _ r1.1 r
      (subLoop1_inv _ _ _ _ _ _ _ _ m r1 hm (Res.ofOption_eq_ok e1)) (Res.ofOption_eq_ok h)

theorem mul_scalar_ne_timeout (W : Nat) (out input : Win) (scalar : Nat) (m : Mem) :
    mul_scalar W out input scalar m ≠ Res.timeout := by
  unfold mul_scalar
  refine Res.bind_ne_timeout (Res.ofOption_ne_timeout _) fun r _ => ?_
  split
  · exact Res.ofOption_ne_timeout _
  · exact fun h => Res.noConfusion h

theorem mul_scalar_inv {W : Nat} {out input : Win} {scalar : Nat} {m m1 : Mem} (hm : m.WF W)
    (h : mul_scalar W out input scalar m = Res.ok m1) : m1.WF W := by
  unfold mul_scalar at h
  obtain ⟨r, e1, h⟩ := Res.bind_eq_ok h
  have hr := mulScalarLoop_inv _ _ _ _ _ _ _ m r hm (Res.ofOption_eq_ok e1)
  split at h
  · exact Mem.WF_write hr (Nat.mod_lt _ (base_pos W)) (Res.ofOption_eq_ok h)
  · simp only [Res.ok.injEq] at h
    rw [← h]
    exact hr

end Karatsuba

namespace Karatsuba
open Big

/-! ## The half-sums -/

theorem addLoop1_one {W : Nat} {ob lb rb : Buf} {oi li ri c : Nat} {m : Mem} {r : Mem × Nat}
    (h : addLoop1 W ob lb rb 1 oi li ri c m = some r) :
    ∃ x y m1, m.read lb li = some x ∧ m.read rb ri = some y ∧
      m.write ob oi ((x + y + c) % base W) = some m1 ∧ r.1 = m1 ∧
      r.2 = if c ≠ 0 then (if (x + y + c) % base W ≤ x then 1 else 0)
        else (if (x + y + c) % base W < x then 1 else 0) := by
  simp only [addLoop1] at h
  split at h
  · rename_i x y hx hy
    split at h
    · rename_i m1 hw
      simp only [Option.some.injEq] at h
      subst h
      exact ⟨x, y, m1, hx, hy, hw, rfl, rfl⟩
    · exact Option.noConfusion h
  · exact Option.noConfusion h

/-- A half-sum with a one-digit upper half that carries: the digit below the new top
digit is not the largest digit. -/
theorem add_carry_shape {W : Nat} (hW : 0 < W) {sb : Buf} {slo h : Nat} (hh : 0 < h)
    {L R : Win} {m m1 : Mem} (hm : m.WF W) (hL : L.size = h) (hR : R.size = 1)
    (hadd : add W true ⟨sb, slo, slo + h⟩ L R m = Res.ok (m1, true)) :
    ∃ d, m1.read sb (slo + h - 1) = some d ∧ d + 1 < base W := by
  have hb := base_ge_two hW
  obtain ⟨_, r1, r2, e1, e2, hc⟩ := add_cases hadd
  simp only at e1 e2 hc
  rcases hc with ⟨_, _, e, _⟩ | ⟨_, e⟩
  · exact Bool.noConfusion e
  simp only [Prod.mk.injEq] at e
  obtain ⟨e3, e4⟩ := e
  have hc2 : r2.2 ≠ 0 := by simpa using e4.symm
  rw [hR] at e1 e2
  obtain ⟨x, y, m2, hx, hy, hw, g1, g2⟩ := addLoop1_one e1
  rw [hL] at e2
  rcases Nat.lt_or_ge 1 h with h2 | h2
  · obtain ⟨n, hn⟩ : ∃ n, h - 1 = n + 1 := ⟨h - 2, by omega⟩
    rw [hn] at e2
    have := addLoop23_last_zero _ _ _ _ _ _ _ r2 e2 hc2
    refine ⟨0, ?_, by omega⟩
    rw [e3, ← this]
    congr 1
    omega
  · have h1 : h = 1 := by omega
    subst h1
    simp only [Nat.sub_self, addLoop23, Option.some.injEq] at e2
    subst e2
    rw [e3, g1]
    refine ⟨(x + y + 0) % base W, Mem.read_write_same hw, ?_⟩
    have hxl := Mem.read_lt hm hx
    have hyl := Mem.read_lt hm hy
    rw [g2, if_neg (by simp)] at hc2
    have hlt : (x + y + 0) % base W < x := by
      by_contra hn
      rw [if_neg hn] at hc2
      exact hc2 rfl
    simp only [Nat.add_zero] at hlt ⊢
    have hge : base W ≤ x + y := by
      by_contra hn
      rw [Nat.mod_eq_of_lt (by omega)] at hlt
      omega
    have : (x + y) % base W = x + y - base W := by
      rw [Nat.mod_eq_sub_mod hge, Nat.mod_eq_of_lt (by omega)]
    omega

/-- The half-sum of an operand whose upper half is the digit `1` on top of a digit that
is not the largest one does not carry. -/
theorem add_no_carry_shape {W : Nat} {out : Win} {b : Buf} {lo h : Nat} (hh : 0 < h)
    {m : Mem} {r : Mem × Bool} (hs : CarryShape W m ⟨b, lo, lo + h + 1⟩)
    (hal : b ≠ out.buf ∨ lo + h + 1 ≤ out.lo)
    (hadd : (if (Win.mk b (lo + h) (lo + h + 1)).size ≥ (Win.mk b lo (lo + h)).size
      then add W true out ⟨b, lo + h, lo + h + 1⟩ ⟨b, lo, lo + h⟩ m
      else add W true out ⟨b, lo, lo + h⟩ ⟨b, lo + h, lo + h + 1⟩ m) = Res.ok r) :
    r.2 = false := by
  obtain ⟨d, hd, hdl, h1⟩ := hs
  simp only at hd h1
  have e1 : lo + h + 1 - 2 = lo + h - 1 := by omega
  have e2 : lo + h + 1 - 1 = lo + h := by omega
  rw [e1] at hd
  rw [e2] at h1
  have su : (Win.mk b (lo + h) (lo + h + 1)).size = 1 := by simp [Win.size]
  have sl : (Win.mk b lo (lo + h)).size = h := by simp [Win.size]
  rw [su, sl] at hadd
  by_cases hbr : 1 ≥ h
  · have h1' : h = 1 := by omega
    subst h1'
    rw [if_pos hbr] at hadd
    obtain ⟨_, r1, r2, a1, a2, hc⟩ := add_cases hadd
    rcases hc with ⟨_, _, e, _⟩ | ⟨_, e⟩
    · exact e
    rw [sl] at a1
    rw [su, sl] at a2
    obtain ⟨x, y, m2, hx, hy, hw, g1, g2⟩ := addLoop1_one a1
    simp only [Nat.sub_self, addLoop23, Option.some.injEq] at a2
    subst a2
    simp only at hx hy
    rw [h1] at hx
    rw [Nat.add_sub_cancel] at hd
    rw [hd] at hy
    simp only [Option.some.injEq] at hx hy
    subst hx hy
    rw [e]
    simp only [decide_eq_false_iff_not, ne_eq, not_not]
    rw [g2, if_neg (by simp), if_neg]
    rw [Nat.add_zero, Nat.mod_eq_of_lt (by omega)]
    omega
  · rw [if_neg hbr] at hadd
    obtain ⟨_, r1, r2, a1, a2, hc⟩ := add_cases hadd
    rcases hc with ⟨_, _, e, _⟩ | ⟨_, e⟩
    · exact e
    rw [su] at a1
    rw [su, sl] at a2
    dsimp only at a1 a2
    obtain ⟨x, y, m2, hx, hy, hw, g1, g2⟩ := addLoop1_one a1
    obtain ⟨n, hn⟩ : ∃ n, h - 1 = n + 1 := ⟨h - 2, by omega⟩
    rw [hn, g1] at a2
    have hz := addLoop23_last_small _ _ _ _ _ _ m2 r2 a2 ⟨d, by
      rw [Mem.read_write hw, if_neg, ← hd]
      · congr 1; omega
      · rintro ⟨q1, q2⟩
        rcases hal with q | q
        · exact q q1
        · omega, hdl⟩ (by
      rcases hal with q | q
      · exact Or.inl q
      · exact Or.inr (by omega))
    rw [e]
    simp [hz]

end Karatsuba

namespace Karatsuba
open Big

/-- The sum that `half_sum` computes for an operand split at `halfsize`. -/
theorem half_add_no_carry {W : Nat} {sb : Buf} {slo h : Nat} (hh : 0 < h) {b : Buf}
    {lo hi : Nat} (hop : 2 ≤ hi - lo) {m : Mem} (hm : m.WF W)
    (hn : NoCarry W m ⟨b, lo, hi⟩ h sb slo) {a1 : Mem × Bool}
    (ha : (if (Win.mk b (if hi - lo ≥ h then lo + h else hi) hi).size ≥
        (Win.mk b lo (if hi - lo ≥ h then lo + h else hi)).size
      then add W true ⟨sb, slo, slo + h⟩ ⟨b, if hi - lo ≥ h then lo + h else hi, hi⟩
        ⟨b, lo, if hi - lo ≥ h then lo + h else hi⟩ m
      else add W true ⟨sb, slo, slo + h⟩ ⟨b, lo, if hi - lo ≥ h then lo + h else hi⟩
        ⟨b, if hi - lo ≥ h then lo + h else hi, hi⟩ m) = Res.ok a1) :
    a1.2 = false := by
  rcases hn with hn | ⟨hn, hs, hal⟩
  · simp only [Win.size] at hn
    have hu : (Win.mk b (if hi - lo ≥ h then lo + h else hi) hi).size = 0 := by
      simp only [Win.size]
      split <;> omega
    have hl : 0 < (Win.mk b lo (if hi - lo ≥ h then lo + h else hi)).size := by
      simp only [Win.size]
      split <;> omega
    rw [if_neg (by omega)] at ha
    exact add_empty_rhs hm ha hu
  · simp only [Win.size] at hn
    have e : hi = lo + h + 1 := by omega
    subst e
    have e2 : (if lo + h + 1 - lo ≥ h then lo + h else lo + h + 1) = lo + h := by
      rw [if_pos (by omega)]
    rw [e2] at ha
    exact add_no_carry_shape hh hs (by
      rcases hal with q | q
      · exact Or.inl q
      · exact Or.inr q) ha

/-- The shape of a half-sum for any two halves: not cut, the grown window and the end
one further only after a carry of the sum. -/
theorem half_sum_gen {W : Nat} (hW : 0 < W) (sb : Buf) (slo h : Nat) (lower upper : Win)
    {m : Mem} (hm : m.WF W) {A : Res (Mem × Bool)}
    (hA : (if upper.size ≥ lower.size then add W true ⟨sb, slo, slo + h⟩ upper lower m
      else add W true ⟨sb, slo, slo + h⟩ lower upper m) = A) :
    (half_sum W sb slo h lower upper m).2 ≠ Res.timeout ∧
    (∀ w ∈ (half_sum W sb slo h lower upper m).1,
      w = ⟨sb, slo, slo + h⟩ ∨ (w = ⟨sb, slo, slo + h + 1⟩ ∧ ∃ m0, A = Res.ok (m0, true))) ∧
    ∀ m1 p, (half_sum W sb slo h lower upper m).2 = Res.ok (m1, p) →
      m1.WF W ∧ Mem.SameBelow sb slo m m1 ∧
      (p = slo + h ∨ (p = slo + h + 1 ∧
        ∃ m0, A = Res.ok (m0, true) ∧ m0.write sb (slo + h) 1 = some m1)) := by
  have hx : half_sum W sb slo h lower upper m =
      carveBind ([⟨sb, slo, slo + h⟩], A) fun a1 =>
        if a1.2 then ([⟨sb, slo, slo + h + 1⟩],
          (Res.ofOption (a1.1.write sb (slo + h) 1)).bind fun m1 => Res.ok (m1, slo + h + 1))
        else ([], Res.ok (a1.1, slo + h)) := by
    rw [← hA]
    rfl
  rw [hx]
  have hAt : A ≠ Res.timeout := by
    rw [← hA]
    rcases ite_eq_or_eq (upper.size ≥ lower.size) (add W true ⟨sb, slo, slo + h⟩ upper lower m)
      (add W true ⟨sb, slo, slo + h⟩ lower upper m) with e | e <;>
    · rw [e]
      exact add_ne_timeout _ _ _ _ _ _
  have hb := base_ge_two hW
  cases A with
  | timeout => exact absurd rfl hAt
  | fault =>
    refine ⟨fun h => Res.noConfusion h, fun w hw => Or.inl (by simpa [carveBind] using hw),
      fun m1 p h => Res.noConfusion h⟩
  | ok a1 =>
    have hinv : a1.1.WF W ∧ Mem.SameBelow sb slo m a1.1 := by
      rcases ite_eq_or_eq (upper.size ≥ lower.size)
        (add W true ⟨sb, slo, slo + h⟩ upper lower m)
        (add W true ⟨sb, slo, slo + h⟩ lower upper m) with e | e <;>
      · rw [e] at hA
        exact add_inv hW hm hA
    obtain ⟨m0, c⟩ := a1
    cases c with
    | true =>
      simp only [carveBind, if_true]
      refine ⟨Res.bind_ne_timeout (Res.ofOption_ne_timeout _) fun _ _ h => Res.noConfusion h,
        fun w hw => ?_, fun m1 p hq => ?_⟩
      · simp only [List.mem_append, List.mem_singleton, List.singleton_append,
          List.mem_cons, List.not_mem_nil, or_false] at hw
        rcases hw with hw | hw
        · exact Or.inl hw
        · exact Or.inr ⟨hw, m0, rfl⟩
      · obtain ⟨m2, e1, e2⟩ := Res.bind_eq_ok hq
        have hw := Res.ofOption_eq_ok e1
        simp only [Res.ok.injEq, Prod.mk.injEq] at e2
        obtain ⟨e2, e3⟩ := e2
        subst e2
        exact ⟨Mem.WF_write hinv.1 (by omega) hw,
          hinv.2.trans (Mem.sameBelow_write hw (Nat.le_add_right slo h)) (Nat.le_refl _)
            (Nat.le_refl _), Or.inr ⟨e3.symm, m0, rfl, hw⟩⟩
    | false =>
      simp only [carveBind, Bool.false_eq_true, if_false]
      refine ⟨fun h => Res.noConfusion h, fun w hw => Or.inl (by simpa using hw),
        fun m1 p h => ?_⟩
      simp only [Res.ok.injEq, Prod.mk.injEq] at h
      obtain ⟨e1, e2⟩ := h
      subst e1
      exact ⟨hinv.1, hinv.2, Or.inl e2.symm⟩

/-- What one half-sum of `mul` does, for an operand `op` of at least two digits: the run
is not cut, it records the window of `halfsize` digits, and the grown window only when
the sum can carry; it keeps the digits below `2^W` and writes from `slo` upwards only; and
the window ends at `slo + halfsize`, or one further after a carry, in which case an
operand of `halfsize + 1` digits leaves the shape of `CarryShape`. -/
theorem half_sum_spec {W : Nat} (hW : 0 < W) (sb : Buf) (slo h : Nat) (hh : 0 < h)
    (op : Win) (hop : 2 ≤ op.size) {m : Mem} (hm : m.WF W) :
    (half_sum W sb slo h ⟨op.buf, op.lo, if op.size ≥ h then op.lo + h else op.hi⟩
      ⟨op.buf, if op.size ≥ h then op.lo + h else op.hi, op.hi⟩ m).2 ≠ Res.timeout ∧
    (∀ w ∈ (half_sum W sb slo h ⟨op.buf, op.lo, if op.size ≥ h then op.lo + h else op.hi⟩
        ⟨op.buf, if op.size ≥ h then op.lo + h else op.hi, op.hi⟩ m).1,
      w = ⟨sb, slo, slo + h⟩ ∨ (w = ⟨sb, slo, slo + h + 1⟩ ∧ ¬ NoCarry W m op h sb slo)) ∧
    ∀ m1 p, (half_sum W sb slo h ⟨op.buf, op.lo, if op.size ≥ h then op.lo + h else op.hi⟩
        ⟨op.buf, if op.size ≥ h then op.lo + h else op.hi, op.hi⟩ m).2 = Res.ok (m1, p) →
      m1.WF W ∧ Mem.SameBelow sb slo m m1 ∧
      (p = slo + h ∨ (p = slo + h + 1 ∧ ¬ NoCarry W m op h sb slo ∧
        (op.size = h + 1 → CarryShape W m1 ⟨sb, slo, slo + h + 1⟩))) := by
  obtain ⟨b, lo, hi⟩ := op
  simp only [Win.size] at hop
  have hb := base_ge_two hW
  have hnc : ∀ m0, (if (Win.mk b (if (Win.mk b lo hi).size ≥ h then lo + h else hi) hi).size ≥
        (Win.mk b lo (if (Win.mk b lo hi).size ≥ h then lo + h else hi)).size
      then add W true ⟨sb, slo, slo + h⟩ ⟨b, if (Win.mk b lo hi).size ≥ h then lo + h else hi, hi⟩
        ⟨b, lo, if (Win.mk b lo hi).size ≥ h then lo + h else hi⟩ m
      else add W true ⟨sb, slo, slo + h⟩ ⟨b, lo, if (Win.mk b lo hi).size ≥ h then lo + h else hi⟩
        ⟨b, if (Win.mk b lo hi).size ≥ h then lo + h else hi, hi⟩ m) = Res.ok (m0, true) →
      ¬ NoCarry W m ⟨b, lo, hi⟩ h sb slo := fun m0 hA hn => by
    have := half_add_no_carry hh hop hm hn hA
    exact Bool.noConfusion this
  obtain ⟨g1, g2, g3⟩ := half_sum_gen hW sb slo h
    ⟨b, lo, if (Win.mk b lo hi).size ≥ h then lo + h else hi⟩
    ⟨b, if (Win.mk b lo hi).size ≥ h then lo + h else hi, hi⟩ hm rfl
  refine ⟨g1, fun w hw => ?_, fun m1 p hp => ?_⟩
  · rcases g2 w hw with q | ⟨q, m0, hA⟩
    · exact Or.inl q
    · exact Or.inr ⟨q, hnc m0 hA⟩
  · obtain ⟨q1, q2, q3⟩ := g3 m1 p hp
    refine ⟨q1, q2, ?_⟩
    rcases q3 with q3 | ⟨q3, m0, hA, hw⟩
    · exact Or.inl q3
    · refine Or.inr ⟨q3, hnc m0 hA, fun hsz => ?_⟩
      simp only [Win.size] at hsz hA
      have e : hi = lo + h + 1 := by omega
      subst e
      have e2 : (if lo + h + 1 - lo ≥ h then lo + h else lo + h + 1) = lo + h := by
        rw [if_pos (by omega)]
      rw [e2] at hA
      have su : (Win.mk b (lo + h) (lo + h + 1)).size = 1 := by simp [Win.size]
      have sl : (Win.mk b lo (lo + h)).size = h := by simp [Win.size]
      have hd : ∃ d, m0.read sb (slo + h - 1) = some d ∧ d + 1 < base W := by
        split at hA
        · rename_i hbr
          have h1 : h = 1 := by omega
          exact add_carry_shape hW hh hm (by rw [su, h1]) (by rw [sl, h1]) hA
        · exact add_carry_shape hW hh hm sl su hA
      obtain ⟨d, hd1, hd2⟩ := hd
      refine ⟨d, ?_, hd2, ?_⟩
      · simp only
        rw [Mem.read_write hw, if_neg (by omega)]
        rw [← hd1]
        congr 1
      · simp only
        rw [Mem.read_write hw, if_pos ⟨rfl, by omega⟩]

end Karatsuba

namespace Karatsuba
open Big

theorem carveBind_good {α : Type} {Q : Win → Prop} {W : Nat} {x : List Win × Res α}
    {f : α → List Win × Res Mem} (R : α → Prop) (h1 : ∀ w ∈ x.1, Q w)
    (h2 : x.2 ≠ Res.timeout) (h3 : ∀ a, x.2 = Res.ok a → R a)
    (h4 : ∀ a, R a → Good Q W (f a)) : Good Q W (carveBind x f) := by
  obtain ⟨l, r⟩ := x
  cases r with
  | timeout => exact absurd rfl h2
  | fault => exact ⟨h1, fun h => Res.noConfusion h, fun _ h => Res.noConfusion h⟩
  | ok a =>
    obtain ⟨g1, g2, g3⟩ := h4 a (h3 a rfl)
    refine ⟨fun w hw => ?_, g2, g3⟩
    rcases List.mem_append.1 hw with q | q
    · exact h1 w q
    · exact g1 w q

theorem good_nil {Q : Win → Prop} {W : Nat} {r : Res Mem} (h1 : r ≠ Res.timeout)
    (h2 : ∀ m1, r = Res.ok m1 → m1.WF W) : Good Q W ([], r) :=
  ⟨fun _ hw => absurd hw (List.not_mem_nil _), h1, h2⟩

theorem CarryShape.of_same {W : Nat} {m m1 : Mem} {w : Win} {sb : Buf} {lo : Nat}
    (hc : CarryShape W m w) (hs : Mem.SameBelow sb lo m m1) (hw : 0 < w.hi)
    (hal : w.buf ≠ sb ∨ w.hi ≤ lo) : CarryShape W m1 w := by
  obtain ⟨d, h1, h2, h3⟩ := hc
  refine ⟨d, ?_, h2, ?_⟩
  · rw [hs w.buf (w.hi - 2) (by rcases hal with q | q; exact Or.inl q; exact Or.inr (by omega))]
    exact h1
  · rw [hs w.buf (w.hi - 1) (by rcases hal with q | q; exact Or.inl q; exact Or.inr (by omega))]
    exact h3

theorem NoCarry.of_sameBelow {W : Nat} {m m1 : Mem} {op : Win} {h : Nat} {sb : Buf} {slo lo p : Nat}
    (hn : NoCarry W m op h sb slo) (hs : Mem.SameBelow sb lo m m1) (hlo : slo ≤ lo)
    (hp : slo ≤ p) : NoCarry W m1 op h sb p := by
  rcases hn with hn | ⟨hn, hc, hal⟩
  · exact Or.inl hn
  · have hhi : 0 < op.hi := by
      simp only [Win.size] at hn
      omega
    refine Or.inr ⟨hn, hc.of_same hs hhi ?_, ?_⟩
    · rcases hal with q | q
      · exact Or.inl q
      · exact Or.inr (by omega)
    · rcases hal with q | q
      · exact Or.inl q
      · exact Or.inr (by omega)

theorem Space.shift {Q : Win → Prop} {sb : Buf} {slo send K wlo K1 : Nat}
    (hS : Space Q ⟨sb, slo, send⟩ K) (h1 : slo ≤ wlo) (h2 : wlo + K1 ≤ slo + K) :
    Space Q ⟨sb, wlo, send⟩ K1 := by
  obtain ⟨s1, s2⟩ := hS
  dsimp only at s1 s2
  refine ⟨fun lo hi a b c => ?_, fun lo a b => ?_⟩
  · dsimp only at a c ⊢
    exact s1 lo hi (by omega) b (by omega)
  · dsimp only at a b ⊢
    exact s2 lo (by omega) (by omega)

/-- One frame of `mul` with operands of at least two digits ends well when the frames it
calls do: the windows it carves lie within `Kown` positions of the scratch window, where
`Kown` is `4 * halfsize + 6`, or four less when no half-sum can carry. -/
theorem frame_good {W : Nat} (hW : 0 < W) (Q : Win → Prop) (fuel : Nat) (cleanup : Bool)
    (out lhs rhs : Win) (sb : Buf) (slo send : Nat) (m : Mem) (Kown h : Nat)
    (hh : h = (max lhs.size rhs.size + 1) / 2)
    (hl : 2 ≤ lhs.size) (hr : 2 ≤ rhs.size) (hm : m.WF W)
    (hS : Space Q ⟨sb, slo, send⟩ Kown)
    (hown : 4 * h + 6 ≤ Kown ∨
      (4 * h + 2 ≤ Kown ∧ NoCarry W m lhs h sb slo ∧ NoCarry W m rhs h sb slo))
    (hz3 : ∀ p1 p2 wlo m3 out1, m3.WF W →
      (p1 = slo + h ∨ (p1 = slo + h + 1 ∧ ¬ NoCarry W m lhs h sb slo ∧
        (lhs.size = h + 1 → CarryShape W m3 ⟨sb, slo, p1⟩))) →
      (p2 = p1 + h ∨ (p2 = p1 + h + 1 ∧ ¬ NoCarry W m rhs h sb slo ∧
        (rhs.size = h + 1 → CarryShape W m3 ⟨sb, p1, p2⟩))) →
      p2 ≤ wlo → wlo ≤ slo + Kown →
      Good Q W (mul_carves W fuel true out1 ⟨sb, slo, p1⟩ ⟨sb, p1, p2⟩ ⟨sb, wlo, send⟩ m3))
    (hz02 : ∀ out1 l r wlo m1, m1.WF W → l.size ≤ h → r.size ≤ h → slo ≤ wlo →
      wlo ≤ slo + Kown → Good Q W (mul_carves W fuel true out1 l r ⟨sb, wlo, send⟩ m1)) :
    Good Q W (mul_carves W (fuel + 1) cleanup out lhs rhs ⟨sb, slo, send⟩ m) := by
  have hh0 : 0 < h := by omega
  have hK : 4 * h + 2 ≤ Kown := by
    rcases hown with q | q
    · omega
    · exact q.1
  have hb := base_ge_two hW
  unfold mul_carves
  rw [if_neg (by omega), if_neg (by omega), if_neg (by omega)]
  dsimp only
  rw [← hh]
  obtain ⟨a1, a2, a3⟩ := half_sum_spec hW sb slo h hh0 lhs hl hm
  refine carveBind_good (fun p1 : Mem × Nat => p1.1.WF W ∧ Mem.SameBelow sb slo m p1.1 ∧
      (p1.2 = slo + h ∨ (p1.2 = slo + h + 1 ∧ ¬ NoCarry W m lhs h sb slo ∧
        (lhs.size = h + 1 → CarryShape W p1.1 ⟨sb, slo, slo + h + 1⟩))))
    (fun w hw => ?_) a1 (fun p1 hp1 => a3 p1.1 p1.2 hp1) ?_
  · rcases a2 w hw with q | ⟨q, _⟩ <;>
    · rw [q]
      exact hS.1 _ _ (Nat.le_refl _) (by omega) (by dsimp only; omega)
  rintro ⟨m1, p1⟩ ⟨hm1, hs1, hp1⟩
  dsimp only at hm1 hs1 hp1 ⊢
  have hp1le : slo + h ≤ p1 ∧ p1 ≤ slo + h + 1 := by
    rcases hp1 with q | ⟨q, _⟩ <;> omega
  obtain ⟨b1, b2, b3⟩ := half_sum_spec hW sb p1 h hh0 rhs hr hm1
  refine carveBind_good (fun p2 : Mem × Nat => p2.1.WF W ∧ Mem.SameBelow sb p1 m1 p2.1 ∧
      (p2.2 = p1 + h ∨ (p2.2 = p1 + h + 1 ∧ ¬ NoCarry W m1 rhs h sb p1 ∧
        (rhs.size = h + 1 → CarryShape W p2.1 ⟨sb, p1, p1 + h + 1⟩))))
    (fun w hw => ?_) b1 (fun p2 hp2 => b3 p2.1 p2.2 hp2) ?_
  · rcases b2 w hw with q | ⟨q, _⟩ <;>
    · rw [q]
      exact hS.1 _ _ (by dsimp only; omega) (by omega) (by dsimp only; omega)
  rintro ⟨m2, p2⟩ ⟨hm2, hs2, hp2⟩
  dsimp only at hm2 hs2 hp2 ⊢
  have hp2le : p1 + h ≤ p2 ∧ p2 ≤ p1 + h + 1 := by
    rcases hp2 with q | ⟨q, _⟩ <;> omega
  have hnr : ¬ NoCarry W m1 rhs h sb p1 → ¬ NoCarry W m rhs h sb slo :=
    fun hn hq => hn (hq.of_sameBelow hs1 (Nat.le_refl _) (by omega))
  have hshi : p2 + (max (Win.mk sb slo p1).size (Win.mk sb p1 p2).size + 1) * 2 ≤
      slo + Kown := by
    simp only [Win.size]
    rcases hown with q | ⟨q1, q2, q3⟩
    · omega
    · have e1 : p1 = slo + h := by
        rcases hp1 with q | ⟨_, q, _⟩
        · exact q
        · exact absurd q2 q
      have e2 : p2 = p1 + h := by
        rcases hp2 with q | ⟨_, q, _⟩
        · exact q
        · exact absurd q3 (hnr q)
      omega
  have hshi3le : p2 ≤ p2 + (max (Win.mk sb slo p1).size (Win.mk sb p1 p2).size + 1) * 2 :=
    Nat.le_add_right _ _
  generalize p2 + (max (Win.mk sb slo p1).size (Win.mk sb p1 p2).size + 1) * 2 = shi3
    at hshi hshi3le ⊢
  refine carveBind_good (fun m3 : Mem => m3.WF W ∧ Mem.SameBelow sb p2 m2 m3)
    (fun w hw => ?_) ?_ (fun m3 hm3 => ?_) ?_
  · rw [List.mem_singleton.1 hw]
    exact hS.1 _ _ (by dsimp only; omega) hshi3le hshi
  · dsimp only
    split
    · exact Res.ofOption_ne_timeout _
    · exact fun q => Res.noConfusion q
  · dsimp only at hm3
    split at hm3
    · exact Mem.fill_inv sb (by omega) _ _ _ _ hm2 (Res.ofOption_eq_ok hm3)
    · simp only [Res.ok.injEq] at hm3
      subst hm3
      exact ⟨hm2, Mem.sameBelow_refl _ _ _⟩
  rintro m3 ⟨hm3, hs3⟩
  refine carveBind_good (fun _ : Mem => True) (fun w hw => ?_)
    (fun q => Res.noConfusion q) (fun _ _ => trivial) ?_
  · rw [List.mem_singleton.1 hw]
    exact hS.2 _ (by dsimp only; omega) hshi
  intro _ _
  have hs23 : Mem.SameBelow sb p1 m1 m3 := hs2.trans hs3 (Nat.le_refl _) (by omega)
  have hz3g := hz3 p1 p2 shi3 m3 ⟨sb, p2, shi3⟩ hm3
    (by
      rcases hp1 with q | ⟨q1, q2, q3⟩
      · exact Or.inl q
      · refine Or.inr ⟨q1, q2, fun hsz => ?_⟩
        rw [q1]
        exact (q3 hsz).of_same hs23 (by dsimp only; omega) (Or.inr (by dsimp only; omega)))
    (by
      rcases hp2 with q | ⟨q1, q2, q3⟩
      · exact Or.inl q
      · refine Or.inr ⟨q1, hnr q2, fun hsz => ?_⟩
        rw [q1]
        exact (q3 hsz).of_same hs3 (by dsimp only; omega) (Or.inr (by dsimp only; omega)))
    hshi3le hshi
  refine carveBind_good (fun m4 : Mem => m4.WF W) hz3g.1 hz3g.2.1 hz3g.2.2 ?_
  intro m4 hm4
  split
  · exact good_nil (fun q => Res.noConfusion q) (fun _ q => Res.noConfusion q)
  have hlow : ∀ op : Win, op.size ≤ 2 * h →
      (Win.mk op.buf op.lo (if op.size ≥ h then op.lo + h else op.hi)).size ≤ h ∧
      (Win.mk op.buf (if op.size ≥ h then op.lo + h else op.hi) op.hi).size ≤ h := by
    intro op hop
    simp only [Win.size] at hop ⊢
    constructor <;> split <;> omega
  have hl2 : lhs.size ≤ 2 * h := by omega
  have hr2 : rhs.size ≤ 2 * h := by omega
  have hz0g := hz02 ⟨out.buf, out.lo, out.lo + h * 2⟩ _ _ shi3 m4 hm4 (hlow lhs hl2).1
    (hlow rhs hr2).1 (by omega) hshi
  refine carveBind_good (fun m5 : Mem => m5.WF W) hz0g.1 hz0g.2.1 hz0g.2.2 ?_
  intro m5 hm5
  have hz2g := hz02 ⟨out.buf, out.lo + h * 2, out.hi⟩ _ _ shi3 m5 hm5 (hlow lhs hl2).2
    (hlow rhs hr2).2 (by omega) hshi
  refine carveBind_good (fun m6 : Mem => m6.WF W) hz2g.1 hz2g.2.1 hz2g.2.2 ?_
  intro m6 hm6
  refine good_nil ?_ ?_
  · refine Res.bind_ne_timeout (sub_ne_timeout _ _ _ _ _) fun s1 _ =>
      Res.bind_ne_timeout (sub_ne_timeout _ _ _ _ _) fun s2 _ =>
      Res.bind_ne_timeout ?_ fun _ _ q => Res.noConfusion q
    split <;> exact add_ne_timeout _ _ _ _ _ _
  · intro m7 h7
    obtain ⟨s1, e1, h7⟩ := Res.bind_eq_ok h7
    obtain ⟨s2, e2, h7⟩ := Res.bind_eq_ok h7
    obtain ⟨a3, e3, h7⟩ := Res.bind_eq_ok h7
    simp only [Res.ok.injEq] at h7
    subst h7
    have w1 := sub_inv hm6 e1
    have w2 := sub_inv w1 e2
    split at e3 <;> exact (add_inv hW w2 e3).1

end Karatsuba

namespace Karatsuba
open Big

theorem scratch_need_eq {n : Nat} (h : 5 ≤ n) : scratch_need n = 16 * n - 8 := by
  match n, h with
  | 5, _ => rfl
  | n + 6, _ => rfl

theorem scratch_need_le_succ (n : Nat) : scratch_need n ≤ scratch_need (n + 1) := by
  rcases Nat.lt_or_ge n 5 with h | h
  · interval_cases n <;> decide
  · rw [scratch_need_eq h, scratch_need_eq (Nat.le_succ_of_le h)]
    omega

theorem scratch_need_mono {a b : Nat} (h : a ≤ b) : scratch_need a ≤ scratch_need b :=
  monotone_nat_of_le_succ scratch_need_le_succ h

theorem scratch_need_step {a : Nat} (h : 4 ≤ a) :
    4 * ((a + 1) / 2) + 6 + scratch_need ((a + 1) / 2 + 1) ≤ scratch_need a := by
  rcases Nat.lt_or_ge a 10 with h1 | h1
  · interval_cases a <;> decide
  · rw [scratch_need_eq (by omega), scratch_need_eq (by omega)]
    omega

theorem scratch_need_le (n : Nat) : scratch_need n ≤ 16 * (n + 1) := by
  rcases Nat.lt_or_ge n 5 with h | h
  · interval_cases n <;> decide
  · rw [scratch_need_eq h]
    omega

/-- A frame with an operand of at most one digit ends well and carves nothing. -/
theorem base_good {W : Nat} (Q : Win → Prop) {fuel : Nat} (hf : 1 ≤ fuel) (cleanup : Bool)
    (out lhs rhs scratch : Win) {m : Mem} (hm : m.WF W)
    (hb : lhs.size ≤ 1 ∨ rhs.size ≤ 1) :
    Good Q W (mul_carves W fuel cleanup out lhs rhs scratch m) := by
  obtain ⟨f, rfl⟩ : ∃ f, fuel = f + 1 := ⟨fuel - 1, by omega⟩
  unfold mul_carves
  split
  · exact good_nil (fun q => Res.noConfusion q) fun m1 q => by
      simp only [Res.ok.injEq] at q
      rw [← q]
      exact hm
  split
  · refine good_nil (Res.bind_ne_timeout (Res.ofOption_ne_timeout _) fun _ _ =>
      mul_scalar_ne_timeout _ _ _ _ _) fun m1 q => ?_
    obtain ⟨s, _, q⟩ := Res.bind_eq_ok q
    exact mul_scalar_inv hm q
  split
  · refine good_nil (Res.bind_ne_timeout (Res.ofOption_ne_timeout _) fun _ _ =>
      mul_scalar_ne_timeout _ _ _ _ _) fun m1 q => ?_
    obtain ⟨s, _, q⟩ := Res.bind_eq_ok q
    exact mul_scalar_inv hm q
  · omega

/-- Frames with operands of at most two digits whose half-sums cannot carry. -/
theorem nc2_good {W : Nat} (hW : 0 < W) (Q : Win → Prop) {fuel : Nat} (hf : 2 ≤ fuel)
    (cleanup : Bool) (out lhs rhs : Win) (sb : Buf) (slo send : Nat) {m : Mem}
    (hm : m.WF W) (hnl : NoCarry W m lhs 1 sb slo) (hnr : NoCarry W m rhs 1 sb slo)
    (hS : Space Q ⟨sb, slo, send⟩ 6) :
    Good Q W (mul_carves W fuel cleanup out lhs rhs ⟨sb, slo, send⟩ m) := by
  by_cases hb : lhs.size ≤ 1 ∨ rhs.size ≤ 1
  · exact base_good Q (by omega) _ _ _ _ _ hm hb
  have hl : lhs.size = 2 := by
    rcases hnl with q | ⟨q, _⟩ <;> omega
  have hr : rhs.size = 2 := by
    rcases hnr with q | ⟨q, _⟩ <;> omega
  obtain ⟨f, rfl⟩ : ∃ f, fuel = f + 1 := ⟨fuel - 1, by omega⟩
  refine frame_good hW Q f cleanup out lhs rhs sb slo send m 6 1 (by omega) (by omega)
    (by omega) hm hS (Or.inr ⟨by omega, hnl, hnr⟩) ?_ ?_
  · intro p1 p2 wlo m3 out1 hm3 hp1 hp2 _ _
    refine base_good Q (by omega) _ _ _ _ _ hm3 (Or.inl ?_)
    simp only [Win.size]
    rcases hp1 with q | ⟨_, q, _⟩
    · omega
    · exact absurd hnl q
  · intro out1 l r wlo m1 hm1 hl1 _ _ _
    exact base_good Q (by omega) _ _ _ _ _ hm1 (Or.inl hl1)

/-- Frames with operands of at most two digits. -/
theorem p2_good {W : Nat} (hW : 0 < W) (Q : Win → Prop) {fuel : Nat} (hf : 3 ≤ fuel)
    (cleanup : Bool) (out lhs rhs : Win) (sb : Buf) (slo send : Nat) {m : Mem}
    (hm : m.WF W) (hl : lhs.size ≤ 2) (hr : rhs.size ≤ 2)
    (hS : Space Q ⟨sb, slo, send⟩ 16) :
    Good Q W (mul_carves W fuel cleanup out lhs rhs ⟨sb, slo, send⟩ m) := by
  by_cases hb : lhs.size ≤ 1 ∨ rhs.size ≤ 1
  · exact base_good Q (by omega) _ _ _ _ _ hm hb
  have hl : lhs.size = 2 := by omega
  have hr : rhs.size = 2 := by omega
  obtain ⟨f, rfl⟩ : ∃ f, fuel = f + 1 := ⟨fuel - 1, by omega⟩
  refine frame_good hW Q f cleanup out lhs rhs sb slo send m 10 1 (by omega) (by omega)
    (by omega) hm (hS.shift (Nat.le_refl _) (by omega)) (Or.inl (by omega)) ?_ ?_
  · intro p1 p2 wlo m3 out1 hm3 hp1 hp2 h1 h2
    have hp1le : slo + 1 ≤ p1 ∧ p1 ≤ slo + 2 := by
      rcases hp1 with q | ⟨q, _⟩ <;> omega
    have hp2le : p1 + 1 ≤ p2 ∧ p2 ≤ p1 + 2 := by
      rcases hp2 with q | ⟨q, _⟩ <;> omega
    refine nc2_good hW Q (by omega) _ _ _ _ _ _ _ hm3 ?_ ?_ (hS.shift (by omega) (by omega))
    · rcases hp1 with q | ⟨q, _, q3⟩
      · exact Or.inl (by simp only [Win.size]; omega)
      · exact Or.inr ⟨by simp only [Win.size]; omega, q3 hl, Or.inr (by dsimp only; omega)⟩
    · rcases hp2 with q | ⟨q, _, q3⟩
      · exact Or.inl (by simp only [Win.size]; omega)
      · exact Or.inr ⟨by simp only [Win.size]; omega, q3 hr, Or.inr (by dsimp only; omega)⟩
  · intro out1 l r wlo m1 hm1 hl1 _ _ _
    exact base_good Q (by omega) _ _ _ _ _ hm1 (Or.inl hl1)

/-- Frames with operands of at most three digits whose half-sums cannot carry. -/
theorem nc3_good {W : Nat} (hW : 0 < W) (Q : Win → Prop) {fuel : Nat} (hf : 4 ≤ fuel)
    (cleanup : Bool) (out lhs rhs : Win) (sb : Buf) (slo send : Nat) {m : Mem}
    (hm : m.WF W) (hnl : NoCarry W m lhs 2 sb slo) (hnr : NoCarry W m rhs 2 sb slo)
    (hS : Space Q ⟨sb, slo, send⟩ 26) :
    Good Q W (mul_carves W fuel cleanup out lhs rhs ⟨sb, slo, send⟩ m) := by
  by_cases hb : lhs.size ≤ 1 ∨ rhs.size ≤ 1
  · exact base_good Q (by omega) _ _ _ _ _ hm hb
  have hl : lhs.size ≤ 3 := by
    rcases hnl with q | ⟨q, _⟩ <;> omega
  have hr : rhs.size ≤ 3 := by
    rcases hnr with q | ⟨q, _⟩ <;> omega
  by_cases h2 : lhs.size ≤ 2 ∧ rhs.size ≤ 2
  · exact p2_good hW Q (by omega) _ _ _ _ _ _ _ hm h2.1 h2.2
      (hS.shift (Nat.le_refl _) (by omega))
  obtain ⟨f, rfl⟩ : ∃ f, fuel = f + 1 := ⟨fuel - 1, by omega⟩
  have hh : 2 = (max lhs.size rhs.size + 1) / 2 := by omega
  refine frame_good hW Q f cleanup out lhs rhs sb slo send m 10 2 hh (by omega)
    (by omega) hm (hS.shift (Nat.le_refl _) (by omega)) (Or.inr ⟨by omega, hnl, hnr⟩) ?_ ?_
  · intro p1 p2 wlo m3 out1 hm3 hp1 hp2 h1 h2
    have e1 : p1 = slo + 2 := by
      rcases hp1 with q | ⟨_, q, _⟩
      · exact q
      · exact absurd hnl q
    have e2 : p2 = p1 + 2 := by
      rcases hp2 with q | ⟨_, q, _⟩
      · exact q
      · exact absurd hnr q
    exact p2_good hW Q (by omega) _ _ _ _ _ _ _ hm3 (by simp only [Win.size]; omega)
      (by simp only [Win.size]; omega) (hS.shift (by omega) (by omega))
  · intro out1 l r wlo m1 hm1 hl1 hr1 h1 h2
    exact p2_good hW Q (by omega) _ _ _ _ _ _ _ hm1 hl1 hr1 (hS.shift h1 (by omega))

/-- Frames with operands of at most three digits. -/
theorem p3_good {W : Nat} (hW : 0 < W) (Q : Win → Prop) {fuel : Nat} (hf : 5 ≤ fuel)
    (cleanup : Bool) (out lhs rhs : Win) (sb : Buf) (slo send : Nat) {m : Mem}
    (hm : m.WF W) (hl : lhs.size ≤ 3) (hr : rhs.size ≤ 3)
    (hS : Space Q ⟨sb, slo, send⟩ 40) :
    Good Q W (mul_carves W fuel cleanup out lhs rhs ⟨sb, slo, send⟩ m) := by
  by_cases hb : lhs.size ≤ 1 ∨ rhs.size ≤ 1
  · exact base_good Q (by omega) _ _ _ _ _ hm hb
  by_cases h2 : lhs.size ≤ 2 ∧ rhs.size ≤ 2
  · exact p2_good hW Q (by omega) _ _ _ _ _ _ _ hm h2.1 h2.2
      (hS.shift (Nat.le_refl _) (by omega))
  obtain ⟨f, rfl⟩ : ∃ f, fuel = f + 1 := ⟨fuel - 1, by omega⟩
  have hh : 2 = (max lhs.size rhs.size + 1) / 2 := by omega
  refine frame_good hW Q f cleanup out lhs rhs sb slo send m 14 2 hh (by omega)
    (by omega) hm (hS.shift (Nat.le_refl _) (by omega)) (Or.inl (by omega)) ?_ ?_
  · intro p1 p2 wlo m3 out1 hm3 hp1 hp2 h1 h2
    have hp1le : slo + 2 ≤ p1 ∧ p1 ≤ slo + 3 := by
      rcases hp1 with q | ⟨q, _⟩ <;> omega
    have hp2le : p1 + 2 ≤ p2 ∧ p2 ≤ p1 + 3 := by
      rcases hp2 with q | ⟨q, _⟩ <;> omega
    refine nc3_good hW Q (by omega) _ _ _ _ _ _ _ hm3 ?_ ?_ (hS.shift (by omega) (by omega))
    · rcases hp1 with q | ⟨q, q2, q3⟩
      · exact Or.inl (by simp only [Win.size]; omega)
      · have hl3 : lhs.size = 2 + 1 := by
          by_contra hne
          exact q2 (Or.inl (by omega))
        exact Or.inr ⟨by simp only [Win.size]; omega, q3 hl3, Or.inr (by dsimp only; omega)⟩
    · rcases hp2 with q | ⟨q, q2, q3⟩
      · exact Or.inl (by simp only [Win.size]; omega)
      · have hr3 : rhs.size = 2 + 1 := by
          by_contra hne
          exact q2 (Or.inl (by omega))
        exact Or.inr ⟨by simp only [Win.size]; omega, q3 hr3, Or.inr (by dsimp only; omega)⟩
  · intro out1 l r wlo m1 hm1 hl1 hr1 h1 h2
    exact p2_good hW Q (by omega) _ _ _ _ _ _ _ hm1 hl1 hr1 (hS.shift h1 (by omega))

/-- Every run of `mul` on operands of at most `n` digits ends well with fuel `n + 2` and
`scratch_need n` free scratch positions: the recursion is at most `n + 2` frames deep. -/
theorem mul_carves_good {W : Nat} (hW : 0 < W) (Q : Win → Prop) :
    ∀ n fuel, n + 2 ≤ fuel → ∀ (cleanup : Bool) (out lhs rhs : Win) (sb : Buf)
      (slo send : Nat) (m : Mem), lhs.size ≤ n → rhs.size ≤ n → m.WF W →
      Space Q ⟨sb, slo, send⟩ (scratch_need n) →
      Good Q W (mul_carves W fuel cleanup out lhs rhs ⟨sb, slo, send⟩ m) := by
  intro n
  induction n using Nat.strong_induction_on with
  | _ n ih =>
    intro fuel hf cleanup out lhs rhs sb slo send m hl hr hm hS
    by_cases ha : max lhs.size rhs.size < n
    · exact ih _ ha fuel (by omega) cleanup out lhs rhs sb slo send m (le_max_left _ _)
        (le_max_right _ _) hm
        (hS.shift (Nat.le_refl _) (Nat.add_le_add_left (scratch_need_mono (Nat.le_of_lt ha)) _))
    by_cases hb : lhs.size ≤ 1 ∨ rhs.size ≤ 1
    · exact base_good Q (by omega) _ _ _ _ _ hm hb
    have hmax : max lhs.size rhs.size = n := by omega
    by_cases h3 : n ≤ 3
    · have h40 : scratch_need n ≤ 40 := by
        interval_cases n <;> decide
      by_cases h2 : n ≤ 2
      · have h16 : scratch_need n ≤ 16 := by
          interval_cases n <;> decide
        have e2 : n = 2 := by omega
        subst e2
        exact p2_good hW Q (by omega) _ _ _ _ _ _ _ hm hl hr hS
      · have e3 : n = 3 := by omega
        subst e3
        exact p3_good hW Q (by omega) _ _ _ _ _ _ _ hm hl hr hS
    obtain ⟨f, rfl⟩ : ∃ f, fuel = f + 1 := ⟨fuel - 1, by omega⟩
    have hstep := scratch_need_step (show 4 ≤ n by omega)
    rw [← hmax] at hstep
    generalize hh : (max lhs.size rhs.size + 1) / 2 = h at hstep
    have hlt : h + 1 < n := by omega
    refine frame_good hW Q f cleanup out lhs rhs sb slo send m (4 * h + 6) h hh.symm
      (by omega) (by omega) hm (hS.shift (Nat.le_refl _) (by rw [← hmax]; omega))
      (Or.inl (Nat.le_refl _)) ?_ ?_
    · intro p1 p2 wlo m3 out1 hm3 hp1 hp2 h1 h2
      have hp1le : slo + h ≤ p1 ∧ p1 ≤ slo + h + 1 := by
        rcases hp1 with q | ⟨q, _⟩ <;> omega
      have hp2le : p1 + h ≤ p2 ∧ p2 ≤ p1 + h + 1 := by
        rcases hp2 with q | ⟨q, _⟩ <;> omega
      exact ih (h + 1) hlt f (by omega) _ _ _ _ _ _ _ _ (by simp only [Win.size]; omega)
        (by simp only [Win.size]; omega) hm3
        (hS.shift (by omega) (by rw [← hmax]; omega))
    · intro out1 l r wlo m1 hm1 hl1 hr1 h1 h2
      exact ih (h + 1) hlt f (by omega) _ _ _ _ _ _ _ _ (by omega) (by omega) hm1
        (hS.shift h1 (by rw [← hmax]; omega))

end Karatsuba

namespace Karatsuba
open Big

theorem space_true (scratch : Win) (K : Nat) : Space (fun _ => True) scratch K :=
  ⟨fun _ _ _ _ _ => trivial, fun _ _ _ => trivial⟩

theorem space_inArena {A slo send K : Nat} (h1 : slo + K ≤ send) (h2 : send ≤ A) :
    Space (InArena A) ⟨Buf.scratch, slo, send⟩ K := by
  refine ⟨fun lo hi a b c => ⟨rfl, b, ?_⟩, fun lo a b => ⟨rfl, ?_, h2⟩⟩
  · dsimp only at c ⊢
    omega
  · dsimp only at b ⊢
    omega

/-- The recursion of `mul` is at most `max (|lhs|, |rhs|) + 2` frames deep: with that much
fuel no run is cut. -/
theorem mul_ne_timeout {W : Nat} (hW : 0 < W) {fuel : Nat} (cleanup : Bool)
    (out lhs rhs scratch : Win) {m : Mem} (hm : m.WF W)
    (hf : max lhs.size rhs.size + 2 ≤ fuel) :
    mul W fuel cleanup out lhs rhs scratch m ≠ Res.timeout := by
  rw [← mul_carves_snd]
  obtain ⟨sb, slo, send⟩ := scratch
  exact (mul_carves_good hW (fun _ => True) _ fuel hf cleanup out lhs rhs sb slo send m
    (le_max_left _ _) (le_max_right _ _) hm (space_true _ _)).2.1

/-- The memory that `operator*` sets up has digits below `2^W`. -/
theorem op_mul_mem_WF {W : Nat} {lhs rhs : List Nat} (hl : WF W lhs) (hr : WF W rhs)
    (a b : Nat) : Mem.WF W ⟨lhs, rhs, List.replicate a 0, List.replicate b 0⟩ :=
  ⟨hl, hr, WF_replicate_zero W a, WF_replicate_zero W b⟩

/-- The run of `mul` that `operator*` starts ends well, and every window it carves lies in
the arena of `8 * |out|` digits. -/
theorem op_mul_carves_good {W : Nat} (hW : 0 < W) {fuel : Nat} {lhs rhs : List Nat}
    (hl : WF W lhs) (hr : WF W rhs) (hf : max lhs.length rhs.length + 2 ≤ fuel) :
    Good (InArena ((max lhs.length rhs.length + 1) * 2 * 8)) W
      (mul_carves W fuel false ⟨Buf.out, 0, (max lhs.length rhs.length + 1) * 2⟩
        ⟨Buf.lhs, 0, lhs.length⟩ ⟨Buf.rhs, 0, rhs.length⟩
        ⟨Buf.scratch, 0, (max lhs.length rhs.length + 1) * 2 * 8⟩
        ⟨lhs, rhs, List.replicate ((max lhs.length rhs.length + 1) * 2) 0,
          List.replicate ((max lhs.length rhs.length + 1) * 2 * 8) 0⟩) := by
  refine mul_carves_good hW _ (max lhs.length rhs.length) fuel hf _ _ _ _ _ _ _ _
    (le_max_left _ _) (le_max_right _ _) (op_mul_mem_WF hl hr _ _) (space_inArena ?_ (Nat.le_refl _))
  have := scratch_need_le (max lhs.length rhs.length)
  omega

theorem op_mul_ne_timeout {W : Nat} (hW : 0 < W) {fuel : Nat} {lhs rhs : List Nat}
    (hl : WF W lhs) (hr : WF W rhs) (hf : max lhs.length rhs.length + 2 ≤ fuel) :
    op_mul W fuel lhs rhs ≠ Res.timeout := by
  unfold op_mul
  dsimp only
  refine Res.bind_ne_timeout (mul_ne_timeout hW _ _ _ _ _ (op_mul_mem_WF hl hr _ _) ?_)
    fun _ _ q => Res.noConfusion q
  simpa [Win.size] using hf

end Karatsuba

namespace Claims
open Big

/-! ## The claims -/

/-- C1 (refuted on the code): the linear `fibonacci` of `linear.cpp` does not return
`F(n)` for every index.  For the two-digit index `n = 3 * 2^64 + 5` (digits `[5, 3]`) the
loop `while (n-- > 0)` ends after 5 rounds and the function returns `5 = F(5)`, which is
not `F(n)`. -/
theorem C1_linear_two_digit_index :
    WF 64 [5, 3] ∧ Normalised [5, 3] ∧ value 64 [5, 3] = 3 * 2 ^ 64 + 5 ∧
    Linear.fibonacci 6 [5, 3] = some [5] ∧
    value 64 [5] ≠ Nat.fib (value 64 [5, 3]) := by
  refine ⟨by decide, by decide, by decide, by decide, ?_⟩
  have h1 : value 64 [5] = 5 := by decide
  have h2 : 6 ≤ value 64 [5, 3] := by decide
  have h3 : Nat.fib 6 = 8 := by decide
  have h4 := Nat.fib_mono h2
  omega

set_option maxRecDepth 100000 in
/-- C2: for every index `n ≤ 100` the linear `fibonacci` returns (for every fuel above
`n`) the normalised vector of 64-bit digits whose value is `F(n)`, where `F(0) = 0`,
`F(1) = 1`, `F(k+2) = F(k) + F(k+1)`; the results for 0, 1, 10, 20, 92 and 93 are 0, 1,
55, 6765, 7540113804746346429 and 12200160415121876738, and `fibonacci(100).str(true)`
is `"354224848179261915075"`. -/
theorem C2_linear_small_indices :
    (∀ n fuel, n ≤ 100 → n < fuel →
      ∃ r, Linear.fibonacci fuel (ofInt 64 64 n) = some r ∧ WF 64 r ∧ Normalised r ∧
        value 64 r = Nat.fib n) ∧
    Nat.fib 0 = 0 ∧ Nat.fib 1 = 1 ∧ (∀ k, Nat.fib (k + 2) = Nat.fib k + Nat.fib (k + 1)) ∧
    Linear.fibonacci 1 (ofInt 64 64 0) = some [] ∧
    Linear.fibonacci 2 (ofInt 64 64 1) = some [1] ∧
    Linear.fibonacci 11 (ofInt 64 64 10) = some [55] ∧
    Linear.fibonacci 21 (ofInt 64 64 20) = some [6765] ∧
    Linear.fibonacci 93 (ofInt 64 64 92) = some [7540113804746346429] ∧
    Linear.fibonacci 94 (ofInt 64 64 93) = some [12200160415121876738] ∧
    (Linear.fibonacci 101 (ofInt 64 64 100)).map (fun r => str 64 r true) =
      some "354224848179261915075" := by
  refine ⟨?_, rfl, rfl, fun k => Nat.fib_add_two, by decide, by decide, by decide, by decide,
    by decide, by decide, by decide⟩
  intro n fuel hn hf
  have hlt : n < base 64 := Nat.lt_of_le_of_lt hn (by decide)
  refine ⟨toDigits 64 (Nat.fib n), ?_, toDigits_WF (by decide) _, toDigits_normalised 64 _,
    value_toDigits 64 _⟩
  rw [ofInt_small (Nat.le_refl 64) hlt]
  exact Linear.linear_fibonacci_spec hlt hf

/-- Witness of C2 at `n = 100`. -/
theorem C2_linear_small_indices_witness :
    100 ≤ 100 ∧ 100 < 101 ∧
    ∃ r, Linear.fibonacci 101 (ofInt 64 64 100) = some r ∧ WF 64 r ∧ Normalised r ∧
      value 64 r = Nat.fib 100 :=
  ⟨by decide, by decide, C2_linear_small_indices.1 100 101 (by decide) (by decide)⟩

/-- C3: for every index `n` (any vector of 64-bit digits) the `fibonacci` of
`matmul_strassen.cpp` returns, for every fuel above `65 * |n|`, the normalised vector of
64-bit digits of `F(n)`; for `n = 0` it returns `0`. -/
theorem C3_strassen_fibonacci (n : List Nat) (fuel : Nat) (hn : WF 64 n)
    (hf : 65 * n.length < fuel) :
    ∃ r, MatmulStrassen.fibonacci fuel n = some r ∧ WF 64 r ∧ Normalised r ∧
      value 64 r = Nat.fib (value 64 n) ∧ (value 64 n = 0 → r = []) := by
  refine ⟨toDigits 64 (Nat.fib (value 64 n)), MatmulStrassen.strassen_fibonacci_spec hn hf,
    toDigits_WF (by decide) _, toDigits_normalised 64 _, value_toDigits 64 _, ?_⟩
  intro h0
  rw [h0, Nat.fib_zero, toDigits_zero]

/-- Witness of C3 at `n = 10`. -/
theorem C3_strassen_fibonacci_witness :
    WF 64 [10] ∧ 65 * [10].length < 66 ∧
    ∃ r, MatmulStrassen.fibonacci 66 [10] = some r ∧ WF 64 r ∧ Normalised r ∧
      value 64 r = Nat.fib (value 64 [10]) ∧ (value 64 [10] = 0 → r = []) :=
  ⟨by decide, by decide, C3_strassen_fibonacci [10] 66 (by decide) (by decide)⟩

/-- C4 (refuted on the code): with an exact `operator*`, the golden-ratio `fibonacci` of
`field_ext.cpp` does not return `F(n)` for every index.  For the two-digit index
`n = 2^64` (digits `[0, 1]`), `--n` leaves the digits `[2^64 - 1, 1]`, of value
`2^65 - 1` instead of `2^64 - 1`, and the function returns `F(2^65)`, which is not
`F(2^64)`. -/
theorem C4_field_ext_two_digit_index (opMul : List Nat → List Nat → List Nat)
    (hm : ExactProduct 8 opMul) (fuel : Nat) (hf : 130 < fuel) :
    WF 64 [0, 1] ∧ Normalised [0, 1] ∧ value 64 [0, 1] = 2 ^ 64 ∧
    op_predec 64 [0, 1] = [2 ^ 64 - 1, 1] ∧ value 64 (op_predec 64 [0, 1]) = 2 ^ 65 - 1 ∧
    FieldExt.fibonacci opMul fuel [0, 1] = some (toDigits 64 (Nat.fib (2 ^ 65))) ∧
    toDigits 64 (Nat.fib (2 ^ 65)) ≠ toDigits 64 (Nat.fib (value 64 [0, 1])) := by
  have hp : op_predec 64 [0, 1] = [2 ^ 64 - 1, 1] := by decide
  have hv : value 64 (op_predec 64 [0, 1]) = 2 ^ 65 - 1 := by decide
  refine ⟨by decide, by decide, by decide, hp, hv, ?_, ?_⟩
  · obtain ⟨m, _, _, e⟩ := @FieldExt.fieldExt_fibonacci_spec opMul hm [0, 1] fuel (by decide)
      (by decide) (by simpa using hf)
    have h65 : 2 ^ 65 - 1 + 1 = 2 ^ 65 := by decide
    rw [e, hv, h65]
  · intro h
    have h1 : Nat.fib (2 ^ 65) = Nat.fib (value 64 [0, 1]) := by
      have := congrArg (value 64) h
      rwa [value_toDigits, value_toDigits] at this
    have h2 : value 64 [0, 1] = (2 ^ 64 - 2) + 2 := by decide
    have h3 : (2 : Nat) ^ 65 = (2 ^ 65 - 2) + 2 := by decide
    rw [h2, h3] at h1
    have := Nat.fib_add_two_strictMono.injective h1
    omega

/-- Witness of C4 with the exact product on canonical digits. -/
theorem C4_field_ext_two_digit_index_witness :
    ExactProduct 8 (fun x y => toDigits 8 (value 8 x * value 8 y)) ∧ 130 < 131 ∧
    FieldExt.fibonacci (fun x y => toDigits 8 (value 8 x * value 8 y)) 131 [0, 1] =
      some (toDigits 64 (Nat.fib (2 ^ 65))) :=
  ⟨exactProduct_canonical (by decide), by decide,
    (C4_field_ext_two_digit_index _ (exactProduct_canonical (by decide)) 131
      (by decide)).2.2.2.2.2.1⟩

/-- C5: assuming that `operator*` on 8-bit digits returns the exact product, for every
index `n` (any vector of 64-bit digits) the loop of `fibonacci` in
`matmul_fft.cpp` ends (for every fuel above `65 * |n|`) with `fib` equal to the power
`n + 1` of the base matrix, `fib.e00` holds `F(n)`, and the function returns the
normalised vector of 64-bit digits of `F(n)`. -/
theorem C5_matmul_fft_fibonacci (opMul : List Nat → List Nat → List Nat)
    (hm : ExactProduct 8 opMul) (n : List Nat) (fuel : Nat) (hn : WF 64 n)
    (hf : 65 * n.length < fuel) :
    ∃ m r, MatmulFft.loop opMul fuel n MatmulFft.M2x2.base MatmulFft.M2x2.base = some m ∧
      (value 8 m.e00, value 8 m.e01, value 8 m.e10, value 8 m.e11) =
        MatmulFft.basePow (value 64 n + 1) ∧
      WF 8 m.e00 ∧ Normalised m.e00 ∧ value 8 m.e00 = Nat.fib (value 64 n) ∧
      MatmulFft.fibonacci opMul fuel n = some r ∧ WF 64 r ∧ Normalised r ∧
      value 64 r = Nat.fib (value 64 n) := by
  obtain ⟨m, e1, ⟨m00, m01, m10, m11⟩, e3⟩ := MatmulFft.fft_fibonacci_spec hm hn hf
  refine ⟨m, toDigits 64 (Nat.fib (value 64 n)), e1, ?_, ?_, ?_, ?_, e3,
    toDigits_WF (by decide) _, toDigits_normalised 64 _, value_toDigits 64 _⟩
  · rw [MatmulFft.basePow_eq, m00, m01, m10, m11]
    simp only [value_toDigits]
  · rw [m00]; exact toDigits_WF (by decide) _
  · rw [m00]; exact toDigits_normalised 8 _
  · rw [m00, value_toDigits]

/-- Witness of C5 at `n = 10`, with the exact product on canonical digits. -/
theorem C5_matmul_fft_fibonacci_witness :
    ExactProduct 8 (fun x y => toDigits 8 (value 8 x * value 8 y)) ∧ WF 64 [10] ∧
    65 * [10].length < 66 ∧
    ∃ m r, MatmulFft.loop (fun x y => toDigits 8 (value 8 x * value 8 y)) 66 [10]
        MatmulFft.M2x2.base MatmulFft.M2x2.base = some m ∧
      (value 8 m.e00, value 8 m.e01, value 8 m.e10, value 8 m.e11) =
        MatmulFft.basePow (value 64 [10] + 1) ∧
      WF 8 m.e00 ∧ Normalised m.e00 ∧ value 8 m.e00 = Nat.fib (value 64 [10]) ∧
      MatmulFft.fibonacci (fun x y => toDigits 8 (value 8 x * value 8 y)) 66 [10] = some r ∧
      WF 64 r ∧ Normalised r ∧ value 64 r = Nat.fib (value 64 [10]) :=
  ⟨exactProduct_canonical (by decide), by decide, by decide,
    C5_matmul_fft_fibonacci _ (exactProduct_canonical (by decide)) [10] 66 (by decide)
      (by decide)⟩

/-- Agreement of the implementations with the harness, as far as it does not depend on
the floating-point `operator*` of `mulnum_fft.h`: for every `n ≤ 512` (and every fuel
above 512), on the counter `cur` that the harness reaches after `n` increments, the
Fibonacci implementations of `linear.cpp`, `matmul_simple.cpp` and
`matmul_strassen.cpp` return the value `expected n` of the reference iteration
`(a, b) <- (b, a + b)` of the harness, which is a normalised vector of 64-bit digits; the
loops of `matmul_fft.cpp` and `field_ext.cpp` return it for every `operator*` on 8-bit
digits that returns the exact product. -/
theorem integer_backends_agree (n fuel : Nat) (hn : n ≤ 512) (hf : 512 < fuel) :
    Linear.fibonacci fuel (Eval.cur n) = some (Eval.expected n) ∧
    MatmulSimple.fibonacci fuel (Eval.cur n) = some (Eval.expected n) ∧
    MatmulStrassen.fibonacci fuel (Eval.cur n) = some (Eval.expected n) ∧
    (∀ opMul : List Nat → List Nat → List Nat, ExactProduct 8 opMul →
      MatmulFft.fibonacci opMul fuel (Eval.cur n) = some (Eval.expected n) ∧
      FieldExt.fibonacci opMul fuel (Eval.cur n) = some (Eval.expected n)) ∧
    WF 64 (Eval.expected n) ∧ Normalised (Eval.expected n) := by
  have hlt : n < base 64 := Nat.lt_of_le_of_lt hn (by decide)
  have hw : WF 64 (toDigits 64 n) := toDigits_WF (by decide) n
  have hlen : 65 * (toDigits 64 n).length < fuel := by
    by_cases h0 : n = 0
    · subst h0; rw [toDigits_zero]; simp; omega
    · rw [toDigits_of_lt h0 hlt]; simp; omega
  rw [Eval.expected_eq, Eval.cur_eq n hlt]
  refine ⟨Linear.linear_fibonacci_spec hlt (by omega),
    MatmulSimple.simple_fibonacci_spec hlt (by omega), ?_, ?_, toDigits_WF (by decide) _,
    toDigits_normalised 64 _⟩
  · have := MatmulStrassen.strassen_fibonacci_spec hw hlen
    rwa [value_toDigits] at this
  · intro opMul hm
    constructor
    · obtain ⟨m, _, _, e⟩ := MatmulFft.fft_fibonacci_spec hm hw hlen
      rwa [value_toDigits] at e
    · exact FieldExt.fieldExt_fibonacci_small hm hlt (by omega)

/-- The integer implementations at `n = 512`. -/
theorem integer_backends_agree_at_512 :
    512 ≤ 512 ∧ 512 < 513 ∧
    Linear.fibonacci 513 (Eval.cur 512) = some (Eval.expected 512) ∧
    MatmulSimple.fibonacci 513 (Eval.cur 512) = some (Eval.expected 512) ∧
    MatmulStrassen.fibonacci 513 (Eval.cur 512) = some (Eval.expected 512) :=
  ⟨by decide, by decide, (integer_backends_agree 512 513 (by decide) (by decide)).1,
    (integer_backends_agree 512 513 (by decide) (by decide)).2.1,
    (integer_backends_agree 512 513 (by decide) (by decide)).2.2.1⟩

/-- C7 (refuted on the code): the pre-decrement of a normalised two-digit vector does
not leave the value minus one.  With 8-bit digits, `--a` on `a = [0, 1]` (value 256)
leaves `[255, 1]` (value 511, not 255), and `a--` leaves the same; with 64-bit digits
`--a` on `[5, 3]` leaves `[4, 2]`. -/
theorem C7_decrement_two_digits :
    WF 8 [0, 1] ∧ Normalised [0, 1] ∧ value 8 [0, 1] = 256 ∧
    op_predec 8 [0, 1] = [255, 1] ∧ value 8 (op_predec 8 [0, 1]) = 511 ∧
    op_postdec 8 [0, 1] = ([0, 1], [255, 1]) ∧
    op_predec 64 [5, 3] = [4, 2] ∧
    value 64 (op_predec 64 [5, 3]) ≠ value 64 [5, 3] - 1 := by
  decide

/-- C8: for all normalised vectors `a` and `b` of `W`-bit digits, `a + b` is the
normalised vector of value `value a + value b`; it consists of `max(|a|, |b|)` digits,
followed by a digit `1` exactly when the sum is at least `2^(W * max(|a|, |b|))`. -/
theorem C8_add_correct (W : Nat) (a b : List Nat) (ha : WF W a) (hb : WF W b)
    (na : Normalised a) (nb : Normalised b) :
    WF W (op_add W a b) ∧ Normalised (op_add W a b) ∧
    value W (op_add W a b) = value W a + value W b ∧
    ∃ low, low.length = max a.length b.length ∧
      op_add W a b = low ++
        (if 2 ^ (W * max a.length b.length) ≤ value W a + value W b then [1] else []) := by
  obtain ⟨low, c, h1, h2, h3, h4, h5⟩ := op_add_assign_spec ha hb
  have hv := value_op_add ha hb
  have hnorm := normalised_op_add ha hb na nb
  have hwf : WF W (op_add W a b) := by
    rcases Nat.eq_zero_or_pos W with h0 | hpos
    · subst h0
      have ea := length_eq_zero_of_WF_zero ha na
      have eb := length_eq_zero_of_WF_zero hb nb
      subst ea eb
      decide
    · exact WF_op_add hpos ha hb
  refine ⟨hwf, hnorm, hv, low, h2, ?_⟩
  have hlt := value_lt h3
  rw [h2] at hlt
  have hpow : 2 ^ (W * max a.length b.length) = base W ^ max a.length b.length := by
    unfold base; rw [pow_mul]
  rw [hpow]
  show op_add_assign W a b = _
  rw [h5]
  by_cases hc : c = 0
  · subst hc
    rw [Nat.mul_zero, Nat.add_zero] at h4
    rw [if_neg (by simp), if_neg (by omega)]
  · have hc1 : c = 1 := by omega
    subst hc1
    rw [Nat.mul_one] at h4
    rw [if_pos hc, if_pos (by omega)]

/-- Witness of C8 with 8-bit digits, `[200, 255] + [100] = [44, 0, 1]`. -/
theorem C8_add_correct_witness :
    WF 8 [200, 255] ∧ WF 8 [100] ∧ Normalised [200, 255] ∧ Normalised [100] ∧
    op_add 8 [200, 255] [100] = [44, 0, 1] ∧
    value 8 (op_add 8 [200, 255] [100]) = value 8 [200, 255] + value 8 [100] :=
  ⟨by decide, by decide, by decide, by decide, by decide,
    (C8_add_correct 8 [200, 255] [100] (by decide) (by decide) (by decide)
      (by decide)).2.2.1⟩

/-- C9: for all normalised vectors `a` and `b` of `W`-bit digits, if
`value a ≥ value b` then `a - b` is the normalised vector of value `value a - value b`;
and `(a + b) - b` is the vector `a`. -/
theorem C9_sub_correct (W : Nat) (a b : List Nat) (ha : WF W a) (hb : WF W b)
    (na : Normalised a) (nb : Normalised b) :
    (value W b ≤ value W a →
      WF W (op_sub W a b) ∧ Normalised (op_sub W a b) ∧
      value W (op_sub W a b) = value W a - value W b) ∧
    op_sub W (op_add W a b) b = a := by
  refine ⟨fun hle => op_sub_spec ha hb hle, ?_⟩
  rcases Nat.eq_zero_or_pos W with h0 | hpos
  · subst h0
    have ea := length_eq_zero_of_WF_zero ha na
    have eb := length_eq_zero_of_WF_zero hb nb
    subst ea eb
    decide
  · have hs := WF_op_add hpos ha hb
    have hv := value_op_add ha hb
    obtain ⟨s1, s2, s3⟩ := op_sub_spec hs hb (by omega)
    apply eq_of_value_eq s1 ha s2 na
    rw [s3, hv]
    omega

/-- Witness of C9 with 8-bit digits, `[44, 0, 1] - [100] = [200, 255]`. -/
theorem C9_sub_correct_witness :
    WF 8 [44, 0, 1] ∧ WF 8 [100] ∧ Normalised [44, 0, 1] ∧ Normalised [100] ∧
    value 8 [100] ≤ value 8 [44, 0, 1] ∧ op_sub 8 [44, 0, 1] [100] = [200, 255] ∧
    value 8 (op_sub 8 [44, 0, 1] [100]) = value 8 [44, 0, 1] - value 8 [100] ∧
    op_sub 8 (op_add 8 [44, 0, 1] [100]) [100] = [44, 0, 1] :=
  ⟨by decide, by decide, by decide, by decide, by decide, by decide,
    ((C9_sub_correct 8 [44, 0, 1] [100] (by decide) (by decide) (by decide)
      (by decide)).1 (by decide)).2.2,
    (C9_sub_correct 8 [44, 0, 1] [100] (by decide) (by decide) (by decide) (by decide)).2⟩

/-- C10: for all normalised vectors `a` and `b` of 32-bit digits, the schoolbook
`operator*` returns the normalised vector of value `value a * value b`, and the empty
vector (zero) when an operand is zero. -/
theorem C10_schoolbook_mul (a b : List Nat) (ha : WF 32 a) (hb : WF 32 b)
    (na : Normalised a) (nb : Normalised b) :
    WF 32 (op_mul 32 a b) ∧ Normalised (op_mul 32 a b) ∧
    value 32 (op_mul 32 a b) = value 32 a * value 32 b ∧
    (value 32 a = 0 ∨ value 32 b = 0 → op_mul 32 a b = []) := by
  obtain ⟨s1, s2, s3⟩ := op_mul_spec ha hb
  refine ⟨s1, s2, s3, ?_⟩
  intro h
  have e : a = [] ∨ b = [] := by
    rcases h with h | h
    · exact Or.inl (value_eq_zero_of_normalised na h)
    · exact Or.inr (value_eq_zero_of_normalised nb h)
  unfold op_mul
  rw [if_pos e]

/-- Witness of C10, `(2^64 - 1)^2` with 32-bit digits. -/
theorem C10_schoolbook_mul_witness :
    WF 32 [4294967295, 4294967295] ∧ Normalised [4294967295, 4294967295] ∧
    op_mul 32 [4294967295, 4294967295] [4294967295, 4294967295] =
      [1, 0, 4294967294, 4294967295] ∧
    value 32 (op_mul 32 [4294967295, 4294967295] [4294967295, 4294967295]) =
      value 32 [4294967295, 4294967295] * value 32 [4294967295, 4294967295] :=
  ⟨by decide, by decide, by decide,
    (C10_schoolbook_mul [4294967295, 4294967295] [4294967295, 4294967295] (by decide)
      (by decide) (by decide) (by decide)).2.2.1⟩

/-- C14: for normalised big integers `a` and `b` of the same digit width, `a <=> b` is
`less`, `equal` or `greater` exactly when `value a` is less than, equal to or greater than
`value b`; swapping the operands swaps the result, so `<=>` is the total order of the
values; and `a == b` holds exactly when the values are equal, which is when the digit
vectors are equal. -/
theorem C14_three_way_comparison (W : Nat) (a b : List Nat) (ha : WF W a) (hb : WF W b)
    (na : Normalised a) (nb : Normalised b) :
    (op_cmp a b = Ordering.lt ↔ value W a < value W b) ∧
    (op_cmp a b = Ordering.eq ↔ value W a = value W b) ∧
    (op_cmp a b = Ordering.gt ↔ value W a > value W b) ∧
    op_cmp b a = (op_cmp a b).swap ∧
    (op_eq a b = true ↔ value W a = value W b) ∧
    (op_eq a b = true ↔ a = b) := by
  have h1 := op_cmp_spec ha hb na nb
  have h2 := op_cmp_spec hb ha nb na
  have hinj : value W a = value W b ↔ a = b :=
    ⟨eq_of_value_eq ha hb na nb, fun h => by rw [h]⟩
  have e1 : (Ordering.lt == Ordering.eq) = false := by decide
  have e2 : (Ordering.gt == Ordering.eq) = false := by decide
  have e3 : (Ordering.eq == Ordering.eq) = true := by decide
  rcases Nat.lt_trichotomy (value W a) (value W b) with h | h | h
  · have h' : ¬ value W b < value W a := by omega
    have hne : value W a ≠ value W b := by omega
    have hab : a ≠ b := fun e => hne (hinj.2 e)
    rw [if_pos h] at h1
    rw [if_neg h', if_pos h] at h2
    simp only [op_eq, h1, h2]
    simp [h, hne, hab, Ordering.swap, e1, Nat.le_of_lt h]
  · have hab : a = b := hinj.1 h
    rw [h, if_neg (Nat.lt_irrefl _), if_neg (Nat.lt_irrefl _)] at h1
    simp only [op_eq, h1, h2]
    simp [h, hab, Ordering.swap, e3]
  · have h' : ¬ value W a < value W b := by omega
    have hne : value W a ≠ value W b := by omega
    have hab : a ≠ b := fun e => hne (hinj.2 e)
    rw [if_neg h', if_pos h] at h1
    rw [if_pos h] at h2
    simp only [op_eq, h1, h2]
    simp [h, h', hne, hab, Ordering.swap, e2]

/-- C14, at an instance: `[5, 3]` and `[7, 2]` with 32-bit digits. -/
theorem C14_three_way_comparison_witness :
    (op_cmp [5, 3] [7, 2] = Ordering.lt ↔ value 32 [5, 3] < value 32 [7, 2]) ∧
    (op_cmp [5, 3] [7, 2] = Ordering.eq ↔ value 32 [5, 3] = value 32 [7, 2]) ∧
    (op_cmp [5, 3] [7, 2] = Ordering.gt ↔ value 32 [5, 3] > value 32 [7, 2]) ∧
    op_cmp [7, 2] [5, 3] = (op_cmp [5, 3] [7, 2]).swap ∧
    (op_eq [5, 3] [7, 2] = true ↔ value 32 [5, 3] = value 32 [7, 2]) ∧
    (op_eq [5, 3] [7, 2] = true ↔ [5, 3] = [7, 2]) :=
  C14_three_way_comparison 32 [5, 3] [7, 2] (by decide) (by decide) (by decide) (by decide)

/-- C20: for digit widths `W < W'` among 8, 16, 32 and 64, the cast from `num_t<W>` to
`num_t<W'>` and the cast back both keep the numeric value and return a normalised vector
of digits of the target width; hence narrowing the widened `a` gives back the digit
vector `a`, and widening the narrowed `b` gives back the digit vector `b`. -/
theorem C20_cast_round_trip (W W' : Nat) (hW : W ∈ [8, 16, 32, 64]) (hW' : W' ∈ [8, 16, 32, 64])
    (hlt : W < W') (a b : List Nat) (ha : WF W a) (na : Normalised a)
    (hb : WF W' b) (nb : Normalised b) :
    (WF W' (cast W W' a) ∧ Normalised (cast W W' a) ∧ value W' (cast W W' a) = value W a) ∧
    (WF W (cast W' W b) ∧ Normalised (cast W' W b) ∧ value W (cast W' W b) = value W' b) ∧
    cast W' W (cast W W' a) = a ∧ cast W W' (cast W' W b) = b := by
  have hd := width_dvd hW hW' hlt
  have p := width_pos hW
  have p' := width_pos hW'
  have h1 := cast_spec (v := a) p p' (Or.inl hd) ha
  have h2 := cast_spec (v := b) p' p (Or.inr hd) hb
  have h3 := cast_spec p' p (Or.inr hd) h1.1
  have h4 := cast_spec p p' (Or.inl hd) h2.1
  refine ⟨h1, h2, ?_, ?_⟩
  · exact eq_of_value_eq h3.1 ha h3.2.1 na (by rw [h3.2.2, h1.2.2])
  · exact eq_of_value_eq h4.1 hb h4.2.1 nb (by rw [h4.2.2, h2.2.2])

/-- C20, at an instance: `[1, 2]` with 8-bit digits and `[513, 7]` with 32-bit digits. -/
theorem C20_cast_round_trip_witness :
    (WF 32 (cast 8 32 [1, 2]) ∧ Normalised (cast 8 32 [1, 2]) ∧
      value 32 (cast 8 32 [1, 2]) = value 8 [1, 2]) ∧
    (WF 8 (cast 32 8 [513, 7]) ∧ Normalised (cast 32 8 [513, 7]) ∧
      value 8 (cast 32 8 [513, 7]) = value 32 [513, 7]) ∧
    cast 32 8 (cast 8 32 [1, 2]) = [1, 2] ∧ cast 8 32 (cast 32 8 [513, 7]) = [513, 7] :=
  C20_cast_round_trip 8 32 (by decide) (by decide) (by decide) [1, 2] [513, 7]
    (by decide) (by decide) (by decide) (by decide)

/-- C15 (defect in the code): `operator<<` with digit width `W` among 8, 16, 32, 64.
Whenever every machine shift it executes is defined, `a << k` keeps the digits below
`2^W`, has the value `value a * 2^k`, and consists of `k / W` zero digits followed by the
result of shifting `a` by `k % W` bits (with a non-zero spill appended); for `W = 32`,
`num(1) << 100` is `[0, 0, 0, 16]`.  The shifts are all defined exactly when `a` is
zero, the digits are narrower than `int`, or `k` is not a multiple of `W`: for a shift
count that is a multiple of `W`, `lshift` runs with `bits = 0` and shifts every digit
right by `bitlen<T> - 0`, its full width, which is undefined for 32- and 64-bit
digits, as for `num_t<uint32_t>(1) << 32`. -/
theorem C15_shift_left :
    (∀ (W : Nat) (a : List Nat) (k : Nat), W ∈ [8, 16, 32, 64] → WF W a →
      op_shl_defined W a k →
        WF W (op_shl W a k) ∧ value W (op_shl W a k) = value W a * 2 ^ k ∧
        op_shl W a k = List.replicate (k / W) 0 ++ op_shl W a (k % W)) ∧
    (∀ (W : Nat) (a : List Nat) (k : Nat), W ∈ [8, 16, 32, 64] →
      (op_shl_defined W a k ↔ a = [] ∨ W < 32 ∨ k % W ≠ 0)) ∧
    op_shl 32 [1] 100 = [0, 0, 0, 16] ∧
    (32 &&& (2 ^ bitlog 32 - 1) = 0 ∧ shiftAmounts 32 0 = [32, 0] ∧ ¬ ShiftDefined 32 32 ∧
      ¬ op_shl_defined 32 [1] 32) := by
  refine ⟨fun W a k hW ha _ => ?_, fun W a k hW => windowShiftDefined_iff hW a k,
    by decide, by decide⟩
  have hb := bitlog_spec (width_cases hW)
  obtain ⟨h1, h2, _⟩ := op_shl_assign_spec hb k ha
  exact ⟨h1, h2, op_shl_assign_split hb k a⟩

/-- C15, at an instance: `[1] << 100` and `[4000000000, 7] << 37` with 32-bit digits. -/
theorem C15_shift_left_witness :
    (WF 32 (op_shl 32 [1] 100) ∧ value 32 (op_shl 32 [1] 100) = value 32 [1] * 2 ^ 100 ∧
      op_shl 32 [1] 100 = List.replicate (100 / 32) 0 ++ op_shl 32 [1] (100 % 32)) ∧
    op_shl 32 [4000000000, 7] 37 = [0, 3445948416, 253] :=
  ⟨C15_shift_left.1 32 [1] 100 (by decide) (by decide) (by decide), by decide⟩

/-- C16 (defect in the code): `operator>>` with digit width `W` among 8, 16, 32, 64.
Whenever every machine shift it executes is defined, `a >> k` on a normalised `a` is the
normalised digit vector of `value a / 2^k` (rounded down), so the single `reduce_once`
after the intra-digit shift is enough, and the result is empty when `value a < 2^k`.
The shifts are all defined exactly when the whole-digit part of the shift clears the
vector, the digits are narrower than `int`, or `k` is not a multiple of `W`: for a
shift count that is a multiple of `W`, `rshift` runs with `bits = 0` and shifts every
digit left by `bitlen<T> - 0`, its full width, which is undefined for 32- and 64-bit
digits, as for `num_t<uint32_t>(2^32) >> 32`. -/
theorem C16_shift_right :
    (∀ (W : Nat) (a : List Nat) (k : Nat), W ∈ [8, 16, 32, 64] → WF W a → Normalised a →
      op_shr_defined W a k →
        WF W (op_shr W a k) ∧ Normalised (op_shr W a k) ∧
        value W (op_shr W a k) = value W a / 2 ^ k ∧
        op_shr W a k = toDigits W (value W a / 2 ^ k) ∧
        (value W a < 2 ^ k → op_shr W a k = [])) ∧
    (∀ (W : Nat) (a : List Nat) (k : Nat), W ∈ [8, 16, 32, 64] →
      (op_shr_defined W a k ↔ a.length ≤ k / W ∨ W < 32 ∨ k % W ≠ 0)) ∧
    (Normalised [0, 1] ∧ 32 &&& (2 ^ bitlog 32 - 1) = 0 ∧ shiftAmounts 32 0 = [32, 0] ∧
      ¬ ShiftDefined 32 32 ∧ ¬ op_shr_defined 32 [0, 1] 32) := by
  refine ⟨fun W a k hW ha na _ => ?_, fun W a k hW => ?_, by decide⟩
  · have hb := bitlog_spec (width_cases hW)
    obtain ⟨h1, h2, h3⟩ := op_shr_assign_spec hb k ha
    have h4 : op_shr W a k = toDigits W (value W a / 2 ^ k) := by
      show op_shr_assign W a k = _
      rw [← toDigits_value h1 (h3 na), h2]
    refine ⟨h1, h3 na, h2, h4, fun hlt => ?_⟩
    rw [h4, Nat.div_eq_of_lt hlt, toDigits_zero]
  · have hb := bitlog_spec (width_cases hW)
    unfold op_shr_defined
    rw [windowShiftDefined_iff hW, hb]
    constructor
    · rintro (h | h | h)
      · exact Or.inl h
      · rw [List.drop_eq_nil_iff] at h
        exact Or.inl h
      · exact Or.inr h
    · rintro (h | h)
      · exact Or.inl h
      · exact Or.inr (Or.inr h)

/-- C16, at an instance: `[4000000000, 7, 9] >> 37` with 32-bit digits. -/
theorem C16_shift_right_witness :
    (WF 32 (op_shr 32 [4000000000, 7, 9] 37) ∧ Normalised (op_shr 32 [4000000000, 7, 9] 37) ∧
      value 32 (op_shr 32 [4000000000, 7, 9] 37) = value 32 [4000000000, 7, 9] / 2 ^ 37 ∧
      op_shr 32 [4000000000, 7, 9] 37 = toDigits 32 (value 32 [4000000000, 7, 9] / 2 ^ 37) ∧
      (value 32 [4000000000, 7, 9] < 2 ^ 37 → op_shr 32 [4000000000, 7, 9] 37 = [])) ∧
    op_shr 32 [4000000000, 7, 9] 37 = [1207959552] :=
  ⟨C16_shift_right.1 32 [4000000000, 7, 9] 37 (by decide) (by decide) (by decide) (by decide),
    by decide⟩

/-- C17: for every normalised big integer `a` of any digit width, `a.str(true)` is the
canonical decimal representation of `value a`: it is the string that `Nat.repr` prints,
which is `"0"` for zero and otherwise spells the decimal digits of the value, most
significant first, where the first digit is not zero. -/
theorem C17_str_full_decimal (W : Nat) (a : List Nat) (ha : WF W a) (na : Normalised a) :
    str W a true = Nat.repr (value W a) ∧
    (value W a = 0 → str W a true = "0") ∧
    (0 < value W a →
      str W a true = String.mk ((Nat.digits 10 (value W a)).reverse.map Nat.digitChar) ∧
      (Nat.digits 10 (value W a)).reverse.head? ≠ some 0) := by
  have h := str_full ha na
  refine ⟨h, fun h0 => ?_, fun hpos => ⟨?_, ?_⟩⟩
  · rw [h, h0]; decide
  · rw [h, Nat.repr, toDigits_digits hpos]
    rfl
  · rw [List.head?_reverse]
    exact digits10_normalised (value W a)

set_option maxRecDepth 100000 in
/-- C17, at an instance: the 64-bit digits `[3736710778780434371, 19]` of `F(100)`. -/
theorem C17_str_full_decimal_witness :
    str 64 [3736710778780434371, 19] true = "354224848179261915075" ∧
    (str 64 [3736710778780434371, 19] true = Nat.repr (value 64 [3736710778780434371, 19]) ∧
    (value 64 [3736710778780434371, 19] = 0 → str 64 [3736710778780434371, 19] true = "0") ∧
    (0 < value 64 [3736710778780434371, 19] →
      str 64 [3736710778780434371, 19] true =
        String.mk ((Nat.digits 10 (value 64 [3736710778780434371, 19])).reverse.map
          Nat.digitChar) ∧
      (Nat.digits 10 (value 64 [3736710778780434371, 19])).reverse.head? ≠ some 0)) :=
  ⟨by decide, C17_str_full_decimal 64 [3736710778780434371, 19] (by decide) (by decide)⟩

/-- C18: for every non-empty string `s` of ASCII decimal digits without a leading zero,
and for `s = "0"`, the decimal-string constructor (digit width 8, 16, 32 or 64) ends,
once the fuel exceeds four times the length of `s`, with a normalised big integer whose
value is the number written by `s`, and `str(true)` of that big integer is `s` again. -/
theorem C18_decimal_round_trip (W : Nat) (hW : W ∈ [8, 16, 32, 64]) (s : String)
    (hd : ∀ c ∈ s.data, c.isDigit = true) (hne : s ≠ "")
    (h0 : s.data.head? ≠ some '0' ∨ s = "0") (fuel : Nat) (hf : 4 * s.length < fuel) :
    ∃ v, ofString W fuel s = some v ∧ WF W v ∧ Normalised v ∧ str W v true = s ∧
      Nat.repr (value W v) = s := by
  obtain ⟨n, hs, hn⟩ := canonical_decimal hd hne h0
  have hlen : 1 ≤ s.length := by
    rcases Nat.eq_zero_or_pos s.length with h | h
    · exact absurd (String.ext (List.length_eq_zero.1 h)) hne
    · exact h
  obtain ⟨f, rfl⟩ : ∃ f, fuel = f + 1 := ⟨fuel - 1, by omega⟩
  have h16 : (10 : Nat) ^ s.length ≤ 2 ^ f := by
    calc (10 : Nat) ^ s.length ≤ 16 ^ s.length := Nat.pow_le_pow_left (by decide) _
      _ = 2 ^ (4 * s.length) := by rw [pow_mul]; rfl
      _ ≤ 2 ^ f := Nat.pow_le_pow_right (by decide) (by omega)
  have hp := width_pos hW
  refine ⟨toDigits W n, ?_, toDigits_WF hp n, toDigits_normalised W n, ?_, ?_⟩
  · rw [hs]
    exact ofString_repr hW n f (by omega) (by omega)
  · rw [str_full (toDigits_WF hp n) (toDigits_normalised W n), value_toDigits, hs]
  · rw [value_toDigits, hs]

set_option maxRecDepth 100000 in
/-- C18, at an instance: the string `"354224848179261915075"` with 64-bit digits. -/
theorem C18_decimal_round_trip_witness :
    ofString 64 100 "354224848179261915075" = some [3736710778780434371, 19] ∧
    ∃ v, ofString 64 100 "354224848179261915075" = some v ∧ WF 64 v ∧ Normalised v ∧
      str 64 v true = "354224848179261915075" ∧
      Nat.repr (value 64 v) = "354224848179261915075" :=
  ⟨by decide, C18_decimal_round_trip 64 (by decide) "354224848179261915075" (by decide)
    (by decide) (by decide) 100 (by decide)⟩

/-- C11 (refuted on the code): with 8-bit digits the schoolbook `operator*` and the
Karatsuba `operator*` do not return the exact product.  Both compute the carry out of a
digit as `spill = res >> down` with `down = 64 - bitlen<T>`, which is `56` for
`uint8_t`, so the carry is always zero.  `num_t<uint8_t>(123456789)` has the digits
`[21, 205, 91, 7]`, `num_t<uint8_t>(987654321)` has `[177, 104, 222, 58]`, and
`121932631112635269` has `[133, 83, 255, 251, 20, 49, 177, 1]`; the schoolbook product of
the two is `[133, 69, 105, 87, 52, 176, 150]`.  Already `16 * 16` comes out as zero with
both backends. -/
theorem C11_byte_width_products :
    ofInt 8 32 123456789 = [21, 205, 91, 7] ∧ ofInt 8 32 987654321 = [177, 104, 222, 58] ∧
    ofInt 8 64 121932631112635269 = [133, 83, 255, 251, 20, 49, 177, 1] ∧
    value 8 [21, 205, 91, 7] * value 8 [177, 104, 222, 58] =
      value 8 [133, 83, 255, 251, 20, 49, 177, 1] ∧
    Big.op_mul 8 [21, 205, 91, 7] [177, 104, 222, 58] = [133, 69, 105, 87, 52, 176, 150] ∧
    Big.op_mul 8 [21, 205, 91, 7] [177, 104, 222, 58] ≠ [133, 83, 255, 251, 20, 49, 177, 1] ∧
    ofInt 8 32 16 = [16] ∧ ofInt 8 32 256 = [0, 1] ∧
    Big.op_mul 8 [16] [16] = [] ∧
    (∀ fuel, Karatsuba.op_mul 8 (fuel + 1) [16] [16] = Karatsuba.Res.ok []) := by
  refine ⟨by decide, by decide, by decide, by decide, by decide, by decide, by decide,
    by decide, by decide, fun fuel => rfl⟩

/-- C12 (refuted on the code): for the normalised 32-bit operands `[4294967295, 1]`
(`2^33 - 1`) and `[1, 1]` (`2^32 + 1`) the schoolbook `operator*` returns
`[4294967295, 0, 2]`, while the Karatsuba `operator*` writes outside its product vector,
whatever the fuel.  The product vector has 6 digits; the half-sum of the first operand
carries, so `z3` has `(2 + 1) * 2 = 6` digits, and the final `add` copies `z3` into the
window of `out` that begins at position 1 and has 5 digits: the last digit of `z3` goes
to position 6.  In a vector of 7 digits, with the same window of 6 digits as `out`, the
run ends and the product is right.  On operands whose half-sums do not carry, such as
`[3, 4, 5]` and `[5, 6, 7]`, both backends return the same digits. -/
theorem C12_karatsuba_two_digit_operands :
    WF 32 [4294967295, 1] ∧ Normalised [4294967295, 1] ∧ WF 32 [1, 1] ∧ Normalised [1, 1] ∧
    Big.op_mul 32 [4294967295, 1] [1, 1] = [4294967295, 0, 2] ∧
    (∀ fuel, Karatsuba.op_mul 32 (fuel + 2) [4294967295, 1] [1, 1] = Karatsuba.Res.fault) ∧
    (∀ fuel, (Karatsuba.mul 32 (fuel + 2) false ⟨Karatsuba.Buf.out, 0, 6⟩
      ⟨Karatsuba.Buf.lhs, 0, 2⟩ ⟨Karatsuba.Buf.rhs, 0, 2⟩ ⟨Karatsuba.Buf.scratch, 0, 48⟩
      ⟨[4294967295, 1], [1, 1], List.replicate 7 0, List.replicate 48 0⟩).bind
        (fun m => Karatsuba.Res.ok m.out) = Karatsuba.Res.ok [4294967295, 0, 2, 0, 0, 0, 0]) ∧
    (∀ fuel, Karatsuba.op_mul 32 (fuel + 3) [3, 4, 5] [5, 6, 7] =
      Karatsuba.Res.ok (Big.op_mul 32 [3, 4, 5] [5, 6, 7])) := by
  refine ⟨by decide, by decide, by decide, by decide, by decide, fun fuel => rfl,
    fun fuel => rfl, fun fuel => ?_⟩
  have h : Big.op_mul 32 [3, 4, 5] [5, 6, 7] = [15, 38, 70, 58, 35] := by decide
  rw [h]
  rfl

/-- C13 (refuted on the code): two public operations leave a vector that is not
normalised.  `operator<<=` on zero inserts `whole_shift` zero digits and never reduces:
`num_t<uint32_t>(0) << 100` is `[0, 0, 0]`.  `operator--` reduces once after `decrement`,
whose borrow is inverted: on the normalised `[5, 1, 1]` it leaves `[4, 0, 0]`, and
`reduce_once` returns `[4, 0]`.  The other operations keep the normal form, for the digit
widths 8, 16, 32, 64 and normalised operands `a`, `b`: `++`, `+=`, `-=`, `&=` (for
`|b| <= |a|`, where its windows have equal lengths), `|=` (for `|a| <= |b|`, likewise),
`<<=` on a non-zero number, `>>=` where its shifts are defined, the constructors from a
digit vector, from an integer and from a decimal string, the width casts, and the
schoolbook and Karatsuba `operator*`. -/
theorem C13_normal_form :
    (Normalised ([] : List Nat) ∧ op_shl_defined 32 [] 100 ∧
      op_shl_assign 32 [] 100 = [0, 0, 0] ∧ ¬ Normalised (op_shl_assign 32 [] 100)) ∧
    (WF 32 [5, 1, 1] ∧ Normalised [5, 1, 1] ∧ (decrement 32 [5, 1, 1]).1 = [4, 0, 0] ∧
      op_predec 32 [5, 1, 1] = [4, 0] ∧ ¬ Normalised (op_predec 32 [5, 1, 1])) ∧
    (∀ (W : Nat) (a b : List Nat), W ∈ [8, 16, 32, 64] → WF W a → WF W b →
      Normalised a → Normalised b →
        Normalised (op_preinc W a) ∧ Normalised (op_add_assign W a b) ∧
        Normalised (op_sub_assign W a b) ∧
        (b.length ≤ a.length → Normalised (op_and_assign a b)) ∧
        (a.length ≤ b.length → Normalised (op_or_assign a b)) ∧
        (∀ k, a ≠ [] → Normalised (op_shl_assign W a k)) ∧
        (∀ k, op_shr_defined W a k → Normalised (op_shr_assign W a k)) ∧
        (∀ v : List Nat, Normalised (full_reduce v)) ∧
        (∀ WI x, x < 2 ^ WI → Normalised (ofInt W WI x)) ∧
        (∀ n fuel, n < 2 ^ fuel → 1 ≤ fuel →
          ∃ v, ofString W (fuel + 1) (Nat.repr n) = some v ∧ Normalised v) ∧
        (∀ V, V ∈ [8, 16, 32, 64] → Normalised (cast W V a)) ∧
        Normalised (Big.op_mul W a b) ∧
        (∀ fuel r, Karatsuba.op_mul W fuel a b = Karatsuba.Res.ok r → Normalised r)) := by
  refine ⟨by decide, by decide, fun W a b hW ha hb na nb => ?_⟩
  have hbl := bitlog_spec (width_cases hW)
  exact ⟨normalised_op_preinc ha na, normalised_op_add ha hb na nb, normalised_op_sub W a b,
    fun _ => normalised_op_and a b, fun _ => normalised_op_or ha hb na nb,
    fun k hne => (op_shl_assign_spec hbl k ha).2.2 hne na,
    fun k _ => (op_shr_assign_spec hbl k ha).2.2 na,
    full_reduce_normalised, fun WI x hx => normalised_ofInt hx,
    fun n fuel hn hf => ⟨toDigits W n, ofString_repr hW n fuel hn hf, toDigits_normalised W n⟩,
    fun V _ => normalised_cast W V a, normalised_op_mul W a b,
    fun fuel r h => Karatsuba.normalised_op_mul_ok h⟩

/-- C13, at an instance of its general part: `a = [4000000000, 7]` and `b = [5, 9]` with
32-bit digits. -/
theorem C13_normal_form_witness :
    Normalised (op_preinc 32 [4000000000, 7]) ∧
    Normalised (op_add_assign 32 [4000000000, 7] [5, 9]) ∧
    Normalised (op_sub_assign 32 [4000000000, 7] [5, 9]) ∧
    (([5, 9] : List Nat).length ≤ ([4000000000, 7] : List Nat).length →
      Normalised (op_and_assign [4000000000, 7] [5, 9])) ∧
    (([4000000000, 7] : List Nat).length ≤ ([5, 9] : List Nat).length →
      Normalised (op_or_assign [4000000000, 7] [5, 9])) ∧
    (∀ k, ([4000000000, 7] : List Nat) ≠ [] → Normalised (op_shl_assign 32 [4000000000, 7] k)) ∧
    (∀ k, op_shr_defined 32 [4000000000, 7] k →
      Normalised (op_shr_assign 32 [4000000000, 7] k)) ∧
    (∀ v : List Nat, Normalised (full_reduce v)) ∧
    (∀ WI x, x < 2 ^ WI → Normalised (ofInt 32 WI x)) ∧
    (∀ n fuel, n < 2 ^ fuel → 1 ≤ fuel →
      ∃ v, ofString 32 (fuel + 1) (Nat.repr n) = some v ∧ Normalised v) ∧
    (∀ V, V ∈ [8, 16, 32, 64] → Normalised (cast 32 V [4000000000, 7])) ∧
    Normalised (Big.op_mul 32 [4000000000, 7] [5, 9]) ∧
    (∀ fuel r, Karatsuba.op_mul 32 fuel [4000000000, 7] [5, 9] = Karatsuba.Res.ok r →
      Normalised r) :=
  C13_normal_form.2.2 32 [4000000000, 7] [5, 9] (by decide) (by decide) (by decide)
    (by decide) (by decide)

/-- C21 (defect in the code): `operator&` on vectors of `W`-bit digits.  Whenever the call
of `bitwise_and` stays inside its windows, which is exactly when `b` is not longer than
`a`, `a & b` is the normalised vector whose value is the bitwise and of the values, with
at most `min(|a|, |b|)` digits.  When `a` is shorter than `b`, `operator&=` leaves `value`
as it is and calls `bitwise_and(value, other.value, value)`, whose loop runs over the
longer `other.value`: for `a = [1]` and `b = [1, 1]` the second round reads and writes
position 1 of the one-digit vector `value`. -/
theorem C21_bitwise_and :
    (∀ (W : Nat) (a b : List Nat), WF W a → WF W b → Normalised a → Normalised b →
      op_and_defined a b →
        WF W (op_and a b) ∧ Normalised (op_and a b) ∧
        value W (op_and a b) = value W a &&& value W b ∧
        (op_and a b).length ≤ min a.length b.length) ∧
    (∀ a b : List Nat, op_and_defined a b ↔ b.length ≤ a.length) ∧
    (WF 32 [1] ∧ Normalised [1] ∧ WF 32 [1, 1] ∧ Normalised [1, 1] ∧
      op_and_windows [1] [1, 1] = ([1], [1, 1], [1]) ∧
      bitwise_leaves_window [1] [1, 1] [1] = true ∧ ¬ op_and_defined [1] [1, 1]) := by
  refine ⟨fun W a b ha hb _ _ _ => op_and_assign_spec ha hb, op_and_defined_iff, by decide⟩

/-- C21, at an instance: `[12, 10, 3] & [10, 6]` with 8-bit digits. -/
theorem C21_bitwise_and_witness :
    (WF 8 (op_and [12, 10, 3] [10, 6]) ∧ Normalised (op_and [12, 10, 3] [10, 6]) ∧
      value 8 (op_and [12, 10, 3] [10, 6]) = value 8 [12, 10, 3] &&& value 8 [10, 6] ∧
      (op_and [12, 10, 3] [10, 6]).length ≤
        min ([12, 10, 3] : List Nat).length ([10, 6] : List Nat).length) ∧
    op_and [12, 10, 3] [10, 6] = [8, 2] :=
  ⟨C21_bitwise_and.1 8 [12, 10, 3] [10, 6] (by decide) (by decide) (by decide) (by decide)
    (by decide), by decide⟩

/-- C22 (defect in the code): `operator|` on vectors of `W`-bit digits.  Whenever the call
of `bitwise_or` stays inside its windows, which is exactly when `a` is not longer than
`b`, `a | b` is the normalised vector with `max(|a|, |b|)` digits whose value is the
bitwise or of the values.  When `a` is longer than `b`, `operator|=` calls
`bitwise_or(value, value, other.value)`, whose loop runs over the longer `value`: for
`a = [1, 1]` and `b = [1]` the second round reads position 1 of the one-digit vector
`other.value`. -/
theorem C22_bitwise_or :
    (∀ (W : Nat) (a b : List Nat), WF W a → WF W b → Normalised a → Normalised b →
      op_or_defined a b →
        WF W (op_or a b) ∧ Normalised (op_or a b) ∧
        value W (op_or a b) = value W a ||| value W b ∧
        (op_or a b).length = max a.length b.length) ∧
    (∀ a b : List Nat, op_or_defined a b ↔ a.length ≤ b.length) ∧
    (WF 32 [1, 1] ∧ Normalised [1, 1] ∧ WF 32 [1] ∧ Normalised [1] ∧
      op_or_windows [1, 1] [1] = ([1, 1], [1, 1], [1]) ∧
      bitwise_leaves_window [1, 1] [1, 1] [1] = true ∧ ¬ op_or_defined [1, 1] [1]) := by
  refine ⟨fun W a b ha hb na nb _ => ?_, op_or_defined_iff, by decide⟩
  obtain ⟨h1, h2, h3⟩ := op_or_assign_spec ha hb
  exact ⟨h1, normalised_op_or ha hb na nb, h2, h3⟩

/-- C22, at an instance: `[10, 6] | [12, 10, 3]` with 8-bit digits. -/
theorem C22_bitwise_or_witness :
    (WF 8 (op_or [10, 6] [12, 10, 3]) ∧ Normalised (op_or [10, 6] [12, 10, 3]) ∧
      value 8 (op_or [10, 6] [12, 10, 3]) = value 8 [10, 6] ||| value 8 [12, 10, 3] ∧
      (op_or [10, 6] [12, 10, 3]).length =
        max ([10, 6] : List Nat).length ([12, 10, 3] : List Nat).length) ∧
    op_or [10, 6] [12, 10, 3] = [14, 14, 3] :=
  ⟨C22_bitwise_or.1 8 [10, 6] [12, 10, 3] (by decide) (by decide) (by decide) (by decide)
    (by decide), by decide⟩

/-- C28 (refuted on the code): the windows `(out, lhs, rhs)` that `operator&=` passes to
`bitwise_and` are `(value, other.value, value)`, and they have equal lengths exactly when
`b` is not longer than `a`; those that `operator|=` passes to `bitwise_or` are
`(value, value, other.value)`, and they have equal lengths exactly when `a` is not longer
than `b`.  In the other cases the loop of the primitive, which runs over `lhs`, leaves a
window: `[1] &= [1, 1]` passes windows of lengths 1, 2, 1, and `[1, 1] |= [1]` passes
windows of lengths 2, 2, 1. -/
theorem C28_bitwise_windows :
    (∀ a b : List Nat,
      ((op_and_windows a b).1.length = (op_and_windows a b).2.1.length ∧
        (op_and_windows a b).2.1.length = (op_and_windows a b).2.2.length ↔
          b.length ≤ a.length) ∧
      (bitwise_leaves_window (op_and_windows a b).1 (op_and_windows a b).2.1
        (op_and_windows a b).2.2 = true ↔ a.length < b.length)) ∧
    (∀ a b : List Nat,
      ((op_or_windows a b).1.length = (op_or_windows a b).2.1.length ∧
        (op_or_windows a b).2.1.length = (op_or_windows a b).2.2.length ↔
          a.length ≤ b.length) ∧
      (bitwise_leaves_window (op_or_windows a b).1 (op_or_windows a b).2.1
        (op_or_windows a b).2.2 = true ↔ b.length < a.length)) ∧
    (op_and_windows [1] [1, 1] = ([1], [1, 1], [1]) ∧
      bitwise_leaves_window [1] [1, 1] [1] = true) ∧
    (op_or_windows [1, 1] [1] = ([1, 1], [1, 1], [1]) ∧
      bitwise_leaves_window [1, 1] [1, 1] [1] = true) := by
  refine ⟨fun a b => ⟨?_, ?_⟩, fun a b => ⟨?_, ?_⟩, by decide, by decide⟩
  · unfold op_and_windows
    by_cases h : a.length > b.length
    · rw [if_pos h]; simp only [length_resize]
      exact ⟨fun _ => by omega, fun _ => ⟨trivial, trivial⟩⟩
    · rw [if_neg h]; dsimp only; omega
  · have := op_and_defined_iff a b
    unfold op_and_defined at this
    rw [← Bool.not_eq_false, this]
    omega
  · unfold op_or_windows
    by_cases h : a.length < b.length
    · rw [if_pos h]; simp only [length_resize]
      exact ⟨fun _ => by omega, fun _ => ⟨trivial, trivial⟩⟩
    · rw [if_neg h]; dsimp only; omega
  · have := op_or_defined_iff a b
    unfold op_or_defined at this
    rw [← Bool.not_eq_false, this]
    omega

/-- C29 (refuted on the code): for the digit widths 8, 16, 32, 64 and a shift count `n`,
`operator<<=` and `operator>>=` call `lshift` and `rshift` with `bits = n mod W`, and for
every digit of the window these shift by `W - bits` and by `bits`.  Both amounts are
below `W` exactly when `n` is not a multiple of `W`; for a multiple of `W` the digits are
shifted by `W - 0 = W`, their full width.  For 32- and 64-bit digits that shift is
undefined, as in `num_t<uint32_t>(1) << 32` and `num_t<uint32_t>(2^32) >> 32`. -/
theorem C29_shift_amounts :
    (∀ W n : Nat, W ∈ [8, 16, 32, 64] →
      shiftAmounts W (n &&& (2 ^ bitlog W - 1)) = [W - n % W, n % W]) ∧
    (∀ W n : Nat, W ∈ [8, 16, 32, 64] →
      ((∀ s ∈ shiftAmounts W (n &&& (2 ^ bitlog W - 1)), s < W) ↔ n % W ≠ 0)) ∧
    (∀ (W : Nat) (v : List Nat) (n : Nat), W ∈ [8, 16, 32, 64] →
      (op_shl_defined W v n ↔ v = [] ∨ W < 32 ∨ n % W ≠ 0) ∧
      (op_shr_defined W v n ↔ v.length ≤ n / W ∨ W < 32 ∨ n % W ≠ 0)) ∧
    (shiftAmounts 32 (32 &&& (2 ^ bitlog 32 - 1)) = [32, 0] ∧ ¬ ShiftDefined 32 32 ∧
      ¬ op_shl_defined 32 [1] 32 ∧ ¬ op_shr_defined 32 [0, 1] 32 ∧
      shiftAmounts 64 (0 &&& (2 ^ bitlog 64 - 1)) = [64, 0] ∧ ¬ ShiftDefined 64 64 ∧
      ¬ op_shl_defined 64 [1] 0) := by
  have key : ∀ W n : Nat, W ∈ [8, 16, 32, 64] →
      shiftAmounts W (n &&& (2 ^ bitlog W - 1)) = [W - n % W, n % W] := by
    intro W n hW
    rw [Nat.and_pow_two_sub_one_eq_mod, bitlog_spec (width_cases hW)]
    rfl
  refine ⟨key, fun W n hW => ?_, fun W v n hW => ⟨windowShiftDefined_iff hW v n, ?_⟩, by decide⟩
  · rw [key W n hW]
    have := Nat.mod_lt n (width_pos hW)
    simp only [List.mem_cons, List.mem_singleton, List.not_mem_nil, or_false, forall_eq_or_imp,
      forall_eq]
    omega
  · have hb := bitlog_spec (width_cases hW)
    unfold op_shr_defined
    rw [windowShiftDefined_iff hW, hb, List.drop_eq_nil_iff]
    constructor
    · rintro (h | h | h)
      · exact Or.inl h
      · exact Or.inl h
      · exact Or.inr h
    · rintro (h | h)
      · exact Or.inl h
      · exact Or.inr (Or.inr h)

/-- C29, at an instance: 32-bit digits and the shift count 100, which leaves the
amounts `28` and `4`. -/
theorem C29_shift_amounts_witness :
    shiftAmounts 32 (100 &&& (2 ^ bitlog 32 - 1)) = [32 - 100 % 32, 100 % 32] ∧
    ((∀ s ∈ shiftAmounts 32 (100 &&& (2 ^ bitlog 32 - 1)), s < 32) ↔ 100 % 32 ≠ 0) ∧
    100 % 32 = 4 :=
  ⟨C29_shift_amounts.1 32 100 (by decide), C29_shift_amounts.2.1 32 100 (by decide),
    by decide⟩

/-- C25 refuted as stated: with 32-bit digits, `add(out, lhs, rhs)` on a two-digit `out`
with `lhs = [4294967295]` and `rhs = [1]` returns `true`, although the sum `2^32` can be
represented in the two digits of `out`; and on `out = [5, 7]` with `lhs = [1]`,
`rhs = [1]` it returns `false` and leaves `out = [2, 7]`, whose value is not `2`: the
plain variant neither stores the carry nor clears the digits of `out` beyond `|lhs|`. -/
theorem C25_plain_add_counterexample :
    (([1] : List Nat).length ≤ ([4294967295] : List Nat).length ∧
      ([4294967295] : List Nat).length ≤ ([0, 0] : List Nat).length ∧
      WF 32 [0, 0] ∧ WF 32 [4294967295] ∧ WF 32 [1] ∧
      add 32 false [0, 0] [4294967295] [1] = ([0, 0], true) ∧
      value 32 [4294967295] + value 32 [1] < base 32 ^ ([0, 0] : List Nat).length ∧
      ¬ ((add 32 false [0, 0] [4294967295] [1]).2 = true ↔
        base 32 ^ ([0, 0] : List Nat).length ≤ value 32 [4294967295] + value 32 [1])) ∧
    (WF 32 [5, 7] ∧ add 32 false [5, 7] [1] [1] = ([2, 7], false) ∧
      value 32 (add 32 false [5, 7] [1] [1]).1 ≠ value 32 [1] + value 32 [1]) := by
  decide

/-- C25 as amended: for all digit windows with `|lhs| ≥ |rhs|` and `|out| ≥ |lhs|`, the
plain `add(out, lhs, rhs)` returns `true` if and only if the sum `lhs + rhs` cannot be
represented in `|lhs|` digits; it leaves `out` at its length, writes the sum modulo
`2^(W*|lhs|)` into the first `|lhs|` digits of `out` and leaves the other digits of `out`
as they were; when it returns `false` those first `|lhs|` digits hold the value
`lhs + rhs`, and so does `out` when `|out| = |lhs|`. -/
theorem C25_plain_add (W : Nat) (out lhs rhs : List Nat) (hl : WF W lhs) (hr : WF W rhs)
    (hlen : rhs.length ≤ lhs.length) (hout : lhs.length ≤ out.length) :
    ((add W false out lhs rhs).2 = true ↔
      base W ^ lhs.length ≤ value W lhs + value W rhs) ∧
    (add W false out lhs rhs).1.length = out.length ∧
    WF W ((add W false out lhs rhs).1.take lhs.length) ∧
    value W ((add W false out lhs rhs).1.take lhs.length) =
      (value W lhs + value W rhs) % base W ^ lhs.length ∧
    (add W false out lhs rhs).1.drop lhs.length = out.drop lhs.length ∧
    ((add W false out lhs rhs).2 = false →
      value W ((add W false out lhs rhs).1.take lhs.length) = value W lhs + value W rhs) ∧
    ((add W false out lhs rhs).2 = false → out.length = lhs.length →
      value W (add W false out lhs rhs).1 = value W lhs + value W rhs) := by
  obtain ⟨h1, h2, h3, h4, h5⟩ := add_plain_spec hl hr hlen hout
  have h6 : (add W false out lhs rhs).2 = false →
      value W ((add W false out lhs rhs).1.take lhs.length) = value W lhs + value W rhs := by
    intro hf
    rw [h5]
    apply Nat.mod_eq_of_lt
    by_contra hc
    have := h4.2 (Nat.le_of_not_lt hc)
    rw [hf] at this
    exact Bool.noConfusion this
  refine ⟨h4, h1, h3, h5, h2, h6, fun hf he => ?_⟩
  have := h6 hf
  rwa [List.take_of_length_le (by omega)] at this

/-- C25 as amended, at an instance: with 32-bit digits, `add` on `out = [5, 7, 9]`,
`lhs = [4294967295, 3]`, `rhs = [2]` gives `out = [1, 4, 9]` and returns `false`. -/
theorem C25_plain_add_witness :
    (((add 32 false [5, 7, 9] [4294967295, 3] [2]).2 = true ↔
      base 32 ^ ([4294967295, 3] : List Nat).length ≤
        value 32 [4294967295, 3] + value 32 [2]) ∧
    (add 32 false [5, 7, 9] [4294967295, 3] [2]).1.length = ([5, 7, 9] : List Nat).length ∧
    WF 32 ((add 32 false [5, 7, 9] [4294967295, 3] [2]).1.take
      ([4294967295, 3] : List Nat).length) ∧
    value 32 ((add 32 false [5, 7, 9] [4294967295, 3] [2]).1.take
      ([4294967295, 3] : List Nat).length) =
      (value 32 [4294967295, 3] + value 32 [2]) % base 32 ^ ([4294967295, 3] : List Nat).length ∧
    (add 32 false [5, 7, 9] [4294967295, 3] [2]).1.drop ([4294967295, 3] : List Nat).length =
      ([5, 7, 9] : List Nat).drop ([4294967295, 3] : List Nat).length ∧
    ((add 32 false [5, 7, 9] [4294967295, 3] [2]).2 = false →
      value 32 ((add 32 false [5, 7, 9] [4294967295, 3] [2]).1.take
        ([4294967295, 3] : List Nat).length) = value 32 [4294967295, 3] + value 32 [2]) ∧
    ((add 32 false [5, 7, 9] [4294967295, 3] [2]).2 = false →
      ([5, 7, 9] : List Nat).length = ([4294967295, 3] : List Nat).length →
      value 32 (add 32 false [5, 7, 9] [4294967295, 3] [2]).1 =
        value 32 [4294967295, 3] + value 32 [2])) ∧
    add 32 false [5, 7, 9] [4294967295, 3] [2] = ([1, 4, 9], false) :=
  ⟨C25_plain_add 32 [5, 7, 9] [4294967295, 3] [2] (by decide) (by decide) (by decide)
    (by decide), by decide⟩

/-- C27: for every argument `n` (a vector of 64-bit digits) and every fuel above
`65 * |n|`, the loop of the Strassen `fibonacci(n)` ends, and the sign of `fib.e00` is then
`POS` or `ZERO`, never `NEG`; the integer `fib.e00` stands for is its magnitude, which is
what `fibonacci` converts and returns. -/
theorem C27_strassen_result_sign (n : List Nat) (fuel : Nat) (hn : WF 64 n)
    (hf : 65 * n.length < fuel) :
    ∃ m, MatmulStrassen.loop fuel n (MatmulStrassen.M2x2.ofInts 0 1 1 1)
        (MatmulStrassen.M2x2.ofInts 0 1 1 1) = some m ∧
      (m.e00.sign = MatmulStrassen.sign_t.POS ∨ m.e00.sign = MatmulStrassen.sign_t.ZERO) ∧
      m.e00.sign ≠ MatmulStrassen.sign_t.NEG ∧
      m.e00.denote = (value 32 m.e00.abs : ℤ) ∧
      MatmulStrassen.fibonacci fuel n = some (cast 32 64 m.e00.abs) := by
  obtain ⟨m, e1, e2, e3⟩ := MatmulStrassen.strassen_loop_sign hn hf
  refine ⟨m, e1, ?_, e3, ?_, ?_⟩
  · cases h : m.e00.sign
    · exact Or.inr rfl
    · exact Or.inl rfl
    · exact absurd h e3
  · have hv := e2.1.1.2.2
    unfold MatmulStrassen.Int.denote
    cases h : m.e00.sign
    · rw [hv h]; simp [value_nil]
    · rfl
    · exact absurd h e3
  · unfold MatmulStrassen.fibonacci
    rw [e1]
    rfl

/-- C27, at an instance: `n = 10` with fuel 100. -/
theorem C27_strassen_result_sign_witness :
    WF 64 [10] ∧ 65 * ([10] : List Nat).length < 100 ∧
    ∃ m, MatmulStrassen.loop 100 [10] (MatmulStrassen.M2x2.ofInts 0 1 1 1)
        (MatmulStrassen.M2x2.ofInts 0 1 1 1) = some m ∧
      (m.e00.sign = MatmulStrassen.sign_t.POS ∨ m.e00.sign = MatmulStrassen.sign_t.ZERO) ∧
      m.e00.sign ≠ MatmulStrassen.sign_t.NEG ∧
      m.e00.denote = (value 32 m.e00.abs : ℤ) ∧
      MatmulStrassen.fibonacci 100 [10] = some (cast 32 64 m.e00.abs) :=
  ⟨by decide, by decide, C27_strassen_result_sign [10] 100 (by decide) (by decide)⟩

/-- C26: for all 2x2 matrices `a` and `o` whose entries are signed wrappers (a normalised
magnitude of 32-bit digits, empty when the sign is `ZERO`), the entries of the Strassen
product of `matmul_strassen.cpp` (seven multiplications) stand for the same four integers
as the entries of the literal product with eight multiplications, namely those of the
integer matrix product; both products have valid entries again. -/
theorem C26_strassen_refines_literal (a o : MatmulStrassen.M2x2) (ha : a.Valid)
    (ho : o.Valid) :
    ((a.mul o).e00.denote = (a.mulLiteral o).e00.denote ∧
      (a.mul o).e01.denote = (a.mulLiteral o).e01.denote ∧
      (a.mul o).e10.denote = (a.mulLiteral o).e10.denote ∧
      (a.mul o).e11.denote = (a.mulLiteral o).e11.denote) ∧
    ((a.mul o).e00.denote = a.e00.denote * o.e00.denote + a.e01.denote * o.e10.denote ∧
      (a.mul o).e01.denote = a.e00.denote * o.e01.denote + a.e01.denote * o.e11.denote ∧
      (a.mul o).e10.denote = a.e10.denote * o.e00.denote + a.e11.denote * o.e10.denote ∧
      (a.mul o).e11.denote = a.e10.denote * o.e01.denote + a.e11.denote * o.e11.denote) ∧
    (a.mul o).Valid ∧ (a.mulLiteral o).Valid := by
  obtain ⟨v1, s1, s2, s3, s4⟩ := MatmulStrassen.M2x2.strassen_mul_spec ha ho
  obtain ⟨v2, l1, l2, l3, l4⟩ := MatmulStrassen.M2x2.mulLiteral_spec ha ho
  exact ⟨⟨by rw [s1, l1], by rw [s2, l2], by rw [s3, l3], by rw [s4, l4]⟩,
    ⟨s1, s2, s3, s4⟩, v1, v2⟩

/-- C26, at an instance: the matrices `[[3, -2], [0, 5]]` and `[[-1, 4], [7, -6]]`, whose
product is `[[-17, 24], [35, -30]]`. -/
theorem C26_strassen_refines_literal_witness :
    (((MatmulStrassen.M2x2.mk ⟨[3], MatmulStrassen.sign_t.POS⟩ ⟨[2], MatmulStrassen.sign_t.NEG⟩
        ⟨[], MatmulStrassen.sign_t.ZERO⟩ ⟨[5], MatmulStrassen.sign_t.POS⟩).mul
      (MatmulStrassen.M2x2.mk ⟨[1], MatmulStrassen.sign_t.NEG⟩ ⟨[4], MatmulStrassen.sign_t.POS⟩
        ⟨[7], MatmulStrassen.sign_t.POS⟩ ⟨[6], MatmulStrassen.sign_t.NEG⟩)).e00.denote =
      ((MatmulStrassen.M2x2.mk ⟨[3], MatmulStrassen.sign_t.POS⟩ ⟨[2], MatmulStrassen.sign_t.NEG⟩
        ⟨[], MatmulStrassen.sign_t.ZERO⟩ ⟨[5], MatmulStrassen.sign_t.POS⟩).mulLiteral
      (MatmulStrassen.M2x2.mk ⟨[1], MatmulStrassen.sign_t.NEG⟩ ⟨[4], MatmulStrassen.sign_t.POS⟩
        ⟨[7], MatmulStrassen.sign_t.POS⟩ ⟨[6], MatmulStrassen.sign_t.NEG⟩)).e00.denote) ∧
    (MatmulStrassen.M2x2.mk ⟨[3], MatmulStrassen.sign_t.POS⟩ ⟨[2], MatmulStrassen.sign_t.NEG⟩
        ⟨[], MatmulStrassen.sign_t.ZERO⟩ ⟨[5], MatmulStrassen.sign_t.POS⟩).mul
      (MatmulStrassen.M2x2.mk ⟨[1], MatmulStrassen.sign_t.NEG⟩ ⟨[4], MatmulStrassen.sign_t.POS⟩
        ⟨[7], MatmulStrassen.sign_t.POS⟩ ⟨[6], MatmulStrassen.sign_t.NEG⟩) =
      MatmulStrassen.M2x2.mk ⟨[17], MatmulStrassen.sign_t.NEG⟩ ⟨[24], MatmulStrassen.sign_t.POS⟩
        ⟨[35], MatmulStrassen.sign_t.POS⟩ ⟨[30], MatmulStrassen.sign_t.NEG⟩ ∧
    (MatmulStrassen.M2x2.mk ⟨[3], MatmulStrassen.sign_t.POS⟩ ⟨[2], MatmulStrassen.sign_t.NEG⟩
        ⟨[], MatmulStrassen.sign_t.ZERO⟩ ⟨[5], MatmulStrassen.sign_t.POS⟩).mulLiteral
      (MatmulStrassen.M2x2.mk ⟨[1], MatmulStrassen.sign_t.NEG⟩ ⟨[4], MatmulStrassen.sign_t.POS⟩
        ⟨[7], MatmulStrassen.sign_t.POS⟩ ⟨[6], MatmulStrassen.sign_t.NEG⟩) =
      MatmulStrassen.M2x2.mk ⟨[17], MatmulStrassen.sign_t.NEG⟩ ⟨[24], MatmulStrassen.sign_t.POS⟩
        ⟨[35], MatmulStrassen.sign_t.POS⟩ ⟨[30], MatmulStrassen.sign_t.NEG⟩ :=
  ⟨(C26_strassen_refines_literal _ _
      ⟨⟨by decide, by decide, by decide⟩, ⟨by decide, by decide, by decide⟩,
        ⟨by decide, by decide, by decide⟩, ⟨by decide, by decide, by decide⟩⟩
      ⟨⟨by decide, by decide, by decide⟩, ⟨by decide, by decide, by decide⟩,
        ⟨by decide, by decide, by decide⟩, ⟨by decide, by decide, by decide⟩⟩).1.1,
    by decide, by decide⟩

/-- C23 (defect in the code): the constructor `Int(num value, sign_t sign = POS)` writes
`sign = sign_t::ZERO` into its parameter, not into the member, so `Int(num(0))` has an
empty magnitude with sign `POS`: the entry `e00` of `M2x2(0, 1, 1, 1)` breaks the
invariant, unary minus turns it into an empty magnitude with sign `NEG`, and its product
with `Int(num(1))` is again an empty magnitude with sign `POS`.  The default constructor
satisfies the invariant, and unary minus, `+`, `-` and `*` preserve it: applied to
wrappers with normalised magnitudes that are empty exactly when the sign is `ZERO`, they
return such a wrapper.  The half "sign `ZERO` implies empty magnitude" holds for every
value built. -/
theorem C23_sign_invariant :
    (∀ x y : MatmulStrassen.Int, WF 32 x.abs → Normalised x.abs →
      WF 32 y.abs → Normalised y.abs →
      (x.abs = [] ↔ x.sign = MatmulStrassen.sign_t.ZERO) →
      (y.abs = [] ↔ y.sign = MatmulStrassen.sign_t.ZERO) →
        (x.neg.abs = [] ↔ x.neg.sign = MatmulStrassen.sign_t.ZERO) ∧
        ((x.add y).abs = [] ↔ (x.add y).sign = MatmulStrassen.sign_t.ZERO) ∧
        ((x.sub y).abs = [] ↔ (x.sub y).sign = MatmulStrassen.sign_t.ZERO) ∧
        ((x.mul y).abs = [] ↔ (x.mul y).sign = MatmulStrassen.sign_t.ZERO)) ∧
    (∀ x y : MatmulStrassen.Int, x.Valid → y.Valid →
      x.neg.Valid ∧ (x.add y).Valid ∧ (x.sub y).Valid ∧ (x.mul y).Valid) ∧
    (MatmulStrassen.Int.zero.abs = [] ∧
      MatmulStrassen.Int.zero.sign = MatmulStrassen.sign_t.ZERO) ∧
    (MatmulStrassen.M2x2.ofInts 0 1 1 1).Valid ∧
    (MatmulStrassen.Int.ofNum (ofInt 32 32 0) MatmulStrassen.sign_t.POS =
        ⟨[], MatmulStrassen.sign_t.POS⟩ ∧
      (MatmulStrassen.M2x2.ofInts 0 1 1 1).e00 = ⟨[], MatmulStrassen.sign_t.POS⟩ ∧
      ¬ ((MatmulStrassen.M2x2.ofInts 0 1 1 1).e00.abs = [] ↔
        (MatmulStrassen.M2x2.ofInts 0 1 1 1).e00.sign = MatmulStrassen.sign_t.ZERO) ∧
      (MatmulStrassen.M2x2.ofInts 0 1 1 1).e00.neg = ⟨[], MatmulStrassen.sign_t.NEG⟩ ∧
      (MatmulStrassen.M2x2.ofInts 0 1 1 1).e00.mul (MatmulStrassen.M2x2.ofInts 0 1 1 1).e01 =
        ⟨[], MatmulStrassen.sign_t.POS⟩) := by
  refine ⟨fun x y wx nx wy ny sx sy => ?_, fun x y hx hy => ?_, ⟨rfl, rfl⟩,
    MatmulStrassen.M2x2.strassen_isFibMat_base.1, by decide⟩
  · have hx : x.Valid := ⟨wx, nx, sx.2⟩
    have hy : y.Valid := ⟨wy, ny, sy.2⟩
    have hn := MatmulStrassen.Int.flip_sign_spec hy
    have sn := MatmulStrassen.Int.flip_sign_strict sy.1
    exact ⟨⟨MatmulStrassen.Int.flip_sign_strict sx.1,
        (MatmulStrassen.Int.flip_sign_spec hx).1.2.2⟩,
      ⟨MatmulStrassen.Int.add_assign_strict hx hy sx.1 sy.1,
        (MatmulStrassen.Int.add_spec hx hy).1.2.2⟩,
      ⟨MatmulStrassen.Int.add_assign_strict hx hn.1 sx.1 sn,
        (MatmulStrassen.Int.sub_spec hx hy).1.2.2⟩,
      ⟨MatmulStrassen.Int.mul_strict hx hy sx.1 sy.1,
        (MatmulStrassen.Int.mul_spec hx hy).1.2.2⟩⟩
  · exact ⟨(MatmulStrassen.Int.flip_sign_spec hx).1, (MatmulStrassen.Int.add_spec hx hy).1,
      (MatmulStrassen.Int.sub_spec hx hy).1, (MatmulStrassen.Int.mul_spec hx hy).1⟩

/-- C23, at an instance: the operations on `+3` and `-3`. -/
theorem C23_sign_invariant_witness :
    ((MatmulStrassen.Int.neg ⟨[3], MatmulStrassen.sign_t.POS⟩).abs = [] ↔
      (MatmulStrassen.Int.neg ⟨[3], MatmulStrassen.sign_t.POS⟩).sign =
        MatmulStrassen.sign_t.ZERO) ∧
    ((MatmulStrassen.Int.add ⟨[3], MatmulStrassen.sign_t.POS⟩
        ⟨[3], MatmulStrassen.sign_t.NEG⟩).abs = [] ↔
      (MatmulStrassen.Int.add ⟨[3], MatmulStrassen.sign_t.POS⟩
        ⟨[3], MatmulStrassen.sign_t.NEG⟩).sign = MatmulStrassen.sign_t.ZERO) ∧
    ((MatmulStrassen.Int.sub ⟨[3], MatmulStrassen.sign_t.POS⟩
        ⟨[3], MatmulStrassen.sign_t.NEG⟩).abs = [] ↔
      (MatmulStrassen.Int.sub ⟨[3], MatmulStrassen.sign_t.POS⟩
        ⟨[3], MatmulStrassen.sign_t.NEG⟩).sign = MatmulStrassen.sign_t.ZERO) ∧
    ((MatmulStrassen.Int.mul ⟨[3], MatmulStrassen.sign_t.POS⟩
        ⟨[3], MatmulStrassen.sign_t.NEG⟩).abs = [] ↔
      (MatmulStrassen.Int.mul ⟨[3], MatmulStrassen.sign_t.POS⟩
        ⟨[3], MatmulStrassen.sign_t.NEG⟩).sign = MatmulStrassen.sign_t.ZERO) :=
  C23_sign_invariant.1 ⟨[3], MatmulStrassen.sign_t.POS⟩ ⟨[3], MatmulStrassen.sign_t.NEG⟩
    (by decide) (by decide) (by decide) (by decide) (by decide) (by decide)

/-- C30 (refuted on the code): `mul_calls` runs `mul` and records the windows
`(out, lhs, rhs)` of the two `sub` calls and of the final `add` of every frame.  The
`sub` calls are `sub(z3, z3, z2)` and `sub(z3, z3, z0)`; the final `add` is
`add(z0z2_shifted, z0z2_shifted, z3)` when `z3` is not longer than `z0z2_shifted`, and
`add(z0z2_shifted, z3, z0z2_shifted)` otherwise, a call whose `out` is shorter than its
`lhs`.  For the 32-bit operands `[4294967295, 1]` and `[1, 1]` the product buffer has 6
digits and the final `add` of the outermost frame has `out` = positions 1 to 5 of the
buffer and `lhs = z3` with 6 digits: the last digit of `z3` is written at position 6,
behind the buffer.  For `[3, 4, 5]` and `[5, 6, 7]` the run ends with the right product,
and the frame that computes `z0` in positions 0 to 3 of the buffer calls `add` with
`out` = positions 1 to 3 and `lhs = z3` with 4 digits: one digit is written behind the
frame's window, at position 4.  For `[3, 4]` and `[5, 6]` all three calls have descending
lengths. -/
theorem C30_karatsuba_call_windows :
    (∀ (W fuel : Nat) (cleanup : Bool) (out lhs rhs scratch : Karatsuba.Win)
      (m : Karatsuba.Mem),
      (Karatsuba.mul_calls W fuel cleanup out lhs rhs scratch m).2 =
        Karatsuba.mul W fuel cleanup out lhs rhs scratch m) ∧
    ((∀ fuel, Karatsuba.mul_calls 32 (fuel + 2) false ⟨Karatsuba.Buf.out, 0, 6⟩
        ⟨Karatsuba.Buf.lhs, 0, 2⟩ ⟨Karatsuba.Buf.rhs, 0, 2⟩ ⟨Karatsuba.Buf.scratch, 0, 48⟩
        ⟨[4294967295, 1], [1, 1], List.replicate 6 0, List.replicate 48 0⟩ =
      ([⟨⟨Karatsuba.Buf.scratch, 3, 9⟩, ⟨Karatsuba.Buf.scratch, 3, 9⟩, ⟨Karatsuba.Buf.out, 2, 6⟩⟩,
        ⟨⟨Karatsuba.Buf.scratch, 3, 9⟩, ⟨Karatsuba.Buf.scratch, 3, 9⟩, ⟨Karatsuba.Buf.out, 0, 2⟩⟩,
        ⟨⟨Karatsuba.Buf.out, 1, 6⟩, ⟨Karatsuba.Buf.scratch, 3, 9⟩, ⟨Karatsuba.Buf.out, 1, 6⟩⟩],
        Karatsuba.Res.fault)) ∧
      ¬ Karatsuba.Call.Descends
        ⟨⟨Karatsuba.Buf.out, 1, 6⟩, ⟨Karatsuba.Buf.scratch, 3, 9⟩, ⟨Karatsuba.Buf.out, 1, 6⟩⟩ ∧
      (Karatsuba.Win.mk Karatsuba.Buf.out 1 6).size = 5 ∧
      (Karatsuba.Win.mk Karatsuba.Buf.scratch 3 9).size = 6) ∧
    ((∀ fuel, (Karatsuba.mul_calls 32 (fuel + 3) false ⟨Karatsuba.Buf.out, 0, 8⟩
        ⟨Karatsuba.Buf.lhs, 0, 3⟩ ⟨Karatsuba.Buf.rhs, 0, 3⟩ ⟨Karatsuba.Buf.scratch, 0, 64⟩
        ⟨[3, 4, 5], [5, 6, 7], List.replicate 8 0, List.replicate 64 0⟩).1 =
      [⟨⟨Karatsuba.Buf.scratch, 12, 16⟩, ⟨Karatsuba.Buf.scratch, 12, 16⟩,
          ⟨Karatsuba.Buf.scratch, 6, 10⟩⟩,
        ⟨⟨Karatsuba.Buf.scratch, 12, 16⟩, ⟨Karatsuba.Buf.scratch, 12, 16⟩,
          ⟨Karatsuba.Buf.scratch, 4, 6⟩⟩,
        ⟨⟨Karatsuba.Buf.scratch, 5, 10⟩, ⟨Karatsuba.Buf.scratch, 5, 10⟩,
          ⟨Karatsuba.Buf.scratch, 12, 16⟩⟩,
        ⟨⟨Karatsuba.Buf.scratch, 12, 16⟩, ⟨Karatsuba.Buf.scratch, 12, 16⟩,
          ⟨Karatsuba.Buf.out, 2, 4⟩⟩,
        ⟨⟨Karatsuba.Buf.scratch, 12, 16⟩, ⟨Karatsuba.Buf.scratch, 12, 16⟩,
          ⟨Karatsuba.Buf.out, 0, 2⟩⟩,
        ⟨⟨Karatsuba.Buf.out, 1, 4⟩, ⟨Karatsuba.Buf.scratch, 12, 16⟩, ⟨Karatsuba.Buf.out, 1, 4⟩⟩,
        ⟨⟨Karatsuba.Buf.scratch, 4, 10⟩, ⟨Karatsuba.Buf.scratch, 4, 10⟩,
          ⟨Karatsuba.Buf.out, 4, 8⟩⟩,
        ⟨⟨Karatsuba.Buf.scratch, 4, 10⟩, ⟨Karatsuba.Buf.scratch, 4, 10⟩,
          ⟨Karatsuba.Buf.out, 0, 4⟩⟩,
        ⟨⟨Karatsuba.Buf.out, 2, 8⟩, ⟨Karatsuba.Buf.out, 2, 8⟩,
          ⟨Karatsuba.Buf.scratch, 4, 10⟩⟩]) ∧
      (∀ fuel, (Karatsuba.mul_calls 32 (fuel + 3) false ⟨Karatsuba.Buf.out, 0, 8⟩
        ⟨Karatsuba.Buf.lhs, 0, 3⟩ ⟨Karatsuba.Buf.rhs, 0, 3⟩ ⟨Karatsuba.Buf.scratch, 0, 64⟩
        ⟨[3, 4, 5], [5, 6, 7], List.replicate 8 0, List.replicate 64 0⟩).2.bind
          (fun m => Karatsuba.Res.ok m.out) = Karatsuba.Res.ok [15, 38, 70, 58, 35, 0, 0, 0]) ∧
      ¬ Karatsuba.Call.Descends
        ⟨⟨Karatsuba.Buf.out, 1, 4⟩, ⟨Karatsuba.Buf.scratch, 12, 16⟩, ⟨Karatsuba.Buf.out, 1, 4⟩⟩ ∧
      (Karatsuba.Win.mk Karatsuba.Buf.out 1 4).size = 3 ∧
      (Karatsuba.Win.mk Karatsuba.Buf.scratch 12 16).size = 4) ∧
    (∀ fuel, Karatsuba.Res.bind (Karatsuba.mul_calls 32 (fuel + 2) false
        ⟨Karatsuba.Buf.out, 0, 6⟩ ⟨Karatsuba.Buf.lhs, 0, 2⟩ ⟨Karatsuba.Buf.rhs, 0, 2⟩
        ⟨Karatsuba.Buf.scratch, 0, 48⟩
        ⟨[3, 4], [5, 6], List.replicate 6 0, List.replicate 48 0⟩).2
          (fun m => Karatsuba.Res.ok m.out) = Karatsuba.Res.ok [15, 38, 24, 0, 0, 0] ∧
      (Karatsuba.mul_calls 32 (fuel + 2) false
        ⟨Karatsuba.Buf.out, 0, 6⟩ ⟨Karatsuba.Buf.lhs, 0, 2⟩ ⟨Karatsuba.Buf.rhs, 0, 2⟩
        ⟨Karatsuba.Buf.scratch, 0, 48⟩
        ⟨[3, 4], [5, 6], List.replicate 6 0, List.replicate 48 0⟩).1 =
      [⟨⟨Karatsuba.Buf.scratch, 2, 6⟩, ⟨Karatsuba.Buf.scratch, 2, 6⟩, ⟨Karatsuba.Buf.out, 2, 6⟩⟩,
        ⟨⟨Karatsuba.Buf.scratch, 2, 6⟩, ⟨Karatsuba.Buf.scratch, 2, 6⟩, ⟨Karatsuba.Buf.out, 0, 2⟩⟩,
        ⟨⟨Karatsuba.Buf.out, 1, 6⟩, ⟨Karatsuba.Buf.out, 1, 6⟩,
          ⟨Karatsuba.Buf.scratch, 2, 6⟩⟩]) ∧
    (Karatsuba.Call.Descends
        ⟨⟨Karatsuba.Buf.scratch, 2, 6⟩, ⟨Karatsuba.Buf.scratch, 2, 6⟩, ⟨Karatsuba.Buf.out, 2, 6⟩⟩ ∧
      Karatsuba.Call.Descends
        ⟨⟨Karatsuba.Buf.scratch, 2, 6⟩, ⟨Karatsuba.Buf.scratch, 2, 6⟩, ⟨Karatsuba.Buf.out, 0, 2⟩⟩ ∧
      Karatsuba.Call.Descends
        ⟨⟨Karatsuba.Buf.out, 1, 6⟩, ⟨Karatsuba.Buf.out, 1, 6⟩, ⟨Karatsuba.Buf.scratch, 2, 6⟩⟩) := by
  exact ⟨Karatsuba.mul_calls_snd, ⟨fun fuel => rfl, by decide, rfl, rfl⟩,
    ⟨fun fuel => rfl, fun fuel => rfl, by decide, rfl, rfl⟩, fun fuel => ⟨rfl, rfl⟩,
    by decide⟩

/-- C33: for every vector `x` of 64-bit values below `2^63`, `fold(x)` is a vector of
bytes with at least `|x|` elements that stands for the same number: the sum of
`fold(x)[i] * 256^i` equals the sum of `x[i] * 256^i`. -/
theorem C33_fold_value (x : List Nat) (hx : ∀ xi ∈ x, xi < 2 ^ 63) :
    x.length ≤ (Fft.fold x).length ∧ (∀ b ∈ Fft.fold x, b < 256) ∧
    Nat.ofDigits 256 (Fft.fold x) = Nat.ofDigits 256 x :=
  Fft.fold_spec x hx

/-- C33, at an instance: `fold` of `[130050, 3, 2^63 - 1]`. -/
theorem C33_fold_value_witness :
    (([130050, 3, 2 ^ 63 - 1] : List Nat).length ≤
        (Fft.fold [130050, 3, 2 ^ 63 - 1]).length ∧
      (∀ b ∈ Fft.fold [130050, 3, 2 ^ 63 - 1], b < 256) ∧
      Nat.ofDigits 256 (Fft.fold [130050, 3, 2 ^ 63 - 1]) =
        Nat.ofDigits 256 [130050, 3, 2 ^ 63 - 1]) ∧
    Fft.fold [130050, 3, 2 ^ 63 - 1] = [2, 255, 0, 0, 0, 0, 0, 0, 0, 128] :=
  ⟨C33_fold_value [130050, 3, 2 ^ 63 - 1] (by decide), by decide⟩

/-- C34: for every `N = 2^k` that fits a `size_t` (`k < 64`) and every vector `x` with
`|x| ≤ N`, `bit_reverse_shuffle(x, N)` has `N` elements, holds (the conversion of) `x[i]`
at index `rev_k(i)` for every `i < |x|`, and zero at every other index; `rev_k` reverses
the `k` low bits and is an involution on the indices below `N`.  When `|x| = N` the
shuffle is a rearrangement of `x`, and shuffling twice gives back `x`. -/
theorem C34_bit_reverse_shuffle {α β : Type} (conv : α → β) (zero : β) (zero' : α) (k : Nat)
    (hk : k < 64) (x : List α) (hx : x.length ≤ 2 ^ k) :
    (Fft.bit_reverse_shuffle conv zero x (2 ^ k)).length = 2 ^ k ∧
    (∀ i, i < x.length →
      (Fft.bit_reverse_shuffle conv zero x (2 ^ k))[Fft.bitrev k i]? = (x[i]?).map conv) ∧
    (∀ j, j < 2 ^ k → (∀ i, i < x.length → Fft.bitrev k i ≠ j) →
      (Fft.bit_reverse_shuffle conv zero x (2 ^ k))[j]? = some zero) ∧
    (∀ i, i < 2 ^ k → Fft.bitrev k i < 2 ^ k ∧ Fft.bitrev k (Fft.bitrev k i) = i ∧
      ∀ j, j < k → (Fft.bitrev k i).testBit j = i.testBit (k - 1 - j)) ∧
    (x.length = 2 ^ k →
      List.Perm (Fft.bit_reverse_shuffle id zero' x (2 ^ k)) x ∧
      Fft.bit_reverse_shuffle id zero'
        (Fft.bit_reverse_shuffle id zero' x (2 ^ k)) (2 ^ k) = x) := by
  obtain ⟨h1, h2⟩ := Fft.bit_reverse_shuffle_spec conv zero hk x hx
  refine ⟨h1, fun i hi => ?_, fun j hj hne => ?_, fun i hi => ?_, fun he => ?_⟩
  · have hi2 : i < 2 ^ k := by omega
    rw [h2 _ (Fft.bitrev_lt k i), Fft.bitrev_bitrev k i hi2, List.getElem?_eq_getElem hi]
    rfl
  · rw [h2 j hj]
    have : ¬ Fft.bitrev k j < x.length := fun h =>
      hne (Fft.bitrev k j) h (Fft.bitrev_bitrev k j hj)
    rw [List.getElem?_eq_none (Nat.le_of_not_lt this)]
    rfl
  · exact ⟨Fft.bitrev_lt k i, Fft.bitrev_bitrev k i hi, fun j hj => Fft.bitrev_testBit k i j hj⟩
  · exact ⟨Fft.bit_reverse_shuffle_perm zero' hk x he, Fft.bit_reverse_shuffle_twice zero' hk x he⟩

/-- C34, at an instance: five elements shuffled into `8 = 2^3` places. -/
theorem C34_bit_reverse_shuffle_witness :
    (Fft.bit_reverse_shuffle (fun n : Nat => n + 100) 0 [1, 2, 3, 4, 5] (2 ^ 3)).length = 2 ^ 3 ∧
    Fft.bit_reverse_shuffle (fun n : Nat => n + 100) 0 [1, 2, 3, 4, 5] 8 =
      [101, 105, 103, 0, 102, 0, 104, 0] ∧
    Fft.bit_reverse_shuffle id 0 [10, 11, 12, 13, 14, 15, 16, 17] 8 =
      [10, 14, 12, 16, 11, 15, 13, 17] :=
  ⟨(C34_bit_reverse_shuffle (fun n : Nat => n + 100) 0 0 3 (by decide) [1, 2, 3, 4, 5]
    (by decide)).1, by decide, by decide⟩

/-- C35 (refuted on the code): `pow2ceil(x)` returns twice the highest set bit of `x`.
For `1 ≤ x < 2^63` that is the least power of two strictly greater than `x`; it is the
least power of two greater than or equal to `x` when `x` is not a power of two, but a
power of two is doubled: `pow2ceil(1) = 2`, `pow2ceil(2) = 4`, `pow2ceil(4) = 8`, and
operands of one digit get the transform length `pow2ceil(2) = 4`.  From `2^63` on the
shift `y << 1` wraps: `pow2ceil(2^63) = 0`. -/
theorem C35_pow2ceil :
    (∀ x k : Nat, 2 ^ k ≤ x → x < 2 ^ (k + 1) → k < 63 → Fft.pow2ceil x = 2 ^ (k + 1)) ∧
    (∀ x : Nat, 0 < x → x < 2 ^ 63 →
      ∃ k, Fft.pow2ceil x = 2 ^ k ∧ x < 2 ^ k ∧ 2 ^ k ≤ 2 * x ∧
        (∀ j, x < 2 ^ j → 2 ^ k ≤ 2 ^ j) ∧
        ((∀ j, x ≠ 2 ^ j) → ∀ j, x ≤ 2 ^ j → 2 ^ k ≤ 2 ^ j)) ∧
    (∀ j : Nat, j < 63 → Fft.pow2ceil (2 ^ j) = 2 ^ (j + 1)) ∧
    (Fft.pow2ceil 1 = 2 ∧ Fft.pow2ceil 2 = 4 ∧ Fft.pow2ceil 4 = 8 ∧ Fft.pow2ceil 3 = 4 ∧
      Fft.transform_size 1 1 = 4 ∧ Fft.pow2ceil (2 ^ 63) = 0) := by
  refine ⟨fun x k h1 h2 hk => Fft.pow2ceil_spec h1 h2 hk, fun x hx hlt => ?_,
    fun j hj => Fft.pow2ceil_spec (Nat.le_refl _) (Nat.pow_lt_pow_right (by decide) (by omega)) hj,
    by decide⟩
  obtain ⟨k, h1, h2⟩ := Fft.exists_high_bit hx
  have hk : k < 63 := by
    by_contra hc
    have : 2 ^ 63 ≤ 2 ^ k := Nat.pow_le_pow_right (by decide) (by omega)
    omega
  have hmono : ∀ j, x < 2 ^ j → 2 ^ (k + 1) ≤ 2 ^ j := by
    intro j hj
    apply Nat.pow_le_pow_right (by decide)
    by_contra hc
    have : 2 ^ j ≤ 2 ^ k := Nat.pow_le_pow_right (by decide) (by omega)
    omega
  refine ⟨k + 1, Fft.pow2ceil_spec h1 h2 hk, h2, by rw [pow_succ]; omega, hmono, ?_⟩
  intro hne j hj
  exact hmono j (Nat.lt_of_le_of_ne hj (hne j))

/-- C35, at an instance: `pow2ceil(5) = 8`, the highest set bit of `5` being `4`. -/
theorem C35_pow2ceil_witness : Fft.pow2ceil 5 = 2 ^ (2 + 1) :=
  C35_pow2ceil.1 5 2 (by decide) (by decide) (by decide)

/-- C38: for operands `lhs`, `rhs` of the FFT `operator*` that are not both empty, with
`m = max(|lhs|, |rhs|)` below `2^62` (so that `m << 1` and the result of `pow2ceil` fit a
`size_t`), the transform length `size = pow2ceil(m << 1)` is a power of two with
`2 * m < size ≤ 4 * m`, hence `|lhs| + |rhs| ≤ size`.  When both operands are empty,
`size` is `0`, and `operator*` returns the empty vector whatever the complex arithmetic
does. -/
theorem C38_transform_length (lhs rhs : List Nat)
    (h0 : 0 < max lhs.length rhs.length) (hm : max lhs.length rhs.length < 2 ^ 62) :
    (∃ k, Fft.transform_size lhs.length rhs.length = 2 ^ k ∧
      2 * max lhs.length rhs.length < 2 ^ k ∧ 2 ^ k ≤ 4 * max lhs.length rhs.length ∧
      lhs.length + rhs.length ≤ 2 ^ k) ∧
    Fft.transform_size 0 0 = 0 ∧
    (∀ (C : Type) (ops : Fft.ComplexOps C), Fft.op_mul ops [] [] = []) := by
  refine ⟨?_, by decide, fun C ops => rfl⟩
  obtain ⟨k, h1, h2⟩ := Fft.exists_high_bit (x := max lhs.length rhs.length * 2) (by omega)
  have hk : k < 63 := by
    by_contra hc
    have : 2 ^ 63 ≤ 2 ^ k := Nat.pow_le_pow_right (by decide) (by omega)
    omega
  have e : (max lhs.length rhs.length * 2) % 2 ^ 64 = max lhs.length rhs.length * 2 :=
    Nat.mod_eq_of_lt (by omega)
  refine ⟨k + 1, ?_, by omega, by rw [pow_succ]; omega, ?_⟩
  · unfold Fft.transform_size
    rw [e]
    exact Fft.pow2ceil_spec h1 h2 hk
  · have h3 := Nat.le_max_left lhs.length rhs.length
    have h4 := Nat.le_max_right lhs.length rhs.length
    omega

/-- C38, at an instance: operands of 3 and 5 digits get the transform length 16. -/
theorem C38_transform_length_witness :
    (∃ k, Fft.transform_size ([1, 2, 3] : List Nat).length ([1, 2, 3, 4, 5] : List Nat).length =
        2 ^ k ∧
      2 * max ([1, 2, 3] : List Nat).length ([1, 2, 3, 4, 5] : List Nat).length < 2 ^ k ∧
      2 ^ k ≤ 4 * max ([1, 2, 3] : List Nat).length ([1, 2, 3, 4, 5] : List Nat).length ∧
      ([1, 2, 3] : List Nat).length + ([1, 2, 3, 4, 5] : List Nat).length ≤ 2 ^ k) ∧
    Fft.transform_size 3 5 = 16 :=
  ⟨(C38_transform_length [1, 2, 3] [1, 2, 3, 4, 5] (by decide) (by decide)).1, by decide⟩

/-- C32: in the schoolbook `mul` with 32-bit digits on a zero-initialised `out` of
`|lhs| + |rhs|` digits, there is one call of `muladd<T, false>` for every digit of
`rhs`, and for the call at position `j`: its window is `out` from position `j` on
(`|lhs| + |rhs| - j` digits), so the digits it writes, up to the spill digit at
`j + |lhs|`, have indices below `|lhs| + |rhs|`; no 64-bit sum
`*oit + *it * scalar + spill` overflows; the spill fits a digit and is added to a digit
that is zero, so that digit does not overflow; the carry branch `++oit; ++*oit` does not
run; and no digit outside the window is accessed. -/
theorem C32_schoolbook_unchecked_muladd (lhs rhs : List Nat) (hl : WF 32 lhs)
    (hr : WF 32 rhs) :
    (mul_trace 32 (List.replicate (lhs.length + rhs.length) 0) lhs rhs).length = rhs.length ∧
    ∀ j t, (mul_trace 32 (List.replicate (lhs.length + rhs.length) 0) lhs rhs)[j]? = some t →
      j < rhs.length ∧ t.window = lhs.length + rhs.length - j ∧
      t.sums.length = lhs.length ∧ j + t.sums.length < lhs.length + rhs.length ∧
      (∀ s ∈ t.sums, s < 2 ^ 64) ∧ t.spill < 2 ^ 32 ∧ t.old = some 0 ∧
      t.carried = false ∧ t.outside = false := by
  have hz : List.replicate (lhs.length + rhs.length) 0 =
      List.replicate lhs.length 0 ++ List.replicate rhs.length 0 := by
    rw [List.replicate_add]
  rw [hz]
  obtain ⟨h1, h2⟩ := mul_trace_spec hl rhs (List.replicate lhs.length 0) hr
    (WF_replicate_zero 32 _) (by simp)
  refine ⟨h1, fun j t ht => ?_⟩
  have hj : j < rhs.length := by
    rw [← h1]
    by_contra hc
    rw [List.getElem?_eq_none (Nat.le_of_not_lt hc)] at ht
    exact Option.noConfusion ht
  obtain ⟨g1, g2, g3⟩ := h2 j t ht
  exact ⟨hj, g1, g2, by rw [g2]; omega, g3⟩

/-- C32, at an instance: the two rows of `[4294967295, 4294967295] * [4294967295, 2]`. -/
theorem C32_schoolbook_unchecked_muladd_witness :
    (mul_trace 32 (List.replicate (([4294967295, 4294967295] : List Nat).length +
      ([4294967295, 2] : List Nat).length) 0) [4294967295, 4294967295] [4294967295, 2]).length =
      ([4294967295, 2] : List Nat).length ∧
    mul_trace 32 (List.replicate 4 0) [4294967295, 4294967295] [4294967295, 2] =
      [⟨4, [18446744065119617025, 18446744069414584319], 4294967294, some 0, false, false⟩,
        ⟨3, [12884901885, 12884901886], 2, some 0, false, false⟩] :=
  ⟨(C32_schoolbook_unchecked_muladd [4294967295, 4294967295] [4294967295, 2] (by decide)
    (by decide)).1, by decide⟩


/-- C37: in the loop of `fibonacci` of `field_ext.cpp`, assuming that `operator*` on 8-bit
digits returns the exact product, for every index vector `n` and every fuel: every product
`fib * step` and `step * step` that `Zrt5::operator*` computes has operands whose two
components have equal parity; its components are `a * a' + 5 * b * b'` and
`a * b' + b * a'`, both even, so the shift right by one bit that follows halves them
exactly.  With fuel above `65 * |n|` the loop ends, and the two components of the final
`fib` have equal parity as well. -/
theorem C37_golden_ratio_parity (opMul : List Nat → List Nat → List Nat)
    (hm : ExactProduct 8 opMul) (n : List Nat) (fuel : Nat) (hn : WF 64 n)
    (hf : 65 * n.length < fuel) :
    (∀ p ∈ FieldExt.loop_products opMul fuel n FieldExt.Zrt5.phi FieldExt.Zrt5.phi,
      p.prod = FieldExt.Zrt5.mul opMul p.lhs p.rhs ∧
      value 8 p.lhs.a % 2 = value 8 p.lhs.b % 2 ∧ value 8 p.rhs.a % 2 = value 8 p.rhs.b % 2 ∧
      value 8 p.prod.a = value 8 p.lhs.a * value 8 p.rhs.a + 5 * value 8 p.lhs.b * value 8 p.rhs.b ∧
      value 8 p.prod.b = value 8 p.lhs.a * value 8 p.rhs.b + value 8 p.lhs.b * value 8 p.rhs.a ∧
      value 8 p.prod.a % 2 = 0 ∧ value 8 p.prod.b % 2 = 0 ∧
      2 * value 8 (p.prod.shr_assign 1).a = value 8 p.prod.a ∧
      2 * value 8 (p.prod.shr_assign 1).b = value 8 p.prod.b) ∧
    (∃ m, FieldExt.loop opMul fuel n FieldExt.Zrt5.phi FieldExt.Zrt5.phi = some m ∧
      value 8 m.a % 2 = value 8 m.b % 2) := by
  refine ⟨fun p hp => ?_, ?_⟩
  · obtain ⟨h1, j, t, h2, h3⟩ := FieldExt.fieldExt_loop_products_spec hm fuel n _ _ 1 1
      FieldExt.Zrt5.isPhiPow_phi FieldExt.Zrt5.isPhiPow_phi p hp
    rw [h1]
    exact ⟨rfl, FieldExt.Zrt5.product_even hm h2 h3⟩
  · obtain ⟨m, e1, e2⟩ := FieldExt.fieldExt_loop_spec hm hn hf
      FieldExt.Zrt5.isPhiPow_phi FieldExt.Zrt5.isPhiPow_phi
    refine ⟨m, e1, ?_⟩
    rw [e2.1, e2.2, value_toDigits, value_toDigits]
    exact FieldExt.lucas_parity _

/-- C37, at an instance: the exact product on canonical digit vectors, the loop counter
`5` and fuel 100. -/
theorem C37_golden_ratio_parity_witness :
    ExactProduct 8 (fun x y => toDigits 8 (value 8 x * value 8 y)) ∧ WF 64 [5] ∧
    ∃ m, FieldExt.loop (fun x y => toDigits 8 (value 8 x * value 8 y)) 100 [5]
        FieldExt.Zrt5.phi FieldExt.Zrt5.phi = some m ∧
      value 8 m.a % 2 = value 8 m.b % 2 :=
  ⟨exactProduct_canonical (by decide), by decide,
    (C37_golden_ratio_parity _ (exactProduct_canonical (by decide)) [5] 100 (by decide)
      (by decide)).2⟩

/-- C31: for all operands of the Karatsuba `operator*` with digits below `2^W`, the run
of `mul` that `operator*` starts, on a product vector `out` of `2 * (max (|lhs|, |rhs|) + 1)`
digits and a scratch arena of `8 * |out|` digits, is recorded by `mul_carves`, which
returns the result of `mul` and the scratch windows carved by every frame (the two
half-sum windows, also as grown after a carry, `z3` and `workspace`).  With fuel for
`max (|lhs|, |rhs|) + 2` nested frames the run is complete (it is not cut), and every
recorded window is a window of the scratch vector with `lo ≤ hi ≤ 8 * |out|`. -/
theorem C31_scratch_arena (W fuel : Nat) (lhs rhs : List Nat) (hW : 0 < W) (hl : WF W lhs)
    (hr : WF W rhs) (hf : max lhs.length rhs.length + 2 ≤ fuel) :
    Karatsuba.op_mul W fuel lhs rhs =
      (Karatsuba.mul_carves W fuel false
        ⟨Karatsuba.Buf.out, 0, (max lhs.length rhs.length + 1) * 2⟩
        ⟨Karatsuba.Buf.lhs, 0, lhs.length⟩ ⟨Karatsuba.Buf.rhs, 0, rhs.length⟩
        ⟨Karatsuba.Buf.scratch, 0, (max lhs.length rhs.length + 1) * 2 * 8⟩
        ⟨lhs, rhs, List.replicate ((max lhs.length rhs.length + 1) * 2) 0,
          List.replicate ((max lhs.length rhs.length + 1) * 2 * 8) 0⟩).2.bind
        (fun m => Karatsuba.Res.ok (full_reduce m.out)) ∧
    (Karatsuba.mul_carves W fuel false
        ⟨Karatsuba.Buf.out, 0, (max lhs.length rhs.length + 1) * 2⟩
        ⟨Karatsuba.Buf.lhs, 0, lhs.length⟩ ⟨Karatsuba.Buf.rhs, 0, rhs.length⟩
        ⟨Karatsuba.Buf.scratch, 0, (max lhs.length rhs.length + 1) * 2 * 8⟩
        ⟨lhs, rhs, List.replicate ((max lhs.length rhs.length + 1) * 2) 0,
          List.replicate ((max lhs.length rhs.length + 1) * 2 * 8) 0⟩).2 ≠
      Karatsuba.Res.timeout ∧
    ∀ w ∈ (Karatsuba.mul_carves W fuel false
        ⟨Karatsuba.Buf.out, 0, (max lhs.length rhs.length + 1) * 2⟩
        ⟨Karatsuba.Buf.lhs, 0, lhs.length⟩ ⟨Karatsuba.Buf.rhs, 0, rhs.length⟩
        ⟨Karatsuba.Buf.scratch, 0, (max lhs.length rhs.length + 1) * 2 * 8⟩
        ⟨lhs, rhs, List.replicate ((max lhs.length rhs.length + 1) * 2) 0,
          List.replicate ((max lhs.length rhs.length + 1) * 2 * 8) 0⟩).1,
      w.buf = Karatsuba.Buf.scratch ∧ w.lo ≤ w.hi ∧
        w.hi ≤ (List.replicate ((max lhs.length rhs.length + 1) * 2) 0).length * 8 := by
  obtain ⟨g1, g2, _⟩ := Karatsuba.op_mul_carves_good hW hl hr hf
  refine ⟨?_, g2, fun w hw => ?_⟩
  · rw [Karatsuba.mul_carves_snd]
    simp only [Karatsuba.op_mul, List.length_replicate]
  · rw [List.length_replicate]
    exact g1 w hw

/-- C31, at an instance: the squares of `[255, 255]` and of `[255, 255, 1, 1]` with 8-bit
digits, where half-sums carry; the windows carved for `[255, 255]` in the arena of 48
digits. -/
theorem C31_scratch_arena_witness :
    (∀ w ∈ (Karatsuba.mul_carves 8 6 false ⟨Karatsuba.Buf.out, 0, 10⟩
        ⟨Karatsuba.Buf.lhs, 0, 4⟩ ⟨Karatsuba.Buf.rhs, 0, 4⟩ ⟨Karatsuba.Buf.scratch, 0, 80⟩
        ⟨[255, 255, 1, 1], [255, 255, 1, 1], List.replicate 10 0, List.replicate 80 0⟩).1,
      w.buf = Karatsuba.Buf.scratch ∧ w.lo ≤ w.hi ∧ w.hi ≤ 80) ∧
    (Karatsuba.mul_carves 8 4 false ⟨Karatsuba.Buf.out, 0, 6⟩
        ⟨Karatsuba.Buf.lhs, 0, 2⟩ ⟨Karatsuba.Buf.rhs, 0, 2⟩ ⟨Karatsuba.Buf.scratch, 0, 48⟩
        ⟨[255, 255], [255, 255], List.replicate 6 0, List.replicate 48 0⟩).1 =
      [⟨Karatsuba.Buf.scratch, 0, 1⟩, ⟨Karatsuba.Buf.scratch, 0, 2⟩,
        ⟨Karatsuba.Buf.scratch, 2, 3⟩, ⟨Karatsuba.Buf.scratch, 2, 4⟩,
        ⟨Karatsuba.Buf.scratch, 4, 10⟩, ⟨Karatsuba.Buf.scratch, 10, 48⟩,
        ⟨Karatsuba.Buf.scratch, 10, 11⟩, ⟨Karatsuba.Buf.scratch, 11, 12⟩,
        ⟨Karatsuba.Buf.scratch, 12, 16⟩, ⟨Karatsuba.Buf.scratch, 16, 48⟩] :=
  ⟨(C31_scratch_arena 8 6 [255, 255, 1, 1] [255, 255, 1, 1] (by decide) (by decide)
    (by decide) (by decide)).2.2, rfl⟩

/-- C36: the recursion of the Karatsuba `mul` is at most `max (|lhs|, |rhs|) + 2` frames
deep.  For every width `W > 0`, all windows `out`, `lhs`, `rhs`, `scratch`, every memory
with digits below `2^W` and both values of `cleanup`, the run of `mul` with fuel for
`max (|lhs|, |rhs|) + 2` nested frames is not cut: it ends with a result or at an access
outside a vector; likewise for `operator*`.  A half-sum that carries leaves the digit `1`
on top of a digit that is not the largest one, so the half-sum of the grown operand in
the frame for `z3` does not carry again.  Instances with 8-bit digits: the square of
`[255, 255]`, where both half-sums carry and the operands of the frame for `z3` are the
windows of two digits at the scratch positions 0 to 1 and 2 to 3, is cut with fuel 2 and
ends with fuel 3, at the write behind the product vector; the square of `[255, 255, 1]`
is cut with fuel 3 and ends with fuel 4; the squares of `[255, 255, 1, 1]` and of
`[255, 255, 1, 0, 0]`, whose frames for `z0` have these operands of two and of three
digits, are cut with fuel 3 and 4 and end with a result with fuel 4 and 5. -/
theorem C36_karatsuba_terminates :
    (∀ (W fuel : Nat) (cleanup : Bool) (out lhs rhs scratch : Karatsuba.Win)
      (m : Karatsuba.Mem), 0 < W → m.WF W → max lhs.size rhs.size + 2 ≤ fuel →
      Karatsuba.mul W fuel cleanup out lhs rhs scratch m ≠ Karatsuba.Res.timeout) ∧
    (∀ (W fuel : Nat) (lhs rhs : List Nat), 0 < W → WF W lhs → WF W rhs →
      max lhs.length rhs.length + 2 ≤ fuel →
      Karatsuba.op_mul W fuel lhs rhs ≠ Karatsuba.Res.timeout) ∧
    (Karatsuba.mul 8 2 false ⟨Karatsuba.Buf.out, 0, 6⟩
        ⟨Karatsuba.Buf.lhs, 0, 2⟩ ⟨Karatsuba.Buf.rhs, 0, 2⟩ ⟨Karatsuba.Buf.scratch, 0, 48⟩
        ⟨[255, 255], [255, 255], List.replicate 6 0, List.replicate 48 0⟩ =
        Karatsuba.Res.timeout ∧
      ∀ fuel, Karatsuba.mul_carves 8 (fuel + 3) false ⟨Karatsuba.Buf.out, 0, 6⟩
        ⟨Karatsuba.Buf.lhs, 0, 2⟩ ⟨Karatsuba.Buf.rhs, 0, 2⟩ ⟨Karatsuba.Buf.scratch, 0, 48⟩
        ⟨[255, 255], [255, 255], List.replicate 6 0, List.replicate 48 0⟩ =
      ([⟨Karatsuba.Buf.scratch, 0, 1⟩, ⟨Karatsuba.Buf.scratch, 0, 2⟩,
        ⟨Karatsuba.Buf.scratch, 2, 3⟩, ⟨Karatsuba.Buf.scratch, 2, 4⟩,
        ⟨Karatsuba.Buf.scratch, 4, 10⟩, ⟨Karatsuba.Buf.scratch, 10, 48⟩,
        ⟨Karatsuba.Buf.scratch, 10, 11⟩, ⟨Karatsuba.Buf.scratch, 11, 12⟩,
        ⟨Karatsuba.Buf.scratch, 12, 16⟩, ⟨Karatsuba.Buf.scratch, 16, 48⟩],
        Karatsuba.Res.fault)) ∧
    (Karatsuba.mul 8 3 false ⟨Karatsuba.Buf.out, 0, 8⟩
        ⟨Karatsuba.Buf.lhs, 0, 3⟩ ⟨Karatsuba.Buf.rhs, 0, 3⟩ ⟨Karatsuba.Buf.scratch, 0, 64⟩
        ⟨[255, 255, 1], [255, 255, 1], List.replicate 8 0, List.replicate 64 0⟩ =
        Karatsuba.Res.timeout ∧
      ∀ fuel, Karatsuba.mul 8 (fuel + 4) false ⟨Karatsuba.Buf.out, 0, 8⟩
        ⟨Karatsuba.Buf.lhs, 0, 3⟩ ⟨Karatsuba.Buf.rhs, 0, 3⟩ ⟨Karatsuba.Buf.scratch, 0, 64⟩
        ⟨[255, 255, 1], [255, 255, 1], List.replicate 8 0, List.replicate 64 0⟩ =
        Karatsuba.Res.fault) ∧
    (Karatsuba.mul 8 3 false ⟨Karatsuba.Buf.out, 0, 10⟩
        ⟨Karatsuba.Buf.lhs, 0, 4⟩ ⟨Karatsuba.Buf.rhs, 0, 4⟩ ⟨Karatsuba.Buf.scratch, 0, 80⟩
        ⟨[255, 255, 1, 1], [255, 255, 1, 1], List.replicate 10 0, List.replicate 80 0⟩ =
        Karatsuba.Res.timeout ∧
      ∀ fuel, (Karatsuba.mul 8 (fuel + 4) false ⟨Karatsuba.Buf.out, 0, 10⟩
        ⟨Karatsuba.Buf.lhs, 0, 4⟩ ⟨Karatsuba.Buf.rhs, 0, 4⟩ ⟨Karatsuba.Buf.scratch, 0, 80⟩
        ⟨[255, 255, 1, 1], [255, 255, 1, 1], List.replicate 10 0, List.replicate 80 0⟩).bind
          (fun m => Karatsuba.Res.ok m.out) =
        Karatsuba.Res.ok [1, 2, 251, 252, 3, 3, 2, 0, 0, 0]) ∧
    (Karatsuba.mul 8 4 false ⟨Karatsuba.Buf.out, 0, 12⟩
        ⟨Karatsuba.Buf.lhs, 0, 5⟩ ⟨Karatsuba.Buf.rhs, 0, 5⟩ ⟨Karatsuba.Buf.scratch, 0, 96⟩
        ⟨[255, 255, 1, 0, 0], [255, 255, 1, 0, 0], List.replicate 12 0,
          List.replicate 96 0⟩ = Karatsuba.Res.timeout ∧
      ∀ fuel, (Karatsuba.mul 8 (fuel + 5) false ⟨Karatsuba.Buf.out, 0, 12⟩
        ⟨Karatsuba.Buf.lhs, 0, 5⟩ ⟨Karatsuba.Buf.rhs, 0, 5⟩ ⟨Karatsuba.Buf.scratch, 0, 96⟩
        ⟨[255, 255, 1, 0, 0], [255, 255, 1, 0, 0], List.replicate 12 0,
          List.replicate 96 0⟩).bind (fun m => Karatsuba.Res.ok m.out) =
        Karatsuba.Res.ok [1, 2, 251, 254, 3, 255, 0, 255, 255, 0, 0, 0]) :=
  ⟨fun _ _ cleanup out lhs rhs scratch _ hW hm hf =>
      Karatsuba.mul_ne_timeout hW cleanup out lhs rhs scratch hm hf,
    fun _ _ _ _ hW hl hr hf => Karatsuba.op_mul_ne_timeout hW hl hr hf,
    ⟨rfl, fun _ => rfl⟩, ⟨rfl, fun _ => rfl⟩, ⟨rfl, fun _ => rfl⟩, ⟨rfl, fun _ => rfl⟩⟩

/-- C36, at an instance: the square of `[255, 255, 1]` with 8-bit digits and fuel 5. -/
theorem C36_karatsuba_terminates_witness :
    Karatsuba.mul 8 5 false ⟨Karatsuba.Buf.out, 0, 8⟩
      ⟨Karatsuba.Buf.lhs, 0, 3⟩ ⟨Karatsuba.Buf.rhs, 0, 3⟩ ⟨Karatsuba.Buf.scratch, 0, 64⟩
      ⟨[255, 255, 1], [255, 255, 1], List.replicate 8 0, List.replicate 64 0⟩ ≠
      Karatsuba.Res.timeout ∧
    Karatsuba.op_mul 8 5 [255, 255, 1] [255, 255, 1] ≠ Karatsuba.Res.timeout :=
  ⟨C36_karatsuba_terminates.1 8 5 false _ _ _ _ _ (by decide)
      ⟨by decide, by decide, by decide, by decide⟩ (by decide),
    C36_karatsuba_terminates.2.1 8 5 [255, 255, 1] [255, 255, 1] (by decide) (by decide)
      (by decide) (by decide)⟩

end Claims
